import Mathlib

/-!
# Page-oriented B-tree word counter (`src/wordcount/btree`)

A shallow embedding of `block.h`, `block.cc`, `block_manager_vector.cc` and
`word_counter.cc`, followed by the pointer-based 2-3 tree of
`src/wordcount/2-3-tree` (namespace `WordCount.TwoThree`) and the binary-heap
priority queue of `src/dijkstra/flight-schedule/solution-generic/priority.h`
(namespace `FlightSchedule`).

* A `Block` is its `char arena_[BLOCK_SIZE]`: a list of bytes.  The pseudo
  fields of `block.h` are read and written at their byte offsets
  (little-endian): `block_number` at 0 (4 bytes), `item_count` at 4 (2 bytes),
  `string_table` at 6 (2 bytes), `left_child` at 8 (4 bytes), and the item
  table from byte 12 on, 8 bytes per `Item` (`offset` 2 bytes, `count` 2 bytes,
  `right_child` 4 bytes).
* An `Item*` is the byte offset of the item inside the arena, a `Block*` handed
  out by the vector block manager is the index of the block in `blocks`.
* A `std::string` is the list of its bytes; `c_str` / `strlen` / `strcpy` stop
  at the first NUL byte.
* `BLOCK_SIZE` is a compile-time flag of the source (`-DBLOCK_SIZE=...`,
  default 128) and is a parameter here.
* An execution that does not return is a `Fault`: a failed `assert`, a `get` of
  a block number that was never allocated, an access outside the arena, or a
  recursion that never ends.
-/

set_option linter.unusedVariables false

namespace WordCount

/-- The ways in which a call stops without returning to its caller. -/
inductive Fault where
  | assertion_failed
  | bad_block
  | out_of_arena
  | out_of_fuel
deriving DecidableEq, Repr

/-- The bytes of `char arena_[BLOCK_SIZE]`. -/
abbrev Block := List Nat

/-- The bytes of a `std::string`. -/
abbrev Word := List Nat

/-- The value of `static_cast<xuint32_t>(-1)`. -/
def NULL_BLOCK : Nat := 4294967295

/-- The constant `Block::MAX_WORD_LEN = BLOCK_SIZE / 4`, an `xuint16_t`. -/
def MAX_WORD_LEN (BLOCK_SIZE : Nat) : Nat := (BLOCK_SIZE / 4) % 65536

/-- The size `sizeof(Item)`. -/
def sizeof_Item : Nat := 8

/-! ## Raw memory -/

/-- Unchecked read of a 16-bit field (used for the header, which lies inside the arena). -/
def rd16 (b : Block) (i : Nat) : Nat := b.getD i 0 + 256 * b.getD (i + 1) 0

/-- Unchecked read of a 32-bit field (used for the header). -/
def rd32 (b : Block) (i : Nat) : Nat := rd16 b i + 65536 * rd16 b (i + 2)

/-- Unchecked write of a 16-bit field (used for the header). -/
def wr16 (b : Block) (i v : Nat) : Block :=
  (b.set i (v % 256)).set (i + 1) (v / 256 % 256)

/-- Unchecked write of a 32-bit field (used for the header). -/
def wr32 (b : Block) (i v : Nat) : Block := wr16 (wr16 b i v) (i + 2) (v / 65536)

/-- Read of one byte through a pointer into the arena. -/
def ld8 (b : Block) (i : Nat) : Except Fault Nat :=
  if i < b.length then .ok (b.getD i 0) else .error .out_of_arena

/-- Write of one byte through a pointer into the arena. -/
def st8 (b : Block) (i v : Nat) : Except Fault Block :=
  if i < b.length then .ok (b.set i (v % 256)) else .error .out_of_arena

/-- Read of an `xuint16_t` through a pointer into the arena. -/
def ld16 (b : Block) (i : Nat) : Except Fault Nat :=
  if i + 2 ≤ b.length then .ok (rd16 b i) else .error .out_of_arena

/-- Read of an `xuint32_t` through a pointer into the arena. -/
def ld32 (b : Block) (i : Nat) : Except Fault Nat :=
  if i + 4 ≤ b.length then .ok (rd32 b i) else .error .out_of_arena

/-- Write of an `xuint16_t` through a pointer into the arena. -/
def st16 (b : Block) (i v : Nat) : Except Fault Block :=
  if i + 2 ≤ b.length then .ok (wr16 b i v) else .error .out_of_arena

/-- Write of an `xuint32_t` through a pointer into the arena. -/
def st32 (b : Block) (i v : Nat) : Except Fault Block :=
  if i + 4 ≤ b.length then .ok (wr32 b i v) else .error .out_of_arena

/-! ## Pseudo fields of `block.h` -/

def block_number (b : Block) : Nat := rd32 b 0

def item_count (b : Block) : Nat := rd16 b 4

def string_table (b : Block) : Nat := rd16 b 6

def left_child (b : Block) : Nat := rd32 b 8

def set_block_number (b : Block) (v : Nat) : Block := wr32 b 0 v

def set_item_count (b : Block) (v : Nat) : Block := wr16 b 4 v

def set_string_table (b : Block) (v : Nat) : Block := wr16 b 6 v

def set_left_child (b : Block) (v : Nat) : Block := wr32 b 8 v

/-- The pointer `begin_item()`, as a byte offset. -/
def begin_item : Nat := 12

/-- The pointer `begin_item() + n`. -/
def item_at (n : Nat) : Nat := begin_item + sizeof_Item * n

/-- The pointer `end_item()`. -/
def end_item (b : Block) : Nat := item_at (item_count b)

def free_offset (b : Block) : Nat := end_item b % 65536

def free_space (b : Block) : Nat := (string_table b + 65536 - free_offset b) % 65536

/-- The field `item->offset`. -/
def Item_offset (b : Block) (item : Nat) : Except Fault Nat := ld16 b item

/-- The field `item->count`. -/
def Item_count (b : Block) (item : Nat) : Except Fault Nat := ld16 b (item + 2)

/-- The field `item->right_child`. -/
def Item_right_child (b : Block) (item : Nat) : Except Fault Nat := ld32 b (item + 4)

def set_Item_offset (b : Block) (item v : Nat) : Except Fault Block := st16 b item v

def set_Item_count (b : Block) (item v : Nat) : Except Fault Block := st16 b (item + 2) v

def set_Item_right_child (b : Block) (item v : Nat) : Except Fault Block := st32 b (item + 4) v

/-- The C string `string_at(offset)`: the bytes from `offset` up to the first NUL. -/
def string_at (b : Block) (offset : Nat) : Except Fault Word :=
  let s := (b.drop offset).takeWhile (fun c => c != 0)
  if s.length < (b.drop offset).length then .ok s else .error .out_of_arena

/-- The C string `word.c_str()` as `strlen` and `strcpy` see it. -/
def c_str (word : Word) : Word := word.takeWhile (fun c => c != 0)

/-- The call `strcpy(string_at(offset), s)`. -/
def strcpy : Block → Nat → Word → Except Fault Block
  | b, offset, [] => st8 b offset 0
  | b, offset, c :: s => do
    let b ← st8 b offset c
    strcpy b (offset + 1) s

/-- The comparison `word < s` of `std::string` (bytes as unsigned char). -/
def word_lt : Word → Word → Bool
  | _, [] => false
  | [], _ :: _ => true
  | a :: as, b :: bs => if a < b then true else if b < a then false else word_lt as bs

def is_leaf (b : Block) : Bool := left_child b == NULL_BLOCK

def has_space_for (b : Block) (word : Word) : Bool :=
  decide (word.length + 1 + sizeof_Item ≤ free_space b)

/-! ## `Block::Block`, `allocate_string`, `set_item`, `initialize` -/

/-- The constructor `Block::Block(blocknum)`; the bytes it does not set are zero. -/
def Block_new (BLOCK_SIZE blocknum : Nat) : Block :=
  set_left_child
    (set_string_table
      (set_item_count (set_block_number (List.replicate BLOCK_SIZE 0) blocknum) 0)
      BLOCK_SIZE)
    NULL_BLOCK

def allocate_string (b : Block) (s : Word) : Except Fault Block :=
  let len := (s.length + 1) % 65536
  let b := set_string_table b ((string_table b + 65536 - len) % 65536)
  strcpy b (string_table b) s

def set_item (b : Block) (n : Nat) (word : Word) (count right : Nat) : Except Fault Block := do
  let b ← allocate_string b (c_str word)
  let item := item_at n
  let b ← set_Item_offset b item (string_table b)
  let b ← set_Item_count b item count
  let b ← set_Item_right_child b item right
  pure (set_item_count b (item_count b + 1))

/-- The method `Block::initialize`; the returned `Int` is its return value. -/
def initialize_block (b : Block) (word : Word) (count left right : Nat) : Except Fault (Int × Block) := do
  let b := set_item_count b 0
  let b := set_left_child b left
  let b ← set_item b 0 word count right
  pure (0, b)

/-! ## `copy_items`, `shift_items` -/

/-- The loop of `Block::copy_items`, `k` iterations left, `src` and `dst` the two pointers. -/
def copy_items_loop (this : Block) : Nat → Nat → Nat → Block → Except Fault Block
  | 0, _, _, target => pure target
  | k + 1, src, dst, target => do
    let offset ← Item_offset this src
    let s ← string_at this offset
    let target ← allocate_string target s
    let target ← set_Item_offset target dst (string_table target)
    let count ← Item_count this src
    let target ← set_Item_count target dst count
    let right ← Item_right_child this src
    let target ← set_Item_right_child target dst right
    let target := set_item_count target (item_count target + 1)
    copy_items_loop this k (src + sizeof_Item) (dst + sizeof_Item) target

/-- The method `Block::copy_items(from, to, target)`; the result is the target block. -/
def copy_items (this : Block) (from_idx to_idx : Nat) (target : Block) : Except Fault Block :=
  if from_idx ≤ to_idx then
    copy_items_loop this (to_idx - from_idx) (item_at from_idx) (end_item target) target
  else .error .out_of_arena

/-- The loop `for (it = end_item(); it != item; --it) *it = *(it - 1)`, `k` iterations left. -/
def shift_loop : Nat → Nat → Block → Except Fault Block
  | 0, _, b => pure b
  | k + 1, it, b => do
    let offset ← Item_offset b (it - sizeof_Item)
    let count ← Item_count b (it - sizeof_Item)
    let right ← Item_right_child b (it - sizeof_Item)
    let b ← set_Item_offset b it offset
    let b ← set_Item_count b it count
    let b ← set_Item_right_child b it right
    shift_loop k (it - sizeof_Item) b

/-- The method `Block::shift_items`; the returned `Int` is its return value. -/
def shift_items (b : Block) (item : Nat) (word : Word) (count left right : Nat) :
    Except Fault (Int × Block) := do
  if end_item b < item then throw Fault.out_of_arena
  let b ← shift_loop ((end_item b - item) / sizeof_Item) (end_item b) b
  let b ← allocate_string b (c_str word)
  let b ← set_Item_offset b item (string_table b)
  let b ← set_Item_count b item count
  let b ← set_Item_right_child b item right
  let b ← set_Item_right_child b (item - sizeof_Item) left
  let b := set_item_count b (item_count b + 1)
  pure (0, b)

/-! ## `find_splitpoint` -/

/-- The local variables of `Block::find_splitpoint`. -/
structure SplitScan where
  left_size : Int
  right_size : Int
  word_index : Nat
  min_delta : Int
  splitpoint : Nat
deriving DecidableEq, Repr

/-- The value `strlen(string_at(begin_item()[index].offset)) + 1`. -/
def item_strlen_1 (b : Block) (index : Nat) : Except Fault Int := do
  let offset ← Item_offset b (item_at index)
  let s ← string_at b offset
  pure ((s.length : Int) + 1)

/-- One iteration of the `for (candidate = 1; ...)` loop of `Block::find_splitpoint`. -/
def find_splitpoint_step (b : Block) (insert_point : Nat) (word : Word)
    (v : SplitScan) (candidate : Nat) : Except Fault SplitScan := do
  let v ←
    if candidate = insert_point then do
      let r ← item_strlen_1 b v.word_index
      pure { v with left_size := v.left_size + ((word.length : Int) + 1),
                    right_size := v.right_size - r }
    else if candidate + 1 = insert_point then do
      let l ← item_strlen_1 b v.word_index
      pure { v with left_size := v.left_size + l,
                    right_size := v.right_size - ((word.length : Int) + 1),
                    word_index := v.word_index + 1 }
    else do
      let l ← item_strlen_1 b v.word_index
      let r ← item_strlen_1 b (v.word_index + 1)
      pure { v with left_size := v.left_size + l,
                    word_index := v.word_index + 1,
                    right_size := v.right_size - r }
  if |v.right_size - v.left_size| < v.min_delta then
    pure { v with min_delta := |v.right_size - v.left_size|, splitpoint := candidate }
  else
    pure v

/-- The loop of `Block::find_splitpoint` over a range of candidates. -/
def find_splitpoint_loop (b : Block) (insert_point : Nat) (word : Word) :
    List Nat → SplitScan → Except Fault SplitScan
  | [], v => pure v
  | candidate :: rest, v => do
    let v ← find_splitpoint_step b insert_point word v candidate
    find_splitpoint_loop b insert_point word rest v

/-- The method `Block::find_splitpoint` (the `#elif 1` variant, the one compiled). -/
def find_splitpoint (BLOCK_SIZE : Nat) (b : Block) (insert_point : Nat) (word : Word) :
    Except Fault Nat := do
  let left_size : Int := 0
  let right_size : Int := (BLOCK_SIZE : Int) - (string_table b : Int)
  let first ← if insert_point ≠ 0 then item_strlen_1 b 0 else pure 0
  let right_size : Int :=
    if insert_point ≠ 0 then right_size + ((word.length : Int) + 1) - first else right_size
  let word_index : Nat := if insert_point ≠ 0 then 1 else 0
  let v : SplitScan :=
    { left_size := left_size, right_size := right_size, word_index := word_index,
      min_delta := right_size, splitpoint := 0 }
  -- candidates 1, 2, ..., item_count - 2
  let v ← find_splitpoint_loop b insert_point word (List.range' 1 (item_count b - 2)) v
  -- the value of `candidate` when the loop is left
  let candidate : Nat := if 2 ≤ item_count b then item_count b - 1 else 1
  let v ←
    if insert_point = item_count b then do
      let l ← item_strlen_1 b (candidate - 1)
      let left_size := v.left_size + l
      let right_size : Int := (word.length : Int) + 1
      if |right_size - left_size| < v.min_delta then
        pure { v with left_size := left_size, right_size := right_size,
                      min_delta := |right_size - left_size|, splitpoint := candidate }
      else
        pure { v with left_size := left_size, right_size := right_size }
    else pure v
  -- assert(splitpoint != 0)
  if v.splitpoint = 0 then throw Fault.assertion_failed
  pure v.splitpoint

/-! ## The vector block manager (`block_manager_vector.cc`) -/

/-- The class `BlockManager`: `blocks[i]` is the block the pointer `i` points to. -/
structure BlockManager where
  blocks : List Block
deriving DecidableEq, Repr

namespace BlockManager

/-- The method `BlockManager::allocate`; the result is the new pointer and the manager. -/
def allocate (BLOCK_SIZE : Nat) (m : BlockManager) : Nat × BlockManager :=
  let blocknum := m.blocks.length % 4294967296
  (m.blocks.length, { blocks := m.blocks ++ [Block_new BLOCK_SIZE blocknum] })

/-- The method `BlockManager::get`: the pointer `blocks[blocknum]`. -/
def get (m : BlockManager) (blocknum : Nat) : Except Fault Nat :=
  if blocknum < m.blocks.length then .ok blocknum else .error .bad_block

/-- The method `BlockManager::block_count`. -/
def block_count (m : BlockManager) : Nat := m.blocks.length

/-- The block a pointer handed out by the manager points to. -/
def deref (m : BlockManager) (p : Nat) : Except Fault Block :=
  match m.blocks.get? p with
  | some b => .ok b
  | none => .error .bad_block

/-- Assignment through a pointer handed out by the manager. -/
def assign (m : BlockManager) (p : Nat) (b : Block) : BlockManager :=
  { blocks := m.blocks.set p b }

end BlockManager

/-- The struct `Block::Promotion`. -/
structure Promotion where
  pivot_word : Word
  count : Nat
  new_sibling : Nat
deriving DecidableEq, Repr

/-- A default-constructed `Promotion` (its two integers read as zero). -/
def Promotion.fresh : Promotion := { pivot_word := [], count := 0, new_sibling := 0 }

/-! ## `insert_split` -/

/-- The method `Block::insert_split` called on the block `this_p` points to.  The result is
the return value, the caller's `Promotion` and the manager. -/
def insert_split (BLOCK_SIZE : Nat) (m : BlockManager) (this_p : Nat) (insert_point : Nat)
    (word : Word) (count left right : Nat) (promotion : Promotion) :
    Except Fault (Int × Promotion × BlockManager) := do
  let this ← m.deref this_p
  let buffer : Block := this
  let (new_p, m) := m.allocate BLOCK_SIZE
  let new_block ← m.deref new_p
  let promotion := { promotion with new_sibling := block_number new_block }
  let splitpoint ← find_splitpoint BLOCK_SIZE this insert_point word
  let pivot_right ← Item_right_child this (item_at splitpoint)
  let new_block := set_left_child new_block pivot_right
  let new_block ←
    copy_items this (splitpoint + (if insert_point ≠ splitpoint then 1 else 0)) (item_count this)
      new_block
  let this := set_string_table this BLOCK_SIZE
  let this := set_item_count this 0
  let this ← copy_items buffer 0 splitpoint this
  if insert_point = splitpoint then
    let promotion := { promotion with pivot_word := word, count := count % 65536 }
    let new_block := set_left_child new_block right
    let this ← set_Item_right_child this (item_at (splitpoint - 1)) left
    pure (1, promotion, (m.assign new_p new_block).assign this_p this)
  else
    let pivot := item_at splitpoint
    let pivot_offset ← Item_offset buffer pivot
    let pivot_word ← string_at buffer pivot_offset
    let pivot_count ← Item_count buffer pivot
    let promotion := { promotion with pivot_word := pivot_word, count := pivot_count }
    if insert_point < splitpoint then
      let (_, this) ← shift_items this (item_at insert_point) word count left right
      pure (1, promotion, (m.assign new_p new_block).assign this_p this)
    else
      let insert_point := insert_point - (splitpoint + 1)
      let (_, new_block) ← shift_items new_block (item_at insert_point) word count left right
      pure (1, promotion, (m.assign new_p new_block).assign this_p this)

/-! ## `Block::add_word`, `Block::print_words` -/

/-- Where the scan loop of `Block::add_word` stops. -/
structure Scan where
  found : Bool
  item : Nat
  insert_point : Nat
deriving DecidableEq, Repr

/-- The linear scan of `Block::add_word`, `k` items left to look at. -/
def scan_loop (b : Block) (word : Word) : Nat → Nat → Nat → Except Fault Scan
  | 0, item, insert_point => pure { found := false, item := item, insert_point := insert_point }
  | k + 1, item, insert_point => do
    let offset ← Item_offset b item
    let s ← string_at b offset
    if word = s then
      pure { found := true, item := item, insert_point := insert_point }
    else if word_lt word s then
      pure { found := false, item := item, insert_point := insert_point }
    else
      scan_loop b word k (item + sizeof_Item) ((insert_point + 1) % 65536)

/-- The method `Block::add_word` called on the block `this_p` points to; `fuel` bounds the
depth of the recursion.  The result is the return value, the caller's `Promotion` and the
manager. -/
def Block_add_word (BLOCK_SIZE : Nat) :
    Nat → BlockManager → Nat → Word → Promotion → Except Fault (Int × Promotion × BlockManager)
  | 0, _, _, _, _ => throw Fault.out_of_fuel
  | fuel + 1, m, this_p, word, promotion => do
    let this ← m.deref this_p
    let sc ← scan_loop this word (item_count this) begin_item 0
    if sc.found then
      -- ++item->count
      let count ← Item_count this sc.item
      let this ← set_Item_count this sc.item (count + 1)
      pure (0, promotion, m.assign this_p this)
    else if is_leaf this then
      if has_space_for this word then
        let (r, this) ← shift_items this sc.item word 1 NULL_BLOCK NULL_BLOCK
        pure (r, promotion, m.assign this_p this)
      else
        insert_split BLOCK_SIZE m this_p sc.insert_point word 1 NULL_BLOCK NULL_BLOCK promotion
    else
      let child_number ← Item_right_child this (sc.item - sizeof_Item)
      let child_p ← m.get child_number
      let child ← m.deref child_p
      let child_block_number := block_number child
      let (result, child_promotion, m) ← Block_add_word BLOCK_SIZE fuel m child_p word Promotion.fresh
      if result ≤ 0 then
        pure (result, promotion, m)
      else
        let this ← m.deref this_p
        if has_space_for this child_promotion.pivot_word then
          let (r, this) ← shift_items this sc.item child_promotion.pivot_word
            child_promotion.count child_block_number child_promotion.new_sibling
          pure (r, promotion, m.assign this_p this)
        else
          insert_split BLOCK_SIZE m this_p sc.insert_point child_promotion.pivot_word
            child_promotion.count child_block_number child_promotion.new_sibling promotion

/-- The loop over the items in `Block::print_words`, `k` items left; `walk` prints the
subtree of a block number. -/
def print_items_loop (walk : Nat → Except Fault (List (Word × Nat))) (this : Block) :
    Nat → Nat → Except Fault (List (Word × Nat))
  | 0, _ => pure []
  | k + 1, item => do
    let count ← Item_count this item
    let offset ← Item_offset this item
    let s ← string_at this offset
    let right ← Item_right_child this item
    let below ← if right ≠ NULL_BLOCK then walk right else pure []
    let rest ← print_items_loop walk this k (item + sizeof_Item)
    pure ((s, count) :: below ++ rest)

/-- The method `Block::print_words` called on the block `this_p` points to: the lines
written, each as the word and its count; `fuel` bounds the depth of the recursion. -/
def Block_print_words : Nat → BlockManager → Nat → Except Fault (List (Word × Nat))
  | 0, _, _ => throw Fault.out_of_fuel
  | fuel + 1, m, this_p => do
    let this ← m.deref this_p
    let left := left_child this
    let above ←
      if left ≠ NULL_BLOCK then do
        let left_block ← m.get left
        Block_print_words fuel m left_block
      else pure []
    let rest ← print_items_loop
      (fun right => do
        let right_block ← m.get right
        Block_print_words fuel m right_block)
      this (item_count this) begin_item
    pure (above ++ rest)

/-! ## `WordCounter` (`word_counter.cc`) -/

/-- The class `WordCounter` together with the block manager it installs. -/
structure WordCounter where
  root_ : Nat
  manager : BlockManager
deriving DecidableEq, Repr

namespace WordCounter

/-- The constructor `WordCounter::WordCounter`. -/
def new : WordCounter := { root_ := NULL_BLOCK, manager := { blocks := [] } }

/-- The method `WordCounter::add_word`: its return value and the index after the call. -/
def add_word (BLOCK_SIZE : Nat) (wc : WordCounter) (word : Word) :
    Except Fault (Int × WordCounter) := do
  if word.length + 1 > MAX_WORD_LEN BLOCK_SIZE then
    pure (-1, wc)
  else if wc.root_ = NULL_BLOCK then
    let (p, m) := wc.manager.allocate BLOCK_SIZE
    let block ← m.deref p
    let root := block_number block
    let (_, block) ← initialize_block block word 1 NULL_BLOCK NULL_BLOCK
    pure (0, { root_ := root, manager := m.assign p block })
  else
    let old_root_block ← wc.manager.get wc.root_
    let (result, promotion, m) ←
      Block_add_word BLOCK_SIZE wc.manager.block_count wc.manager old_root_block word
        Promotion.fresh
    if result ≤ 0 then
      pure (result, { root_ := wc.root_, manager := m })
    else
      let (p, m) := m.allocate BLOCK_SIZE
      let new_root ← m.deref p
      let (_, new_root) ←
        initialize_block new_root promotion.pivot_word promotion.count wc.root_
          promotion.new_sibling
      pure (0, { root_ := block_number new_root, manager := m.assign p new_root })

/-- The method `WordCounter::print_words`: the lines written, each as the word and its count. -/
def print_words (wc : WordCounter) : Except Fault (List (Word × Nat)) :=
  if wc.root_ ≠ NULL_BLOCK then do
    let root ← wc.manager.get wc.root_
    Block_print_words wc.manager.block_count wc.manager root
  else pure []

end WordCounter

/-- The driver loop of `word_counter_main.cc` without its early exit: every word is passed
to `WordCounter::add_word`; the result is the list of return values and the final index. -/
def add_words (BLOCK_SIZE : Nat) : WordCounter → List Word → Except Fault (List Int × WordCounter)
  | wc, [] => pure ([], wc)
  | wc, word :: rest => do
    let (status, wc) ← wc.add_word BLOCK_SIZE word
    let (statuses, wc) ← add_words BLOCK_SIZE wc rest
    pure (status :: statuses, wc)

/-! ## Observations used to state the properties -/

/-- The word made of `n` copies of the byte `c`. -/
def rep (c n : Nat) : Word := List.replicate n c

/-- The lines `print_words` writes after the words `ws` were added to a fresh index. -/
def walk_after (BLOCK_SIZE : Nat) (ws : List Word) : Except Fault (List (Word × Nat)) := do
  let (_, wc) ← add_words BLOCK_SIZE WordCounter.new ws
  wc.print_words

/-- The `(key, count)` pairs of the items of one page in table order, `k` items left. -/
def page_pairs_loop (b : Block) : Nat → Nat → Except Fault (List (Word × Nat))
  | 0, _ => pure []
  | k + 1, item => do
    let offset ← Item_offset b item
    let s ← string_at b offset
    let count ← Item_count b item
    let rest ← page_pairs_loop b k (item + sizeof_Item)
    pure ((s, count) :: rest)

/-- The `(key, count)` pairs of the items of one page, in table order. -/
def page_pairs (b : Block) : Except Fault (List (Word × Nat)) :=
  page_pairs_loop b (item_count b) begin_item

/-- The bytes a page uses: header, item table and string arena. -/
def bytes_used (BLOCK_SIZE : Nat) (b : Block) : Nat :=
  12 + 8 * item_count b + (BLOCK_SIZE - string_table b)

/-- The reference: an ordered dictionary counting words, as a list sorted by key. -/
def reference_add (word : Word) : List (Word × Nat) → List (Word × Nat)
  | [] => [(word, 1)]
  | (key, count) :: rest =>
    if word = key then (key, count + 1) :: rest
    else if word_lt word key then (word, 1) :: (key, count) :: rest
    else (key, count) :: reference_add word rest

/-- The reference dictionary after counting the accepted words of `ws`. -/
def reference_count (BLOCK_SIZE : Nat) (ws : List Word) : List (Word × Nat) :=
  (ws.filter (fun w => decide (w.length + 1 ≤ MAX_WORD_LEN BLOCK_SIZE))).foldl
    (fun d w => reference_add w d) []

/-- The root page of an index with the pages its `left_child` and the `right_child` of its
first item refer to. -/
def root_and_children (wc : WordCounter) : Except Fault (Block × Block × Block) := do
  let root_p ← wc.manager.get wc.root_
  let root ← wc.manager.deref root_p
  let left_p ← wc.manager.get (left_child root)
  let left ← wc.manager.deref left_p
  let right_number ← Item_right_child root (item_at 0)
  let right_p ← wc.manager.get right_number
  let right ← wc.manager.deref right_p
  pure (root, left, right)

/-! ## `Block::dump`, `WordCounter::dump` -/

/-- The loop over the items in `Block::dump`, `k` items left; `below` dumps the subtree of a
block number.  The result lists the blocks dumped, each as its depth and block number. -/
def dump_items_loop (below : Nat → Except Fault (List (Nat × Nat))) (this : Block)
    (recursive : Bool) : Nat → Nat → Except Fault (List (Nat × Nat))
  | 0, _ => pure []
  | k + 1, it => do
    let offset ← Item_offset this it
    let _ ← string_at this offset
    let _ ← Item_count this it
    let right ← Item_right_child this it
    let sub ← if right ≠ NULL_BLOCK ∧ recursive = true then below right else pure []
    let rest ← dump_items_loop below this recursive k (it + sizeof_Item)
    pure (sub ++ rest)

/-- The method `Block::dump(out, depth, recursive)` called on the block `this_p` points to:
the blocks dumped, each as its depth and block number; `fuel` bounds the depth of the
recursion. -/
def Block_dump : Nat → BlockManager → Nat → Nat → Bool → Except Fault (List (Nat × Nat))
  | 0, _, _, _, _ => throw Fault.out_of_fuel
  | fuel + 1, m, this_p, depth, recursive => do
    let this ← m.deref this_p
    let above ←
      if left_child this ≠ NULL_BLOCK ∧ recursive = true then do
        let child ← m.get (left_child this)
        Block_dump fuel m child (depth + 1) true
      else pure []
    let rest ← dump_items_loop
      (fun right => do
        let child ← m.get right
        Block_dump fuel m child (depth + 1) true)
      this recursive (item_count this) begin_item
    pure ((depth, block_number this) :: above ++ rest)

/-- The method `WordCounter::dump`: the blocks dumped, each as its depth and block
number. -/
def WordCounter.dump (wc : WordCounter) : Except Fault (List (Nat × Nat)) := do
  let root ← wc.manager.get wc.root_
  Block_dump wc.manager.block_count wc.manager root 0 true

/-! ## The file block manager (`block_manager_file.cc`) -/

/-- The class `BlockManager` of `block_manager_file.cc`: the bytes of the file behind `fd_`
and the counter `blocks_allocated_`. -/
structure FileBlockManager where
  file : List Nat
  blocks_allocated_ : Nat
deriving DecidableEq, Repr

namespace FileBlockManager

/-- The constructor: the file is opened with `O_TRUNC`. -/
def new : FileBlockManager := { file := [], blocks_allocated_ := 0 }

/-- The argument `blocknum * BLOCK_SIZE` of `lseek`: a product of `unsigned int`. -/
def seek_offset (BLOCK_SIZE blocknum : Nat) : Nat :=
  (blocknum % 4294967296) * (BLOCK_SIZE % 4294967296) % 4294967296

/-- The method `BlockManager::allocate`: the new block and the manager. -/
def allocate (BLOCK_SIZE : Nat) (m : FileBlockManager) : Block × FileBlockManager :=
  (Block_new BLOCK_SIZE m.blocks_allocated_,
   { m with blocks_allocated_ := (m.blocks_allocated_ + 1) % 4294967296 })

/-- The method `BlockManager::get`: a copy of the `BLOCK_SIZE` bytes read at the offset;
a short read ends the program. -/
def get (BLOCK_SIZE : Nat) (m : FileBlockManager) (blocknum : Nat) : Except Fault Block :=
  let bytes := (m.file.drop (seek_offset BLOCK_SIZE blocknum)).take BLOCK_SIZE
  if bytes.length = BLOCK_SIZE then .ok bytes else .error .bad_block

/-- The call `write(fd_, block, BLOCK_SIZE)` after `lseek` to `offset`; a hole before the
offset reads as zero bytes. -/
def write_at (file : List Nat) (offset : Nat) (bytes : List Nat) : List Nat :=
  let padded := file ++ List.replicate (offset - file.length) 0
  padded.take offset ++ bytes ++ padded.drop (offset + bytes.length)

/-- The method `BlockManager::update`. -/
def update (BLOCK_SIZE : Nat) (m : FileBlockManager) (block : Block) : FileBlockManager :=
  { m with file := write_at m.file (seek_offset BLOCK_SIZE (block_number block)) block }

/-- The method `BlockManager::block_count`. -/
def block_count (m : FileBlockManager) : Nat := m.blocks_allocated_

end FileBlockManager

/-- The height of the subtree of a block: the number of `left_child` links from the block
down to a leaf; `fuel` bounds the number of links followed. -/
def tree_height : Nat → BlockManager → Nat → Except Fault Nat
  | 0, _, _ => throw Fault.out_of_fuel
  | fuel + 1, m, blocknum => do
    let p ← m.get blocknum
    let this ← m.deref p
    if is_leaf this then pure 0
    else do
      let below ← tree_height fuel m (left_child this)
      pure (below + 1)

/-- The height of the tree of an index (an empty index has no height). -/
def WordCounter.height (wc : WordCounter) : Except Fault Nat :=
  tree_height wc.manager.block_count wc.manager wc.root_

/-- The index after the words `ws` were added to a fresh index (the fresh index when an
`add_word` did not return). -/
def index_after (BLOCK_SIZE : Nat) (ws : List Word) : WordCounter :=
  match add_words BLOCK_SIZE WordCounter.new ws with
  | .ok (_, wc) => wc
  | .error _ => WordCounter.new

/-- The search `Block::add_word` makes for `word` from the block `this_p` points to, without
the changes: the block and the item whose text equals `word` (an item that lies inside the arena), or
`none` when the search ends in a leaf that does not hold the word; `fuel` bounds the depth of the descent. -/
def find_word : Nat → BlockManager → Nat → Word → Except Fault (Option (Nat × Nat))
  | 0, _, _, _ => throw Fault.out_of_fuel
  | fuel + 1, m, this_p, word => do
    let this ← m.deref this_p
    let sc ← scan_loop this word (item_count this) begin_item 0
    if sc.found then
      let _ ← Item_count this sc.item
      pure (some (this_p, sc.item))
    else if is_leaf this then
      pure none
    else
      let child_number ← Item_right_child this (sc.item - sizeof_Item)
      let child_p ← m.get child_number
      let _ ← m.deref child_p
      find_word fuel m child_p word

/-- The root leaf after the one word `a` was added to a fresh index (`BLOCK_SIZE` 128). -/
def page_a : Block :=
  (index_after 128 [rep 97 1]).manager.blocks.getD 0 []

/-- The index whose only block is the leaf `page_a` with the count field of its item set to
`count`. -/
def index_a (count : Nat) : WordCounter :=
  { root_ := 0, manager := { blocks := [wr16 page_a (item_at 0 + 2) count] } }

/-!
## Pointer-based 2-3 tree (`src/wordcount/2-3-tree/wordcount-btree.cc`)

A `Thing*` is the object it points to: its key (what `operator<` compares) and an
identity, so that two objects with equal keys can be told apart.  A `Node*` is `null` or
the node it points to; nodes are not shared, so a node holds its children.  A call that
dereferences a null pointer has no result (`none`).
-/

namespace TwoThree

/-- The object behind a `Thing*`. -/
structure Thing (α : Type) where
  key : α
  id : Nat
deriving DecidableEq

/-- The target of a `Node*`: `NULL`, or a node with `data1_`, `data2_` (which may be
`NULL`), `left_`, `middle_` and `right_`. -/
inductive Node (α : Type) where
  | null : Node α
  | node (data1_ : Thing α) (data2_ : Option (Thing α)) (left_ middle_ right_ : Node α) :
      Node α

/-- The constructor `Node(data, left, middle)`. -/
def Node.new {α : Type} (data : Thing α) (left middle : Node α) : Node α :=
  Node.node data none left middle Node.null

/-- The test `pointer != NULL`. -/
def Node.is_null {α : Type} : Node α → Bool
  | Node.null => true
  | Node.node _ _ _ _ _ => false

/-- What a call of `Node::insert` leaves: the node `this` after the call, the pointer
returned (`null` for `NULL`) and `*found`. -/
structure Inserted (α : Type) where
  this : Node α
  overflow : Node α
  found : Thing α

/-- The method `Node::insert_leaf` on the node with the given fields. -/
def insert_leaf {α : Type} [LinearOrder α] (data1_ : Thing α) (data2_ : Option (Thing α)) (left_ middle_ right_ : Node α)
    (data : Thing α) : Inserted α :=
  match data2_ with
  | some d2 =>
    if data.key < data1_.key then
      let new_sibling := Node.new data Node.null Node.null
      let this := Node.node d2 none left_ middle_ right_
      { this := this, overflow := Node.new data1_ new_sibling this, found := data }
    else if data1_.key < data.key ∧ data.key < d2.key then
      let new_sibling := Node.new d2 Node.null Node.null
      let this := Node.node data1_ none left_ middle_ right_
      { this := this, overflow := Node.new data this new_sibling, found := data }
    else if d2.key < data.key then
      let new_sibling := Node.new data Node.null Node.null
      let this := Node.node data1_ none left_ middle_ right_
      { this := this, overflow := Node.new d2 this new_sibling, found := data }
    else if data1_.key < data.key then
      { this := Node.node data1_ data2_ left_ middle_ right_, overflow := Node.null,
        found := d2 }
    else
      { this := Node.node data1_ data2_ left_ middle_ right_, overflow := Node.null,
        found := data1_ }
  | none =>
    if data.key < data1_.key then
      { this := Node.node data (some data1_) left_ middle_ right_, overflow := Node.null,
        found := data }
    else if data1_.key < data.key then
      { this := Node.node data1_ (some data) left_ middle_ right_, overflow := Node.null,
        found := data }
    else
      { this := Node.node data1_ none left_ middle_ right_, overflow := Node.null,
        found := data1_ }

/-- The part of `Node::insert_left` after `left_->insert` has returned `child`. -/
def after_left {α : Type} [LinearOrder α] (data1_ : Thing α) (data2_ : Option (Thing α)) (middle_ right_ : Node α)
    (child : Inserted α) : Inserted α :=
  match child.overflow with
  | Node.node o1 _ oleft omiddle _ =>
    match data2_ with
    | some d2 =>
      let this := Node.node d2 none middle_ right_ Node.null
      { this := this, overflow := Node.new data1_ child.overflow this, found := child.found }
    | none =>
      { this := Node.node o1 (some data1_) oleft omiddle middle_, overflow := Node.null,
        found := child.found }
  | Node.null =>
    { this := Node.node data1_ data2_ child.this middle_ right_, overflow := Node.null,
      found := child.found }

/-- The part of `Node::insert_middle` after `middle_->insert` has returned `child`. -/
def after_middle {α : Type} [LinearOrder α] (data1_ : Thing α) (data2_ : Option (Thing α)) (left_ right_ : Node α)
    (child : Inserted α) : Inserted α :=
  match child.overflow with
  | Node.node o1 o2 oleft omiddle oright =>
    match data2_ with
    | some d2 =>
      let new_sibling := Node.new d2 omiddle right_
      let this := Node.node data1_ none left_ oleft Node.null
      { this := this, overflow := Node.node o1 o2 this new_sibling oright,
        found := child.found }
    | none =>
      { this := Node.node data1_ (some o1) left_ oleft omiddle, overflow := Node.null,
        found := child.found }
  | Node.null =>
    { this := Node.node data1_ data2_ left_ child.this right_, overflow := Node.null,
      found := child.found }

/-- The part of `Node::insert_right` after `right_->insert` has returned `child`; without a
`data2_` the new node would be built around a null `Thing*`. -/
def after_right {α : Type} [LinearOrder α] (data1_ : Thing α) (data2_ : Option (Thing α)) (left_ middle_ : Node α)
    (child : Inserted α) : Option (Inserted α) :=
  match child.overflow with
  | Node.node _ _ _ _ _ =>
    match data2_ with
    | some d2 =>
      let this := Node.node data1_ none left_ middle_ Node.null
      some { this := this, overflow := Node.new d2 this child.overflow, found := child.found }
    | none => none
  | Node.null =>
    some { this := Node.node data1_ data2_ left_ middle_ child.this, overflow := Node.null,
           found := child.found }

/-- The method `Node::insert(data, found)` called through a pointer to the node. -/
def Node.insert {α : Type} [LinearOrder α] : Node α → Thing α → Option (Inserted α)
  | Node.null, _ => none
  | Node.node data1_ data2_ left_ middle_ right_, data =>
    if left_.is_null then
      some (insert_leaf data1_ data2_ left_ middle_ right_ data)
    else if data.key < data1_.key then
      (left_.insert data).map (after_left data1_ data2_ middle_ right_)
    else if data1_.key < data.key ∧
        (data2_.isNone ∨ ∃ d2 ∈ data2_, data.key < d2.key) then
      (middle_.insert data).map (after_middle data1_ data2_ left_ right_)
    else if ∃ d2 ∈ data2_, d2.key < data.key then
      (right_.insert data).bind (after_right data1_ data2_ left_ middle_)
    else if data1_.key < data.key then
      data2_.map fun d2 =>
        { this := Node.node data1_ data2_ left_ middle_ right_, overflow := Node.null,
          found := d2 }
    else
      some { this := Node.node data1_ data2_ left_ middle_ right_, overflow := Node.null,
             found := data1_ }

/-- The method `Node::walk`: the things `f` is applied to, in the order of the calls. -/
def Node.walk {α : Type} : Node α → List (Thing α)
  | Node.null => []
  | Node.node data1_ data2_ left_ middle_ right_ =>
    left_.walk ++ data1_ :: (middle_.walk ++ (data2_.toList ++ right_.walk))

/-- The class `BTree`. -/
structure BTree (α : Type) where
  root_ : Node α

/-- The constructor `BTree::BTree`. -/
def BTree.new {α : Type} : BTree α := { root_ := Node.null }

/-- The method `BTree::insert`: the tree after the call and the pointer returned. -/
def BTree.insert {α : Type} [LinearOrder α] (t : BTree α) (data : Thing α) : Option (BTree α × Thing α) :=
  match t.root_ with
  | Node.null => some ({ root_ := Node.new data Node.null Node.null }, data)
  | Node.node d1 d2 l m r =>
    ((Node.node d1 d2 l m r).insert data).map fun res =>
      (if res.overflow.is_null then { root_ := res.this } else { root_ := res.overflow },
       res.found)

/-- The method `BTree::walk`. -/
def BTree.walk {α : Type} (t : BTree α) : List (Thing α) := t.root_.walk

/-! ## Reference operations on the sorted list of things -/

/-- Insertion of a thing into a list sorted by key; a thing with an equal key keeps its
place and the list stays as it is. -/
def ins_list {α : Type} [LinearOrder α] (x : Thing α) : List (Thing α) → List (Thing α)
  | [] => [x]
  | y :: ys =>
    if x.key < y.key then x :: y :: ys
    else if y.key < x.key then y :: ins_list x ys
    else y :: ys

/-- The thing of a list sorted by key whose key equals that of `x`, or `x` itself when
there is none. -/
def find_list {α : Type} [LinearOrder α] (x : Thing α) : List (Thing α) → Thing α
  | [] => x
  | y :: ys =>
    if x.key < y.key then x
    else if y.key < x.key then find_list x ys
    else y

/-- The keys of a list of things are strictly ascending. -/
def ascending {α : Type} [LinearOrder α] (l : List (Thing α)) : Prop := (l.map Thing.key).Sorted (· < ·)

/-- The shape `validate` asks for: a node of height 1 is a leaf (no children); a node of
height `h + 1` has a `left_` and a `middle_` child of height `h`, and a `right_` child of
height `h` exactly when it has a `data2_`. -/
def well_formed {α : Type} : Node α → Nat → Prop
  | Node.null, _ => False
  | Node.node _ data2_ left_ middle_ right_, h =>
    (h = 1 ∧ left_ = Node.null ∧ middle_ = Node.null ∧ right_ = Node.null) ∨
    (∃ h', h = h' + 1 ∧ well_formed left_ h' ∧ well_formed middle_ h' ∧
      ((data2_ = none ∧ right_ = Node.null) ∨ (data2_.isSome = true ∧ well_formed right_ h')))

/-- A sequence of `BTree::insert` calls, one per thing of the list, in order. -/
def insert_all {α : Type} [LinearOrder α] : BTree α → List (Thing α) → Option (BTree α)
  | t, [] => some t
  | t, d :: ds => (t.insert d).bind fun r => insert_all r.1 ds

/-- What a call of `Node::insert` on a node of height `h` has to leave: `*found` is the
stored thing with the key of `data` (or `data`), and either nothing is returned and the
node, still of height `h`, holds the things with `data` put in its place, or a bush is
returned whose two children have height `h` and which holds those things. -/
def insert_ok {α : Type} [LinearOrder α] (n : Node α) (h : Nat) (data : Thing α)
    (res : Inserted α) : Prop :=
  res.found = find_list data n.walk ∧
  ((res.overflow = Node.null ∧ well_formed res.this h ∧
      res.this.walk = ins_list data n.walk) ∨
   (∃ k l m, res.overflow = Node.node k none l m Node.null ∧ well_formed l h ∧
      well_formed m h ∧ res.overflow.walk = ins_list data n.walk))

/-- The state of a tree that `validate` and `walk` rely on: the keys are strictly
ascending in walk order, and the tree is empty or its root is well formed at some height. -/
def tree_inv {α : Type} [LinearOrder α] (t : BTree α) : Prop :=
  ascending t.walk ∧ (t.root_ = Node.null ∨ ∃ h, well_formed t.root_ h)

end TwoThree

/-- The first `n` lowercase letters, each as a one-letter word. -/
def letters (n : Nat) : List Word := (List.range n).map fun i => [97 + i]

namespace TwoThree

/-- The depths of the leaves (nodes whose `left_` is `NULL`, as `is_leaf` tests) below a
node that is itself at depth `d`. -/
def Node.leaf_depths {α : Type} : Node α → Nat → List Nat
  | Node.null, _ => []
  | Node.node _ _ left_ middle_ right_, d =>
    if left_.is_null then [d]
    else left_.leaf_depths (d + 1) ++ (middle_.leaf_depths (d + 1) ++ right_.leaf_depths (d + 1))

end TwoThree

/-- The method `Block::insert_split` with the value returned by its call of
`find_splitpoint` given as `splitpoint`: the statements of `insert_split` with that call
left out. -/
def insert_split_at (BLOCK_SIZE : Nat) (m : BlockManager) (this_p : Nat) (insert_point : Nat)
    (word : Word) (count left right : Nat) (promotion : Promotion) (splitpoint : Nat) :
    Except Fault (Int × Promotion × BlockManager) := do
  let this ← m.deref this_p
  let buffer : Block := this
  let (new_p, m) := m.allocate BLOCK_SIZE
  let new_block ← m.deref new_p
  let promotion := { promotion with new_sibling := block_number new_block }
  let pivot_right ← Item_right_child this (item_at splitpoint)
  let new_block := set_left_child new_block pivot_right
  let new_block ←
    copy_items this (splitpoint + (if insert_point ≠ splitpoint then 1 else 0)) (item_count this)
      new_block
  let this := set_string_table this BLOCK_SIZE
  let this := set_item_count this 0
  let this ← copy_items buffer 0 splitpoint this
  if insert_point = splitpoint then
    let promotion := { promotion with pivot_word := word, count := count % 65536 }
    let new_block := set_left_child new_block right
    let this ← set_Item_right_child this (item_at (splitpoint - 1)) left
    pure (1, promotion, (m.assign new_p new_block).assign this_p this)
  else
    let pivot := item_at splitpoint
    let pivot_offset ← Item_offset buffer pivot
    let pivot_word ← string_at buffer pivot_offset
    let pivot_count ← Item_count buffer pivot
    let promotion := { promotion with pivot_word := pivot_word, count := pivot_count }
    if insert_point < splitpoint then
      let (_, this) ← shift_items this (item_at insert_point) word count left right
      pure (1, promotion, (m.assign new_p new_block).assign this_p this)
    else
      let insert_point := insert_point - (splitpoint + 1)
      let (_, new_block) ← shift_items new_block (item_at insert_point) word count left right
      pure (1, promotion, (m.assign new_p new_block).assign this_p this)

/-- The key-text bytes of a page: length + 1 summed over its keys. -/
def text_bytes (b : Block) : Except Fault Nat := do
  let pairs ← page_pairs b
  pure ((pairs.map fun p => p.1.length + 1).sum)

/-- The key-text bytes of the original page and of the sibling that `insert_split` leaves
when it splits at `splitpoint`. -/
def split_sizes (BLOCK_SIZE : Nat) (m : BlockManager) (this_p : Nat) (insert_point : Nat)
    (word : Word) (count left right : Nat) (splitpoint : Nat) : Except Fault (Nat × Nat) := do
  let (_, promotion, m) ←
    insert_split_at BLOCK_SIZE m this_p insert_point word count left right Promotion.fresh
      splitpoint
  let this ← m.deref this_p
  let sibling_p ← m.get promotion.new_sibling
  let sibling ← m.deref sibling_p
  let l ← text_bytes this
  let r ← text_bytes sibling
  pure (l, r)

/-- The `right_child` fields of the items of a page in table order, `k` items left. -/
def right_children_loop (b : Block) : Nat → Nat → Except Fault (List Nat)
  | 0, _ => pure []
  | k + 1, item => do
    let right ← Item_right_child b item
    let rest ← right_children_loop b k (item + sizeof_Item)
    pure (right :: rest)

/-- The child handles of a page read left to right: `left_child`, then the `right_child`
of each item. -/
def child_handles (b : Block) : Except Fault (List Nat) := do
  let rest ← right_children_loop b (item_count b) begin_item
  pure (left_child b :: rest)

end WordCount

/-!
## Binary heap priority queue (`src/dijkstra/flight-schedule/solution-generic/priority.h`)

A `Thing*` is a number; the object it points to has the value `operator<` compares and the
field `priority_` of the base class `Priority`.  `unsigned int` is 32 bits wide: the index
arithmetic is done modulo 2^32.  `data_[n]` with `n` outside the vector has no defined
result and stops the call.  The loops carry a fuel.  The variant compiled is the
nonrecursive one (`RECURSIVE_IMPL` is not defined).
-/

namespace FlightSchedule

/-- The ways in which a call stops without returning to its caller. -/
inductive Fault where
  | out_of_range
  | assertion_failed
  | out_of_fuel
deriving DecidableEq, Repr

/-- The number of values of an `unsigned int`. -/
def UINT_RANGE : Nat := 4294967296

/-- The object behind a `Thing*`. -/
structure Thing (α : Type) where
  key : α
  priority_ : Nat

/-- The method `Priority::set_priority`. -/
def Thing.set_priority {α : Type} (t : Thing α) (priority : Nat) : Thing α :=
  { t with priority_ := priority % UINT_RANGE }

/-- The class `PriorityQueue` together with the objects its pointers point to. -/
structure PriorityQueue (α : Type) where
  data_ : List Nat
  objects : Nat → Thing α

namespace PriorityQueue

/-- The constructor `PriorityQueue()`, in a memory holding `objects`. -/
def new {α : Type} (objects : Nat → Thing α) : PriorityQueue α :=
  { data_ := [], objects := objects }

def size {α : Type} (q : PriorityQueue α) : Nat := q.data_.length

def empty {α : Type} (q : PriorityQueue α) : Bool := q.data_.isEmpty

def root : Nat := 0

def is_root (n : Nat) : Bool := n == root

def parent (n : Nat) : Nat := ((n + 1) % UINT_RANGE / 2 + UINT_RANGE - 1) % UINT_RANGE

def left (n : Nat) : Nat := ((n + 1) % UINT_RANGE * 2 % UINT_RANGE + UINT_RANGE - 1) % UINT_RANGE

def right (n : Nat) : Nat := (left n + 1) % UINT_RANGE

/-- The pointer `data_[n]`. -/
def at_index {α : Type} (q : PriorityQueue α) (n : Nat) : Except Fault Nat :=
  match q.data_.get? n with
  | some p => .ok p
  | none => .error .out_of_range

/-- The call `p->set_priority(n)`. -/
def set_priority_of {α : Type} (q : PriorityQueue α) (p n : Nat) : PriorityQueue α :=
  { q with objects := Function.update q.objects p ((q.objects p).set_priority n) }

/-- The comparison `*data_[i] < *data_[j]`. -/
def less {α : Type} [LinearOrder α] (q : PriorityQueue α) (i j : Nat) : Except Fault Bool := do
  let pi ← q.at_index i
  let pj ← q.at_index j
  pure (decide ((q.objects pi).key < (q.objects pj).key))

/-- The method `PriorityQueue::swap`. -/
def swap {α : Type} (q : PriorityQueue α) (n1 n2 : Nat) : Except Fault (PriorityQueue α) := do
  let tmp ← q.at_index n1
  let p2 ← q.at_index n2
  let q := { q with data_ := q.data_.set n1 p2 }
  let q := { q with data_ := q.data_.set n2 tmp }
  let p ← q.at_index n1
  let q := q.set_priority_of p n1
  let p ← q.at_index n2
  let q := q.set_priority_of p n2
  pure q

/-- The method `PriorityQueue::sift_up` (the `while` loop), `fuel` iterations allowed. -/
def sift_up {α : Type} [LinearOrder α] :
    Nat → PriorityQueue α → Nat → Except Fault (PriorityQueue α)
  | 0, _, _ => .error .out_of_fuel
  | fuel + 1, q, n => do
    let go ← if !is_root n then q.less n (parent n) else pure false
    if go then
      let q ← q.swap (parent n) n
      sift_up fuel q (parent n)
    else
      pure q

/-- The method `PriorityQueue::sift_down` (the `while (true)` loop), `fuel` iterations
allowed. -/
def sift_down {α : Type} [LinearOrder α] :
    Nat → PriorityQueue α → Nat → Except Fault (PriorityQueue α)
  | 0, _, _ => .error .out_of_fuel
  | fuel + 1, q, n => do
    let to_right ←
      if right n < q.size then do
        let c ← q.less (right n) n
        if c then q.less (right n) (left n) else pure false
      else pure false
    if to_right then
      let q ← q.swap n (right n)
      sift_down fuel q (right n)
    else
      let to_left ← if left n < q.size then q.less (left n) n else pure false
      if to_left then
        let q ← q.swap n (left n)
        sift_down fuel q (left n)
      else
        pure q

/-- The method `PriorityQueue::push_back`. -/
def push_back {α : Type} [LinearOrder α] (q : PriorityQueue α) (thing : Nat) :
    Except Fault (PriorityQueue α) := do
  let n := q.size % UINT_RANGE
  let q := q.set_priority_of thing n
  let q := { q with data_ := q.data_ ++ [thing] }
  sift_up (q.size + 1) q n

/-- The method `PriorityQueue::pop`: the pointer returned (`none` for `NULL`) and the
queue. -/
def pop {α : Type} [LinearOrder α] (q : PriorityQueue α) :
    Except Fault (Option Nat × PriorityQueue α) := do
  if q.size = 0 then
    pure (none, q)
  else
    let min ← q.at_index root
    let last ← q.at_index (q.size - 1)
    let q := { q with data_ := q.data_.set root last }
    let p ← q.at_index root
    let q := q.set_priority_of p root
    let q := { q with data_ := q.data_.dropLast }
    let q ← sift_down (q.size + 1) q root
    pure (some min, q)

end PriorityQueue

/-- The first loop of `main` in `priority_test.cc`: one `push_back` per thing. -/
def push_all {α : Type} [LinearOrder α] :
    PriorityQueue α → List Nat → Except Fault (PriorityQueue α)
  | q, [] => pure q
  | q, thing :: rest => do
    let q ← q.push_back thing
    push_all q rest

/-- The second loop of `main` in `priority_test.cc`, `while (!pq.empty())`, with `fuel`
iterations allowed: the pointers popped, in order, and the queue left. -/
def pop_all {α : Type} [LinearOrder α] :
    Nat → PriorityQueue α → Except Fault (List Nat × PriorityQueue α)
  | 0, q => if q.empty then pure ([], q) else .error .out_of_fuel
  | fuel + 1, q =>
    if q.empty then pure ([], q)
    else do
      let (pword, q) ← q.pop
      match pword with
      | none => .error .assertion_failed
      | some p =>
        let (rest, q) ← pop_all fuel q
        pure (p :: rest, q)

/-- The value `operator<` compares, read through a pointer. -/
def PriorityQueue.key_of {α : Type} (q : PriorityQueue α) (p : Nat) : α := (q.objects p).key

/-- The key of the thing at index `i` of the pointers `d`, under the keys `k`. -/
def key_at {α : Type} (k : Nat → α) (d : List Nat) (i : Nat) : α := k (d.getD i 0)

/-- The array `d` is a binary min-heap under the keys `k`: no element is smaller than its
parent. -/
def is_heap {α : Type} [LinearOrder α] (k : Nat → α) (d : List Nat) : Prop :=
  ∀ j, 0 < j → j < d.length → key_at k d ((j - 1) / 2) ≤ key_at k d j

/-- The heap condition while `sift_up` is at index `n`: it holds everywhere except between
`n` and its parent, and the children of `n` are not smaller than the parent of `n`. -/
def sift_up_inv {α : Type} [LinearOrder α] (k : Nat → α) (d : List Nat) (n : Nat) : Prop :=
  (∀ j, 0 < j → j < d.length → j ≠ n → key_at k d ((j - 1) / 2) ≤ key_at k d j) ∧
  (∀ j, 0 < j → j < d.length → (j - 1) / 2 = n → 0 < n →
    key_at k d ((n - 1) / 2) ≤ key_at k d j)

/-- The heap condition while `sift_down` is at index `n`: it holds everywhere except
between `n` and its children, and the children of `n` are not smaller than the parent of
`n`. -/
def sift_down_inv {α : Type} [LinearOrder α] (k : Nat → α) (d : List Nat) (n : Nat) : Prop :=
  (∀ j, 0 < j → j < d.length → (j - 1) / 2 ≠ n → key_at k d ((j - 1) / 2) ≤ key_at k d j) ∧
  (∀ j, 0 < j → j < d.length → (j - 1) / 2 = n → 0 < n →
    key_at k d ((n - 1) / 2) ≤ key_at k d j)

end FlightSchedule

namespace WordCount

/-- One item of a page as its key, its count and its `right_child`. -/
def item_view (b : Block) (item : Nat) : Except Fault (Word × Nat × Nat) := do
  let offset ← Item_offset b item
  let s ← string_at b offset
  let count ← Item_count b item
  let right ← Item_right_child b item
  pure (s, count, right)

/-- The items of a page in table order, `k` items left. -/
def page_items_loop (b : Block) : Nat → Nat → Except Fault (List (Word × Nat × Nat))
  | 0, _ => pure []
  | k + 1, item => do
    let v ← item_view b item
    let rest ← page_items_loop b k (item + sizeof_Item)
    pure (v :: rest)

/-- The items of a page in table order, each as its key, its count and its `right_child`. -/
def page_items (b : Block) : Except Fault (List (Word × Nat × Nat)) :=
  page_items_loop b (item_count b) begin_item

/-- A list of items with the `right_child` of its last item replaced. -/
def set_last_right : List (Word × Nat × Nat) → Nat → List (Word × Nat × Nat)
  | [], _ => []
  | [x], v => [(x.1, x.2.1, v)]
  | x :: y :: l, v => x :: set_last_right (y :: l) v

/-- The index after the words `ws` were added to a fresh index (the fresh index itself when
a call does not return). -/
def index_after_words (BLOCK_SIZE : Nat) (ws : List Word) : WordCounter :=
  match add_words BLOCK_SIZE WordCounter.new ws with
  | .ok r => r.2
  | .error _ => WordCounter.new

/-- The bytes a list of items takes in a page: eight for each item, and its text with the
NUL. -/
def items_size (l : List (Word × Nat × Nat)) : Nat := (l.map fun x => 8 + (x.1.length + 1)).sum

end WordCount

namespace FlightSchedule

/-- The method `PriorityQueue::reduce`. -/
def PriorityQueue.reduce {α : Type} [LinearOrder α] (q : PriorityQueue α) (thing : Nat) :
    Except Fault (PriorityQueue α) := do
  let current_priority := (q.objects thing).priority_
  let p ← q.at_index current_priority
  -- assert(data_[current_priority] == thing)
  if p ≠ thing then throw Fault.assertion_failed
  PriorityQueue.sift_up (q.size + 1) q current_priority

/-- The caller of `reduce` gives the thing behind `p` the key `k` before the call. -/
def set_key {α : Type} (q : PriorityQueue α) (p : Nat) (k : α) : PriorityQueue α :=
  { q with objects := Function.update q.objects p { q.objects p with key := k } }

/-- Every thing of the array stores the index of its position (`get_priority`). -/
def index_ok {α : Type} (q : PriorityQueue α) : Prop :=
  ∀ i, i < q.data_.length → (q.objects (q.data_.getD i 0)).priority_ = i

/-- The state the queue is meant to be in between calls: a binary min-heap of distinct
things, each storing its position. -/
def queue_ok {α : Type} [LinearOrder α] (q : PriorityQueue α) : Prop :=
  is_heap q.key_of q.data_ ∧ index_ok q ∧ q.data_.Nodup

/-- A queue of the three things 1, 2 and 3 with the keys 10, 20 and 30, each storing its
position; every other pointer points to a thing that is in no queue. -/
def queue_of_three : PriorityQueue Nat :=
  { data_ := [1, 2, 3],
    objects := fun p =>
      if p = 1 then { key := 10, priority_ := 0 }
      else if p = 2 then { key := 20, priority_ := 1 }
      else if p = 3 then { key := 30, priority_ := 2 }
      else { key := p, priority_ := 4294967295 } }

end FlightSchedule

/-!
## Huffman coder (`src/huffman`)

A shallow embedding of `frequency_table.cc`, `huffman_tree.cc`, `coding_table.h`,
`bitstream.cc` and of the loops of `huff.cc` and `puff.cc`.

* A `HuffmanNode*` that is not NULL is the node with the nodes below it; `left_` is NULL
  exactly for a leaf.
* `std::priority_queue<HuffmanNode*, ..., CompareFrequency>` is a list of nodes; `top` is a
  node of least frequency (the earliest pushed among equals, an order the C++ library
  leaves open).
* A stream is the list of its bytes.
-/

namespace Huffman

/-- The ways in which a run stops without returning to its caller. -/
inductive Fault where
  | assertion_failed
  | input_too_big
  | out_of_fuel
deriving DecidableEq, Repr

/-! ### `FrequencyTable` -/

/-- The class `FrequencyTable`: `data_[c]` for each byte value `c`. -/
structure FrequencyTable where
  data_ : Nat → Nat

/-- The method `FrequencyTable::init` (all counts zero). -/
def FrequencyTable.init : FrequencyTable := { data_ := fun _ => 0 }

def FrequencyTable.get (ft : FrequencyTable) (c : Nat) : Nat := ft.data_ c

/-- The method `FrequencyTable::count` (without `LARGE_INPUT`): the table and the total,
an `unsigned int`. -/
def FrequencyTable.count : FrequencyTable → List Nat → Nat → Except Fault (FrequencyTable × Nat)
  | ft, [], total => pure (ft, total)
  | ft, c :: text, total =>
    -- if (data_[c] == USHRT_MAX) exit(EXIT_FAILURE)
    if ft.data_ c = 65535 then throw Fault.input_too_big
    else
      FrequencyTable.count { data_ := Function.update ft.data_ c (ft.data_ c + 1) } text
        ((total + 1) % 4294967296)

/-! ### `CodedSymbol`, `CodingTable` -/

/-- The class `CodedSymbol`; `Bits` is `unsigned int`. -/
structure CodedSymbol where
  num_bits_ : Int
  encoding_ : Nat
deriving DecidableEq, Repr

/-- The method `CodedSymbol::push_bit`. -/
def CodedSymbol.push_bit (s : CodedSymbol) (bit : Nat) : CodedSymbol :=
  { num_bits_ := s.num_bits_ + 1, encoding_ := (s.encoding_ * 2 % 4294967296) ||| (bit % 2) }

/-- The class `CodingTable`: `data_[c]` for each byte value `c`. -/
structure CodingTable where
  data_ : Nat → CodedSymbol

/-- The constructor `CodingTable::CodingTable`. -/
def CodingTable.new : CodingTable := { data_ := fun _ => { num_bits_ := 0, encoding_ := 0 } }

def CodingTable.set (t : CodingTable) (c : Nat) (symbol : CodedSymbol) : CodingTable :=
  { data_ := Function.update t.data_ c symbol }

def CodingTable.get (t : CodingTable) (c : Nat) : CodedSymbol := t.data_ c

/-! ### `HuffmanNode`, `HuffmanTree` -/

/-- The object behind a `HuffmanNode*` that is not NULL. -/
inductive HuffmanNode where
  | leaf (symbol_ : Nat) (frequency_ : Int)
  | inner (frequency_ : Int) (left_ right_ : HuffmanNode)
deriving DecidableEq, Repr

def HuffmanNode.frequency : HuffmanNode → Int
  | .leaf _ f => f
  | .inner f _ _ => f

/-- The constructor `HuffmanNode(left, right)`. -/
def HuffmanNode.join (left right : HuffmanNode) : HuffmanNode :=
  .inner (left.frequency + right.frequency) left right

/-- The method `HuffmanNode::encode`. -/
def HuffmanNode.encode : HuffmanNode → CodedSymbol → CodingTable → CodingTable
  | .leaf symbol _, coded_symbol, encoding => encoding.set symbol coded_symbol
  | .inner _ left right, coded_symbol, encoding =>
    let encoding := left.encode (coded_symbol.push_bit 0) encoding
    right.encode (coded_symbol.push_bit 1) encoding

/-- The method `HuffmanNode::decode`: the node returned (`none` for NULL) and the byte
stored through `c`, if one is stored. -/
def HuffmanNode.decode (node : HuffmanNode) (bit : Nat) :
    Except Fault (Option HuffmanNode × Option Nat) :=
  match node with
  | .leaf _ _ => throw Fault.assertion_failed  -- assert(left_ && right_)
  | .inner _ left right =>
    let next_node := if bit ≠ 0 then right else left
    match next_node with
    | .inner _ _ _ => pure (some next_node, none)
    | .leaf symbol _ => pure (none, some symbol)

/-- The leaves the constructor of `HuffmanTree` pushes, for the byte values `c`, `c + 1`,
..., `c + k - 1`. -/
def push_leaves (frequencies : FrequencyTable) : Nat → Nat → List HuffmanNode → List HuffmanNode
  | 0, _, nodes => nodes
  | k + 1, c, nodes =>
    if frequencies.get c ≠ 0 then
      push_leaves frequencies k (c + 1) (nodes ++ [.leaf c (frequencies.get c)])
    else push_leaves frequencies k (c + 1) nodes

/-- The calls `nodes.top()` and `nodes.pop()`: a node of least frequency and the rest. -/
def pop_least : List HuffmanNode → Option (HuffmanNode × List HuffmanNode)
  | [] => none
  | n :: rest =>
    match pop_least rest with
    | none => some (n, [])
    | some (m, rest') =>
      if m.frequency < n.frequency then some (m, n :: rest') else some (n, rest)

/-- The loop `while (true)` of the constructor of `HuffmanTree`, `fuel` iterations allowed:
the root. -/
def build_loop : Nat → List HuffmanNode → Except Fault HuffmanNode
  | 0, _ => throw Fault.out_of_fuel
  | fuel + 1, nodes =>
    match pop_least nodes with
    | none => throw Fault.assertion_failed  -- assert(!nodes.empty())
    | some (right, nodes) =>
      match pop_least nodes with
      | none => pure right
      | some (left, nodes) => build_loop fuel (nodes ++ [HuffmanNode.join left right])

/-- The class `HuffmanTree`. -/
structure HuffmanTree where
  root_ : HuffmanNode
deriving DecidableEq, Repr

/-- The constructor `HuffmanTree::HuffmanTree(frequencies)`. -/
def HuffmanTree.new (frequencies : FrequencyTable) : Except Fault HuffmanTree := do
  let nodes := push_leaves frequencies 256 0 []
  let root ← build_loop (nodes.length + 1) nodes
  pure { root_ := root }

/-- The method `HuffmanTree::encode` on a fresh `CodingTable`. -/
def HuffmanTree.encode (tree : HuffmanTree) : CodingTable :=
  tree.root_.encode { num_bits_ := 0, encoding_ := 0 } CodingTable.new

/-- The method `HuffmanTree::decode`. -/
def HuffmanTree.decode (tree : HuffmanTree) (bit : Nat) (node : Option HuffmanNode) :
    Except Fault (Option HuffmanNode × Option Nat) :=
  match node with
  | none => tree.root_.decode bit
  | some node => node.decode bit

/-! ### `OutputBits`, `InputBits` -/

/-- The class `OutputBits` with the bytes written to `out_` so far. -/
structure OutputBits where
  out_ : List Nat
  buf_count_ : Int
  buf_bits_ : Nat
deriving DecidableEq, Repr

def OutputBits.new : OutputBits := { out_ := [], buf_count_ := 0, buf_bits_ := 0 }

/-- The loop of `OutputBits::emit`, for `num_bits = k - 1`, ..., `0`. -/
def OutputBits.emit_loop (bits : Nat) : Nat → OutputBits → OutputBits
  | 0, o => o
  | k + 1, o =>
    let bit := (bits >>> k) &&& 1
    let buf_bits := ((o.buf_bits_ <<< 1) % 256) ||| bit
    let buf_count := o.buf_count_ + 1
    if buf_count = 8 then
      OutputBits.emit_loop bits k { out_ := o.out_ ++ [buf_bits], buf_count_ := 0, buf_bits_ := 0 }
    else
      OutputBits.emit_loop bits k { o with buf_count_ := buf_count, buf_bits_ := buf_bits }

/-- The method `OutputBits::emit`. -/
def OutputBits.emit (o : OutputBits) (symbol : CodedSymbol) : OutputBits :=
  OutputBits.emit_loop symbol.encoding_ symbol.num_bits_.toNat o

/-- The method `OutputBits::flush`. -/
def OutputBits.flush (o : OutputBits) : OutputBits :=
  if o.buf_count_ ≠ 0 then
    let buf_bits := (o.buf_bits_ <<< (8 - o.buf_count_).toNat) % 256
    { o with out_ := o.out_ ++ [buf_bits], buf_bits_ := buf_bits }
  else o

/-- The class `InputBits` with the bytes of `in_` not yet read.  `junk` is the value of the
local `char c` of `get` that `in_->get(c)` leaves unset at the end of the stream. -/
structure InputBits where
  in_ : List Nat
  buf_count_ : Nat
  buf_bits_ : Nat
  junk : Nat
deriving DecidableEq, Repr

def InputBits.new (input : List Nat) (junk : Nat) : InputBits :=
  { in_ := input, buf_count_ := 0, buf_bits_ := 0, junk := junk }

/-- The method `InputBits::get`: the bit and the stream after the call. -/
def InputBits.get (b : InputBits) : Nat × InputBits :=
  let b :=
    if b.buf_count_ = 0 then
      match b.in_ with
      | c :: rest => { b with in_ := rest, buf_bits_ := c % 256, buf_count_ := 8 }
      | [] => { b with buf_bits_ := b.junk % 256, buf_count_ := 8 }
    else b
  let b := { b with buf_count_ := b.buf_count_ - 1 }
  ((b.buf_bits_ >>> b.buf_count_) &&& 1, b)

/-! ### The loops of `huff` and `puff` -/

/-- The loop `while ((c = in.get()) != EOF) bits.emit(encoding.get(c))` of `huff`. -/
def emit_all (encoding : CodingTable) : List Nat → OutputBits → OutputBits
  | [], bits => bits
  | c :: text, bits => emit_all encoding text (bits.emit (encoding.get c))

/-- The coded bytes `huff` writes after the table and the length: the tree is built from
the counts of `text`, every byte is emitted with its code, and the buffer is flushed. -/
def huff_bits (text : List Nat) : Except Fault (List Nat) := do
  let (ft, _) ← FrequencyTable.init.count text 0
  let tree ← HuffmanTree.new ft
  let encoding := tree.encode
  let bits := emit_all encoding text OutputBits.new
  pure bits.flush.out_

/-- The loop `do { node = tree.decode(bits.get(), &c, node); } while (node)` of `puff`,
`fuel` iterations allowed: the byte in `c` after the loop (`c0` before it). -/
def decode_symbol (tree : HuffmanTree) :
    Nat → Option HuffmanNode → Nat → InputBits → Except Fault (Nat × InputBits)
  | 0, _, _, _ => throw Fault.out_of_fuel
  | fuel + 1, node, c0, bits => do
    let (bit, bits) := bits.get
    let (node, c) ← tree.decode bit node
    let c := c.getD c0
    match node with
    | some node => decode_symbol tree fuel (some node) c bits
    | none => pure (c, bits)

/-- The loop `for (; n > 0; --n)` of `puff`: the bytes written.  `fuel` bounds the inner
loop; the local `c` starts each round with the value `junk` of the stream. -/
def puff_loop (tree : HuffmanTree) (fuel : Nat) : Nat → InputBits → Except Fault (List Nat)
  | 0, _ => pure []
  | n + 1, bits => do
    let (c, bits) ← decode_symbol tree fuel none (bits.junk % 256) bits
    let rest ← puff_loop tree fuel n bits
    pure (c :: rest)

/-- The bytes `puff` writes for the coded bytes `data` of a text with the counts of `text`
and the length `n`. -/
def puff_bytes (text : List Nat) (n : Nat) (data : List Nat) (fuel junk : Nat) :
    Except Fault (List Nat) := do
  let (ft, _) ← FrequencyTable.init.count text 0
  let tree ← HuffmanTree.new ft
  puff_loop tree fuel n (InputBits.new data junk)

/-- Coding a text with `huff` and decoding the result with `puff`. -/
def round_trip (text : List Nat) (fuel junk : Nat) : Except Fault (List Nat) := do
  let data ← huff_bits text
  puff_bytes text (text.length % 4294967296) data fuel junk

end Huffman

namespace WordCount

/-! ## The pages a call holds: `get`, `allocate`, `update`, `release` -/

/-- What a call does with a page of the block manager.  A page is named by the number of
the `get` or `allocate` that returned it, counted from the start of the call. -/
inductive Event where
  | obtain (page : Nat)
  | use (page : Nat)
  | modify (page : Nat)
  | update (page : Nat)
  | release (page : Nat)
deriving DecidableEq, Repr

/-- The events of `Block::shift_items` on the page `t`. -/
def shift_items_events (t : Nat) : List Event := [.modify t, .update t, .release t]

/-- The events of `Block::insert_split` on the page `t`; `s` names the sibling it
allocates. -/
def insert_split_events (t s insert_point splitpoint : Nat) : List Event :=
  [.use t,               -- Block buffer(*this)
   .obtain s,            -- manager_->allocate()
   .use s,               -- *new_block->block_number()
   .use t,               -- find_splitpoint
   .use t, .modify s,    -- *(new_block->left_child()) = begin_item()[splitpoint].right_child
   .use t, .modify s,    -- copy_items(..., new_block)
   .modify t,            -- *string_table() = BLOCK_SIZE; *item_count() = 0
   .modify t] ++         -- buffer.copy_items(0, splitpoint, this)
  (if insert_point = splitpoint then
    [.modify s, .modify t, .update s, .release s, .update t, .release t]
  else if insert_point < splitpoint then
    shift_items_events t ++ [.update s, .release s]
  else
    shift_items_events s ++ [.update t, .release t])

/-- The method `Block::add_word` with the events of the call: `t` names the page `this`,
`n` is the number of pages obtained so far.  The result is that of `Block_add_word`, the
events, and the number of pages obtained after the call. -/
def Block_add_word_log (BLOCK_SIZE : Nat) :
    Nat → BlockManager → Nat → Nat → Nat → Word → Promotion →
      Except Fault ((Int × Promotion × BlockManager) × List Event × Nat)
  | 0, _, _, _, _, _, _ => throw Fault.out_of_fuel
  | fuel + 1, m, this_p, t, n, word, promotion => do
    let this ← m.deref this_p
    let sc ← scan_loop this word (item_count this) begin_item 0
    if sc.found then
      -- ++item->count; update_and_release(this)
      let count ← Item_count this sc.item
      let this ← set_Item_count this sc.item (count + 1)
      pure ((0, promotion, m.assign this_p this),
        [.use t, .modify t, .update t, .release t], n)
    else if is_leaf this then
      if has_space_for this word then
        let (r, this) ← shift_items this sc.item word 1 NULL_BLOCK NULL_BLOCK
        pure ((r, promotion, m.assign this_p this), .use t :: shift_items_events t, n)
      else
        let splitpoint ← find_splitpoint BLOCK_SIZE this sc.insert_point word
        let r ← insert_split BLOCK_SIZE m this_p sc.insert_point word 1 NULL_BLOCK NULL_BLOCK
          promotion
        pure (r, .use t :: insert_split_events t n sc.insert_point splitpoint, n + 1)
    else
      -- Block* child = get((item - 1)->right_child)
      let child_number ← Item_right_child this (sc.item - sizeof_Item)
      let child_p ← m.get child_number
      let child ← m.deref child_p
      let child_block_number := block_number child
      let ((result, child_promotion, m), child_log, n1) ←
        Block_add_word_log BLOCK_SIZE fuel m child_p n (n + 1) word Promotion.fresh
      let log := [.use t, .obtain n, .use n] ++ child_log
      if result ≤ 0 then
        -- release(this)
        pure ((result, promotion, m), log ++ [.release t], n1)
      else
        let this ← m.deref this_p
        if has_space_for this child_promotion.pivot_word then
          let (r, this) ← shift_items this sc.item child_promotion.pivot_word
            child_promotion.count child_block_number child_promotion.new_sibling
          pure ((r, promotion, m.assign this_p this),
            log ++ .use t :: shift_items_events t, n1)
        else
          let splitpoint ← find_splitpoint BLOCK_SIZE this sc.insert_point
            child_promotion.pivot_word
          let r ← insert_split BLOCK_SIZE m this_p sc.insert_point child_promotion.pivot_word
            child_promotion.count child_block_number child_promotion.new_sibling promotion
          pure (r, log ++ .use t :: insert_split_events t n1 sc.insert_point splitpoint,
            n1 + 1)

/-- The method `WordCounter::add_word` with the events of the call. -/
def WordCounter.add_word_log (BLOCK_SIZE : Nat) (wc : WordCounter) (word : Word) :
    Except Fault ((Int × WordCounter) × List Event) := do
  if word.length + 1 > MAX_WORD_LEN BLOCK_SIZE then
    pure ((-1, wc), [])
  else if wc.root_ = NULL_BLOCK then
    let (p, m) := wc.manager.allocate BLOCK_SIZE
    let block ← m.deref p
    let root := block_number block
    let (_, block) ← initialize_block block word 1 NULL_BLOCK NULL_BLOCK
    -- allocate; block_number; initialize (which calls update); update_and_release
    pure ((0, { root_ := root, manager := m.assign p block }),
      [.obtain 0, .use 0, .modify 0, .update 0, .update 0, .release 0])
  else
    let old_root_block ← wc.manager.get wc.root_
    let ((result, promotion, m), log, n) ←
      Block_add_word_log BLOCK_SIZE wc.manager.block_count wc.manager old_root_block 0 1 word
        Promotion.fresh
    if result ≤ 0 then
      pure ((result, { root_ := wc.root_, manager := m }), .obtain 0 :: log)
    else
      let (p, m) := m.allocate BLOCK_SIZE
      let new_root ← m.deref p
      let (_, new_root) ←
        initialize_block new_root promotion.pivot_word promotion.count wc.root_
          promotion.new_sibling
      -- allocate; initialize (which calls update); block_number; update_and_release
      pure ((0, { root_ := block_number new_root, manager := m.assign p new_root }),
        .obtain 0 :: log ++ [.obtain n, .modify n, .update n, .use n, .update n, .release n])

/-- The loop of `Block::print_words` with the events of the call, `k` items left; `walk`
is the visit of a `right_child`. -/
def print_items_loop_log (walk : Nat → Nat → Except Fault (List Event × Nat)) (this : Block)
    (t : Nat) : Nat → Nat → Nat → Except Fault (List Event × Nat)
  | 0, _, n => pure ([], n)
  | k + 1, item, n => do
    let _ ← Item_count this item
    let offset ← Item_offset this item
    let _ ← string_at this offset
    let right ← Item_right_child this item
    let (below, n) ← if right ≠ NULL_BLOCK then walk right n else pure ([], n)
    let (rest, n) ← print_items_loop_log walk this t k (item + sizeof_Item) n
    pure (.use t :: below ++ rest, n)

/-- The visit of a child by `print_words` with its events: `get(child)`, the walk of the
child (`walk`), `release`; `n` names the page obtained. -/
def visit_log (walk : Nat → Nat → Nat → Except Fault (List Event × Nat)) (m : BlockManager)
    (child n : Nat) : Except Fault (List Event × Nat) := do
  let block ← m.get child
  let (l, n1) ← walk block n (n + 1)
  pure (.obtain n :: l ++ [.release n], n1)

/-- The method `Block::print_words` with the events of the call: `t` names the page
`this`, `n` is the number of pages obtained so far. -/
def Block_print_words_log : Nat → BlockManager → Nat → Nat → Nat →
    Except Fault (List Event × Nat)
  | 0, _, _, _, _ => throw Fault.out_of_fuel
  | fuel + 1, m, this_p, t, n => do
    let this ← m.deref this_p
    let left := left_child this
    let (above, n) ←
      if left ≠ NULL_BLOCK then visit_log (Block_print_words_log fuel m) m left n
      else pure ([], n)
    let (rest, n) ← print_items_loop_log (visit_log (Block_print_words_log fuel m) m)
      this t (item_count this) begin_item n
    pure (.use t :: above ++ rest, n)

/-- The method `WordCounter::print_words` with the events of the call. -/
def WordCounter.print_words_log (wc : WordCounter) : Except Fault (List Event) :=
  if wc.root_ ≠ NULL_BLOCK then do
    let root ← wc.manager.get wc.root_
    let (l, _) ← Block_print_words_log wc.manager.block_count wc.manager root 0 1
    pure (.obtain 0 :: l ++ [.release 0])
  else pure []

/-- What a call holds of a page: not obtained yet, held with its bytes as the manager has
them, held with bytes modified since, or released. -/
inductive Held where
  | fresh
  | clean
  | dirty
  | released
deriving DecidableEq, Repr

/-- One event against the rule: a page is obtained once, used, modified and updated only
while held, and released once, with no modification since its last update. -/
def step (held : Nat → Held) : Event → Option (Nat → Held)
  | .obtain b => if held b = .fresh then some (Function.update held b .clean) else none
  | .use b => if held b = .clean ∨ held b = .dirty then some held else none
  | .modify b =>
    if held b = .clean ∨ held b = .dirty then some (Function.update held b .dirty) else none
  | .update b =>
    if held b = .clean ∨ held b = .dirty then some (Function.update held b .clean) else none
  | .release b => if held b = .clean then some (Function.update held b .released) else none

/-- The events of a call against the rule, from the state `held`. -/
def run : (Nat → Held) → List Event → Option (Nat → Held)
  | held, [] => some held
  | held, e :: log => (step held e).bind fun held => run held log

/-- The events of a whole call keep the rule and leave no page held: every page obtained
was released exactly once, was not used after its release, and was updated after its last
modification. -/
def log_ok (log : List Event) : Prop :=
  ∃ held, run (fun _ => Held.fresh) log = some held ∧
    ∀ b, held b = Held.fresh ∨ held b = Held.released

/-- The bytes a dictionary takes as one page: the 12 bytes of the header and, for each key,
the 8 bytes of its item and its text with the NUL. -/
def dictionary_bytes (d : List (Word × Nat)) : Nat :=
  12 + (d.map fun x => 8 + (x.1.length + 1)).sum

/-- Where the search of `reference_add` for `word` stops in a list of keys: whether it stops
at a key equal to the word, and the number of keys it passed. -/
def reference_stop (word : Word) : List Word → Bool × Nat
  | [] => (false, 0)
  | key :: rest =>
    if word = key then (true, 0)
    else if word_lt word key then (false, 0)
    else ((reference_stop word rest).1, (reference_stop word rest).2 + 1)

/-- The page is a leaf that holds the dictionary `d`: its items are the keys of `d` in
order with their counts modulo 2^16 and no children, the texts take the arena from
`string_table` to the end of the page, and the item table ends at or below `string_table`. -/
def leaf_page (BLOCK_SIZE : Nat) (page : Block) (d : List (Word × Nat)) : Prop :=
  page.length = BLOCK_SIZE ∧ (∀ c ∈ page, c < 256) ∧
  left_child page = NULL_BLOCK ∧ item_count page = d.length ∧
  12 + 8 * item_count page + (BLOCK_SIZE - string_table page) = dictionary_bytes d ∧
  end_item page ≤ string_table page ∧ string_table page ≤ BLOCK_SIZE ∧
  (∀ i, i < item_count page → string_table page ≤ rd16 page (item_at i)) ∧
  page_items page = .ok (d.map fun x => (x.1, x.2 % 65536, NULL_BLOCK))

/-- The index is one page, the root, and this page is a leaf that holds the dictionary
`d`. -/
def leaf_holds (BLOCK_SIZE : Nat) (wc : WordCounter) (d : List (Word × Nat)) : Prop :=
  wc.root_ = 0 ∧ ∃ page, wc.manager.blocks = [page] ∧ leaf_page BLOCK_SIZE page d

/-! ## Intact pages and the path of `Block::add_word` -/

/-- A page as the calls leave it when no text was written over an item: it has the size of a
block and holds bytes, it stores its own handle, its item table ends at or below
`string_table`, the texts of its items lie in the arena and take no more than the page has,
and every key has the length of an accepted word. -/
def intact_page (BLOCK_SIZE : Nat) (q : Nat) (page : Block) : Prop :=
  page.length = BLOCK_SIZE ∧ (∀ c ∈ page, c < 256) ∧ block_number page = q ∧
  end_item page ≤ string_table page ∧ string_table page ≤ BLOCK_SIZE ∧
  (∀ i, i < item_count page → string_table page ≤ rd16 page (item_at i)) ∧
  ∃ items, page_items page = .ok items ∧ 12 + items_size items ≤ BLOCK_SIZE ∧
    ∀ x ∈ items, x.1.length + 1 ≤ MAX_WORD_LEN BLOCK_SIZE

/-- The pages `Block::add_word` visits on its way down from the block `this_p` points to;
`fuel` bounds the depth. -/
def descent : Nat → BlockManager → Nat → Word → List Nat
  | 0, _, _, _ => []
  | fuel + 1, m, this_p, word =>
    match m.deref this_p with
    | .error _ => [this_p]
    | .ok this =>
      match scan_loop this word (item_count this) begin_item 0 with
      | .error _ => [this_p]
      | .ok sc =>
        if sc.found then [this_p]
        else if is_leaf this then [this_p]
        else
          match Item_right_child this (sc.item - sizeof_Item) with
          | .error _ => [this_p]
          | .ok child_number =>
            match m.get child_number with
            | .error _ => [this_p]
            | .ok child_p => this_p :: descent fuel m child_p word

/-- The index after the letters a to i were added with a block size of 48: the root, block 2,
holds b, d and f over the leaves 0, 1, 3 and 4. -/
def two_level_index : WordCounter :=
  { root_ := 2,
    manager := { blocks := [
      [0, 0, 0, 0, 1, 0, 46, 0, 255, 255, 255, 255, 46, 0, 1, 0, 255, 255, 255, 255, 44, 0, 1, 0,
        255, 255, 255, 255, 42, 0, 1, 0, 255, 255, 255, 255, 0, 0, 0, 0, 0, 0, 99, 0, 98, 0, 97, 0],
      [1, 0, 0, 0, 1, 0, 46, 0, 255, 255, 255, 255, 46, 0, 1, 0, 255, 255, 255, 255, 44, 0, 1, 0,
        255, 255, 255, 255, 42, 0, 1, 0, 255, 255, 255, 255, 0, 0, 0, 0, 0, 0, 101, 0, 100, 0, 99, 0],
      [2, 0, 0, 0, 3, 0, 42, 0, 0, 0, 0, 0, 46, 0, 1, 0, 1, 0, 0, 0, 44, 0, 1, 0, 3, 0, 0, 0,
        42, 0, 1, 0, 4, 0, 0, 0, 0, 0, 0, 0, 0, 0, 102, 0, 100, 0, 98, 0],
      [3, 0, 0, 0, 1, 0, 46, 0, 255, 255, 255, 255, 46, 0, 1, 0, 255, 255, 255, 255, 44, 0, 1, 0,
        255, 255, 255, 255, 42, 0, 1, 0, 255, 255, 255, 255, 0, 0, 0, 0, 0, 0, 103, 0, 102, 0, 101, 0],
      [4, 0, 0, 0, 3, 0, 42, 0, 255, 255, 255, 255, 46, 0, 1, 0, 255, 255, 255, 255, 44, 0, 1, 0,
        255, 255, 255, 255, 42, 0, 1, 0, 255, 255, 255, 255, 0, 0, 0, 0, 0, 0, 105, 0, 104, 0, 103, 0]] } }

/-- The blocks after the root page of `two_level_index` took the letter j: the leaf 4 and
the root 2 have split, into the blocks 5 and 6. -/
def two_level_grown : BlockManager :=
  { blocks := [
      [0, 0, 0, 0, 1, 0, 46, 0, 255, 255, 255, 255, 46, 0, 1, 0, 255, 255, 255, 255, 44, 0, 1, 0,
        255, 255, 255, 255, 42, 0, 1, 0, 255, 255, 255, 255, 0, 0, 0, 0, 0, 0, 99, 0, 98, 0, 97, 0],
      [1, 0, 0, 0, 1, 0, 46, 0, 255, 255, 255, 255, 46, 0, 1, 0, 255, 255, 255, 255, 44, 0, 1, 0,
        255, 255, 255, 255, 42, 0, 1, 0, 255, 255, 255, 255, 0, 0, 0, 0, 0, 0, 101, 0, 100, 0, 99, 0],
      [2, 0, 0, 0, 1, 0, 46, 0, 0, 0, 0, 0, 46, 0, 1, 0, 1, 0, 0, 0, 44, 0, 1, 0, 3, 0, 0, 0,
        42, 0, 1, 0, 4, 0, 0, 0, 0, 0, 0, 0, 0, 0, 102, 0, 100, 0, 98, 0],
      [3, 0, 0, 0, 1, 0, 46, 0, 255, 255, 255, 255, 46, 0, 1, 0, 255, 255, 255, 255, 44, 0, 1, 0,
        255, 255, 255, 255, 42, 0, 1, 0, 255, 255, 255, 255, 0, 0, 0, 0, 0, 0, 103, 0, 102, 0, 101, 0],
      [4, 0, 0, 0, 1, 0, 46, 0, 255, 255, 255, 255, 46, 0, 1, 0, 255, 255, 255, 255, 44, 0, 1, 0,
        255, 255, 255, 255, 42, 0, 1, 0, 255, 255, 255, 255, 0, 0, 0, 0, 0, 0, 105, 0, 104, 0, 103, 0],
      [5, 0, 0, 0, 2, 0, 44, 0, 255, 255, 255, 255, 46, 0, 1, 0, 255, 255, 255, 255, 44, 0, 1, 0,
        255, 255, 255, 255, 0, 0, 0, 0, 0, 0, 0, 0, 0, 0, 0, 0, 0, 0, 0, 0, 106, 0, 105, 0],
      [6, 0, 0, 0, 2, 0, 44, 0, 3, 0, 0, 0, 46, 0, 1, 0, 4, 0, 0, 0, 44, 0, 1, 0, 5, 0, 0, 0,
        0, 0, 0, 0, 0, 0, 0, 0, 0, 0, 0, 0, 0, 0, 0, 0, 104, 0, 102, 0]] }

/-! ## Theorems -/

set_option maxRecDepth 100000 in
/-- C1: three accepted words of 31 letters added in descending order to a fresh index with
`BLOCK_SIZE = 128`: the third `add_word` fails `assert(splitpoint != 0)` in
`find_splitpoint`, so nothing is printed, while the reference dictionary lists the three
words with count 1. -/
theorem C1_descending_long_words_abort :
    add_words 128 WordCounter.new [rep 99 31, rep 98 31, rep 97 31]
      = .error .assertion_failed ∧
    walk_after 128 [rep 99 31, rep 98 31, rep 97 31] = .error .assertion_failed ∧
    reference_count 128 [rep 99 31, rep 98 31, rep 97 31]
      = [(rep 97 31, 1), (rep 98 31, 1), (rep 99 31, 1)] :=
  ⟨rfl, rfl, rfl⟩

set_option maxRecDepth 100000 in
/-- C2: after the five accepted words `b`x31, `c`x31, `d`, `e`x15, `a`x31 every `add_word`
has returned 0, and the in-order walk `print_words` then fetches a block number that was
never allocated instead of emitting the five keys. -/
theorem C2_walk_fetches_unallocated_block :
    (∃ wc, add_words 128 WordCounter.new
        [rep 98 31, rep 99 31, rep 100 1, rep 101 15, rep 97 31] = .ok ([0, 0, 0, 0, 0], wc)) ∧
    walk_after 128 [rep 98 31, rep 99 31, rep 100 1, rep 101 15, rep 97 31]
      = .error .bad_block :=
  ⟨⟨_, rfl⟩, rfl⟩

set_option maxRecDepth 100000 in
/-- C5: on the index reached by adding `c`x31 and `b`x31, the accepted word `a`x31
(length + 1 = 32 = MAX_WORD_LEN) makes `WordCounter::add_word` stop on the failed
assertion of `find_splitpoint`: it returns neither 0 nor -1. -/
theorem C5_accepted_word_aborts :
    ∃ wc, add_words 128 WordCounter.new [rep 99 31, rep 98 31] = .ok ([0, 0], wc) ∧
      (rep 97 31).length + 1 ≤ MAX_WORD_LEN 128 ∧
      wc.add_word 128 (rep 97 31) = .error .assertion_failed :=
  ⟨_, rfl, by decide, rfl⟩

/-- C6: a word rejected as too long leaves the index as it was: `add_word` returns -1 and
the same root handle and the same block manager (number of blocks and bytes of every
block), hence the same `print_words` output. -/
theorem C6_rejected_word_changes_nothing (BLOCK_SIZE : Nat) (wc : WordCounter) (word : Word)
    (h : word.length + 1 > MAX_WORD_LEN BLOCK_SIZE) :
    ∃ wc', wc.add_word BLOCK_SIZE word = .ok (-1, wc') ∧
      wc'.root_ = wc.root_ ∧
      wc'.manager.block_count = wc.manager.block_count ∧
      wc'.manager.blocks = wc.manager.blocks ∧
      wc'.print_words = wc.print_words := by
  refine ⟨wc, ?_, rfl, rfl, rfl, rfl⟩
  simp [WordCounter.add_word, h]
  rfl

set_option maxRecDepth 100000 in
/-- C7: after the five accepted words `b`x31, `c`x31, `d`, `e`x15, `a`x31 (every call
returned 0) the root is block 2, its left child is block 0, and block 0 has 3 items and
`string_table` 32: header, item table and string arena take 132 bytes of the 128. -/
theorem C7_item_table_overruns_string_arena :
    ∃ wc root page,
      add_words 128 WordCounter.new
        [rep 98 31, rep 99 31, rep 100 1, rep 101 15, rep 97 31] = .ok ([0, 0, 0, 0, 0], wc) ∧
      wc.manager.deref wc.root_ = .ok root ∧ left_child root = 0 ∧
      wc.manager.deref 0 = .ok page ∧
      item_count page = 3 ∧ string_table page = 32 ∧ end_item page = 36 ∧
      bytes_used 128 page = 132 :=
  ⟨_, _, _, rfl, rfl, rfl, rfl, rfl, rfl, rfl, rfl⟩

set_option maxRecDepth 100000 in
/-- C8 (as stated, refuted): after adding `a`, `b`, `c` to a fresh index with
`BLOCK_SIZE = 128` the root page holds three keys. -/
theorem C8_root_with_three_keys :
    ∃ wc root,
      add_words 128 WordCounter.new [rep 97 1, rep 98 1, rep 99 1] = .ok ([0, 0, 0], wc) ∧
      wc.manager.deref wc.root_ = .ok root ∧ item_count root = 3 :=
  ⟨_, _, rfl, rfl, rfl⟩

set_option maxRecDepth 100000 in
/-- C9: after the five accepted words `b`x31, `c`x31, `d`, `e`x15, `a`x31 the left child of
the root, block 0, is a leaf (`left_child` is NULL_BLOCK) whose third item has a
`right_child` that is neither NULL_BLOCK nor the number of an allocated block. -/
theorem C9_leaf_with_dangling_right_child :
    ∃ wc root page,
      add_words 128 WordCounter.new
        [rep 98 31, rep 99 31, rep 100 1, rep 101 15, rep 97 31] = .ok ([0, 0, 0, 0, 0], wc) ∧
      wc.manager.deref wc.root_ = .ok root ∧ left_child root = 0 ∧
      wc.manager.deref 0 = .ok page ∧ left_child page = NULL_BLOCK ∧ item_count page = 3 ∧
      Item_right_child page (item_at 2) = .ok 1633771873 ∧
      1633771873 ≠ NULL_BLOCK ∧ wc.manager.block_count = 3 ∧
      wc.manager.get 1633771873 = .error .bad_block :=
  ⟨_, _, _, rfl, rfl, rfl, rfl, rfl, rfl, rfl, by decide, rfl, rfl⟩

set_option maxRecDepth 100000 in
/-- C10: the leaf reached by adding `b`x31, `c`, `d`x23, `e`, `f`x13 holds these five keys
with count 1.  Adding `a`x31 forces `insert_split`: the pivot is `e` with count 1, the
sibling holds `f`x13, and the original page holds `a`x31, `b`x31, `c` and `d`x23, but the
count stored with `d`x23 is now 24929: the pair (`d`x23, 1) is lost. -/
theorem C10_split_changes_a_count :
    ∃ wc page m page' sibling,
      add_words 128 WordCounter.new
        [rep 98 31, rep 99 1, rep 100 23, rep 101 1, rep 102 13] = .ok ([0, 0, 0, 0, 0], wc) ∧
      wc.root_ = 0 ∧ wc.manager.deref 0 = .ok page ∧
      page_pairs page = .ok
        [(rep 98 31, 1), (rep 99 1, 1), (rep 100 23, 1), (rep 101 1, 1), (rep 102 13, 1)] ∧
      Block_add_word 128 1 wc.manager 0 (rep 97 31) Promotion.fresh
        = .ok (1, { pivot_word := rep 101 1, count := 1, new_sibling := 1 }, m) ∧
      m.deref 0 = .ok page' ∧ m.deref 1 = .ok sibling ∧
      page_pairs page' = .ok
        [(rep 97 31, 1), (rep 98 31, 1), (rep 99 1, 1), (rep 100 23, 24929)] ∧
      page_pairs sibling = .ok [(rep 102 13, 1)] :=
  ⟨_, _, _, _, _, rfl, rfl, rfl, rfl, rfl, rfl, rfl, rfl, rfl⟩

theorem C6_rejected_word_changes_nothing_witness :
    ∃ wc', WordCounter.new.add_word 128 (rep 97 32) = .ok (-1, wc') ∧
      wc'.root_ = WordCounter.new.root_ ∧
      wc'.manager.block_count = WordCounter.new.manager.block_count ∧
      wc'.manager.blocks = WordCounter.new.manager.blocks ∧
      wc'.print_words = WordCounter.new.print_words :=
  C6_rejected_word_changes_nothing 128 WordCounter.new (rep 97 32) (by decide)

set_option maxRecDepth 100000 in
/-- C11: for every `BLOCK_SIZE` from 32 to 41, adding `a`, `b`, `c` in this order to a fresh
index returns 0 three times and leaves a root page whose only key is `b` with count 1,
whose `left_child` is a leaf holding exactly `a` (count 1) and whose first item's
`right_child` is a leaf holding exactly `c` (count 1). -/
theorem C11_abc_splits_around_b (BLOCK_SIZE : Nat) (h1 : 32 ≤ BLOCK_SIZE)
    (h2 : BLOCK_SIZE ≤ 41) :
    ∃ wc root left right,
      add_words BLOCK_SIZE WordCounter.new [rep 97 1, rep 98 1, rep 99 1]
        = .ok ([0, 0, 0], wc) ∧
      root_and_children wc = .ok (root, left, right) ∧
      page_pairs root = .ok [(rep 98 1, 1)] ∧
      is_leaf left = true ∧ page_pairs left = .ok [(rep 97 1, 1)] ∧
      is_leaf right = true ∧ page_pairs right = .ok [(rep 99 1, 1)] := by
  interval_cases BLOCK_SIZE <;>
    exact ⟨_, _, _, _, rfl, rfl, rfl, rfl, rfl, rfl, rfl⟩

theorem C11_abc_splits_around_b_witness :
    ∃ wc root left right,
      add_words 36 WordCounter.new [rep 97 1, rep 98 1, rep 99 1] = .ok ([0, 0, 0], wc) ∧
      root_and_children wc = .ok (root, left, right) ∧
      page_pairs root = .ok [(rep 98 1, 1)] ∧
      is_leaf left = true ∧ page_pairs left = .ok [(rep 97 1, 1)] ∧
      is_leaf right = true ∧ page_pairs right = .ok [(rep 99 1, 1)] :=
  C11_abc_splits_around_b 36 (by decide) (by decide)

set_option maxRecDepth 100000 in
/-- C12: with `BLOCK_SIZE = 128`, adding `b`, `a`, `b`, `c`, `a`, `a` to a fresh index
returns 0 six times, allocates one block only (the root, a leaf: no split), and
`print_words` writes `a` 3, `b` 2, `c` 1. -/
theorem C12_six_words_one_leaf :
    ∃ wc page,
      add_words 128 WordCounter.new
        [rep 98 1, rep 97 1, rep 98 1, rep 99 1, rep 97 1, rep 97 1]
        = .ok ([0, 0, 0, 0, 0, 0], wc) ∧
      wc.root_ = 0 ∧ wc.manager.block_count = 1 ∧ wc.manager.deref 0 = .ok page ∧
      is_leaf page = true ∧
      wc.print_words = .ok [(rep 97 1, 3), (rep 98 1, 2), (rep 99 1, 1)] :=
  ⟨_, _, rfl, rfl, rfl, rfl, rfl, rfl⟩

set_option maxRecDepth 100000 in
/-- C19: on the initial empty index (`root_` is NULL_BLOCK, no block allocated)
`WordCounter::dump` calls `get(NULL_BLOCK)`, a block number that was never allocated;
`print_words` on the same index checks `root_` first and writes nothing. -/
theorem C19_dump_of_empty_index_fetches_null_block :
    WordCounter.new.root_ = NULL_BLOCK ∧ WordCounter.new.manager.block_count = 0 ∧
    WordCounter.new.print_words = .ok [] ∧
    WordCounter.new.dump = .error .bad_block :=
  ⟨rfl, rfl, rfl, rfl⟩

/-! ### Reading and writing bytes -/

theorem getD_set_eq (b : Block) (i v : Nat) (h : i < b.length) : (b.set i v).getD i 0 = v := by
  simp [List.getD_eq_getElem?_getD, List.getElem?_set, h]

theorem getD_set_ne (b : Block) (i j v : Nat) (h : i ≠ j) : (b.set i v).getD j 0 = b.getD j 0 := by
  simp [List.getD_eq_getElem?_getD, List.getElem?_set, h]

@[simp] theorem length_wr16 (b : Block) (i v : Nat) : (wr16 b i v).length = b.length := by
  simp [wr16]

@[simp] theorem length_wr32 (b : Block) (i v : Nat) : (wr32 b i v).length = b.length := by
  simp [wr32]

theorem getD_wr16_ne (b : Block) (i j v : Nat) (h1 : j ≠ i) (h2 : j ≠ i + 1) :
    (wr16 b i v).getD j 0 = b.getD j 0 := by
  unfold wr16
  rw [getD_set_ne _ _ _ _ (Ne.symm h2), getD_set_ne _ _ _ _ (Ne.symm h1)]

theorem getD_wr32_ne (b : Block) (i j v : Nat) (h1 : j < i ∨ i + 4 ≤ j) :
    (wr32 b i v).getD j 0 = b.getD j 0 := by
  unfold wr32
  rw [getD_wr16_ne _ _ _ _ (by omega) (by omega), getD_wr16_ne _ _ _ _ (by omega) (by omega)]

theorem rd16_wr16_same (b : Block) (i v : Nat) (h : i + 2 ≤ b.length) :
    rd16 (wr16 b i v) i = v % 65536 := by
  unfold rd16 wr16
  rw [getD_set_ne _ _ _ _ (by omega), getD_set_eq _ _ _ (by omega),
    getD_set_eq _ _ _ (by simp; omega)]
  omega

theorem rd16_wr16_ne (b : Block) (i j v : Nat) (h : j + 2 ≤ i ∨ i + 2 ≤ j) :
    rd16 (wr16 b i v) j = rd16 b j := by
  unfold rd16
  rw [getD_wr16_ne _ _ _ _ (by omega) (by omega), getD_wr16_ne _ _ _ _ (by omega) (by omega)]

theorem rd16_wr32_ne (b : Block) (i j v : Nat) (h : j + 2 ≤ i ∨ i + 4 ≤ j) :
    rd16 (wr32 b i v) j = rd16 b j := by
  unfold rd16
  rw [getD_wr32_ne _ _ _ _ (by omega), getD_wr32_ne _ _ _ _ (by omega)]

theorem rd32_wr16_ne (b : Block) (i j v : Nat) (h : j + 4 ≤ i ∨ i + 2 ≤ j) :
    rd32 (wr16 b i v) j = rd32 b j := by
  unfold rd32
  rw [rd16_wr16_ne _ _ _ _ (by omega), rd16_wr16_ne _ _ _ _ (by omega)]

theorem rd32_wr32_ne (b : Block) (i j v : Nat) (h : j + 4 ≤ i ∨ i + 4 ≤ j) :
    rd32 (wr32 b i v) j = rd32 b j := by
  unfold rd32
  rw [rd16_wr32_ne _ _ _ _ (by omega), rd16_wr32_ne _ _ _ _ (by omega)]

theorem rd32_wr32_same (b : Block) (i v : Nat) (h : i + 4 ≤ b.length) :
    rd32 (wr32 b i v) i = v % 4294967296 := by
  unfold rd32 wr32
  rw [rd16_wr16_ne _ _ _ _ (by omega), rd16_wr16_same _ _ _ (by omega),
    rd16_wr16_same _ _ _ (by simp; omega)]
  omega


@[simp] theorem length_Block_new (BLOCK_SIZE n : Nat) : (Block_new BLOCK_SIZE n).length = BLOCK_SIZE := by
  simp [Block_new, set_left_child, set_string_table, set_item_count, set_block_number]

theorem Block_new_fields (BLOCK_SIZE n : Nat) (h12 : 12 ≤ BLOCK_SIZE) :
    block_number (Block_new BLOCK_SIZE n) = n % 4294967296 ∧
    item_count (Block_new BLOCK_SIZE n) = 0 ∧
    string_table (Block_new BLOCK_SIZE n) = BLOCK_SIZE % 65536 ∧
    left_child (Block_new BLOCK_SIZE n) = NULL_BLOCK := by
  unfold Block_new set_left_child set_string_table set_item_count set_block_number
    block_number item_count string_table left_child
  refine ⟨?_, ?_, ?_, ?_⟩
  · rw [rd32_wr32_ne _ _ _ _ (by omega), rd32_wr16_ne _ _ _ _ (by omega),
      rd32_wr16_ne _ _ _ _ (by omega), rd32_wr32_same _ _ _ (by simp; omega)]
  · rw [rd16_wr32_ne _ _ _ _ (by omega), rd16_wr16_ne _ _ _ _ (by omega),
      rd16_wr16_same _ _ _ (by simp; omega)]
  · rw [rd16_wr32_ne _ _ _ _ (by omega), rd16_wr16_same _ _ _ (by simp; omega)]
  · rw [rd32_wr32_same _ _ _ (by simp; omega)]
    rfl

theorem deref_append_left (blocks : List Block) (b : Block) (i : Nat) (h : i < blocks.length) :
    BlockManager.deref { blocks := blocks ++ [b] } i = BlockManager.deref { blocks := blocks } i := by
  simp [BlockManager.deref, List.getElem?_append_left h]

theorem deref_append_new (blocks : List Block) (b : Block) :
    BlockManager.deref { blocks := blocks ++ [b] } blocks.length = .ok b := by
  simp [BlockManager.deref]

/-- C17: `BlockManager::allocate` on a manager with fewer than 2^32 blocks (`BLOCK_SIZE`
between 12 and 65535): the page returned carries the handle `block_count()` had before
the call, `block_count()` has grown by exactly one, the pages allocated before are the
same, and the new page is an empty leaf: `item_count` 0, `left_child` NULL_BLOCK,
`string_table` BLOCK_SIZE. -/
theorem C17_allocate_returns_next_handle (BLOCK_SIZE : Nat) (m : BlockManager)
    (h12 : 12 ≤ BLOCK_SIZE) (h16 : BLOCK_SIZE < 65536) (h32 : m.block_count < 4294967296) :
    ∃ page,
      (m.allocate BLOCK_SIZE).2.deref (m.allocate BLOCK_SIZE).1 = .ok page ∧
      block_number page = m.block_count ∧
      (m.allocate BLOCK_SIZE).2.get (block_number page) = .ok (m.allocate BLOCK_SIZE).1 ∧
      (m.allocate BLOCK_SIZE).2.block_count = m.block_count + 1 ∧
      (∀ i, i < m.block_count → (m.allocate BLOCK_SIZE).2.deref i = m.deref i) ∧
      item_count page = 0 ∧ left_child page = NULL_BLOCK ∧ is_leaf page = true ∧
      string_table page = BLOCK_SIZE := by
  obtain ⟨hn, hc, hs, hl⟩ := Block_new_fields BLOCK_SIZE (m.blocks.length % 4294967296) h12
  have hlen : m.blocks.length < 4294967296 := h32
  refine ⟨Block_new BLOCK_SIZE (m.blocks.length % 4294967296), ?_, ?_, ?_, ?_, ?_, hc, hl, ?_, ?_⟩
  · exact deref_append_new _ _
  · rw [hn, Nat.mod_mod, Nat.mod_eq_of_lt hlen]
    rfl
  · rw [hn, Nat.mod_mod, Nat.mod_eq_of_lt hlen]
    simp [BlockManager.get, BlockManager.allocate]
  · simp [BlockManager.block_count, BlockManager.allocate]
  · intro i hi
    exact deref_append_left _ _ _ hi
  · simp [is_leaf, hl]
  · rw [hs]
    exact Nat.mod_eq_of_lt h16

theorem C17_allocate_returns_next_handle_witness :
    ∃ page,
      (WordCounter.new.manager.allocate 128).2.deref (WordCounter.new.manager.allocate 128).1
        = .ok page ∧
      block_number page = WordCounter.new.manager.block_count ∧
      (WordCounter.new.manager.allocate 128).2.get (block_number page)
        = .ok (WordCounter.new.manager.allocate 128).1 ∧
      (WordCounter.new.manager.allocate 128).2.block_count
        = WordCounter.new.manager.block_count + 1 ∧
      (∀ i, i < WordCounter.new.manager.block_count →
        (WordCounter.new.manager.allocate 128).2.deref i = WordCounter.new.manager.deref i) ∧
      item_count page = 0 ∧ left_child page = NULL_BLOCK ∧ is_leaf page = true ∧
      string_table page = 128 :=
  C17_allocate_returns_next_handle 128 WordCounter.new.manager (by decide) (by decide)
    (by decide)

/-! ### C strings in the arena -/

theorem st8_ok (b : Block) (i v : Nat) (h : i < b.length) : st8 b i v = .ok (b.set i (v % 256)) := by
  simp [st8, h]

theorem strcpy_spec (s : Word) : ∀ (b : Block) (off : Nat), off + s.length < b.length →
    ∃ b', strcpy b off s = .ok b' ∧ b'.length = b.length ∧
      (∀ j, j < off ∨ off + s.length < j → b'.getD j 0 = b.getD j 0) ∧
      (∀ k, k < s.length → b'.getD (off + k) 0 = s.getD k 0 % 256) ∧
      b'.getD (off + s.length) 0 = 0 := by
  induction s with
  | nil =>
    intro b off h
    refine ⟨b.set off 0, ?_, by simp, ?_, ?_, ?_⟩
    · simp only [strcpy]
      rw [st8_ok _ _ _ (by simpa using h)]
    · intro j hj
      exact getD_set_ne _ _ _ _ (by simp at hj; omega)
    · intro k hk
      simp at hk
    · simpa using getD_set_eq b off 0 (by simpa using h)
  | cons c s ih =>
    intro b off h
    have h1 : off < b.length := by simp at h; omega
    obtain ⟨b', hb', hlen, hout, hin, hz⟩ := ih (b.set off (c % 256)) (off + 1)
      (by simp at h ⊢; omega)
    refine ⟨b', ?_, by simpa using hlen, ?_, ?_, ?_⟩
    · simp only [strcpy]
      rw [st8_ok _ _ _ h1]
      exact hb'
    · intro j hj
      rw [hout j (by simp at hj; omega)]
      exact getD_set_ne _ _ _ _ (by simp at hj; omega)
    · intro k hk
      cases k with
      | zero =>
        rw [Nat.add_zero, hout off (by omega)]
        simpa using getD_set_eq b off (c % 256) h1
      | succ k =>
        have := hin k (by simpa using hk)
        simpa [Nat.add_assoc, Nat.add_comm 1 k] using this
    · have : off + 1 + s.length = off + (c :: s).length := by simp; omega
      rw [← this]
      exact hz

theorem strcpy_length (s : Word) : ∀ (b b' : Block) (off : Nat), strcpy b off s = .ok b' →
    off + s.length < b.length ∧ b'.length = b.length := by
  induction s with
  | nil =>
    intro b b' off h
    simp only [strcpy, st8] at h
    split at h
    · injection h with h
      subst h
      simp
      assumption
    · cases h
  | cons c s ih =>
    intro b b' off h
    simp only [strcpy, st8] at h
    split at h
    · obtain ⟨h1, h2⟩ := ih _ _ _ h
      simp at h1 h2 ⊢
      omega
    · cases h

theorem string_at_spec (s : Word) : ∀ (b : Block) (off : Nat), off + s.length < b.length →
    (∀ k, k < s.length → b.getD (off + k) 0 = s.getD k 0) → b.getD (off + s.length) 0 = 0 →
    (∀ c ∈ s, c ≠ 0) → string_at b off = .ok s := by
  induction s with
  | nil =>
    intro b off h _ hz _
    have h1 : off < b.length := by simpa using h
    have hd : b.drop off = b.getD off 0 :: b.drop (off + 1) := by
      rw [List.getD_eq_getElem _ _ h1]
      exact List.drop_eq_getElem_cons h1
    simp only [List.length_nil, Nat.add_zero] at hz
    simp only [string_at]
    rw [hd, hz]
    simp
  | cons c s ih =>
    intro b off h hin hz hnz
    have h1 : off < b.length := by simp at h; omega
    have hd : b.drop off = b.getD off 0 :: b.drop (off + 1) := by
      rw [List.getD_eq_getElem _ _ h1]
      exact List.drop_eq_getElem_cons h1
    have hc : b.getD off 0 = c := by simpa using hin 0 (by simp)
    have hrec := ih b (off + 1) (by simp at h ⊢; omega)
      (fun k hk => by
        have := hin (k + 1) (by simpa using hk)
        simpa [Nat.add_assoc, Nat.add_comm 1 k] using this)
      (by
        have : off + 1 + s.length = off + (c :: s).length := by simp; omega
        rw [this]; exact hz)
      (fun x hx => hnz x (List.mem_cons_of_mem _ hx))
    have hcz : c ≠ 0 := hnz c (List.mem_cons_self _ _)
    simp only [string_at] at hrec ⊢
    rw [hd, hc]
    simp only [List.takeWhile_cons, bne_iff_ne, ne_eq, hcz, not_false_eq_true, decide_True,
      List.length_cons]
    split at hrec
    · injection hrec with hrec
      rw [hrec]
      simp
      simp at h
      omega
    · cases hrec
/-! ### Frames: what a write leaves alone -/

theorem rd16_congr (b b' : Block) (j : Nat) (h0 : b'.getD j 0 = b.getD j 0)
    (h1 : b'.getD (j + 1) 0 = b.getD (j + 1) 0) : rd16 b' j = rd16 b j := by
  unfold rd16
  rw [h0, h1]

theorem rd32_congr (b b' : Block) (j : Nat) (h0 : b'.getD j 0 = b.getD j 0)
    (h1 : b'.getD (j + 1) 0 = b.getD (j + 1) 0) (h2 : b'.getD (j + 2) 0 = b.getD (j + 2) 0)
    (h3 : b'.getD (j + 3) 0 = b.getD (j + 3) 0) : rd32 b' j = rd32 b j := by
  unfold rd32
  rw [rd16_congr b b' j h0 h1, rd16_congr b b' (j + 2) h2 h3]

theorem ld16_ok (b : Block) (i : Nat) (h : i + 2 ≤ b.length) : ld16 b i = .ok (rd16 b i) := by
  simp [ld16, h]

theorem ld32_ok (b : Block) (i : Nat) (h : i + 4 ≤ b.length) : ld32 b i = .ok (rd32 b i) := by
  simp [ld32, h]

theorem st16_ok (b : Block) (i v : Nat) (h : i + 2 ≤ b.length) : st16 b i v = .ok (wr16 b i v) := by
  simp [st16, h]

theorem st32_ok (b : Block) (i v : Nat) (h : i + 4 ≤ b.length) : st32 b i v = .ok (wr32 b i v) := by
  simp [st32, h]

/-- What `Block::initialize` does to a block whose `string_table` is the end of the arena
(a block fresh from `allocate`), when the text fits between the first item and the end. -/
theorem initialize_block_spec (b : Block) (word : Word) (count left right : Nat)
    (hst : string_table b = b.length) (h16 : b.length < 65536)
    (hfit : 20 + (c_str word).length + 1 ≤ b.length) :
    ∃ b', initialize_block b word count left right = .ok (0, b') ∧
      b'.length = b.length ∧
      block_number b' = block_number b ∧
      item_count b' = 1 ∧
      string_table b' = b.length - ((c_str word).length + 1) ∧
      left_child b' = left % 4294967296 ∧
      rd16 b' 12 = b.length - ((c_str word).length + 1) ∧
      rd16 b' 14 = count % 65536 ∧
      rd32 b' 16 = right % 4294967296 ∧
      (∀ k, k < (c_str word).length →
        b'.getD (b.length - ((c_str word).length + 1) + k) 0 = (c_str word).getD k 0 % 256) ∧
      b'.getD (b.length - 1) 0 = 0 := by
  set s := c_str word with hs
  set L := b.length with hL
  -- the blocks on the way
  set b1 := set_item_count b 0 with hb1
  set b2 := set_left_child b1 left with hb2
  have hst2 : string_table b2 = L := by
    rw [hb2, hb1]
    unfold set_left_child set_item_count string_table
    rw [rd16_wr32_ne _ _ _ _ (by omega), rd16_wr16_ne _ _ _ _ (by omega)]
    exact hst
  have hlen2 : b2.length = L := by
    simp [hb2, hb1, set_left_child, set_item_count]
  set st := L - (s.length + 1) with hstdef
  have hnew : (string_table b2 + 65536 - (s.length + 1) % 65536) % 65536 = st := by
    rw [hst2]
    have : (s.length + 1) % 65536 = s.length + 1 := Nat.mod_eq_of_lt (by omega)
    rw [this]
    omega
  set b3 := set_string_table b2 st with hb3
  have hlen3 : b3.length = L := by simp [hb3, set_string_table, hlen2]
  have hst3 : string_table b3 = st := by
    rw [hb3]
    unfold set_string_table string_table
    rw [rd16_wr16_same _ _ _ (by omega)]
    exact Nat.mod_eq_of_lt (by omega)
  obtain ⟨b4, hcpy, hlen4, hout4, hin4, hz4⟩ := strcpy_spec s b3 st (by omega)
  have hlen4' : b4.length = L := by rw [hlen4, hlen3]
  have hfr4 : ∀ j, j < 20 → b4.getD j 0 = b3.getD j 0 := fun j hj => hout4 j (by omega)
  have hst4 : string_table b4 = st := by
    unfold string_table at hst3 ⊢
    rw [rd16_congr b3 b4 6 (hfr4 6 (by omega)) (hfr4 7 (by omega))]
    exact hst3
  set b5 := wr16 b4 12 st with hb5
  set b6 := wr16 b5 (12 + 2) count with hb6
  set b7 := wr32 b6 (12 + 4) right with hb7
  have hic7 : item_count b7 = 0 := by
    unfold item_count
    rw [hb7, hb6, hb5, rd16_wr32_ne _ _ _ _ (by omega), rd16_wr16_ne _ _ _ _ (by omega),
      rd16_wr16_ne _ _ _ _ (by omega),
      rd16_congr b3 b4 4 (hfr4 4 (by omega)) (hfr4 5 (by omega)), hb3]
    unfold set_string_table
    rw [rd16_wr16_ne _ _ _ _ (by omega), hb2]
    unfold set_left_child
    rw [rd16_wr32_ne _ _ _ _ (by omega), hb1]
    unfold set_item_count
    rw [rd16_wr16_same _ _ _ (by omega)]
  set b8 := set_item_count b7 (item_count b7 + 1) with hb8
  have hlen7 : b7.length = L := by simp [hb7, hb6, hb5, hlen4']
  refine ⟨b8, ?_, ?_, ?_, ?_, ?_, ?_, ?_, ?_, ?_, ?_, ?_⟩
  · simp only [initialize_block, set_item, allocate_string, bind, Except.bind, pure,
      Except.pure]
    rw [← hs, ← hb1, ← hb2, hnew, ← hb3, hst3, hcpy]
    simp only [set_Item_offset, set_Item_count, set_Item_right_child, item_at, begin_item,
      sizeof_Item, Nat.mul_zero, Nat.add_zero]
    rw [hst4, st16_ok _ _ _ (by omega), ← hb5]
    simp only []
    rw [st16_ok _ _ _ (by simp [hb5]; omega), ← hb6]
    simp only []
    rw [st32_ok _ _ _ (by simp [hb6, hb5]; omega), ← hb7]
  · simp [hb8, set_item_count, hlen7]
  · unfold block_number
    rw [hb8]
    unfold set_item_count
    rw [rd32_wr16_ne _ _ _ _ (by omega), hb7, hb6, hb5, rd32_wr32_ne _ _ _ _ (by omega),
      rd32_wr16_ne _ _ _ _ (by omega), rd32_wr16_ne _ _ _ _ (by omega),
      rd32_congr b3 b4 0 (hfr4 0 (by omega)) (hfr4 1 (by omega)) (hfr4 2 (by omega))
        (hfr4 3 (by omega)), hb3]
    unfold set_string_table
    rw [rd32_wr16_ne _ _ _ _ (by omega), hb2]
    unfold set_left_child
    rw [rd32_wr32_ne _ _ _ _ (by omega), hb1]
    unfold set_item_count
    rw [rd32_wr16_ne _ _ _ _ (by omega)]
  · rw [hb8, hic7]
    unfold set_item_count item_count
    rw [rd16_wr16_same _ _ _ (by omega)]
  · unfold string_table
    rw [hb8]
    unfold set_item_count
    rw [rd16_wr16_ne _ _ _ _ (by omega), hb7, hb6, hb5, rd16_wr32_ne _ _ _ _ (by omega),
      rd16_wr16_ne _ _ _ _ (by omega), rd16_wr16_ne _ _ _ _ (by omega)]
    exact hst4
  · unfold left_child
    rw [hb8]
    unfold set_item_count
    rw [rd32_wr16_ne _ _ _ _ (by omega), hb7, hb6, hb5, rd32_wr32_ne _ _ _ _ (by omega),
      rd32_wr16_ne _ _ _ _ (by omega), rd32_wr16_ne _ _ _ _ (by omega),
      rd32_congr b3 b4 8 (hfr4 8 (by omega)) (hfr4 9 (by omega)) (hfr4 10 (by omega))
        (hfr4 11 (by omega)), hb3]
    unfold set_string_table
    rw [rd32_wr16_ne _ _ _ _ (by omega), hb2]
    unfold set_left_child
    rw [rd32_wr32_same _ _ _ (by simp [hb1, set_item_count]; omega)]
  · rw [hb8]
    unfold set_item_count
    rw [rd16_wr16_ne _ _ _ _ (by omega), hb7, hb6, rd16_wr32_ne _ _ _ _ (by omega),
      rd16_wr16_ne _ _ _ _ (by omega), hb5, rd16_wr16_same _ _ _ (by omega)]
    exact Nat.mod_eq_of_lt (by omega)
  · rw [hb8]
    unfold set_item_count
    rw [rd16_wr16_ne _ _ _ _ (by omega), hb7, rd16_wr32_ne _ _ _ _ (by omega), hb6,
      rd16_wr16_same _ _ _ (by simp [hb5]; omega)]
  · rw [hb8]
    unfold set_item_count
    rw [rd32_wr16_ne _ _ _ _ (by omega), hb7,
      rd32_wr32_same _ _ _ (by simp [hb6, hb5]; omega)]
  · intro k hk
    rw [hb8]
    unfold set_item_count
    rw [getD_wr16_ne _ _ _ _ (by omega) (by omega), hb7, getD_wr32_ne _ _ _ _ (by omega),
      hb6, getD_wr16_ne _ _ _ _ (by omega) (by omega), hb5,
      getD_wr16_ne _ _ _ _ (by omega) (by omega)]
    exact hin4 k hk
  · rw [hb8]
    unfold set_item_count
    rw [getD_wr16_ne _ _ _ _ (by omega) (by omega), hb7, getD_wr32_ne _ _ _ _ (by omega),
      hb6, getD_wr16_ne _ _ _ _ (by omega) (by omega), hb5,
      getD_wr16_ne _ _ _ _ (by omega) (by omega)]
    have : L - 1 = st + s.length := by omega
    rw [this]
    exact hz4
theorem c_str_of_no_nul (word : Word) (h : ∀ c ∈ word, 0 < c ∧ c < 256) : c_str word = word := by
  unfold c_str
  rw [List.takeWhile_eq_self_iff]
  intro c hc
  have := (h c hc).1
  simp
  omega

theorem getD_mod_of_proper (word : Word) (h : ∀ c ∈ word, 0 < c ∧ c < 256) (k : Nat)
    (hk : k < word.length) : word.getD k 0 % 256 = word.getD k 0 := by
  rw [List.getD_eq_getElem _ _ hk]
  exact Nat.mod_eq_of_lt (h _ (List.getElem_mem _)).2

set_option maxRecDepth 100000 in
/-- C14 (as stated, refuted): the accepted word `a`, NUL, `b` (length 3) added to the empty
index gives a leaf whose only key is `a` and whose `string_table` is 126, not
128 - (3 + 1). -/
theorem C14_word_with_nul_is_cut :
    ∃ wc page,
      WordCounter.new.add_word 128 [97, 0, 98] = .ok (0, wc) ∧
      wc.manager.deref wc.root_ = .ok page ∧
      page_pairs page = .ok [([97], 1)] ∧ string_table page = 126 ∧
      ([97, 0, 98] : Word).length + 1 ≤ MAX_WORD_LEN 128 :=
  ⟨_, _, rfl, rfl, rfl, rfl, by decide⟩

/-- C14 (amended): on an empty index (`root_` is NULL_BLOCK, fewer than 2^32 blocks,
`BLOCK_SIZE` between 26 and 65535) `add_word` of an accepted word without NUL byte returns
0, allocates exactly one block and makes it the root; that block is a leaf with
`item_count` 1 whose item has count 1, `right_child` NULL_BLOCK and the text of the word,
NUL-terminated, at `string_table = BLOCK_SIZE - (length + 1)`. -/
theorem C14_first_word_makes_a_leaf_root (BLOCK_SIZE : Nat) (wc : WordCounter) (word : Word)
    (h26 : 26 ≤ BLOCK_SIZE) (h16 : BLOCK_SIZE < 65536)
    (h32 : wc.manager.block_count < 4294967296)
    (hroot : wc.root_ = NULL_BLOCK)
    (hacc : word.length + 1 ≤ MAX_WORD_LEN BLOCK_SIZE)
    (hword : ∀ c ∈ word, 0 < c ∧ c < 256) :
    ∃ wc' page,
      wc.add_word BLOCK_SIZE word = .ok (0, wc') ∧
      wc'.manager.block_count = wc.manager.block_count + 1 ∧
      (∀ i, i < wc.manager.block_count → wc'.manager.deref i = wc.manager.deref i) ∧
      wc'.root_ = wc.manager.block_count ∧
      wc'.manager.deref wc'.root_ = .ok page ∧
      item_count page = 1 ∧ is_leaf page = true ∧
      Item_right_child page (item_at 0) = .ok NULL_BLOCK ∧
      Item_count page (item_at 0) = .ok 1 ∧
      string_table page = BLOCK_SIZE - (word.length + 1) ∧
      Item_offset page (item_at 0) = .ok (string_table page) ∧
      string_at page (string_table page) = .ok word ∧
      page.getD (string_table page + word.length) 0 = 0 := by
  have hmax : MAX_WORD_LEN BLOCK_SIZE = BLOCK_SIZE / 4 := by
    unfold MAX_WORD_LEN
    exact Nat.mod_eq_of_lt (by omega)
  rw [hmax] at hacc
  have hcs := c_str_of_no_nul word hword
  have hblen : wc.manager.blocks.length < 4294967296 := h32
  have hmod : wc.manager.blocks.length % 4294967296 = wc.manager.blocks.length :=
    Nat.mod_eq_of_lt hblen
  obtain ⟨hn, hc, hs, hl⟩ :=
    Block_new_fields BLOCK_SIZE (wc.manager.blocks.length % 4294967296) (by omega)
  rw [hmod] at hn hc hs hl
  obtain ⟨b', hinit, hlen', hbn, hic, hst, hlc, ho, hcnt, hrc, hbytes, hnul⟩ :=
    initialize_block_spec (Block_new BLOCK_SIZE wc.manager.blocks.length) word 1
      NULL_BLOCK NULL_BLOCK
      (by rw [hs, length_Block_new]; exact Nat.mod_eq_of_lt h16)
      (by rw [length_Block_new]; exact h16)
      (by rw [length_Block_new, hcs]; omega)
  rw [length_Block_new] at hlen' hst ho hbytes hnul
  rw [hcs] at hst ho hbytes
  have hL : b'.length = BLOCK_SIZE := hlen'
  refine ⟨{ root_ := wc.manager.blocks.length,
            manager := { blocks := ((wc.manager.blocks ++ [Block_new BLOCK_SIZE
              wc.manager.blocks.length]).set wc.manager.blocks.length b') } },
          b', ?_, ?_, ?_, rfl, ?_, hic, ?_, ?_, ?_, hst, ?_, ?_, ?_⟩
  · have hgt : ¬ (word.length + 1 > MAX_WORD_LEN BLOCK_SIZE) := by rw [hmax]; omega
    simp only [WordCounter.add_word, hgt, if_false, hroot, if_true, BlockManager.allocate,
      bind, Except.bind, pure, Except.pure, hmod]
    rw [deref_append_new]
    simp only []
    rw [hinit]
    simp only [BlockManager.assign, hn, hmod]
  · simp [BlockManager.block_count]
  · intro i hi
    have hi' : i < wc.manager.blocks.length := hi
    simp only [BlockManager.deref, List.get?_eq_getElem?]
    rw [List.getElem?_set_ne (by omega), List.getElem?_append_left hi']
  · simp [BlockManager.deref]
  · simp [is_leaf, hlc, NULL_BLOCK]
  · simp only [Item_right_child, item_at, begin_item, sizeof_Item]
    rw [ld32_ok _ _ (by omega), hrc]
    rfl
  · simp only [Item_count, item_at, begin_item, sizeof_Item]
    rw [ld16_ok _ _ (by omega), hcnt]
  · simp only [Item_offset, item_at, begin_item, sizeof_Item]
    rw [ld16_ok _ _ (by omega), ho, hst]
  · rw [hst]
    apply string_at_spec word b' _ (by omega)
    · intro k hk
      rw [hbytes k hk]
      exact getD_mod_of_proper word hword k hk
    · have : BLOCK_SIZE - (word.length + 1) + word.length = BLOCK_SIZE - 1 := by omega
      rw [this]
      exact hnul
    · intro c hc
      have := (hword c hc).1
      omega
  · rw [hst]
    have : BLOCK_SIZE - (word.length + 1) + word.length = BLOCK_SIZE - 1 := by omega
    rw [this]
    exact hnul
/-! ### Return values and block counts -/

theorem shift_items_ret (b : Block) (item : Nat) (word : Word) (count left right : Nat)
    (r : Int) (b' : Block) (h : shift_items b item word count left right = .ok (r, b')) :
    r = 0 := by
  unfold shift_items at h
  simp only [bind, Except.bind, pure, Except.pure] at h
  repeat' split at h
  all_goals cases h
  all_goals rfl

theorem length_assign (m : BlockManager) (p : Nat) (b : Block) :
    (m.assign p b).blocks.length = m.blocks.length := by
  simp [BlockManager.assign]

theorem insert_split_ret (BLOCK_SIZE : Nat) (m : BlockManager) (this_p insert_point : Nat)
    (word : Word) (count left right : Nat) (promotion : Promotion)
    (r : Int) (p' : Promotion) (m' : BlockManager)
    (h : insert_split BLOCK_SIZE m this_p insert_point word count left right promotion
      = .ok (r, p', m')) :
    r = 1 ∧ m'.blocks.length = m.blocks.length + 1 := by
  unfold insert_split at h
  simp only [bind, Except.bind, pure, Except.pure, BlockManager.allocate] at h
  repeat' split at h
  all_goals cases h
  all_goals simp [BlockManager.assign]

theorem Block_add_word_ret (BLOCK_SIZE : Nat) : ∀ (fuel : Nat) (m : BlockManager) (this_p : Nat)
    (word : Word) (promotion : Promotion) (r : Int) (p' : Promotion) (m' : BlockManager),
    Block_add_word BLOCK_SIZE fuel m this_p word promotion = .ok (r, p', m') →
    (r = 0 ∨ r = 1) ∧ m.blocks.length ≤ m'.blocks.length := by
  intro fuel
  induction fuel with
  | zero =>
    intro m this_p word promotion r p' m' h
    simp [Block_add_word, throw, throwThe, MonadExceptOf.throw] at h
  | succ fuel ih =>
    intro m this_p word promotion r p' m' h
    unfold Block_add_word at h
    simp only [bind, Except.bind, pure, Except.pure] at h
    split at h
    · cases h
    split at h
    · cases h
    split at h
    · split at h
      · cases h
      split at h
      · cases h
      cases h
      simp [BlockManager.assign]
    split at h
    · split at h
      · split at h
        · cases h
        rename_i x r' b' hsh
        have := shift_items_ret _ _ _ _ _ _ _ _ hsh
        cases h
        simp [BlockManager.assign, this]
      · have := insert_split_ret _ _ _ _ _ _ _ _ _ _ _ _ h
        omega
    · split at h
      · cases h
      split at h
      · cases h
      split at h
      · cases h
      split at h
      · cases h
      rename_i hrec
      have hih := ih _ _ _ _ _ _ _ hrec
      split at h
      · cases h
        omega
      split at h
      · cases h
      split at h
      · split at h
        · cases h
        rename_i hsh
        have := shift_items_ret _ _ _ _ _ _ _ _ hsh
        cases h
        simp [BlockManager.assign, this]
        omega
      · have := insert_split_ret _ _ _ _ _ _ _ _ _ _ _ _ h
        omega
/-! ### Root split -/

theorem tree_height_frame : ∀ (fuel : Nat) (m m2 : BlockManager) (blocknum d : Nat),
    m.blocks.length ≤ m2.blocks.length →
    (∀ i, i < m.blocks.length → m2.deref i = m.deref i) →
    tree_height fuel m blocknum = .ok d → tree_height fuel m2 blocknum = .ok d := by
  intro fuel
  induction fuel with
  | zero =>
    intro m m2 blocknum d _ _ h
    simp [tree_height, throw, throwThe, MonadExceptOf.throw] at h
  | succ fuel ih =>
    intro m m2 blocknum d hle hsame h
    unfold tree_height at h ⊢
    simp only [bind, Except.bind, pure, Except.pure, BlockManager.get] at h ⊢
    split at h
    · cases h
    rename_i p hp
    split at hp
    · injection hp with hp
      subst hp
      rename_i hlt
      have hlt2 : blocknum < m2.blocks.length := by omega
      simp only [hlt2, if_true]
      rw [hsame blocknum hlt]
      split at h
      · cases h
      rename_i this hthis
      split at h
      · cases h
        rename_i hleaf
        simp [hleaf]
      · rename_i hleaf
        simp only [hleaf]
        split at h
        · cases h
        rename_i below hbelow
        rw [ih m m2 _ below hle hsame hbelow]
        exact h
    · cases hp

/-- The method `WordCounter::add_word` on a non-empty index, for an accepted word, when the root
page's `add_word` returns `result` with the promotion `promotion` and the manager `m'`
(`BLOCK_SIZE` between 26 and 65535; the promotion holds a 16-bit count, a 32-bit handle and
a pivot of accepted length with bytes below 256; fewer than 2^32 blocks).  If `result` is
not positive the root handle stays and `result` is returned.  Otherwise `result` is 1, 0 is
returned, and the root handle changes to a block allocated by this call, which holds one
item, the pivot with the promoted count, has the old root as `left_child` and the promoted
sibling as the item's `right_child`; the blocks that existed are unchanged and the height
of the tree grows by exactly one. -/
theorem new_root_on_split (BLOCK_SIZE : Nat) (wc : WordCounter) (word : Word)
    (root_p : Nat) (result : Int) (promotion : Promotion) (m' : BlockManager)
    (h26 : 26 ≤ BLOCK_SIZE) (h16 : BLOCK_SIZE < 65536)
    (hroot : wc.root_ ≠ NULL_BLOCK)
    (hacc : word.length + 1 ≤ MAX_WORD_LEN BLOCK_SIZE)
    (hget : wc.manager.get wc.root_ = .ok root_p)
    (hrun : Block_add_word BLOCK_SIZE wc.manager.block_count wc.manager root_p word
      Promotion.fresh = .ok (result, promotion, m'))
    (h32 : m'.block_count < 4294967296)
    (hcount : promotion.count < 65536) (hsibling : promotion.new_sibling < 4294967296)
    (hpivot : (c_str promotion.pivot_word).length + 1 ≤ MAX_WORD_LEN BLOCK_SIZE)
    (hbytes : ∀ c ∈ promotion.pivot_word, c < 256) :
    (result ≤ 0 →
      wc.add_word BLOCK_SIZE word = .ok (result, { root_ := wc.root_, manager := m' })) ∧
    (0 < result →
      result = 1 ∧
      ∃ wc' new_root,
        wc.add_word BLOCK_SIZE word = .ok (0, wc') ∧
        wc'.root_ ≠ wc.root_ ∧ wc'.root_ = m'.block_count ∧
        wc.manager.block_count ≤ wc'.root_ ∧
        wc'.manager.block_count = m'.block_count + 1 ∧
        (∀ i, i < m'.block_count → wc'.manager.deref i = m'.deref i) ∧
        wc'.manager.deref wc'.root_ = .ok new_root ∧
        item_count new_root = 1 ∧
        left_child new_root = wc.root_ ∧
        Item_right_child new_root (item_at 0) = .ok promotion.new_sibling ∧
        Item_count new_root (item_at 0) = .ok promotion.count ∧
        Item_offset new_root (item_at 0) = .ok (string_table new_root) ∧
        string_at new_root (string_table new_root) = .ok (c_str promotion.pivot_word) ∧
        (∀ d, tree_height m'.block_count m' wc.root_ = .ok d → wc'.height = .ok (d + 1))) := by
  have hmax : MAX_WORD_LEN BLOCK_SIZE = BLOCK_SIZE / 4 := by
    unfold MAX_WORD_LEN
    exact Nat.mod_eq_of_lt (by omega)
  have hgt : ¬ (word.length + 1 > MAX_WORD_LEN BLOCK_SIZE) := by omega
  obtain ⟨hr01, hmono⟩ := Block_add_word_ret _ _ _ _ _ _ _ _ _ hrun
  have hrlt : wc.root_ < wc.manager.blocks.length := by
    simp only [BlockManager.get] at hget
    split at hget
    · assumption
    · cases hget
  constructor
  · intro hle
    simp only [WordCounter.add_word, hgt, if_false, hroot, hget, bind, Except.bind, pure,
      Except.pure, hrun, hle, if_true]
  · intro hpos
    have hr1 : result = 1 := by omega
    refine ⟨hr1, ?_⟩
    have hnle : ¬ (result ≤ 0) := by omega
    have hblen : m'.blocks.length < 4294967296 := h32
    have hmod : m'.blocks.length % 4294967296 = m'.blocks.length := Nat.mod_eq_of_lt hblen
    obtain ⟨hn, hc, hs, hl⟩ := Block_new_fields BLOCK_SIZE m'.blocks.length (by omega)
    rw [hmod] at hn
    rw [hmax] at hpivot
    obtain ⟨b', hinit, hlen', hbn, hic, hst, hlc, ho, hcnt, hrc, hbs, hnul⟩ :=
      initialize_block_spec (Block_new BLOCK_SIZE m'.blocks.length) promotion.pivot_word
        promotion.count wc.root_ promotion.new_sibling
        (by rw [hs, length_Block_new]; exact Nat.mod_eq_of_lt h16)
        (by rw [length_Block_new]; exact h16)
        (by rw [length_Block_new]; omega)
    rw [length_Block_new] at hlen' hst ho hbs hnul
    rw [hn] at hbn
    have hlc' : left_child b' = wc.root_ := by
      rw [hlc]
      exact Nat.mod_eq_of_lt (by omega)
    refine ⟨{ root_ := m'.blocks.length,
              manager := { blocks := ((m'.blocks ++ [Block_new BLOCK_SIZE m'.blocks.length]).set
                m'.blocks.length b') } }, b', ?_, ?_, rfl, hmono, ?_, ?_, ?_, hic, hlc', ?_, ?_,
              ?_, ?_, ?_⟩
    · simp only [WordCounter.add_word, hgt, if_false, hroot, hget, bind, Except.bind, pure,
        Except.pure, hrun, hnle, BlockManager.allocate, hmod]
      rw [deref_append_new]
      simp only []
      rw [hinit]
      simp only [BlockManager.assign, hbn]
    · show m'.blocks.length ≠ wc.root_
      omega
    · simp [BlockManager.block_count]
    · intro i hi
      have hi' : i < m'.blocks.length := hi
      simp only [BlockManager.deref, List.get?_eq_getElem?]
      rw [List.getElem?_set_ne (by omega), List.getElem?_append_left hi']
    · simp [BlockManager.deref]
    · simp only [Item_right_child, item_at, begin_item, sizeof_Item]
      rw [ld32_ok _ _ (by omega), hrc, Nat.mod_eq_of_lt hsibling]
    · simp only [Item_count, item_at, begin_item, sizeof_Item]
      rw [ld16_ok _ _ (by omega), hcnt, Nat.mod_eq_of_lt hcount]
    · simp only [Item_offset, item_at, begin_item, sizeof_Item]
      rw [ld16_ok _ _ (by omega), ho, hst]
    · rw [hst]
      have hcmem : ∀ c ∈ c_str promotion.pivot_word, c ≠ 0 ∧ c < 256 := by
        intro c hc
        unfold c_str at hc
        have h1 := List.mem_takeWhile_imp hc
        have h2 := hbytes c (List.takeWhile_sublist _ |>.subset hc)
        simp at h1
        exact ⟨h1, h2⟩
      apply string_at_spec (c_str promotion.pivot_word) b' _ (by omega)
      · intro k hk
        rw [hbs k hk, List.getD_eq_getElem _ _ hk]
        exact Nat.mod_eq_of_lt (hcmem _ (List.getElem_mem _)).2
      · have : BLOCK_SIZE - ((c_str promotion.pivot_word).length + 1)
            + (c_str promotion.pivot_word).length = BLOCK_SIZE - 1 := by omega
        rw [this]
        exact hnul
      · intro c hc
        exact (hcmem c hc).1
    · intro d hd
      have hframe := tree_height_frame m'.blocks.length m'
        { blocks := ((m'.blocks ++ [Block_new BLOCK_SIZE m'.blocks.length]).set
            m'.blocks.length b') } wc.root_ d (by simp)
        (by
          intro i hi
          simp only [BlockManager.deref, List.get?_eq_getElem?]
          rw [List.getElem?_set_ne (by omega), List.getElem?_append_left hi])
        hd
      have hnl : is_leaf b' = false := by
        simp only [is_leaf, hlc', beq_eq_false_iff_ne, ne_eq]
        exact hroot
      simp only [WordCounter.height, BlockManager.block_count, List.length_set,
        List.length_append, List.length_singleton]
      unfold tree_height
      simp only [bind, Except.bind, pure, Except.pure, BlockManager.get, List.length_set,
        List.length_append, List.length_singleton, Nat.lt_succ_self, if_true]
      have hd' : BlockManager.deref
          { blocks := ((m'.blocks ++ [Block_new BLOCK_SIZE m'.blocks.length]).set
            m'.blocks.length b') } m'.blocks.length = .ok b' := by
        simp [BlockManager.deref]
      rw [hd']
      simp only [hnl, hlc']
      rw [hframe]
      rfl
set_option maxRecDepth 100000 in
theorem new_root_on_split_example :
    ∃ wc', (index_after 36 [rep 97 1, rep 98 1]).add_word 36 (rep 99 1) = .ok (0, wc') ∧
      wc'.root_ ≠ (index_after 36 [rep 97 1, rep 98 1]).root_ ∧ wc'.height = .ok 1 := by
  have h := (new_root_on_split 36 (index_after 36 [rep 97 1, rep 98 1])
    (rep 99 1) 0 1 { pivot_word := rep 98 1, count := 1, new_sibling := 1 } _
    (by decide) (by decide) (by decide) (by decide) rfl rfl (by decide) (by decide)
    (by decide) (by decide) (by decide)).2 (by decide)
  obtain ⟨_, wc', _, h1, h2, _, _, _, _, _, _, _, _, _, _, _, h3⟩ := h
  exact ⟨wc', h1, h2, h3 0 rfl⟩

theorem C14_first_word_makes_a_leaf_root_witness :
    ∃ wc' page,
      WordCounter.new.add_word 128 (rep 97 1) = .ok (0, wc') ∧
      wc'.manager.block_count = WordCounter.new.manager.block_count + 1 ∧
      (∀ i, i < WordCounter.new.manager.block_count →
        wc'.manager.deref i = WordCounter.new.manager.deref i) ∧
      wc'.root_ = WordCounter.new.manager.block_count ∧
      wc'.manager.deref wc'.root_ = .ok page ∧
      item_count page = 1 ∧ is_leaf page = true ∧
      Item_right_child page (item_at 0) = .ok NULL_BLOCK ∧
      Item_count page (item_at 0) = .ok 1 ∧
      string_table page = 128 - ((rep 97 1).length + 1) ∧
      Item_offset page (item_at 0) = .ok (string_table page) ∧
      string_at page (string_table page) = .ok (rep 97 1) ∧
      page.getD (string_table page + (rep 97 1).length) 0 = 0 :=
  C14_first_word_makes_a_leaf_root 128 WordCounter.new (rep 97 1) (by decide) (by decide)
    (by decide) rfl (by decide) (by decide)

/-! ### A word that is already a key -/

theorem Block_add_word_found (BLOCK_SIZE : Nat) : ∀ (fuel : Nat) (m : BlockManager)
    (this_p : Nat) (word : Word) (promotion : Promotion) (q item : Nat),
    find_word fuel m this_p word = .ok (some (q, item)) →
    ∃ page, m.deref q = .ok page ∧ item + 4 ≤ page.length ∧
      Block_add_word BLOCK_SIZE fuel m this_p word promotion
        = .ok (0, promotion, m.assign q (wr16 page (item + 2) (rd16 page (item + 2) + 1))) := by
  intro fuel
  induction fuel with
  | zero =>
    intro m this_p word promotion q item h
    simp [find_word, throw, throwThe, MonadExceptOf.throw] at h
  | succ fuel ih =>
    intro m this_p word promotion q item h
    unfold find_word at h
    unfold Block_add_word
    simp only [bind, Except.bind, pure, Except.pure] at h ⊢
    split at h
    · cases h
    rename_i this hthis
    split at h
    · cases h
    rename_i sc hsc
    split at h
    · rename_i hfound
      split at h
      · cases h
      rename_i cnt hcnt
      injection h with h
      injection h with h
      injection h with h1 h2
      subst h1 h2
      simp only [hfound, if_true]
      refine ⟨this, hthis, ?_⟩
      have hb : sc.item + 2 + 2 ≤ this.length := by
        simp only [Item_count, ld16] at hcnt
        split at hcnt
        · assumption
        · cases hcnt
      refine ⟨by omega, ?_⟩
      have hc2 : cnt = rd16 this (sc.item + 2) := by
        simp only [Item_count] at hcnt
        rw [ld16_ok _ _ hb] at hcnt
        injection hcnt with hcnt
        exact hcnt.symm
      subst hc2
      simp only [set_Item_count]
      rw [st16_ok _ _ _ hb]
    · rename_i hfound
      simp only [hfound]
      split at h
      · cases h
      rename_i hleaf
      simp only [hleaf]
      split at h
      · cases h
      rename_i cn hcn
      split at h
      · cases h
      rename_i cp hcp
      split at h
      · cases h
      rename_i child hchild
      obtain ⟨page, hpage, hlen, hrun⟩ := ih m cp word Promotion.fresh q item h
      refine ⟨page, hpage, hlen, ?_⟩
      rw [hrun]
      simp
theorem wr16_wr16_same (b : Block) (i v w : Nat) : wr16 (wr16 b i v) i w = wr16 b i w := by
  unfold wr16
  apply List.ext_getElem?
  intro n
  simp only [List.getElem?_set, List.length_set]
  split_ifs <;> rfl

theorem wr16_congr_mod (b : Block) (i v w : Nat) (h : v % 65536 = w % 65536) :
    wr16 b i v = wr16 b i w := by
  unfold wr16
  have h1 : v % 256 = w % 256 := by omega
  have h2 : v / 256 % 256 = w / 256 % 256 := by omega
  rw [h1, h2]

set_option maxRecDepth 100000 in
theorem find_word_index_a (count : Nat) :
    find_word 1 (index_a count).manager 0 (rep 97 1) = .ok (some (0, item_at 0)) := rfl

set_option maxRecDepth 100000 in
theorem length_page_a : page_a.length = 128 := rfl

set_option maxRecDepth 100000 in
theorem Block_add_word_index_a (count : Nat) :
    Block_add_word 128 1 (index_a count).manager 0 (rep 97 1) Promotion.fresh
      = .ok (0, Promotion.fresh, (index_a (count + 1)).manager) := by
  obtain ⟨page, hpage, _, hrun⟩ := Block_add_word_found 128 1 (index_a count).manager 0
    (rep 97 1) Promotion.fresh 0 (item_at 0) (find_word_index_a count)
  have hp : page = wr16 page_a (item_at 0 + 2) count := by
    have h2 : (index_a count).manager.deref 0 = .ok (wr16 page_a (item_at 0 + 2) count) := rfl
    rw [h2] at hpage
    injection hpage with hpage
    exact hpage.symm
  subst hp
  rw [hrun]
  have hrd : rd16 (wr16 page_a (item_at 0 + 2) count) (item_at 0 + 2) = count % 65536 :=
    rd16_wr16_same _ _ _ (by rw [length_page_a]; decide)
  rw [hrd, wr16_wr16_same, wr16_congr_mod _ _ (count % 65536 + 1) (count + 1) (by omega)]
  rfl

theorem add_word_index_a (count : Nat) :
    (index_a count).add_word 128 (rep 97 1) = .ok (0, index_a (count + 1)) := by
  have hacc : ¬ ((rep 97 1).length + 1 > MAX_WORD_LEN 128) := by decide
  have hroot : (index_a count).root_ ≠ NULL_BLOCK := by
    show (0 : Nat) ≠ NULL_BLOCK
    decide
  have hget : (index_a count).manager.get (index_a count).root_ = .ok 0 := rfl
  have hbc : (index_a count).manager.block_count = 1 := rfl
  unfold WordCounter.add_word
  rw [if_neg hacc, if_neg hroot]
  simp only [bind, Except.bind, pure, Except.pure]
  rw [hget]
  simp only [hbc]
  rw [Block_add_word_index_a]
  rfl

theorem add_words_index_a (k : Nat) : ∀ count : Nat,
    add_words 128 (index_a count) (List.replicate k (rep 97 1))
      = .ok (List.replicate k 0, index_a (count + k)) := by
  induction k with
  | zero => intro count; rfl
  | succ k ih =>
    intro count
    simp only [List.replicate_succ, add_words, bind, Except.bind, pure, Except.pure]
    rw [add_word_index_a]
    simp only []
    rw [ih (count + 1)]
    simp only [Nat.add_assoc, Nat.add_comm 1 k]

set_option maxRecDepth 100000 in
theorem add_word_new_a : WordCounter.new.add_word 128 (rep 97 1) = .ok (0, index_a 1) := rfl

/-- The index after `k + 1` calls of `add_word` with the word `a` on a fresh index. -/
theorem add_words_same_word (k : Nat) :
    add_words 128 WordCounter.new (List.replicate (k + 1) (rep 97 1))
      = .ok (List.replicate (k + 1) 0, index_a (k + 1)) := by
  simp only [List.replicate_succ, add_words, bind, Except.bind, pure, Except.pure]
  rw [add_word_new_a]
  simp only []
  rw [add_words_index_a k 1]
  simp only [Nat.add_comm 1 k]

theorem index_a_wraps : index_a 65536 = index_a 0 := by
  unfold index_a
  rw [wr16_congr_mod _ _ 65536 0 (by decide)]

set_option maxRecDepth 100000 in
/-- The count of an item has 16 bits: after 65535 calls with the word `a` the index holds `a` with
count 65535; one more call with `a` returns 0 and leaves the count 0, not 65536. -/
theorem count_wraps_to_zero :
    ∃ wc wc' page page',
      add_words 128 WordCounter.new (List.replicate 65535 (rep 97 1))
        = .ok (List.replicate 65535 0, wc) ∧
      wc.manager.deref 0 = .ok page ∧ page_pairs page = .ok [(rep 97 1, 65535)] ∧
      wc.add_word 128 (rep 97 1) = .ok (0, wc') ∧
      wc'.manager.deref 0 = .ok page' ∧ page_pairs page' = .ok [(rep 97 1, 0)] :=
  ⟨index_a 65535, index_a 65536, _, _, add_words_same_word 65534, rfl, rfl,
    add_word_index_a 65535, rfl, rfl⟩
/-- When the search of `add_word` for an accepted word from the root of a
non-empty index reaches an item whose text is the word (block `q`, item pointer `item`),
`WordCounter::add_word` returns 0, the root handle and the number of blocks stay, every
other block stays, and in block `q` only the two bytes of the item's count field change:
the count becomes the old count plus one modulo 65536. -/
theorem found_word_only_bumps_its_count (BLOCK_SIZE : Nat) (wc : WordCounter)
    (word : Word) (root_p q item : Nat)
    (hroot : wc.root_ ≠ NULL_BLOCK)
    (hacc : word.length + 1 ≤ MAX_WORD_LEN BLOCK_SIZE)
    (hget : wc.manager.get wc.root_ = .ok root_p)
    (hfind : find_word wc.manager.block_count wc.manager root_p word = .ok (some (q, item))) :
    ∃ wc' page page' count,
      wc.add_word BLOCK_SIZE word = .ok (0, wc') ∧
      wc'.root_ = wc.root_ ∧
      wc'.manager.block_count = wc.manager.block_count ∧
      wc.manager.deref q = .ok page ∧ wc'.manager.deref q = .ok page' ∧
      (∀ p, p ≠ q → wc'.manager.deref p = wc.manager.deref p) ∧
      page'.length = page.length ∧
      (∀ j, j ≠ item + 2 → j ≠ item + 3 → page'.getD j 0 = page.getD j 0) ∧
      Item_count page item = .ok count ∧
      Item_count page' item = .ok ((count + 1) % 65536) := by
  obtain ⟨page, hpage, hlen, hrun⟩ := Block_add_word_found BLOCK_SIZE wc.manager.block_count
    wc.manager root_p word Promotion.fresh q item hfind
  have hgt : ¬ (word.length + 1 > MAX_WORD_LEN BLOCK_SIZE) := by omega
  have hq : q < wc.manager.blocks.length := by
    simp only [BlockManager.deref, List.get?_eq_getElem?] at hpage
    by_contra hge
    rw [List.getElem?_eq_none (by omega)] at hpage
    cases hpage
  refine ⟨{ root_ := wc.root_, manager := (wc.manager.assign q
      (wr16 page (item + 2) (rd16 page (item + 2) + 1))) },
    page, wr16 page (item + 2) (rd16 page (item + 2) + 1), rd16 page (item + 2),
    ?_, rfl, ?_, hpage, ?_, ?_, ?_, ?_, ?_, ?_⟩
  · simp only [WordCounter.add_word, hgt, if_false, hroot, hget, bind, Except.bind, pure,
      Except.pure, hrun, le_refl, if_true]
  · simp [BlockManager.block_count, BlockManager.assign]
  · simp [BlockManager.deref, BlockManager.assign, hq]
  · intro p hp
    simp only [BlockManager.deref, BlockManager.assign, List.get?_eq_getElem?]
    rw [List.getElem?_set_ne (Ne.symm hp)]
  · simp
  · intro j h1 h2
    exact getD_wr16_ne _ _ _ _ h1 (by omega)
  · simp only [Item_count]
    rw [ld16_ok _ _ (by omega)]
  · simp only [Item_count]
    rw [ld16_ok _ _ (by simp; omega), rd16_wr16_same _ _ _ (by omega)]

set_option maxRecDepth 100000 in
/-- The word `b` on the index holding `a` and `b`: only its count changes. -/
theorem found_word_only_bumps_its_count_example :
    ∃ wc' page page' count,
      (index_after 128 [rep 97 1, rep 98 1]).add_word 128 (rep 98 1) = .ok (0, wc') ∧
      wc'.root_ = (index_after 128 [rep 97 1, rep 98 1]).root_ ∧
      wc'.manager.block_count = (index_after 128 [rep 97 1, rep 98 1]).manager.block_count ∧
      (index_after 128 [rep 97 1, rep 98 1]).manager.deref 0 = .ok page ∧
      wc'.manager.deref 0 = .ok page' ∧
      (∀ p, p ≠ 0 →
        wc'.manager.deref p = (index_after 128 [rep 97 1, rep 98 1]).manager.deref p) ∧
      page'.length = page.length ∧
      (∀ j, j ≠ item_at 1 + 2 → j ≠ item_at 1 + 3 → page'.getD j 0 = page.getD j 0) ∧
      Item_count page (item_at 1) = .ok count ∧
      Item_count page' (item_at 1) = .ok ((count + 1) % 65536) :=
  found_word_only_bumps_its_count 128 (index_after 128 [rep 97 1, rep 98 1])
    (rep 98 1) 0 0 (item_at 1) (by decide) (by decide) rfl rfl

set_option maxRecDepth 100000 in
/-- C15: with `BLOCK_SIZE = 64`, after seven accepted words (every call returned 0) the left
child of the root, block 0, holds the key `[2]` with count 1 as its second item, behind an
item whose offset points into the item table and reads as the key `[255, 58]`.  The scan of
`add_word` for the word `[2]` stops at that first item, so the word is not found although it
is a key of the tree: the call returns 0, block 0 gets a sixth item, a second key `[2]` with
count 1, the count of the key `[2]` that was there stays 1, and the text and the count of
other items change. -/
theorem C15_stored_word_is_added_again :
    ∃ wc root page wc' page',
      add_words 64 WordCounter.new
        [[5, 4], [5], [4], [3], [2], [1, 5, 1, 4, 5, 3, 5, 5, 4, 1, 5, 2, 5, 4], [2, 1]]
        = .ok (List.replicate 7 0, wc) ∧
      wc.manager.get wc.root_ = .ok 2 ∧ wc.manager.deref 2 = .ok root ∧ left_child root = 0 ∧
      wc.manager.deref 0 = .ok page ∧
      page_pairs page = .ok [([255, 58], 1), ([2], 1), ([2, 1], 1), ([3], 1), ([4], 1)] ∧
      find_word wc.manager.block_count wc.manager 2 [2] = .ok none ∧
      wc.add_word 64 [2] = .ok (0, wc') ∧
      wc'.root_ = wc.root_ ∧ wc'.manager.block_count = wc.manager.block_count ∧
      wc'.manager.deref 0 = .ok page' ∧ item_count page' = 6 ∧
      page_pairs page' = .ok [([2], 1), ([255, 60], 1), ([2], 1), ([255, 255, 255, 255, 60], 2),
        ([3], 1), ([255, 1, 3], 1)] :=
  ⟨_, _, _, _, _, rfl, rfl, rfl, rfl, rfl, rfl, rfl, rfl, rfl, rfl, rfl, rfl, rfl⟩

/-! ### The file block manager -/

set_option maxRecDepth 100000 in
/-- C18: with `BLOCK_SIZE = 128` the distinct 32-bit handles 0 and 33554432 (2^25) get the
same offset, because `blocknum * BLOCK_SIZE` is computed in 32 bits: after `update` of page
0, `get(0)` returns page 0, and after the following `update` of page 33554432 `get(0)`
returns the bytes of page 33554432. -/
theorem C18_offsets_of_two_handles_collide :
    (0 : Nat) ≠ 33554432 ∧ 33554432 < 4294967296 ∧
    FileBlockManager.seek_offset 128 0 = 0 ∧
    FileBlockManager.seek_offset 128 33554432 = 0 ∧
    block_number (Block_new 128 0) = 0 ∧
    block_number (Block_new 128 33554432) = 33554432 ∧
    (FileBlockManager.new.update 128 (Block_new 128 0)).get 128 0
      = .ok (Block_new 128 0) ∧
    ((FileBlockManager.new.update 128 (Block_new 128 0)).update 128
        (Block_new 128 33554432)).get 128 0
      = .ok (Block_new 128 33554432) ∧
    Block_new 128 33554432 ≠ Block_new 128 0 :=
  ⟨by decide, by decide, rfl, rfl, rfl, rfl, rfl, rfl, by decide⟩

set_option maxRecDepth 100000 in
/-- C16: in the vector manager an assignment through the pointer to block 33554432 leaves
block 0 as it is, for every manager; in the file manager, with the root leaf `page_a` of
the one-word index stored as block 0, the `update` of a block whose number is 33554432
replaces what `get(0)` returns. -/
theorem C16_file_manager_loses_block_0 :
    (∀ (m : BlockManager) (b : Block), (m.assign 33554432 b).deref 0 = m.deref 0) ∧
    block_number page_a = 0 ∧
    (FileBlockManager.new.update 128 page_a).get 128 0 = .ok page_a ∧
    ((FileBlockManager.new.update 128 page_a).update 128 (Block_new 128 33554432)).get 128 0
      = .ok (Block_new 128 33554432) ∧
    ((FileBlockManager.new.update 128 page_a).update 128 (Block_new 128 33554432)).get 128 0
      ≠ .ok page_a := by
  refine ⟨?_, rfl, rfl, rfl, ?_⟩
  · intro m b
    simp only [BlockManager.deref, BlockManager.assign, List.get?_eq_getElem?]
    rw [List.getElem?_set_ne (by decide)]
  · intro h
    have h2 : ((FileBlockManager.new.update 128 page_a).update 128
        (Block_new 128 33554432)).get 128 0 = .ok (Block_new 128 33554432) := rfl
    rw [h2] at h
    injection h with h
    have h3 : block_number (Block_new 128 33554432) = block_number page_a := by rw [h]
    revert h3
    decide

/-! ### The 2-3 tree -/

namespace TwoThree

theorem ascending_append {α : Type} [LinearOrder α] {xs ys : List (Thing α)} (h : ascending (xs ++ ys)) :
    ascending xs ∧ ascending ys ∧ ∀ x ∈ xs, ∀ y ∈ ys, x.key < y.key := by
  unfold ascending at *
  rw [List.map_append] at h
  have := List.pairwise_append.mp h
  refine ⟨this.1, this.2.1, ?_⟩
  intro x hx y hy
  exact this.2.2 _ (List.mem_map_of_mem _ hx) _ (List.mem_map_of_mem _ hy)

theorem ascending_cons {α : Type} [LinearOrder α] {a : Thing α} {ys : List (Thing α)} (h : ascending (a :: ys)) :
    ascending ys ∧ ∀ y ∈ ys, a.key < y.key := by
  unfold ascending at *
  rw [List.map_cons] at h
  have := List.pairwise_cons.mp h
  exact ⟨this.2, fun y hy => this.1 _ (List.mem_map_of_mem _ hy)⟩

theorem ins_list_of_lt_all {α : Type} [LinearOrder α] (x : Thing α) : ∀ (xs : List (Thing α)),
    (∀ y ∈ xs, y.key < x.key) → ins_list x xs = xs ++ [x] := by
  intro xs
  induction xs with
  | nil => intro _; rfl
  | cons y ys ih =>
    intro h
    have hy := h y (List.mem_cons_self _ _)
    simp only [ins_list, not_lt_of_gt hy, if_false, hy, if_true, List.cons_append]
    rw [ih (fun z hz => h z (List.mem_cons_of_mem _ hz))]

theorem ins_list_of_all_lt {α : Type} [LinearOrder α] (x : Thing α) : ∀ (xs : List (Thing α)),
    (∀ y ∈ xs, x.key < y.key) → ins_list x xs = x :: xs := by
  intro xs
  cases xs with
  | nil => intro _; rfl
  | cons y ys =>
    intro h
    simp [ins_list, h y (List.mem_cons_self _ _)]

theorem ins_list_append_left {α : Type} [LinearOrder α] (x a : Thing α) (xs ys : List (Thing α))
    (hxs : ∀ y ∈ xs, y.key < a.key) (hlt : x.key < a.key) :
    ins_list x (xs ++ a :: ys) = ins_list x xs ++ a :: ys := by
  induction xs with
  | nil => simp [ins_list, hlt]
  | cons y ys' ih =>
    have ih' := ih (fun z hz => hxs z (List.mem_cons_of_mem _ hz))
    simp only [List.cons_append, ins_list, List.append_eq]
    split_ifs
    · rfl
    · rw [ih']; rfl
    · rfl

theorem ins_list_append_right {α : Type} [LinearOrder α] (x a : Thing α) (xs ys : List (Thing α))
    (hxs : ∀ y ∈ xs, y.key < a.key) (hgt : a.key < x.key) :
    ins_list x (xs ++ a :: ys) = xs ++ a :: ins_list x ys := by
  induction xs with
  | nil => simp [ins_list, hgt, not_lt_of_gt hgt]
  | cons y ys' ih =>
    have ih' := ih (fun z hz => hxs z (List.mem_cons_of_mem _ hz))
    have hy := hxs y (List.mem_cons_self _ _)
    have hyx : y.key < x.key := lt_trans hy hgt
    simp only [List.cons_append, ins_list, not_lt_of_gt hyx, if_false, hyx, if_true, List.append_eq]
    rw [ih']

theorem ins_list_append_eq {α : Type} [LinearOrder α] (x a : Thing α) (xs ys : List (Thing α))
    (hxs : ∀ y ∈ xs, y.key < a.key) (heq : ¬ x.key < a.key) (heq' : ¬ a.key < x.key) :
    ins_list x (xs ++ a :: ys) = xs ++ a :: ys := by
  induction xs with
  | nil => simp [ins_list, heq, heq']
  | cons y ys' ih =>
    have ih' := ih (fun z hz => hxs z (List.mem_cons_of_mem _ hz))
    have hy := hxs y (List.mem_cons_self _ _)
    have hax : a.key = x.key := le_antisymm (not_lt.mp heq) (not_lt.mp heq')
    have hyx : y.key < x.key := hax ▸ hy
    simp only [List.cons_append, ins_list, not_lt_of_gt hyx, if_false, hyx, if_true, List.append_eq]
    rw [ih']

theorem find_list_append_left {α : Type} [LinearOrder α] (x a : Thing α) (xs ys : List (Thing α))
    (hxs : ∀ y ∈ xs, y.key < a.key) (hlt : x.key < a.key) :
    find_list x (xs ++ a :: ys) = find_list x xs := by
  induction xs with
  | nil => simp [find_list, hlt]
  | cons y ys' ih =>
    have ih' := ih (fun z hz => hxs z (List.mem_cons_of_mem _ hz))
    simp only [List.cons_append, find_list, List.append_eq]
    split_ifs
    · rfl
    · exact ih'
    · rfl

theorem find_list_append_right {α : Type} [LinearOrder α] (x a : Thing α) (xs ys : List (Thing α))
    (hxs : ∀ y ∈ xs, y.key < a.key) (hgt : a.key < x.key) :
    find_list x (xs ++ a :: ys) = find_list x ys := by
  induction xs with
  | nil => simp [find_list, hgt, not_lt_of_gt hgt]
  | cons y ys' ih =>
    have ih' := ih (fun z hz => hxs z (List.mem_cons_of_mem _ hz))
    have hy := hxs y (List.mem_cons_self _ _)
    have hyx : y.key < x.key := lt_trans hy hgt
    simp only [List.cons_append, find_list, not_lt_of_gt hyx, if_false, hyx, if_true, List.append_eq]
    exact ih'

theorem find_list_append_eq {α : Type} [LinearOrder α] (x a : Thing α) (xs ys : List (Thing α))
    (hxs : ∀ y ∈ xs, y.key < a.key) (heq : ¬ x.key < a.key) (heq' : ¬ a.key < x.key) :
    find_list x (xs ++ a :: ys) = a := by
  induction xs with
  | nil => simp [find_list, heq, heq']
  | cons y ys' ih =>
    have ih' := ih (fun z hz => hxs z (List.mem_cons_of_mem _ hz))
    have hy := hxs y (List.mem_cons_self _ _)
    have hax : a.key = x.key := le_antisymm (not_lt.mp heq) (not_lt.mp heq')
    have hyx : y.key < x.key := hax ▸ hy
    simp only [List.cons_append, find_list, not_lt_of_gt hyx, if_false, hyx, if_true, List.append_eq]
    exact ih'

theorem mem_ins_list {α : Type} [LinearOrder α] {x y : Thing α} : ∀ {l : List (Thing α)}, y ∈ ins_list x l → y = x ∨ y ∈ l := by
  intro l
  induction l with
  | nil => intro h; simp [ins_list] at h; exact Or.inl h
  | cons z zs ih =>
    intro h
    simp only [ins_list] at h
    split_ifs at h
    · rcases List.mem_cons.mp h with h | h
      · exact Or.inl h
      · exact Or.inr h
    · rcases List.mem_cons.mp h with h | h
      · exact Or.inr (h ▸ List.mem_cons_self _ _)
      · rcases ih h with h | h
        · exact Or.inl h
        · exact Or.inr (List.mem_cons_of_mem _ h)
    · exact Or.inr h

theorem ascending_cons_iff {α : Type} [LinearOrder α] {a : Thing α} {ys : List (Thing α)} :
    ascending (a :: ys) ↔ (∀ y ∈ ys, a.key < y.key) ∧ ascending ys := by
  unfold ascending
  rw [List.map_cons, List.sorted_cons]
  constructor
  · rintro ⟨h1, h2⟩
    exact ⟨fun y hy => h1 _ (List.mem_map_of_mem _ hy), h2⟩
  · rintro ⟨h1, h2⟩
    refine ⟨?_, h2⟩
    intro b hb
    obtain ⟨y, hy, rfl⟩ := List.mem_map.mp hb
    exact h1 y hy

theorem ins_list_ascending {α : Type} [LinearOrder α] (x : Thing α) : ∀ (l : List (Thing α)),
    ascending l → ascending (ins_list x l) := by
  intro l
  induction l with
  | nil => intro _; simp [ins_list, ascending]
  | cons z zs ih =>
    intro h
    have hz := ascending_cons_iff.mp h
    simp only [ins_list]
    split_ifs with h1 h2
    · refine ascending_cons_iff.mpr ⟨?_, h⟩
      intro y hy
      rcases List.mem_cons.mp hy with hy | hy
      · rw [hy]; exact h1
      · exact lt_trans h1 (hz.1 y hy)
    · refine ascending_cons_iff.mpr ⟨?_, ih hz.2⟩
      intro y hy
      rcases mem_ins_list hy with hy | hy
      · rw [hy]; exact h2
      · exact hz.1 y hy
    · exact h

theorem ins_list_present {α : Type} [LinearOrder α] (x : Thing α) : ∀ (l : List (Thing α)), ascending l →
    ∀ y ∈ l, ¬ y.key < x.key → ¬ x.key < y.key → ins_list x l = l ∧ find_list x l = y := by
  intro l
  induction l with
  | nil => intro _ y hy; cases hy
  | cons z zs ih =>
    intro h y hy h1 h2
    have hz := ascending_cons_iff.mp h
    have hxy : x.key = y.key := le_antisymm (not_lt.mp h1) (not_lt.mp h2)
    rcases List.mem_cons.mp hy with hy | hy
    · subst hy
      simp [ins_list, find_list, h1, h2]
    · have hzy := hz.1 y hy
      have hzx : z.key < x.key := hxy ▸ hzy
      have := ih hz.2 y hy h1 h2
      simp [ins_list, find_list, hzx, not_lt_of_gt hzx, this.1, this.2]

theorem ins_list_absent {α : Type} [LinearOrder α] (x : Thing α) : ∀ (l : List (Thing α)),
    (∀ y ∈ l, y.key < x.key ∨ x.key < y.key) →
    (ins_list x l).Perm (x :: l) ∧ find_list x l = x := by
  intro l
  induction l with
  | nil => intro _; simp [ins_list, find_list]
  | cons z zs ih =>
    intro h
    have ih' := ih (fun y hy => h y (List.mem_cons_of_mem _ hy))
    simp only [ins_list, find_list]
    split_ifs with h1 h2
    · exact ⟨List.Perm.refl _, rfl⟩
    · exact ⟨((List.Perm.cons z ih'.1).trans (List.Perm.swap x z zs)), ih'.2⟩
    · rcases h z (List.mem_cons_self _ _) with h3 | h3
      · exact absurd h3 h2
      · exact absurd h3 h1

theorem well_formed_ne_null {α : Type} {n : Node α} {h : Nat} (hw : well_formed n h) :
    n.is_null = false := by
  cases n with
  | null => exact absurd hw (by simp [well_formed])
  | node _ _ _ _ _ => rfl

theorem insert_leaf_spec {α : Type} [LinearOrder α] (d1 : Thing α) (d2 : Option (Thing α))
    (data : Thing α) (hasc : ascending (d1 :: d2.toList)) :
    insert_ok (Node.node d1 d2 Node.null Node.null Node.null) 1 data
      (insert_leaf d1 d2 Node.null Node.null Node.null data) := by
  cases d2 with
  | none =>
    unfold insert_leaf insert_ok
    simp only [Node.walk, Option.toList, List.nil_append, List.append_nil, ins_list, find_list]
    split_ifs with h1 h2
    · simp [well_formed, Node.walk]
    · simp [well_formed, Node.walk]
    · simp [well_formed, Node.walk]
  | some d2 =>
    have h12 : d1.key < d2.key := by
      simpa [ascending] using hasc
    unfold insert_leaf insert_ok
    simp only [Node.walk, Option.toList, List.nil_append, List.append_nil, ins_list, find_list,
      Node.new]
    split_ifs <;> simp_all [well_formed, Node.walk, Node.new]
    · exact ⟨_, _, _, ⟨rfl, rfl, rfl⟩, by simp [well_formed], by simp [well_formed]⟩
    · exact ⟨_, _, _, ⟨rfl, rfl, rfl⟩, by simp [well_formed], by simp [well_formed]⟩
    · exact ⟨_, _, _, ⟨rfl, rfl, rfl⟩, by simp [well_formed], by simp [well_formed]⟩
    · exact absurd (lt_trans h12 ‹d2.key < data.key›) (not_lt.mpr ‹data.key ≤ d1.key›)

theorem after_left_spec {α : Type} [LinearOrder α] (d1 : Thing α) (d2 : Option (Thing α))
    (l m r : Node α) (h : Nat) (data : Thing α) (child : Inserted α)
    (hm : well_formed m h)
    (hr : (d2 = none ∧ r = Node.null) ∨ (d2.isSome = true ∧ well_formed r h))
    (hasc : ascending (Node.node d1 d2 l m r).walk) (hlt : data.key < d1.key)
    (hc : insert_ok l h data child) :
    insert_ok (Node.node d1 d2 l m r) (h + 1) data (after_left d1 d2 m r child) := by
  simp only [Node.walk] at hasc
  have hxs : ∀ y ∈ l.walk, y.key < d1.key := fun y hy =>
    (ascending_append hasc).2.2 y hy d1 (List.mem_cons_self _ _)
  obtain ⟨hf, hcases⟩ := hc
  unfold insert_ok
  simp only [Node.walk]
  rw [find_list_append_left _ _ _ _ hxs hlt, ins_list_append_left _ _ _ _ hxs hlt]
  rcases hcases with ⟨ho, hw, hwalk⟩ | ⟨k, ol, om, ho, hwl, hwm, hwalk⟩
  · unfold after_left
    rw [ho]
    refine ⟨hf, Or.inl ⟨rfl, ?_, ?_⟩⟩
    · simp only [well_formed]
      exact Or.inr ⟨h, rfl, hw, hm, hr⟩
    · simp only [Node.walk, hwalk]
  · unfold after_left
    rw [ho]
    rw [ho] at hwalk
    simp only [Node.walk, Option.toList, List.nil_append, List.append_nil] at hwalk
    rcases hr with ⟨rfl, rfl⟩ | ⟨hsome, hwr⟩
    · refine ⟨hf, Or.inl ⟨rfl, ?_, ?_⟩⟩
      · simp only [well_formed]
        exact Or.inr ⟨h, rfl, hwl, hwm, Or.inr ⟨rfl, hm⟩⟩
      · simp only [Node.walk, Option.toList, List.nil_append, List.append_nil, ← hwalk,
          List.append_assoc, List.cons_append, List.singleton_append]
    · obtain ⟨d2v, rfl⟩ := Option.isSome_iff_exists.mp hsome
      refine ⟨hf, Or.inr ⟨_, _, _, rfl, ?_, ?_, ?_⟩⟩
      · simp only [well_formed]
        exact Or.inr ⟨h, rfl, hwl, hwm, Or.inl (by simp)⟩
      · simp only [well_formed]
        exact Or.inr ⟨h, rfl, hm, hwr, Or.inl (by simp)⟩
      · simp only [Node.walk, Option.toList, List.nil_append, List.append_nil, ← hwalk,
          List.append_assoc, List.cons_append, List.singleton_append]

theorem after_middle_spec {α : Type} [LinearOrder α] (d1 : Thing α) (d2 : Option (Thing α))
    (l m r : Node α) (h : Nat) (data : Thing α) (child : Inserted α)
    (hl : well_formed l h)
    (hr : (d2 = none ∧ r = Node.null) ∨ (d2.isSome = true ∧ well_formed r h))
    (hasc : ascending (Node.node d1 d2 l m r).walk) (hgt : d1.key < data.key)
    (hlt : ∀ d2v, d2 = some d2v → data.key < d2v.key)
    (hc : insert_ok m h data child) :
    insert_ok (Node.node d1 d2 l m r) (h + 1) data (after_middle d1 d2 l r child) := by
  simp only [Node.walk] at hasc
  have hxs : ∀ y ∈ l.walk, y.key < d1.key := fun y hy =>
    (ascending_append hasc).2.2 y hy d1 (List.mem_cons_self _ _)
  have hasc2 := (ascending_cons (ascending_append hasc).2.1).1
  obtain ⟨hf, hcases⟩ := hc
  unfold insert_ok
  simp only [Node.walk]
  rw [find_list_append_right _ _ _ _ hxs hgt, ins_list_append_right _ _ _ _ hxs hgt]
  rcases hr with ⟨rfl, rfl⟩ | ⟨hsome, hwr⟩
  · simp only [Node.walk, Option.toList, List.nil_append, List.append_nil]
    rcases hcases with ⟨ho, hw, hwalk⟩ | ⟨k, ol, om, ho, hwl, hwm, hwalk⟩
    · unfold after_middle
      rw [ho]
      refine ⟨hf, Or.inl ⟨rfl, ?_, ?_⟩⟩
      · simp only [well_formed]
        exact Or.inr ⟨h, rfl, hl, hw, Or.inl (by simp)⟩
      · simp only [Node.walk, Option.toList, List.nil_append, List.append_nil, hwalk]
    · unfold after_middle
      rw [ho]
      rw [ho] at hwalk
      simp only [Node.walk, Option.toList, List.nil_append, List.append_nil] at hwalk
      refine ⟨hf, Or.inl ⟨rfl, ?_, ?_⟩⟩
      · simp only [well_formed]
        exact Or.inr ⟨h, rfl, hl, hwl, Or.inr ⟨rfl, hwm⟩⟩
      · simp only [Node.walk, Option.toList, List.nil_append, List.append_nil, ← hwalk,
          List.append_assoc, List.cons_append, List.singleton_append]
  · obtain ⟨d2v, rfl⟩ := Option.isSome_iff_exists.mp hsome
    simp only [Option.toList, List.singleton_append] at hasc2 ⊢
    have hxs2 : ∀ y ∈ m.walk, y.key < d2v.key := fun y hy =>
      (ascending_append hasc2).2.2 y hy d2v (List.mem_cons_self _ _)
    have hlt2 := hlt d2v rfl
    rw [find_list_append_left _ _ _ _ hxs2 hlt2, ins_list_append_left _ _ _ _ hxs2 hlt2]
    rcases hcases with ⟨ho, hw, hwalk⟩ | ⟨k, ol, om, ho, hwl, hwm, hwalk⟩
    · unfold after_middle
      rw [ho]
      refine ⟨hf, Or.inl ⟨rfl, ?_, ?_⟩⟩
      · simp only [well_formed]
        exact Or.inr ⟨h, rfl, hl, hw, Or.inr ⟨rfl, hwr⟩⟩
      · simp only [Node.walk, Option.toList, List.singleton_append, hwalk]
    · unfold after_middle
      rw [ho]
      rw [ho] at hwalk
      simp only [Node.walk, Option.toList, List.nil_append, List.append_nil] at hwalk
      refine ⟨hf, Or.inr ⟨_, _, _, rfl, ?_, ?_, ?_⟩⟩
      · simp only [well_formed]
        exact Or.inr ⟨h, rfl, hl, hwl, Or.inl (by simp)⟩
      · simp only [well_formed, Node.new]
        exact Or.inr ⟨h, rfl, hwm, hwr, Or.inl (by simp)⟩
      · simp only [Node.walk, Node.new, Option.toList, List.nil_append, List.append_nil,
          ← hwalk, List.append_assoc, List.cons_append, List.singleton_append]

theorem after_right_spec {α : Type} [LinearOrder α] (d1 d2v : Thing α)
    (l m r : Node α) (h : Nat) (data : Thing α) (child : Inserted α)
    (hl : well_formed l h) (hm : well_formed m h)
    (hasc : ascending (Node.node d1 (some d2v) l m r).walk) (hgt : d2v.key < data.key)
    (hc : insert_ok r h data child) :
    ∃ res, after_right d1 (some d2v) l m child = some res ∧
      insert_ok (Node.node d1 (some d2v) l m r) (h + 1) data res := by
  simp only [Node.walk, Option.toList, List.singleton_append] at hasc
  have e : l.walk ++ d1 :: (m.walk ++ d2v :: r.walk) = (l.walk ++ d1 :: m.walk) ++ d2v :: r.walk := by
    simp
  rw [e] at hasc
  have hxs : ∀ y ∈ l.walk ++ d1 :: m.walk, y.key < d2v.key := fun y hy =>
    (ascending_append hasc).2.2 y hy d2v (List.mem_cons_self _ _)
  obtain ⟨hf, hcases⟩ := hc
  unfold insert_ok
  simp only [Node.walk, Option.toList, List.singleton_append]
  rw [e, find_list_append_right _ _ _ _ hxs hgt, ins_list_append_right _ _ _ _ hxs hgt]
  rcases hcases with ⟨ho, hw, hwalk⟩ | ⟨k, ol, om, ho, hwl, hwm, hwalk⟩
  · unfold after_right
    rw [ho]
    refine ⟨_, rfl, hf, Or.inl ⟨rfl, ?_, ?_⟩⟩
    · simp only [well_formed]
      exact Or.inr ⟨h, rfl, hl, hm, Or.inr ⟨rfl, hw⟩⟩
    · simp only [Node.walk, Option.toList, List.singleton_append, hwalk, List.append_assoc,
        List.cons_append, List.nil_append]
  · unfold after_right
    rw [ho]
    have hwalk2 := hwalk
    rw [ho] at hwalk2
    refine ⟨_, rfl, hf, Or.inr ⟨_, _, _, rfl, ?_, ?_, ?_⟩⟩
    · simp only [well_formed]
      exact Or.inr ⟨h, rfl, hl, hm, Or.inl (by simp)⟩
    · simp only [well_formed]
      exact Or.inr ⟨h, rfl, hwl, hwm, Or.inl (by simp)⟩
    · simp only [Node.walk, Node.new, Option.toList, List.nil_append, List.append_nil,
        ← hwalk2, List.append_assoc, List.cons_append, List.singleton_append]

theorem Node_insert_spec {α : Type} [LinearOrder α] : ∀ (n : Node α) (h : Nat) (data : Thing α),
    well_formed n h → ascending n.walk →
    ∃ res, n.insert data = some res ∧ insert_ok n h data res := by
  intro n
  induction n with
  | null => intro h data hw; simp [well_formed] at hw
  | node d1 d2 l m r ihl ihm ihr =>
    intro h data hw hasc
    have hw0 := hw
    simp only [well_formed] at hw
    rcases hw with ⟨rfl, rfl, rfl, rfl⟩ | ⟨h', rfl, hl, hm, hr⟩
    · refine ⟨_, ?_, insert_leaf_spec d1 d2 data ?_⟩
      · simp [Node.insert, Node.is_null]
      · simpa [Node.walk] using hasc
    · have hnl := well_formed_ne_null hl
      have hasc0 := hasc
      simp only [Node.walk] at hasc
      have hal := (ascending_append hasc).1
      have hxs : ∀ y ∈ l.walk, y.key < d1.key := fun y hy =>
        (ascending_append hasc).2.2 y hy d1 (List.mem_cons_self _ _)
      have hasc2 := (ascending_cons (ascending_append hasc).2.1).1
      have ham := (ascending_append hasc2).1
      have har := (ascending_append (ascending_append hasc2).2.1).2.1
      by_cases c1 : data.key < d1.key
      · obtain ⟨c, hc, hok⟩ := ihl h' data hl hal
        refine ⟨after_left d1 d2 m r c, ?_, after_left_spec d1 d2 l m r h' data c hm hr hasc0 c1 hok⟩
        simp [Node.insert, hnl, c1, hc]
      · by_cases c2 : d1.key < data.key ∧ (d2.isNone = true ∨ ∃ d2v ∈ d2, data.key < d2v.key)
        · obtain ⟨c, hc, hok⟩ := ihm h' data hm ham
          refine ⟨after_middle d1 d2 l r c, ?_,
            after_middle_spec d1 d2 l m r h' data c hl hr hasc0 c2.1 ?_ hok⟩
          · rw [Node.insert]
            simp only [hnl, c1, c2, hc]
            simp
          · intro d2v hd
            subst hd
            rcases c2.2 with hn | ⟨d, hd, hlt⟩
            · simp at hn
            · cases hd; exact hlt
        · by_cases c3 : ∃ d2v ∈ d2, d2v.key < data.key
          · obtain ⟨d2v, hd, hgt⟩ := c3
            cases hd
            obtain ⟨c, hc, hok⟩ := ihr h' data (by simpa using hr) har
            obtain ⟨res, hres, hok2⟩ :=
              after_right_spec d1 d2v l m r h' data c hl hm hasc0 hgt hok
            refine ⟨res, ?_, hok2⟩
            rw [Node.insert]
            simp only [hnl, c1, c2, hc]
            simp [hgt, hres]
          · by_cases c4 : d1.key < data.key
            · have hsome : ∃ d2v, d2 = some d2v := by
                cases d2 with
                | none => exact absurd ⟨c4, Or.inl rfl⟩ c2
                | some d => exact ⟨d, rfl⟩
              obtain ⟨d2v, rfl⟩ := hsome
              have n1 : ¬ data.key < d2v.key := fun hh => c2 ⟨c4, Or.inr ⟨d2v, rfl, hh⟩⟩
              have n2 : ¬ d2v.key < data.key := fun hh => c3 ⟨d2v, rfl, hh⟩
              refine ⟨{ this := Node.node d1 (some d2v) l m r, overflow := Node.null,
                        found := d2v }, ?_, ?_⟩
              · rw [Node.insert]
                simp only [hnl, c1, c2, c3]
                simp [c4]
              · unfold insert_ok
                simp only [Node.walk, Option.toList, List.singleton_append] at hasc ⊢
                have e : l.walk ++ d1 :: (m.walk ++ d2v :: r.walk)
                    = (l.walk ++ d1 :: m.walk) ++ d2v :: r.walk := by simp
                rw [e] at hasc ⊢
                have hxs2 : ∀ y ∈ l.walk ++ d1 :: m.walk, y.key < d2v.key := fun y hy =>
                  (ascending_append hasc).2.2 y hy d2v (List.mem_cons_self _ _)
                rw [find_list_append_eq _ _ _ _ hxs2 n1 n2, ins_list_append_eq _ _ _ _ hxs2 n1 n2]
                refine ⟨rfl, Or.inl ⟨trivial, hw0, ?_⟩⟩
                simp [Node.walk]
            · refine ⟨{ this := Node.node d1 d2 l m r, overflow := Node.null,
                        found := d1 }, ?_, ?_⟩
              · rw [Node.insert]
                simp only [hnl, c1, c2, c3]
                simp [c4]
              · unfold insert_ok
                simp only [Node.walk]
                rw [find_list_append_eq _ _ _ _ hxs c1 c4, ins_list_append_eq _ _ _ _ hxs c1 c4]
                exact ⟨rfl, Or.inl ⟨trivial, hw0, rfl⟩⟩

theorem BTree_insert_spec {α : Type} [LinearOrder α] (t : BTree α) (data : Thing α)
    (hinv : tree_inv t) :
    ∃ t' found, t.insert data = some (t', found) ∧ tree_inv t' ∧
      t'.walk = ins_list data t.walk ∧ found = find_list data t.walk := by
  obtain ⟨hasc, hshape⟩ := hinv
  cases t with
  | mk root =>
  cases root with
  | null =>
    refine ⟨{ root_ := Node.new data Node.null Node.null }, data, rfl, ⟨?_, Or.inr ⟨1, ?_⟩⟩, ?_, ?_⟩
    · simp [BTree.walk, Node.walk, Node.new, ascending]
    · simp [well_formed, Node.new]
    · simp [BTree.walk, Node.walk, Node.new, ins_list]
    · simp [BTree.walk, Node.walk, find_list]
  | node d1 d2 l m r =>
    rcases hshape with hnull | ⟨h, hw⟩
    · cases hnull
    · obtain ⟨res, hres, hfound, hcases⟩ := Node_insert_spec _ h data hw hasc
      have hasc2 := ins_list_ascending data _ hasc
      rcases hcases with ⟨ho, hw2, hwalk⟩ | ⟨k, ol, om, ho, hwl, hwm, hwalk⟩
      · refine ⟨{ root_ := res.this }, res.found, ?_, ⟨?_, Or.inr ⟨h, hw2⟩⟩, hwalk, hfound⟩
        · simp only [BTree.insert, hres, Option.map_some', ho, Node.is_null, if_true]
        · simp only [BTree.walk] at hasc2 ⊢
          rw [hwalk]; exact hasc2
      · refine ⟨{ root_ := res.overflow }, res.found, ?_, ⟨?_, Or.inr ⟨h + 1, ?_⟩⟩, hwalk,
          hfound⟩
        · simp [BTree.insert, hres, ho, Node.is_null]
        · simp only [BTree.walk] at hasc2 ⊢
          rw [hwalk]; exact hasc2
        · rw [ho]
          simp only [well_formed]
          exact Or.inr ⟨h, rfl, hwl, hwm, Or.inl (by simp)⟩

theorem tree_inv_new {α : Type} [LinearOrder α] : tree_inv (BTree.new : BTree α) := by
  refine ⟨?_, Or.inl rfl⟩
  simp [BTree.walk, BTree.new, Node.walk, ascending]

theorem insert_all_spec {α : Type} [LinearOrder α] : ∀ (ds : List (Thing α)) (t : BTree α),
    tree_inv t → ∃ t', insert_all t ds = some t' ∧ tree_inv t' ∧
      t'.walk = ds.foldl (fun l d => ins_list d l) t.walk := by
  intro ds
  induction ds with
  | nil => intro t ht; exact ⟨t, rfl, ht, rfl⟩
  | cons d ds ih =>
    intro t ht
    obtain ⟨t1, found, h1, hinv1, hwalk1, _⟩ := BTree_insert_spec t d ht
    obtain ⟨t2, h2, hinv2, hwalk2⟩ := ih t1 hinv1
    refine ⟨t2, ?_, hinv2, ?_⟩
    · simp [insert_all, h1, h2]
    · rw [hwalk2, hwalk1]; rfl

/-- An instance of the equal-key case: after inserting keys 2, 1, 3, inserting another
thing with key 1 returns the stored one and the walk is unchanged. -/
theorem insert_equal_key_example :
    ((insert_all BTree.new [⟨2, 0⟩, ⟨1, 1⟩, ⟨3, 2⟩]).bind fun t =>
        (t.insert (⟨1, 9⟩ : Thing Nat)).map fun r => (r.2, r.1.walk))
      = some (⟨1, 1⟩, [⟨1, 1⟩, ⟨2, 0⟩, ⟨3, 2⟩]) := by
  decide

/-- An instance of the new-key case: after inserting keys 2, 1, 3, inserting a thing with
key 4 returns the thing itself and the walk gains it. -/
theorem insert_new_key_example :
    ((insert_all BTree.new [⟨2, 0⟩, ⟨1, 1⟩, ⟨3, 2⟩]).bind fun t =>
        (t.insert (⟨4, 9⟩ : Thing Nat)).map fun r => (r.2, r.1.walk))
      = some (⟨4, 9⟩, [⟨1, 1⟩, ⟨2, 0⟩, ⟨3, 2⟩, ⟨4, 9⟩]) := by
  decide

/-- C20: in a tree built by any sequence of `BTree::insert` calls, a further
`insert(data)` returns; when a stored thing has a key equal to that of `data` (neither is
less than the other) the call returns that stored thing and `walk` visits the same things
as before; when no stored thing has such a key the call returns `data` itself and `walk`
visits `data` and the things visited before. -/
theorem C20_insert_returns_stored_or_data {α : Type} [LinearOrder α] (ds : List (Thing α))
    (data : Thing α) :
    ∃ t t' found, insert_all BTree.new ds = some t ∧ t.insert data = some (t', found) ∧
      (∀ y ∈ t.walk, ¬ y.key < data.key → ¬ data.key < y.key →
        found = y ∧ t'.walk = t.walk) ∧
      ((∀ y ∈ t.walk, y.key < data.key ∨ data.key < y.key) →
        found = data ∧ t'.walk.Perm (data :: t.walk)) := by
  obtain ⟨t, ht, hinv, _⟩ := insert_all_spec ds BTree.new tree_inv_new
  obtain ⟨t', found, h1, _, hwalk, hfound⟩ := BTree_insert_spec t data hinv
  refine ⟨t, t', found, ht, h1, ?_, ?_⟩
  · intro y hy n1 n2
    have := ins_list_present data t.walk hinv.1 y hy n1 n2
    exact ⟨hfound.trans this.2, hwalk.trans this.1⟩
  · intro habs
    have := ins_list_absent data t.walk habs
    exact ⟨hfound.trans this.2, hwalk ▸ this.1⟩

end TwoThree

set_option maxRecDepth 100000 in
/-- C3: the six accepted words `b`x31, `c`, `d`x23, `e`, `f`x13, `a`x31 (N = 6, R = 0) leave
a tree of three pages: the root with the key `e`, its left child with `a`x31, `b`x31, `c`
and `d`x23, and its right child with `f`x13.  The count stored with `d`x23 is 24929, so the
counts stored over all keys sum to 24934, not to 6. -/
theorem C3_counts_do_not_sum_to_calls :
    ∃ wc root left right,
      add_words 128 WordCounter.new
        [rep 98 31, rep 99 1, rep 100 23, rep 101 1, rep 102 13, rep 97 31]
        = .ok ([0, 0, 0, 0, 0, 0], wc) ∧
      wc.manager.block_count = 3 ∧
      root_and_children wc = .ok (root, left, right) ∧
      page_pairs root = .ok [(rep 101 1, 1)] ∧
      page_pairs left = .ok
        [(rep 97 31, 1), (rep 98 31, 1), (rep 99 1, 1), (rep 100 23, 24929)] ∧
      page_pairs right = .ok [(rep 102 13, 1)] ∧
      1 + (1 + 1 + 1 + 24929) + 1 ≠ 6 - 0 :=
  ⟨_, _, _, _, rfl, rfl, rfl, rfl, rfl, rfl, by decide⟩

set_option maxRecDepth 100000 in
/-- C4: with `BLOCK_SIZE = 64`, fifteen accepted words over the bytes 1 to 5 leave the root,
block 8, with left child block 2, whose left child block 0 is a leaf: a leaf at depth 2.
The third item of block 2 has block 2 itself as `right_child`, so the same leaf is also
reached at depth 3 (root, block 2, block 2, block 0). -/
theorem C4_leaf_at_two_depths :
    ∃ wc root page leaf,
      add_words 64 WordCounter.new
        [[3], 5 :: 2 :: rep 4 10, [4], [2], [1, 2], [5, 2], [3, 5, 3], [4, 2], [1],
         2 :: 1 :: rep 5 9, 2 :: 3 :: rep 5 13, [2, 2, 1, 1], [5], 2 :: 5 :: rep 3 5,
         1 :: 2 :: rep 1 11]
        = .ok (List.replicate 15 0, wc) ∧
      wc.root_ = 8 ∧ wc.manager.block_count = 10 ∧
      wc.manager.deref 8 = .ok root ∧ left_child root = 2 ∧
      wc.manager.deref 2 = .ok page ∧ left_child page = 0 ∧ item_count page = 4 ∧
      Item_right_child page (item_at 2) = .ok 2 ∧
      wc.manager.deref 0 = .ok leaf ∧ left_child leaf = NULL_BLOCK :=
  ⟨_, _, _, _, rfl, rfl, rfl, rfl, rfl, rfl, rfl, rfl, rfl, rfl, rfl⟩

namespace TwoThree

theorem keys_ins_list {α : Type} [LinearOrder α] (x : Thing α) (k : α) :
    ∀ (l : List (Thing α)),
      k ∈ (ins_list x l).map Thing.key ↔ k = x.key ∨ k ∈ l.map Thing.key := by
  intro l
  induction l with
  | nil => simp [ins_list]
  | cons y ys ih =>
    simp only [ins_list]
    split_ifs with h1 h2
    · simp
    · simp only [List.map_cons, List.mem_cons, ih]
      tauto
    · have hxy : x.key = y.key := le_antisymm (not_lt.mp h2) (not_lt.mp h1)
      simp only [List.map_cons, List.mem_cons, hxy]
      tauto

theorem keys_foldl_ins_list {α : Type} [LinearOrder α] (k : α) :
    ∀ (ds l : List (Thing α)),
      k ∈ (ds.foldl (fun l d => ins_list d l) l).map Thing.key ↔
        k ∈ ds.map Thing.key ∨ k ∈ l.map Thing.key := by
  intro ds
  induction ds with
  | nil => intro l; simp
  | cons d ds ih =>
    intro l
    simp only [List.foldl_cons, ih, keys_ins_list, List.map_cons, List.mem_cons]
    tauto

theorem mem_foldl_ins_list {α : Type} [LinearOrder α] (y : Thing α) :
    ∀ (ds l : List (Thing α)),
      y ∈ ds.foldl (fun l d => ins_list d l) l → y ∈ ds ∨ y ∈ l := by
  intro ds
  induction ds with
  | nil => intro l h; exact Or.inr h
  | cons d ds ih =>
    intro l h
    rcases ih _ h with h | h
    · exact Or.inl (List.mem_cons_of_mem _ h)
    · rcases mem_ins_list h with h | h
      · exact Or.inl (h ▸ List.mem_cons_self _ _)
      · exact Or.inr h

theorem well_formed_leaf_depths {α : Type} : ∀ (n : Node α) (h d : Nat),
    well_formed n h → ∀ x ∈ n.leaf_depths d, x + 1 = d + h := by
  intro n
  induction n with
  | null => intro h d hw; simp [well_formed] at hw
  | node d1 d2 l m r ihl ihm ihr =>
    intro h d hw x hx
    simp only [well_formed] at hw
    rcases hw with ⟨rfl, rfl, rfl, rfl⟩ | ⟨h', rfl, hl, hm, hr⟩
    · simp [Node.leaf_depths, Node.is_null] at hx
      omega
    · simp only [Node.leaf_depths, well_formed_ne_null hl] at hx
      simp only [Bool.false_eq_true, if_false, List.mem_append] at hx
      rcases hx with hx | hx | hx
      · have := ihl h' (d + 1) hl x hx; omega
      · have := ihm h' (d + 1) hm x hx; omega
      · rcases hr with ⟨_, rfl⟩ | ⟨_, hwr⟩
        · simp [Node.leaf_depths] at hx
        · have := ihr h' (d + 1) hwr x hx; omega

/-- C21: after any sequence of `BTree::insert` calls (each returns), the things `walk`
applies `f` to have strictly ascending keys, so each is visited once; a key is visited
exactly when a thing with that key was inserted, and every thing visited is one of the
things inserted. -/
theorem C21_walk_visits_inserted_keys_ascending {α : Type} [LinearOrder α]
    (ds : List (Thing α)) :
    ∃ t, insert_all BTree.new ds = some t ∧
      (t.walk.map Thing.key).Sorted (· < ·) ∧ t.walk.Nodup ∧
      (∀ k, k ∈ t.walk.map Thing.key ↔ k ∈ ds.map Thing.key) ∧
      (∀ x ∈ t.walk, x ∈ ds) := by
  obtain ⟨t, ht, hinv, hwalk⟩ := insert_all_spec ds BTree.new tree_inv_new
  have hnil : (BTree.new : BTree α).walk = [] := rfl
  rw [hnil] at hwalk
  refine ⟨t, ht, hinv.1, ?_, ?_, ?_⟩
  · have h1 : (t.walk.map Thing.key).Nodup := (List.Sorted.nodup hinv.1)
    exact List.Nodup.of_map _ h1
  · intro k
    rw [hwalk, keys_foldl_ins_list]
    simp
  · intro x hx
    rw [hwalk] at hx
    rcases mem_foldl_ins_list x ds [] hx with h | h
    · exact h
    · cases h

/-- C22: after any sequence of `BTree::insert` calls (each returns) the tree is empty or
its root is well formed at some height `h`: every node has a `data1_`, a leaf has no
children, a node with children has `left_` and `middle_` and has `right_` exactly when it
has `data2_`; and every leaf is at depth `h - 1` below the root. -/
theorem C22_tree_is_well_formed {α : Type} [LinearOrder α] (ds : List (Thing α)) :
    ∃ t, insert_all BTree.new ds = some t ∧
      (t.root_ = Node.null ∨
        ∃ h, well_formed t.root_ h ∧ ∀ x ∈ t.root_.leaf_depths 0, x + 1 = h) := by
  obtain ⟨t, ht, hinv, _⟩ := insert_all_spec ds BTree.new tree_inv_new
  refine ⟨t, ht, ?_⟩
  rcases hinv.2 with h | ⟨h, hw⟩
  · exact Or.inl h
  · refine Or.inr ⟨h, hw, ?_⟩
    intro x hx
    have := well_formed_leaf_depths t.root_ h 0 hw x hx
    omega

end TwoThree

set_option maxRecDepth 100000 in
/-- C24: the root leaf reached by adding `a`x31 and `c`x31 holds two keys and has no space
for the accepted word `b`x31, whose insert position is 1; `add_word` therefore reaches
`insert_split`, and `find_splitpoint` looks at no candidate (its loop runs for
`candidate < key_count - 1 = 1` and the insert position is not `key_count`), leaves
`splitpoint` at 0 and fails its assertion instead of returning an index in `[1, 1]`. -/
theorem C24_find_splitpoint_leaves_zero :
    ∃ wc page,
      add_words 128 WordCounter.new [rep 97 31, rep 99 31] = .ok ([0, 0], wc) ∧
      wc.manager.deref wc.root_ = .ok page ∧
      is_leaf page = true ∧ item_count page = 2 ∧
      (rep 98 31).length + 1 ≤ MAX_WORD_LEN 128 ∧
      has_space_for page (rep 98 31) = false ∧
      scan_loop page (rep 98 31) (item_count page) begin_item 0
        = .ok { found := false, item := item_at 1, insert_point := 1 } ∧
      find_splitpoint 128 page 1 (rep 98 31) = .error .assertion_failed :=
  ⟨_, _, rfl, rfl, rfl, rfl, by decide, rfl, rfl, rfl⟩

set_option maxRecDepth 100000 in
/-- C26: three accepted words need not fit in one page: 12 bytes of header and three items
of 8 + 32 bytes are 132 bytes.  The root leaf reached by adding `b`x31 and `c`x31 holds two
keys and has 36 free bytes, and `has_space_for` is false for the accepted word `a`x31,
which needs 40. -/
theorem C26_page_with_two_keys_is_full :
    ∃ wc page,
      add_words 128 WordCounter.new [rep 98 31, rep 99 31] = .ok ([0, 0], wc) ∧
      wc.manager.deref wc.root_ = .ok page ∧
      item_count page = 2 ∧ string_table page = 64 ∧ free_space page = 36 ∧
      (rep 97 31).length + 1 ≤ MAX_WORD_LEN 128 ∧
      (rep 97 31).length + 1 + sizeof_Item = 40 ∧
      has_space_for page (rep 97 31) = false :=
  ⟨_, _, rfl, rfl, rfl, rfl, rfl, by decide, rfl, rfl⟩

set_option maxRecDepth 100000 in
/-- C27: the root leaf reached by adding `b`x31 and `c`x31 does not contain `a`x31 and its
free space, 36, is smaller than 31 + 1 + 8; `Block::add_word` on this leaf neither splits
the page nor returns 1: it stops on the failed assertion of `find_splitpoint`. -/
theorem C27_full_leaf_is_not_split :
    ∃ wc page,
      add_words 128 WordCounter.new [rep 98 31, rep 99 31] = .ok ([0, 0], wc) ∧
      wc.root_ = 0 ∧ wc.manager.deref 0 = .ok page ∧
      is_leaf page = true ∧
      page_pairs page = .ok [(rep 98 31, 1), (rep 99 31, 1)] ∧
      free_space page = 36 ∧ (rep 97 31).length + 1 + 8 = 40 ∧
      Block_add_word 128 wc.manager.block_count wc.manager 0 (rep 97 31) Promotion.fresh
        = .error .assertion_failed :=
  ⟨_, _, rfl, rfl, rfl, rfl, rfl, rfl, rfl, rfl⟩

theorem insert_split_eq_at (BLOCK_SIZE : Nat) (m : BlockManager) (this_p insert_point : Nat)
    (word : Word) (count left right : Nat) (promotion : Promotion) (this : Block) (s : Nat)
    (h1 : m.deref this_p = .ok this)
    (h2 : find_splitpoint BLOCK_SIZE this insert_point word = .ok s) :
    insert_split BLOCK_SIZE m this_p insert_point word count left right promotion
      = insert_split_at BLOCK_SIZE m this_p insert_point word count left right promotion s := by
  unfold insert_split insert_split_at
  simp only [h1, bind, Except.bind]
  cases hnew : (BlockManager.allocate BLOCK_SIZE m).2.deref (BlockManager.allocate BLOCK_SIZE m).1 with
  | error e => rfl
  | ok nb => simp only [h2]

set_option maxRecDepth 100000 in
/-- C25: the root leaf reached by adding `a`x5, `d`x31 and `f`x20 has three keys and no space
for `g`x31, whose insert position is 3.  `find_splitpoint` returns 1, and the split made at 1
leaves 6 bytes of key text in the original page and 53 in the sibling (difference 47); the
candidate 2 would leave 38 and 32 (difference 6). -/
theorem C25_splitpoint_is_not_the_most_balanced :
    ∃ wc page,
      add_words 128 WordCounter.new [rep 97 5, rep 100 31, rep 102 20] = .ok ([0, 0, 0], wc) ∧
      wc.root_ = 0 ∧ wc.manager.deref 0 = .ok page ∧
      item_count page = 3 ∧ has_space_for page (rep 103 31) = false ∧
      scan_loop page (rep 103 31) (item_count page) begin_item 0
        = .ok { found := false, item := item_at 3, insert_point := 3 } ∧
      find_splitpoint 128 page 3 (rep 103 31) = .ok 1 ∧
      split_sizes 128 wc.manager 0 3 (rep 103 31) 1 NULL_BLOCK NULL_BLOCK 1 = .ok (6, 53) ∧
      split_sizes 128 wc.manager 0 3 (rep 103 31) 1 NULL_BLOCK NULL_BLOCK 2 = .ok (38, 32) :=
  ⟨_, _, rfl, rfl, rfl, rfl, rfl, rfl, rfl, rfl, rfl⟩

set_option maxRecDepth 100000 in
/-- C29: twelve accepted words leave the root, block 2, an internal page with the keys
`c`x31, `d`x30, `gg`, `i`x15 and the child handles 0, 5, 1, 4, 3.  Adding `b`x30 splits the
child 0 (new sibling 6, pivot `a`x31), and the root, which has no space for the pivot, is
split around `gg` into block 2 and the new block 7.  The sibling has the handles 4, 3, but
the original page has 0, 6, 5, 1633771777 where 0, 6, 5, 1 is expected: the handle 1 is
gone, three of its bytes overwritten by the text of the pivot. -/
theorem C29_split_loses_a_child_handle :
    ∃ wc before promotion m wc' after sibling,
      add_words 128 WordCounter.new
        [rep 103 2, rep 100 31, rep 97 31, rep 100 30, rep 105 15, rep 102 15, rep 105 31,
         rep 99 31, rep 104 15, rep 103 31, rep 100 15, rep 97 30]
        = .ok (List.replicate 12 0, wc) ∧
      wc.root_ = 2 ∧ wc.manager.deref 2 = .ok before ∧
      child_handles before = .ok [0, 5, 1, 4, 3] ∧
      has_space_for before (rep 97 31) = false ∧
      Block_add_word 128 wc.manager.block_count wc.manager 0 (rep 98 30) Promotion.fresh
        = .ok (1, promotion, m) ∧
      promotion = { pivot_word := rep 97 31, count := 1, new_sibling := 6 } ∧
      wc.add_word 128 (rep 98 30) = .ok (0, wc') ∧
      wc'.manager.deref 2 = .ok after ∧ wc'.manager.deref 7 = .ok sibling ∧
      child_handles after = .ok [0, 6, 5, 1633771777] ∧
      child_handles sibling = .ok [4, 3] :=
  ⟨_, _, _, _, _, _, _, rfl, rfl, rfl, rfl, rfl, rfl, rfl, rfl, rfl, rfl, rfl, rfl⟩

set_option maxRecDepth 100000 in
/-- C30: with `BLOCK_SIZE = 128`, fourteen accepted words (every call returned 0) leave the
internal page block 2 with three keys and `string_table` 33 below the end of its item table
at 36, so `free_space` wraps to 65533 and `has_space_for` holds for every word.  Adding
`b`x30`c` goes from block 2 into its child block 6, which splits and returns 1 with the pivot
`b`x31, count 1 and the sibling 9.  Block 2 "has space", `shift_items` writes the 32 bytes of
the pivot at offset 1 over the header of the page, and the parent returns 0: its
`item_count` is 25187, not 4, its `block_number` 1650614786, its `left_child` 1650614882 and
its `string_table` 25186. -/
theorem C30_parent_overwrites_its_header :
    ∃ wc parent promotion m promotion' m' after wc',
      add_words 128 WordCounter.new
        [rep 103 2, rep 100 31, rep 97 31, rep 100 30, rep 105 15, rep 102 15, rep 105 31,
         rep 99 31, rep 104 15, rep 103 31, rep 100 15, rep 97 30, rep 98 30, rep 98 31]
        = .ok (List.replicate 14 0, wc) ∧
      wc.manager.deref 2 = .ok parent ∧
      block_number parent = 2 ∧ item_count parent = 3 ∧ string_table parent = 33 ∧
      left_child parent = 0 ∧ free_space parent = 65533 ∧
      scan_loop parent (rep 98 30 ++ [99]) (item_count parent) begin_item 0
        = .ok { found := false, item := item_at 1, insert_point := 1 } ∧
      Item_right_child parent (item_at 0) = .ok 6 ∧
      Block_add_word 128 wc.manager.block_count wc.manager 6 (rep 98 30 ++ [99]) Promotion.fresh
        = .ok (1, promotion, m) ∧
      promotion = { pivot_word := rep 98 31, count := 1, new_sibling := 9 } ∧
      has_space_for parent promotion.pivot_word = true ∧
      Block_add_word 128 wc.manager.block_count wc.manager 2 (rep 98 30 ++ [99]) Promotion.fresh
        = .ok (0, promotion', m') ∧
      m'.deref 2 = .ok after ∧
      item_count after = 25187 ∧ block_number after = 1650614786 ∧
      left_child after = 1650614882 ∧ string_table after = 25186 ∧
      wc.add_word 128 (rep 98 30 ++ [99]) = .ok (0, wc') ∧
      wc'.manager.deref 2 = .ok after :=
  ⟨_, _, _, _, _, _, _, _, rfl, rfl, rfl, rfl, rfl, rfl, rfl, rfl, rfl, rfl, rfl, rfl, rfl, rfl,
    rfl, rfl, rfl, rfl, rfl, rfl⟩

/-! ### Inserting into a page with room (`shift_items`) -/

theorem getD_wr16_lo (b : Block) (i v : Nat) (h : i + 2 ≤ b.length) :
    (wr16 b i v).getD i 0 = v % 256 := by
  unfold wr16
  rw [getD_set_ne _ _ _ _ (by omega), getD_set_eq _ _ _ (by omega)]

theorem getD_wr16_hi (b : Block) (i v : Nat) (h : i + 2 ≤ b.length) :
    (wr16 b i v).getD (i + 1) 0 = v / 256 % 256 := by
  unfold wr16
  rw [getD_set_eq _ _ _ (by simp; omega)]

theorem proper_set (b : Block) (i v : Nat) (hb : ∀ c ∈ b, c < 256) (hv : v < 256) :
    ∀ c ∈ b.set i v, c < 256 := by
  intro c hc
  rcases List.mem_or_eq_of_mem_set hc with h | h
  · exact hb c h
  · rw [h]; exact hv

theorem proper_wr16 (b : Block) (i v : Nat) (hb : ∀ c ∈ b, c < 256) :
    ∀ c ∈ wr16 b i v, c < 256 := by
  unfold wr16
  exact proper_set _ _ _ (proper_set _ _ _ hb (Nat.mod_lt _ (by decide))) (Nat.mod_lt _ (by decide))

theorem proper_wr32 (b : Block) (i v : Nat) (hb : ∀ c ∈ b, c < 256) :
    ∀ c ∈ wr32 b i v, c < 256 := by
  unfold wr32
  exact proper_wr16 _ _ _ (proper_wr16 _ _ _ hb)

theorem getD_lt_of_proper (b : Block) (hb : ∀ c ∈ b, c < 256) (x : Nat) : b.getD x 0 < 256 := by
  by_cases h : x < b.length
  · rw [List.getD_eq_getElem _ _ h]
    exact hb _ (List.getElem_mem _)
  · rw [List.getD_eq_default _ _ (by omega)]
    decide

/-- Copying the eight bytes of an item from `src` to `dst = src + 8`. -/
theorem copy_item_up (b : Block) (src : Nat) (hb : ∀ c ∈ b, c < 256)
    (hlen : src + 16 ≤ b.length) :
    ∀ x, (wr32 (wr16 (wr16 b (src + 8) (rd16 b src)) (src + 8 + 2) (rd16 b (src + 2)))
        (src + 8 + 4) (rd32 b (src + 4))).getD x 0 =
      if src + 8 ≤ x ∧ x < src + 16 then b.getD (x - 8) 0 else b.getD x 0 := by
  intro x
  have p0 := getD_lt_of_proper b hb src
  have p1 := getD_lt_of_proper b hb (src + 1)
  have p2 := getD_lt_of_proper b hb (src + 2)
  have p3 := getD_lt_of_proper b hb (src + 2 + 1)
  have p4 := getD_lt_of_proper b hb (src + 4)
  have p5 := getD_lt_of_proper b hb (src + 4 + 1)
  have p6 := getD_lt_of_proper b hb (src + 4 + 2)
  have p7 := getD_lt_of_proper b hb (src + 4 + 2 + 1)
  by_cases hx : src + 8 ≤ x ∧ x < src + 16
  · rw [if_pos hx]
    have : x = src + 8 ∨ x = src + 8 + 1 ∨ x = src + 8 + 2 ∨ x = src + 8 + 2 + 1 ∨
        x = src + 8 + 4 ∨ x = src + 8 + 4 + 1 ∨ x = src + 8 + 4 + 2 ∨ x = src + 8 + 4 + 2 + 1 := by
      omega
    rcases this with e | e | e | e | e | e | e | e <;> subst e
    · rw [getD_wr32_ne _ _ _ _ (by omega), getD_wr16_ne _ _ _ _ (by omega) (by omega),
        getD_wr16_lo _ _ _ (by omega)]
      unfold rd16
      have : src + 8 - 8 = src := by omega
      rw [this]; omega
    · rw [getD_wr32_ne _ _ _ _ (by omega), getD_wr16_ne _ _ _ _ (by omega) (by omega),
        getD_wr16_hi _ _ _ (by omega)]
      unfold rd16
      have : src + 8 + 1 - 8 = src + 1 := by omega
      rw [this]; omega
    · rw [getD_wr32_ne _ _ _ _ (by omega), getD_wr16_lo _ _ _ (by simp; omega)]
      unfold rd16
      have : src + 8 + 2 - 8 = src + 2 := by omega
      rw [this]; omega
    · rw [getD_wr32_ne _ _ _ _ (by omega), getD_wr16_hi _ _ _ (by simp; omega)]
      unfold rd16
      have : src + 8 + 2 + 1 - 8 = src + 2 + 1 := by omega
      rw [this]; omega
    · unfold wr32
      rw [getD_wr16_ne _ _ _ _ (by omega) (by omega), getD_wr16_lo _ _ _ (by simp; omega)]
      unfold rd32 rd16
      have : src + 8 + 4 - 8 = src + 4 := by omega
      rw [this]; omega
    · unfold wr32
      rw [getD_wr16_ne _ _ _ _ (by omega) (by omega), getD_wr16_hi _ _ _ (by simp; omega)]
      unfold rd32 rd16
      have : src + 8 + 4 + 1 - 8 = src + 4 + 1 := by omega
      rw [this]; omega
    · unfold wr32
      rw [getD_wr16_lo _ _ _ (by simp; omega)]
      unfold rd32 rd16
      have : src + 8 + 4 + 2 - 8 = src + 4 + 2 := by omega
      rw [this]; omega
    · unfold wr32
      rw [getD_wr16_hi _ _ _ (by simp; omega)]
      unfold rd32 rd16
      have : src + 8 + 4 + 2 + 1 - 8 = src + 4 + 2 + 1 := by omega
      rw [this]; omega
  · rw [if_neg hx]
    rw [getD_wr32_ne _ _ _ _ (by omega), getD_wr16_ne _ _ _ _ (by omega) (by omega),
      getD_wr16_ne _ _ _ _ (by omega) (by omega)]

theorem shift_loop_spec : ∀ (k it : Nat) (b : Block), (∀ c ∈ b, c < 256) →
    it + 8 ≤ b.length → 8 * k ≤ it →
    ∃ b', shift_loop k it b = .ok b' ∧ b'.length = b.length ∧ (∀ c ∈ b', c < 256) ∧
      ∀ x, b'.getD x 0 =
        if it - 8 * k + 8 ≤ x ∧ x < it + 8 then b.getD (x - 8) 0 else b.getD x 0 := by
  intro k
  induction k with
  | zero =>
    intro it b hb _ _
    refine ⟨b, rfl, rfl, hb, ?_⟩
    intro x
    rw [if_neg (by omega)]
  | succ k ih =>
    intro it b hb hlen hk
    obtain ⟨src, rfl⟩ : ∃ src, it = src + 8 := ⟨it - 8, by omega⟩
    unfold shift_loop
    simp only [sizeof_Item, Nat.add_sub_cancel, Item_offset, Item_count, Item_right_child,
      set_Item_offset, set_Item_count, set_Item_right_child,
      ld16_ok b src (by omega), ld16_ok b (src + 2) (by omega), ld32_ok b (src + 4) (by omega),
      bind, Except.bind]
    rw [st16_ok _ _ _ (by omega)]
    simp only []
    rw [st16_ok _ _ _ (by simp; omega)]
    simp only []
    rw [st32_ok _ _ _ (by simp; omega)]
    simp only []
    have hcopy := copy_item_up b src hb (by omega)
    have hb1 := proper_wr32 _ (src + 8 + 4) (rd32 b (src + 4))
      (proper_wr16 _ (src + 8 + 2) (rd16 b (src + 2)) (proper_wr16 _ (src + 8) (rd16 b src) hb))
    obtain ⟨b', h', hl', hp', hx'⟩ := ih src _ hb1 (by simp; omega) (by omega)
    refine ⟨b', h', by rw [hl']; simp, hp', ?_⟩
    intro x
    rw [hx' x]
    by_cases c1 : src - 8 * k + 8 ≤ x ∧ x < src + 8
    · rw [if_pos c1, if_pos (by omega), hcopy (x - 8), if_neg (by omega)]
    · rw [if_neg c1, hcopy x]
      by_cases c2 : src + 8 ≤ x ∧ x < src + 16
      · rw [if_pos c2, if_pos (by omega)]
      · rw [if_neg c2, if_neg (by omega)]

theorem proper_strcpy (s : Word) : ∀ (b b' : Block) (off : Nat), (∀ c ∈ b, c < 256) →
    strcpy b off s = .ok b' → ∀ c ∈ b', c < 256 := by
  induction s with
  | nil =>
    intro b b' off hb h
    unfold strcpy st8 at h
    split at h
    · cases h
      exact proper_set _ _ _ hb (Nat.mod_lt _ (by decide))
    · cases h
  | cons c s ih =>
    intro b b' off hb h
    unfold strcpy at h
    simp only [bind, Except.bind] at h
    by_cases hlt : off < b.length
    · rw [st8_ok _ _ _ hlt] at h
      exact ih _ _ _ (proper_set _ _ _ hb (Nat.mod_lt _ (by decide))) h
    · simp only [st8, hlt, if_false] at h
      cases h

/-- What `allocate_string` does when the text fits below `string_table`. -/
theorem allocate_string_spec (b : Block) (s : Word) (hb : ∀ c ∈ b, c < 256)
    (h16 : b.length < 65536) (hst : string_table b ≤ b.length)
    (hfit : 8 + (s.length + 1) ≤ string_table b) :
    ∃ b', allocate_string b s = .ok b' ∧ b'.length = b.length ∧ (∀ c ∈ b', c < 256) ∧
      string_table b' = string_table b - (s.length + 1) ∧
      (∀ x, x < string_table b - (s.length + 1) ∨ string_table b ≤ x → x ≠ 6 → x ≠ 7 →
        b'.getD x 0 = b.getD x 0) ∧
      (∀ k, k < s.length → b'.getD (string_table b - (s.length + 1) + k) 0 = s.getD k 0 % 256) ∧
      b'.getD (string_table b - 1) 0 = 0 := by
  unfold allocate_string set_string_table
  have hmod : (string_table b + 65536 - (s.length + 1) % 65536) % 65536
      = string_table b - (s.length + 1) := by omega
  have hst1 : string_table (wr16 b 6 (string_table b - (s.length + 1)))
      = string_table b - (s.length + 1) := by
    unfold string_table
    rw [rd16_wr16_same _ _ _ (by omega)]
    unfold string_table at hfit hst
    omega
  simp only [hmod, hst1]
  obtain ⟨b', h', hl', hout, hin, hz⟩ := strcpy_spec s (wr16 b 6 (string_table b - (s.length + 1)))
    (string_table b - (s.length + 1)) (by simp; omega)
  refine ⟨b', h', by rw [hl']; simp, proper_strcpy s _ _ _ (proper_wr16 _ _ _ hb) h', ?_, ?_, hin, ?_⟩
  · unfold string_table
    have e6 := hout 6 (by omega)
    have e7 := hout 7 (by omega)
    rw [rd16_congr _ _ 6 e6 e7]
    exact hst1
  · intro x hx h6 h7
    rw [hout x (by omega), getD_wr16_ne _ _ _ _ h6 h7]
  · have : string_table b - (s.length + 1) + s.length = string_table b - 1 := by omega
    rw [← this]
    exact hz

/-- What `shift_items` does to a page with room for the item and the text: the bytes of the
page it returns. -/
theorem shift_items_spec (b : Block) (p : Nat) (word : Word) (count left right : Nat)
    (hb : ∀ c ∈ b, c < 256) (h16 : b.length < 65536) (hp : p ≤ item_count b)
    (hfit : item_at (item_count b) + 8 + ((c_str word).length + 1) ≤ string_table b)
    (hst : string_table b ≤ b.length) :
    ∃ b', shift_items b (item_at p) word count left right = .ok (0, b') ∧
      b'.length = b.length ∧ (∀ c ∈ b', c < 256) ∧
      item_count b' = item_count b + 1 ∧
      string_table b' = string_table b - ((c_str word).length + 1) ∧
      (∀ x, string_table b ≤ x → b'.getD x 0 = b.getD x 0) ∧
      (∀ k, k < (c_str word).length →
        b'.getD (string_table b - ((c_str word).length + 1) + k) 0
          = (c_str word).getD k 0 % 256) ∧
      b'.getD (string_table b - 1) 0 = 0 ∧
      (∀ x, x < 4 → b'.getD x 0 = b.getD x 0) ∧
      (∀ x, 8 ≤ x → x < item_at p - 4 → b'.getD x 0 = b.getD x 0) ∧
      rd32 b' (item_at p - 4) = left % 4294967296 ∧
      rd16 b' (item_at p) = string_table b - ((c_str word).length + 1) ∧
      rd16 b' (item_at p + 2) = count % 65536 ∧
      rd32 b' (item_at p + 4) = right % 4294967296 ∧
      (∀ x, item_at p + 8 ≤ x → x < item_at (item_count b) + 8 →
        b'.getD x 0 = b.getD (x - 8) 0) := by
  have hip : item_at p = 12 + 8 * p := rfl
  have hin : item_at (item_count b) = 12 + 8 * item_count b := rfl
  rw [hin] at hfit
  rw [hip, hin]
  -- the loop
  obtain ⟨b1, h1, hl1, hp1, hx1⟩ := shift_loop_spec (item_count b - p) (12 + 8 * item_count b) b hb
    (by omega) (by omega)
  have hst1 : string_table b1 = string_table b := by
    unfold string_table
    exact rd16_congr _ _ 6 (by rw [hx1 6, if_neg (by omega)]) (by rw [hx1 7, if_neg (by omega)])
  have hic1 : item_count b1 = item_count b := by
    unfold item_count
    exact rd16_congr _ _ 4 (by rw [hx1 4, if_neg (by omega)]) (by rw [hx1 5, if_neg (by omega)])
  -- the text
  obtain ⟨b2, h2, hl2, hp2, hst2, hout2, hin2, hz2⟩ := allocate_string_spec b1 (c_str word) hp1
    (by omega) (by omega) (by omega)
  rw [hst1] at hst2 hout2 hin2 hz2
  have hic2 : item_count b2 = item_count b := by
    rw [← hic1]
    unfold item_count
    exact rd16_congr _ _ 4 (hout2 4 (by omega) (by omega) (by omega))
      (hout2 5 (by omega) (by omega) (by omega))
  -- the call
  have hcall : shift_items b (12 + 8 * p) word count left right = .ok (0,
      wr16 (wr32 (wr32 (wr16 (wr16 b2 (12 + 8 * p) (string_table b2)) (12 + 8 * p + 2) count)
        (12 + 8 * p + 4) right) (12 + 8 * p - 8 + 4) left) 4 (item_count b + 1)) := by
    unfold shift_items
    have e1 : ¬ (end_item b < 12 + 8 * p) := by unfold end_item; rw [hin]; omega
    have e2 : (end_item b - (12 + 8 * p)) / sizeof_Item = item_count b - p := by
      unfold end_item sizeof_Item; rw [hin]; omega
    have e3 : end_item b = 12 + 8 * item_count b := rfl
    simp only [e1, if_false, e2, bind, Except.bind, pure, Except.pure]
    rw [e3, h1]
    simp only [h2, set_Item_offset, set_Item_count, set_Item_right_child, sizeof_Item]
    rw [st16_ok _ _ _ (by omega)]
    simp only []
    rw [st16_ok _ _ _ (by simp; omega)]
    simp only []
    rw [st32_ok _ _ _ (by simp; omega)]
    simp only []
    rw [st32_ok _ _ _ (by simp; omega)]
    simp only [set_item_count]
    have e4 : item_count (wr32 (wr32 (wr16 (wr16 b2 (12 + 8 * p) (string_table b2))
        (12 + 8 * p + 2) count) (12 + 8 * p + 4) right) (12 + 8 * p - 8 + 4) left)
        = item_count b := by
      rw [← hic2]
      unfold item_count
      rw [rd16_wr32_ne _ _ _ _ (by omega), rd16_wr32_ne _ _ _ _ (by omega),
        rd16_wr16_ne _ _ _ _ (by omega), rd16_wr16_ne _ _ _ _ (by omega)]
    rw [e4]
  -- bytes away from the fields written last
  have hW : ∀ x, x ≠ 4 → x ≠ 5 → (x < 12 + 8 * p - 4 ∨ 12 + 8 * p + 8 ≤ x) →
      (wr16 (wr32 (wr32 (wr16 (wr16 b2 (12 + 8 * p) (string_table b2)) (12 + 8 * p + 2) count)
        (12 + 8 * p + 4) right) (12 + 8 * p - 8 + 4) left) 4 (item_count b + 1)).getD x 0
        = b2.getD x 0 := by
    intro x h4 h5 hx
    rw [getD_wr16_ne _ _ _ _ h4 h5, getD_wr32_ne _ _ _ _ (by omega),
      getD_wr32_ne _ _ _ _ (by omega), getD_wr16_ne _ _ _ _ (by omega) (by omega),
      getD_wr16_ne _ _ _ _ (by omega) (by omega)]
  refine ⟨_, hcall, ?_, ?_, ?_, ?_, ?_, ?_, ?_, ?_, ?_, ?_, ?_, ?_, ?_, ?_⟩
  · simp only [length_wr16, length_wr32]
    rw [hl2, hl1]
  · exact proper_wr16 _ _ _ (proper_wr32 _ _ _ (proper_wr32 _ _ _ (proper_wr16 _ _ _
      (proper_wr16 _ _ _ hp2))))
  · unfold item_count
    rw [rd16_wr16_same _ _ _ (by simp; omega)]
    have : rd16 b 4 = item_count b := rfl
    rw [this]
    omega
  · rw [← hst2]
    unfold string_table
    rw [rd16_wr16_ne _ _ _ _ (by omega), rd16_wr32_ne _ _ _ _ (by omega),
      rd16_wr32_ne _ _ _ _ (by omega), rd16_wr16_ne _ _ _ _ (by omega),
      rd16_wr16_ne _ _ _ _ (by omega)]
  · intro x hx
    rw [hW x (by omega) (by omega) (by omega), hout2 x (by omega) (by omega) (by omega), hx1 x,
      if_neg (by omega)]
  · intro k hk
    rw [hW _ (by omega) (by omega) (by omega)]
    exact hin2 k hk
  · rw [hW _ (by omega) (by omega) (by omega)]
    exact hz2
  · intro x hx
    rw [getD_wr16_ne _ _ _ _ (by omega) (by omega), getD_wr32_ne _ _ _ _ (by omega),
      getD_wr32_ne _ _ _ _ (by omega), getD_wr16_ne _ _ _ _ (by omega) (by omega),
      getD_wr16_ne _ _ _ _ (by omega) (by omega),
      hout2 x (by omega) (by omega) (by omega), hx1 x, if_neg (by omega)]
  · intro x hx8 hx
    rw [hW x (by omega) (by omega) (by omega), hout2 x (by omega) (by omega) (by omega), hx1 x,
      if_neg (by omega)]
  · have e : 12 + 8 * p - 8 + 4 = 12 + 8 * p - 4 := by omega
    rw [← e, rd32_wr16_ne _ _ _ _ (by omega), rd32_wr32_same _ _ _ (by simp; omega)]
  · rw [rd16_wr16_ne _ _ _ _ (by omega), rd16_wr32_ne _ _ _ _ (by omega),
      rd16_wr32_ne _ _ _ _ (by omega), rd16_wr16_ne _ _ _ _ (by omega),
      rd16_wr16_same _ _ _ (by omega), hst2]
    omega
  · rw [rd16_wr16_ne _ _ _ _ (by omega), rd16_wr32_ne _ _ _ _ (by omega),
      rd16_wr32_ne _ _ _ _ (by omega), rd16_wr16_same _ _ _ (by simp; omega)]
  · rw [rd32_wr16_ne _ _ _ _ (by omega), rd32_wr32_ne _ _ _ _ (by omega),
      rd32_wr32_same _ _ _ (by simp; omega)]
  · intro x hx hx'
    rw [hW x (by omega) (by omega) (by omega), hout2 x (by omega) (by omega) (by omega), hx1 x,
      if_pos (by omega)]

theorem string_at_congr (b b' : Block) (o : Nat) (hl : b'.length = b.length)
    (h : ∀ x, o ≤ x → b'.getD x 0 = b.getD x 0) : string_at b' o = string_at b o := by
  have e : b'.drop o = b.drop o := by
    apply List.ext_getElem?
    intro i
    rw [List.getElem?_drop, List.getElem?_drop]
    have := h (o + i) (by omega)
    rw [List.getD_eq_getElem?_getD, List.getD_eq_getElem?_getD] at this
    by_cases hi : o + i < b.length
    · rw [List.getElem?_eq_getElem hi, List.getElem?_eq_getElem (by omega)] at this ⊢
      simpa using this
    · rw [List.getElem?_eq_none (by omega), List.getElem?_eq_none (by omega)]
  unfold string_at
  rw [e]

theorem rd16_shift (b b' : Block) (j j' : Nat) (h0 : b'.getD j' 0 = b.getD j 0)
    (h1 : b'.getD (j' + 1) 0 = b.getD (j + 1) 0) : rd16 b' j' = rd16 b j := by
  unfold rd16
  rw [h0, h1]

theorem rd32_shift (b b' : Block) (j j' : Nat) (h0 : b'.getD j' 0 = b.getD j 0)
    (h1 : b'.getD (j' + 1) 0 = b.getD (j + 1) 0) (h2 : b'.getD (j' + 2) 0 = b.getD (j + 2) 0)
    (h3 : b'.getD (j' + 2 + 1) 0 = b.getD (j + 2 + 1) 0) : rd32 b' j' = rd32 b j := by
  unfold rd32
  rw [rd16_shift b b' j j' h0 h1, rd16_shift b b' (j + 2) (j' + 2) h2 h3]

theorem item_view_inv (b : Block) (item : Nat) (v : Word × Nat × Nat)
    (h : item_view b item = .ok v) :
    item + 8 ≤ b.length ∧ string_at b (rd16 b item) = .ok v.1 ∧ rd16 b (item + 2) = v.2.1 ∧
      rd32 b (item + 4) = v.2.2 := by
  unfold item_view Item_offset Item_count Item_right_child at h
  by_cases h8 : item + 8 ≤ b.length
  · rw [ld16_ok _ _ (by omega), ld16_ok _ _ (by omega), ld32_ok _ _ (by omega)] at h
    simp only [bind, Except.bind, pure, Except.pure] at h
    cases hs : string_at b (rd16 b item) with
    | error e => rw [hs] at h; cases h
    | ok s =>
      rw [hs] at h
      cases h
      exact ⟨h8, rfl, rfl, rfl⟩
  · exfalso
    simp only [bind, Except.bind, pure, Except.pure] at h
    unfold ld16 ld32 at h
    by_cases h2 : item + 2 ≤ b.length
    · simp only [h2, if_true] at h
      cases hs : string_at b (rd16 b item) with
      | error e => rw [hs] at h; cases h
      | ok s =>
        rw [hs] at h
        by_cases h4 : item + 2 + 2 ≤ b.length
        · simp only [h4, if_true] at h
          have : ¬ (item + 4 + 4 ≤ b.length) := by omega
          simp only [this, if_false] at h
          cases h
        · simp only [h4, if_false] at h
          cases h
    · simp only [h2, if_false] at h
      cases h

theorem item_view_intro (b : Block) (item : Nat) (s : Word) (c r : Nat)
    (h8 : item + 8 ≤ b.length) (hs : string_at b (rd16 b item) = .ok s)
    (hc : rd16 b (item + 2) = c) (hr : rd32 b (item + 4) = r) :
    item_view b item = .ok (s, c, r) := by
  unfold item_view Item_offset Item_count Item_right_child
  rw [ld16_ok _ _ (by omega), ld16_ok _ _ (by omega), ld32_ok _ _ (by omega)]
  simp only [bind, Except.bind, pure, Except.pure, hs, hc, hr]

theorem page_items_loop_inv (b : Block) : ∀ (k item : Nat) (l : List (Word × Nat × Nat)),
    page_items_loop b k item = .ok l →
    l.length = k ∧ ∀ i, i < k → item_view b (item + 8 * i) = .ok (l.getD i ([], 0, 0)) := by
  intro k
  induction k with
  | zero =>
    intro item l h
    cases h
    exact ⟨rfl, fun i hi => by omega⟩
  | succ k ih =>
    intro item l h
    unfold page_items_loop at h
    simp only [bind, Except.bind, pure, Except.pure] at h
    cases hv : item_view b item with
    | error e => rw [hv] at h; cases h
    | ok v =>
      rw [hv] at h
      cases hr : page_items_loop b k (item + sizeof_Item) with
      | error e => rw [hr] at h; cases h
      | ok rest =>
        rw [hr] at h
        cases h
        obtain ⟨hlen, hitems⟩ := ih _ _ hr
        refine ⟨by simp [hlen], ?_⟩
        intro i hi
        cases i with
        | zero => simpa using hv
        | succ i =>
          have := hitems i (by omega)
          simp only [sizeof_Item] at this
          have e : item + 8 * (i + 1) = item + 8 + 8 * i := by omega
          rw [e, this]
          simp

theorem page_items_loop_intro (b : Block) : ∀ (k item : Nat) (l : List (Word × Nat × Nat)),
    l.length = k → (∀ i, i < k → item_view b (item + 8 * i) = .ok (l.getD i ([], 0, 0))) →
    page_items_loop b k item = .ok l := by
  intro k
  induction k with
  | zero =>
    intro item l hl _
    have : l = [] := List.length_eq_zero.mp hl
    subst this
    rfl
  | succ k ih =>
    intro item l hl h
    cases l with
    | nil => simp at hl
    | cons v rest =>
      unfold page_items_loop
      have h0 := h 0 (by omega)
      simp only [Nat.mul_zero, Nat.add_zero, List.getD_cons_zero] at h0
      have hrest := ih (item + sizeof_Item) rest (by simpa using hl) (by
        intro i hi
        have := h (i + 1) (by omega)
        simp only [List.getD_cons_succ] at this
        have e : item + 8 * (i + 1) = item + sizeof_Item + 8 * i := by
          unfold sizeof_Item; omega
        rw [← e]
        exact this)
      simp only [h0, hrest, bind, Except.bind, pure, Except.pure]

theorem c_str_no_nul (word : Word) : ∀ c ∈ c_str word, c ≠ 0 := by
  intro c hc
  have := List.mem_takeWhile_imp hc
  simpa using this

theorem c_str_lt (word : Word) (h : ∀ c ∈ word, c < 256) : ∀ c ∈ c_str word, c < 256 := by
  intro c hc
  exact h c (List.takeWhile_subset _ hc)

theorem getD_mod_of_lt (s : Word) (h : ∀ c ∈ s, c < 256) (k : Nat) (hk : k < s.length) :
    s.getD k 0 % 256 = s.getD k 0 := by
  rw [List.getD_eq_getElem _ _ hk]
  exact Nat.mod_eq_of_lt (h _ (List.getElem_mem _))

/-- The items of the page `shift_items` returns, one by one. -/
theorem shift_items_views (b : Block) (p : Nat) (word : Word) (count left right : Nat)
    (items : List (Word × Nat × Nat))
    (hb : ∀ c ∈ b, c < 256) (h16 : b.length < 65536) (hp : p ≤ item_count b)
    (hfit : item_at (item_count b) + 8 + ((c_str word).length + 1) ≤ string_table b)
    (hst : string_table b ≤ b.length)
    (hword : ∀ c ∈ word, c < 256)
    (hoff : ∀ i, i < item_count b → string_table b ≤ rd16 b (item_at i))
    (hitems : page_items b = .ok items) :
    ∃ b', shift_items b (item_at p) word count left right = .ok (0, b') ∧
      b'.length = b.length ∧ (∀ c ∈ b', c < 256) ∧
      item_count b' = item_count b + 1 ∧
      string_table b' = string_table b - ((c_str word).length + 1) ∧
      block_number b' = block_number b ∧
      left_child b' = (if p = 0 then left % 4294967296 else left_child b) ∧
      (∀ i, i < item_count b + 1 → string_table b' ≤ rd16 b' (item_at i)) ∧
      (∀ i, i + 1 < p → item_view b' (item_at i) = .ok (items.getD i ([], 0, 0))) ∧
      (∀ i, i + 1 = p → item_view b' (item_at i) =
        .ok ((items.getD i ([], 0, 0)).1, (items.getD i ([], 0, 0)).2.1, left % 4294967296)) ∧
      item_view b' (item_at p) = .ok (c_str word, count % 65536, right % 4294967296) ∧
      (∀ i, p ≤ i → i < item_count b →
        item_view b' (item_at (i + 1)) = .ok (items.getD i ([], 0, 0))) := by
  obtain ⟨b', hcall, hl, hpr, hic, hstt, hold, hnew, hz, hlow, hbefore, hleft, hO, hC, hR, hshift⟩ :=
    shift_items_spec b p word count left right hb h16 hp hfit hst
  obtain ⟨hlen, hviews⟩ := page_items_loop_inv b _ _ _ hitems
  have hip : ∀ i, item_at i = 12 + 8 * i := fun i => rfl
  rw [hip] at hfit
  simp only [hip] at hbefore hleft hO hC hR hshift hoff ⊢
  have hv : ∀ i, i < item_count b → 12 + 8 * i + 8 ≤ b.length ∧
      string_at b (rd16 b (12 + 8 * i)) = .ok (items.getD i ([], 0, 0)).1 ∧
      rd16 b (12 + 8 * i + 2) = (items.getD i ([], 0, 0)).2.1 ∧
      rd32 b (12 + 8 * i + 4) = (items.getD i ([], 0, 0)).2.2 := by
    intro i hi
    exact item_view_inv b _ _ (hviews i hi)
  -- an old text is still there
  have hstr : ∀ o, string_table b ≤ o → string_at b' o = string_at b o := by
    intro o ho
    exact string_at_congr b b' o hl (fun x hx => hold x (by omega))
  refine ⟨b', hcall, hl, hpr, hic, hstt, ?_, ?_, ?_, ?_, ?_, ?_, ?_⟩
  · unfold block_number
    exact rd32_congr _ _ 0 (hlow 0 (by omega)) (hlow 1 (by omega)) (hlow 2 (by omega))
      (hlow 3 (by omega))
  · by_cases h0 : p = 0
    · subst h0
      simp only [if_true]
      exact hleft
    · simp only [h0, if_false]
      unfold left_child
      exact rd32_congr _ _ 8 (hbefore 8 (by omega) (by omega)) (hbefore 9 (by omega) (by omega))
        (hbefore 10 (by omega) (by omega)) (hbefore 11 (by omega) (by omega))
  · intro i hi
    rw [hstt]
    rcases Nat.lt_trichotomy i p with h | h | h
    · have e : rd16 b' (12 + 8 * i) = rd16 b (12 + 8 * i) :=
        rd16_congr _ _ _ (hbefore _ (by omega) (by omega)) (hbefore _ (by omega) (by omega))
      rw [e]
      have := hoff i (by omega)
      omega
    · subst h
      rw [hO]
    · have e : rd16 b' (12 + 8 * i) = rd16 b (12 + 8 * (i - 1)) := by
        apply rd16_shift
        · rw [hshift _ (by omega) (by omega)]
          congr 1; omega
        · rw [hshift _ (by omega) (by omega)]
          congr 1; omega
      rw [e]
      have := hoff (i - 1) (by omega)
      omega
  · intro i hi
    obtain ⟨h8, hs, hc, hr⟩ := hv i (by omega)
    have eo : rd16 b' (12 + 8 * i) = rd16 b (12 + 8 * i) :=
      rd16_congr _ _ _ (hbefore _ (by omega) (by omega)) (hbefore _ (by omega) (by omega))
    have hs' : string_at b' (rd16 b' (12 + 8 * i)) = .ok (items.getD i ([], 0, 0)).1 := by
      rw [eo, hstr _ (hoff i (by omega))]
      exact hs
    have hc' : rd16 b' (12 + 8 * i + 2) = (items.getD i ([], 0, 0)).2.1 := by
      rw [← hc]
      exact rd16_congr _ _ _ (hbefore _ (by omega) (by omega)) (hbefore _ (by omega) (by omega))
    have hr' : rd32 b' (12 + 8 * i + 4) = (items.getD i ([], 0, 0)).2.2 := by
      rw [← hr]
      exact rd32_congr _ _ _ (hbefore _ (by omega) (by omega)) (hbefore _ (by omega) (by omega))
        (hbefore _ (by omega) (by omega)) (hbefore _ (by omega) (by omega))
    exact item_view_intro b' _ _ _ _ (by omega) hs' hc' hr'
  · intro i hi
    obtain ⟨h8, hs, hc, hr⟩ := hv i (by omega)
    have eo : rd16 b' (12 + 8 * i) = rd16 b (12 + 8 * i) :=
      rd16_congr _ _ _ (hbefore _ (by omega) (by omega)) (hbefore _ (by omega) (by omega))
    have hs' : string_at b' (rd16 b' (12 + 8 * i)) = .ok (items.getD i ([], 0, 0)).1 := by
      rw [eo, hstr _ (hoff i (by omega))]
      exact hs
    have hc' : rd16 b' (12 + 8 * i + 2) = (items.getD i ([], 0, 0)).2.1 := by
      rw [← hc]
      exact rd16_congr _ _ _ (hbefore _ (by omega) (by omega)) (hbefore _ (by omega) (by omega))
    have hr' : rd32 b' (12 + 8 * i + 4) = left % 4294967296 := by
      have e : 12 + 8 * i + 4 = 12 + 8 * p - 4 := by omega
      rw [e]
      exact hleft
    exact item_view_intro b' _ _ _ _ (by omega) hs' hc' hr'
  · apply item_view_intro b' _ _ _ _ (by omega)
    · rw [hO]
      apply string_at_spec (c_str word) b' _ (by omega)
      · intro k hk
        rw [hnew k hk]
        exact getD_mod_of_lt _ (c_str_lt word hword) k hk
      · have e : string_table b - ((c_str word).length + 1) + (c_str word).length
            = string_table b - 1 := by omega
        rw [e]
        exact hz
      · exact c_str_no_nul word
    · exact hC
    · exact hR
  · intro i hpi hi
    obtain ⟨h8, hs, hc, hr⟩ := hv i hi
    have sh : ∀ x, 12 + 8 * i ≤ x → x < 12 + 8 * i + 8 → b'.getD (x + 8) 0 = b.getD x 0 := by
      intro x hx1 hx2
      rw [hshift _ (by omega) (by omega)]
      congr 1
    have e1 : 12 + 8 * (i + 1) = 12 + 8 * i + 8 := by omega
    rw [e1]
    have eo : rd16 b' (12 + 8 * i + 8) = rd16 b (12 + 8 * i) :=
      rd16_shift _ _ _ _ (sh _ (by omega) (by omega)) (sh _ (by omega) (by omega))
    have hs' : string_at b' (rd16 b' (12 + 8 * i + 8)) = .ok (items.getD i ([], 0, 0)).1 := by
      rw [eo, hstr _ (hoff i hi)]
      exact hs
    have hc' : rd16 b' (12 + 8 * i + 8 + 2) = (items.getD i ([], 0, 0)).2.1 := by
      rw [← hc]
      have := rd16_shift b b' (12 + 8 * i + 2) (12 + 8 * i + 2 + 8)
        (sh _ (by omega) (by omega)) (sh _ (by omega) (by omega))
      have e : 12 + 8 * i + 8 + 2 = 12 + 8 * i + 2 + 8 := by omega
      rw [e]
      exact this
    have hr' : rd32 b' (12 + 8 * i + 8 + 4) = (items.getD i ([], 0, 0)).2.2 := by
      rw [← hr]
      have := rd32_shift b b' (12 + 8 * i + 4) (12 + 8 * i + 4 + 8)
        (sh _ (by omega) (by omega)) (sh _ (by omega) (by omega))
        (by
          have := sh (12 + 8 * i + 4 + 2) (by omega) (by omega)
          have e : 12 + 8 * i + 4 + 8 + 2 = 12 + 8 * i + 4 + 2 + 8 := by omega
          rw [e]; exact this)
        (by
          have := sh (12 + 8 * i + 4 + 2 + 1) (by omega) (by omega)
          have e : 12 + 8 * i + 4 + 8 + 2 + 1 = 12 + 8 * i + 4 + 2 + 1 + 8 := by omega
          rw [e]; exact this)
      have e : 12 + 8 * i + 8 + 4 = 12 + 8 * i + 4 + 8 := by omega
      rw [e]
      exact this
    exact item_view_intro b' _ _ _ _ (by omega) hs' hc' hr'

theorem length_set_last_right : ∀ (l : List (Word × Nat × Nat)) (v : Nat),
    (set_last_right l v).length = l.length
  | [], _ => rfl
  | [_], _ => rfl
  | _ :: y :: l, v => by
    simp only [set_last_right, List.length_cons]
    have := length_set_last_right (y :: l) v
    simp only [List.length_cons] at this
    omega

theorem getD_set_last_right : ∀ (l : List (Word × Nat × Nat)) (v i : Nat), i < l.length →
    (set_last_right l v).getD i ([], 0, 0) =
      if i + 1 = l.length then ((l.getD i ([], 0, 0)).1, (l.getD i ([], 0, 0)).2.1, v)
      else l.getD i ([], 0, 0)
  | [], _, _, h => by simp at h
  | [x], v, i, h => by
    have : i = 0 := by simpa using h
    subst this
    simp [set_last_right]
  | x :: y :: l, v, i, h => by
    cases i with
    | zero => simp [set_last_right]
    | succ i =>
      have ih := getD_set_last_right (y :: l) v i (by simpa using h)
      simp only [set_last_right, List.getD_cons_succ, List.length_cons] at ih ⊢
      rw [ih]
      have e : (i + 1 + 1 = l.length + 1 + 1) = (i + 1 = l.length + 1) := by
        apply propext; omega
      simp only [e]

theorem getD_absorb (items : List (Word × Nat × Nat)) (p v : Nat) (new : Word × Nat × Nat)
    (hp : p ≤ items.length) (i : Nat) :
    (set_last_right (items.take p) v ++ new :: items.drop p).getD i ([], 0, 0) =
      if i + 1 < p then items.getD i ([], 0, 0)
      else if i + 1 = p then ((items.getD i ([], 0, 0)).1, (items.getD i ([], 0, 0)).2.1, v)
      else if i = p then new
      else items.getD (i - 1) ([], 0, 0) := by
  have hlt : (items.take p).length = p := by simp [hp]
  have hls : (set_last_right (items.take p) v).length = p := by
    rw [length_set_last_right, hlt]
  have htake : ∀ j, j < p → (items.take p).getD j ([], 0, 0) = items.getD j ([], 0, 0) := by
    intro j hj
    simp [List.getD_eq_getElem?_getD, List.getElem?_take, hj]
  by_cases h1 : i < p
  · rw [List.getD_append _ _ _ _ (by omega), getD_set_last_right _ _ _ (by omega), hlt,
      htake i h1]
    by_cases h2 : i + 1 = p
    · rw [if_pos h2, if_neg (by omega), if_pos h2]
    · rw [if_neg h2, if_pos (by omega)]
  · rw [List.getD_append_right _ _ _ _ (by omega), hls, if_neg (by omega), if_neg (by omega)]
    by_cases h3 : i = p
    · subst h3
      simp
    · rw [if_neg h3]
      obtain ⟨j, rfl⟩ : ∃ j, i = p + 1 + j := ⟨i - p - 1, by omega⟩
      have e1 : p + 1 + j - p = j + 1 := by omega
      have e2 : p + 1 + j - 1 = p + j := by omega
      rw [e1, e2, List.getD_cons_succ]
      simp [List.getD_eq_getElem?_getD, List.getElem?_drop]

/-- The items of the page `shift_items` returns: the item for the word is inserted at
position `p`, the `right_child` before it (or `left_child` when `p` is 0) is `left`, and
every other key, count and `right_child` is kept. -/
theorem shift_items_items (b : Block) (p : Nat) (word : Word) (count left right : Nat)
    (items : List (Word × Nat × Nat))
    (hb : ∀ c ∈ b, c < 256) (h16 : b.length < 65536) (hp : p ≤ item_count b)
    (hfit : item_at (item_count b) + 8 + ((c_str word).length + 1) ≤ string_table b)
    (hst : string_table b ≤ b.length)
    (hword : ∀ c ∈ word, c < 256)
    (hoff : ∀ i, i < item_count b → string_table b ≤ rd16 b (item_at i))
    (hitems : page_items b = .ok items) :
    ∃ b', shift_items b (item_at p) word count left right = .ok (0, b') ∧
      b'.length = b.length ∧ (∀ c ∈ b', c < 256) ∧
      item_count b' = item_count b + 1 ∧
      string_table b' = string_table b - ((c_str word).length + 1) ∧
      block_number b' = block_number b ∧
      left_child b' = (if p = 0 then left % 4294967296 else left_child b) ∧
      (∀ i, i < item_count b + 1 → string_table b' ≤ rd16 b' (item_at i)) ∧
      page_items b' = .ok
        (set_last_right (items.take p) (left % 4294967296) ++
          (c_str word, count % 65536, right % 4294967296) :: items.drop p) := by
  obtain ⟨b', hcall, hl, hpr, hic, hstt, hbn, hlc, hoff', hv1, hv2, hv3, hv4⟩ :=
    shift_items_views b p word count left right items hb h16 hp hfit hst hword hoff hitems
  obtain ⟨hlen, _⟩ := page_items_loop_inv b _ _ _ hitems
  refine ⟨b', hcall, hl, hpr, hic, hstt, hbn, hlc, hoff', ?_⟩
  unfold page_items
  rw [hic]
  apply page_items_loop_intro
  · rw [List.length_append, length_set_last_right, List.length_cons, List.length_take,
      List.length_drop, hlen]
    omega
  · intro i hi
    rw [getD_absorb items p _ _ (by omega) i]
    have e : begin_item + 8 * i = item_at i := rfl
    rw [e]
    by_cases c1 : i + 1 < p
    · rw [if_pos c1]; exact hv1 i c1
    · rw [if_neg c1]
      by_cases c2 : i + 1 = p
      · rw [if_pos c2]; exact hv2 i c2
      · rw [if_neg c2]
        by_cases c3 : i = p
        · rw [if_pos c3, c3]; exact hv3
        · rw [if_neg c3]
          have := hv4 (i - 1) (by omega) (by omega)
          have e2 : i - 1 + 1 = i := by omega
          rw [e2] at this
          exact this

theorem scan_loop_spec (b : Block) (word : Word) : ∀ (k item ip : Nat) (sc : Scan),
    scan_loop b word k item ip = .ok sc →
    ∃ j, j ≤ k ∧ sc.item = item + 8 * j ∧ (ip + j < 65536 → sc.insert_point = ip + j) := by
  intro k
  induction k with
  | zero =>
    intro item ip sc h
    cases h
    exact ⟨0, le_refl _, rfl, fun _ => rfl⟩
  | succ k ih =>
    intro item ip sc h
    unfold scan_loop at h
    simp only [bind, Except.bind, pure, Except.pure] at h
    cases ho : Item_offset b item with
    | error e => rw [ho] at h; cases h
    | ok o =>
      rw [ho] at h
      simp only [] at h
      cases hs : string_at b o with
      | error e => rw [hs] at h; cases h
      | ok s =>
        rw [hs] at h
        simp only [] at h
        by_cases c1 : word = s
        · rw [if_pos c1] at h
          cases h
          exact ⟨0, by omega, rfl, fun _ => rfl⟩
        · rw [if_neg c1] at h
          by_cases c2 : word_lt word s = true
          · rw [if_pos c2] at h
            cases h
            exact ⟨0, by omega, rfl, fun _ => rfl⟩
          · rw [if_neg c2] at h
            obtain ⟨j, hj, hitem, hip⟩ := ih _ _ _ h
            refine ⟨j + 1, by omega, ?_, ?_⟩
            · rw [hitem]; unfold sizeof_Item; omega
            · intro hlt
              have e : (ip + 1) % 65536 = ip + 1 := Nat.mod_eq_of_lt (by omega)
              rw [e] at hip
              rw [hip (by omega)]
              omega

/-- An internal page `this` does not contain the word, the scan stops at position
`p`, and the child left of that position, when given the word, returns 1 with a promotion
(pivot, count, sibling).  If the page, unchanged by that call, is intact (bytes below 256,
item table below the string arena, offsets inside the arena) and `has_space_for` holds for
the pivot, then `Block::add_word` returns 0 and allocates nothing more; the page gains one
item at position `p`, made of the pivot (as a C string), the promoted count and the sibling
handle as `right_child`; the child pointer left of it (`left_child` when `p` is 0, else the
`right_child` of item `p - 1`) is the `block_number` of the split child; and every other
key, count and `right_child` is as before. -/
theorem parent_absorbs_promotion (BLOCK_SIZE fuel : Nat) (m m1 : BlockManager)
    (this_p child_number child_p : Nat) (word : Word) (promotion child_promotion : Promotion)
    (this child : Block) (sc : Scan) (items : List (Word × Nat × Nat))
    (h_this : m.deref this_p = .ok this)
    (h_scan : scan_loop this word (item_count this) begin_item 0 = .ok sc)
    (h_found : sc.found = false) (h_leaf : is_leaf this = false)
    (h_number : Item_right_child this (sc.item - sizeof_Item) = .ok child_number)
    (h_get : m.get child_number = .ok child_p) (h_child : m.deref child_p = .ok child)
    (h_rec : Block_add_word BLOCK_SIZE fuel m child_p word Promotion.fresh
      = .ok (1, child_promotion, m1))
    (h_same : m1.deref this_p = .ok this)
    (h_bytes : ∀ c ∈ this, c < 256) (h16 : this.length < 65536)
    (h_table : end_item this ≤ string_table this) (h_arena : string_table this ≤ this.length)
    (h_offsets : ∀ i, i < item_count this → string_table this ≤ rd16 this (item_at i))
    (h_items : page_items this = .ok items)
    (h_pivot : ∀ c ∈ child_promotion.pivot_word, c < 256)
    (h_space : has_space_for this child_promotion.pivot_word = true) :
    ∃ this',
      Block_add_word BLOCK_SIZE (fuel + 1) m this_p word promotion
        = .ok (0, promotion, m1.assign this_p this') ∧
      (m1.assign this_p this').block_count = m1.block_count ∧
      sc.insert_point ≤ item_count this ∧
      item_count this' = item_count this + 1 ∧
      block_number this' = block_number this ∧
      left_child this' =
        (if sc.insert_point = 0 then block_number child % 4294967296 else left_child this) ∧
      page_items this' = .ok
        (set_last_right (items.take sc.insert_point) (block_number child % 4294967296) ++
          (c_str child_promotion.pivot_word, child_promotion.count % 65536,
            child_promotion.new_sibling % 4294967296) :: items.drop sc.insert_point) := by
  obtain ⟨j, hj, hitem, hip⟩ := scan_loop_spec this word _ _ _ _ h_scan
  have hend : end_item this = 12 + 8 * item_count this := rfl
  have hn : 12 + 8 * item_count this ≤ 65535 := by omega
  have hipj : sc.insert_point = j := by
    have := hip (by omega)
    omega
  have hitem' : sc.item = item_at sc.insert_point := by
    rw [hitem, hipj]; rfl
  have hfree : free_space this = string_table this - end_item this := by
    unfold free_space free_offset
    omega
  have hsp : child_promotion.pivot_word.length + 1 + sizeof_Item ≤ free_space this := by
    simpa [has_space_for] using h_space
  have hcl : (c_str child_promotion.pivot_word).length ≤ child_promotion.pivot_word.length :=
    (List.takeWhile_sublist _).length_le
  have hfit : item_at (item_count this) + 8 + ((c_str child_promotion.pivot_word).length + 1)
      ≤ string_table this := by
    have : item_at (item_count this) = end_item this := rfl
    rw [this]
    unfold sizeof_Item at hsp
    omega
  obtain ⟨this', hcall, hl, hpr, hic, hstt, hbn, hlc, hoff', hitems'⟩ :=
    shift_items_items this sc.insert_point child_promotion.pivot_word child_promotion.count
      (block_number child) child_promotion.new_sibling items h_bytes h16 (by omega) hfit
      h_arena h_pivot h_offsets h_items
  refine ⟨this', ?_, ?_, by omega, hic, hbn, hlc, hitems'⟩
  · unfold Block_add_word
    simp only [h_this, h_scan, h_found, h_leaf, h_number, h_get, h_child, h_rec, h_same, h_space,
      bind, Except.bind, pure, Except.pure]
    rw [hitem', hcall]
    simp
  · simp [BlockManager.block_count, BlockManager.assign]

set_option maxRecDepth 100000 in
/-- With `BLOCK_SIZE = 40` on the index holding `a`, `b`, `c`, `d` (root 2 with the key
`b`, leaves 0 and 1): adding `e` splits leaf 1 around `d` (sibling 3) and the root absorbs
`d`. -/
theorem parent_absorbs_promotion_example :
    ∃ m1 this',
      Block_add_word 40 3 (index_after_words 40 [[97], [98], [99], [100]]).manager 1 [101]
        Promotion.fresh = .ok (1, { pivot_word := [100], count := 1, new_sibling := 3 }, m1) ∧
      Block_add_word 40 (3 + 1) (index_after_words 40 [[97], [98], [99], [100]]).manager 2 [101]
        Promotion.fresh = .ok (0, Promotion.fresh, m1.assign 2 this') ∧
      left_child this' = 0 ∧
      page_items this' = .ok [([98], 1, 1), ([100], 1, 3)] :=
  by
  have h_this : (index_after_words 40 [[97], [98], [99], [100]]).manager.deref 2 = .ok
      [2, 0, 0, 0, 1, 0, 38, 0, 0, 0, 0, 0, 38, 0, 1, 0, 1, 0, 0, 0, 0, 0, 0, 0, 0, 0, 0, 0,
        0, 0, 0, 0, 0, 0, 0, 0, 0, 0, 98, 0] := rfl
  have h_child : (index_after_words 40 [[97], [98], [99], [100]]).manager.deref 1 = .ok
      [1, 0, 0, 0, 2, 0, 36, 0, 255, 255, 255, 255, 38, 0, 1, 0, 255, 255, 255, 255, 36, 0, 1, 0,
        255, 255, 255, 255, 0, 0, 0, 0, 0, 0, 0, 0, 100, 0, 99, 0] := rfl
  have h_rec : Block_add_word 40 3 (index_after_words 40 [[97], [98], [99], [100]]).manager 1
      [101] Promotion.fresh = .ok (1, { pivot_word := [100], count := 1, new_sibling := 3 },
        { blocks := [
          [0, 0, 0, 0, 1, 0, 38, 0, 255, 255, 255, 255, 38, 0, 1, 0, 255, 255, 255, 255, 36, 0,
            1, 0, 255, 255, 255, 255, 0, 0, 0, 0, 0, 0, 0, 0, 98, 0, 97, 0],
          [1, 0, 0, 0, 1, 0, 38, 0, 255, 255, 255, 255, 38, 0, 1, 0, 255, 255, 255, 255, 36, 0,
            1, 0, 255, 255, 255, 255, 0, 0, 0, 0, 0, 0, 0, 0, 100, 0, 99, 0],
          [2, 0, 0, 0, 1, 0, 38, 0, 0, 0, 0, 0, 38, 0, 1, 0, 1, 0, 0, 0, 0, 0, 0, 0, 0, 0, 0, 0,
            0, 0, 0, 0, 0, 0, 0, 0, 0, 0, 98, 0],
          [3, 0, 0, 0, 1, 0, 38, 0, 255, 255, 255, 255, 38, 0, 1, 0, 255, 255, 255, 255, 0, 0,
            0, 0, 0, 0, 0, 0, 0, 0, 0, 0, 0, 0, 0, 0, 0, 0, 101, 0]] }) := rfl
  obtain ⟨this', h1, _, _, _, _, h6, h7⟩ := parent_absorbs_promotion 40 3 _ _ 2 1 1 [101]
    Promotion.fresh _ _ _ { found := false, item := 20, insert_point := 1 } [([98], 1, 1)]
    h_this rfl rfl rfl rfl rfl h_child h_rec rfl (by decide) (by decide) (by decide)
    (by decide) (by decide) rfl (by decide) rfl
  exact ⟨_, this', h_rec, h1, h6.trans rfl, h7.trans rfl⟩

/-! ### Splitting a page around the incoming word (`copy_items`, `insert_split`) -/

theorem eq_of_getD (b b' : Block) (hl : b'.length = b.length)
    (h : ∀ x, b'.getD x 0 = b.getD x 0) : b' = b := by
  apply List.ext_getElem hl
  intro n h1 h2
  have := h n
  rw [List.getD_eq_getElem?_getD, List.getD_eq_getElem?_getD, List.getElem?_eq_getElem h1,
    List.getElem?_eq_getElem h2] at this
  simpa using this

theorem wr16_rd16_self (b : Block) (i : Nat) (hb : ∀ c ∈ b, c < 256) (h : i + 2 ≤ b.length) :
    wr16 b i (rd16 b i) = b := by
  apply eq_of_getD _ _ (by simp)
  intro x
  have p0 := getD_lt_of_proper b hb i
  have p1 := getD_lt_of_proper b hb (i + 1)
  by_cases h0 : x = i
  · subst h0
    rw [getD_wr16_lo _ _ _ h]
    unfold rd16
    omega
  · by_cases h1 : x = i + 1
    · subst h1
      rw [getD_wr16_hi _ _ _ h]
      unfold rd16
      omega
    · exact getD_wr16_ne _ _ _ _ h0 h1

theorem wr32_rd32_self (b : Block) (i : Nat) (hb : ∀ c ∈ b, c < 256) (h : i + 4 ≤ b.length) :
    wr32 b i (rd32 b i) = b := by
  have p0 := getD_lt_of_proper b hb i
  have p1 := getD_lt_of_proper b hb (i + 1)
  have p2 := getD_lt_of_proper b hb (i + 2)
  have p3 := getD_lt_of_proper b hb (i + 2 + 1)
  unfold wr32
  have e1 : wr16 b i (rd32 b i) = b := by
    rw [wr16_congr_mod b i (rd32 b i) (rd16 b i) (by unfold rd32; omega)]
    exact wr16_rd16_self b i hb (by omega)
  rw [e1, wr16_congr_mod b (i + 2) _ (rd16 b (i + 2)) (by unfold rd32 rd16; omega)]
  exact wr16_rd16_self b (i + 2) hb (by omega)

theorem rd16_lt_of_proper (b : Block) (hb : ∀ c ∈ b, c < 256) (i : Nat) : rd16 b i < 65536 := by
  have p0 := getD_lt_of_proper b hb i
  have p1 := getD_lt_of_proper b hb (i + 1)
  unfold rd16
  omega

theorem rd32_lt_of_proper (b : Block) (hb : ∀ c ∈ b, c < 256) (i : Nat) :
    rd32 b i < 4294967296 := by
  have p0 := rd16_lt_of_proper b hb i
  have p1 := rd16_lt_of_proper b hb (i + 2)
  unfold rd32
  omega

/-- A string read from a page has no NUL and consists of bytes of the page. -/
theorem string_at_word (b : Block) (o : Nat) (s : Word) (h : string_at b o = .ok s) :
    (∀ c ∈ s, c ≠ 0) ∧ (∀ c ∈ s, c ∈ b) := by
  unfold string_at at h
  simp only at h
  split at h
  · cases h
    constructor
    · intro c hc
      have := List.mem_takeWhile_imp hc
      simpa using this
    · intro c hc
      exact List.mem_of_mem_drop (List.takeWhile_subset _ hc)
  · cases h

theorem c_str_self (s : Word) (h : ∀ c ∈ s, c ≠ 0) : c_str s = s := by
  unfold c_str
  rw [List.takeWhile_eq_self_iff]
  intro c hc
  simpa using h c hc

theorem set_last_right_self : ∀ (l : List (Word × Nat × Nat)) (v : Nat),
    (∀ i, i + 1 = l.length → (l.getD i ([], 0, 0)).2.2 = v) → set_last_right l v = l
  | [], _, _ => rfl
  | [x], v, h => by
    have := h 0 rfl
    simp only [List.getD_cons_zero] at this
    simp only [set_last_right, ← this]
  | x :: y :: l, v, h => by
    simp only [set_last_right]
    rw [set_last_right_self (y :: l) v]
    intro i hi
    have := h (i + 1) (by simp only [List.length_cons] at hi ⊢; omega)
    simpa using this

/-- One turn of the loop of `copy_items`: the item read from the source is appended to the
target, whose other items, handle and `left_child` are kept. -/
theorem copy_items_loop_step (this t : Block) (k i : Nat) (v : Word × Nat × Nat)
    (titems : List (Word × Nat × Nat))
    (hv : item_view this (item_at i) = .ok v)
    (hthis : ∀ c ∈ this, c < 256)
    (ht : ∀ c ∈ t, c < 256) (h16 : t.length < 65536) (hst : string_table t ≤ t.length)
    (hfit : item_at (item_count t) + 8 + (v.1.length + 1) ≤ string_table t)
    (hoff : ∀ j, j < item_count t → string_table t ≤ rd16 t (item_at j))
    (hitems : page_items t = .ok titems) :
    ∃ t', copy_items_loop this (k + 1) (item_at i) (item_at (item_count t)) t =
        copy_items_loop this k (item_at (i + 1)) (item_at (item_count t')) t' ∧
      t'.length = t.length ∧ (∀ c ∈ t', c < 256) ∧ item_count t' = item_count t + 1 ∧
      string_table t' = string_table t - (v.1.length + 1) ∧
      block_number t' = block_number t ∧ left_child t' = left_child t ∧
      (∀ j, j < item_count t + 1 → string_table t' ≤ rd16 t' (item_at j)) ∧
      page_items t' = .ok (titems ++ [v]) := by
  obtain ⟨h8, hs, hc, hr⟩ := item_view_inv this _ v hv
  obtain ⟨hnz, hmem⟩ := string_at_word this _ _ hs
  have hcs : c_str v.1 = v.1 := c_str_self _ hnz
  have hword : ∀ c ∈ v.1, c < 256 := fun c hc => hthis c (hmem c hc)
  have hip : ∀ j, item_at j = 12 + 8 * j := fun j => rfl
  obtain ⟨hlen, hviews⟩ := page_items_loop_inv t _ _ _ hitems
  have hfit' := hfit
  rw [hip] at hfit'
  -- the same step through `shift_items`
  obtain ⟨b', hcall, hl, hpr, hic, hstt, hbn, hlc, hoff', hpi⟩ :=
    shift_items_items t (item_count t) v.1 v.2.1 (rd32 t (item_at (item_count t) - 4)) v.2.2
      titems ht h16 le_rfl (by rw [hcs]; exact hfit) hst hword hoff hitems
  rw [hcs] at hstt hpi
  -- the text
  obtain ⟨b2, h2, hl2, hp2, hst2, hout2, hin2, hz2⟩ :=
    allocate_string_spec t v.1 ht h16 hst (by omega)
  have hic2 : item_count b2 = item_count t := by
    unfold item_count
    exact rd16_congr _ _ 4 (hout2 4 (by omega) (by omega) (by omega))
      (hout2 5 (by omega) (by omega) (by omega))
  -- the page after the three stores
  have hY : ∃ Y, Y = wr32 (wr16 (wr16 b2 (12 + 8 * item_count t) (string_table b2))
      (12 + 8 * item_count t + 2) v.2.1) (12 + 8 * item_count t + 4) v.2.2 := ⟨_, rfl⟩
  obtain ⟨Y, hYdef⟩ := hY
  have hYl : Y.length = t.length := by
    rw [hYdef]; simp only [length_wr16, length_wr32]; exact hl2
  have hYp : ∀ c ∈ Y, c < 256 := by
    rw [hYdef]
    exact proper_wr32 _ _ _ (proper_wr16 _ _ _ (proper_wr16 _ _ _ hp2))
  have hYic : item_count Y = item_count t := by
    rw [hYdef, ← hic2]
    unfold item_count
    rw [rd16_wr32_ne _ _ _ _ (by omega), rd16_wr16_ne _ _ _ _ (by omega),
      rd16_wr16_ne _ _ _ _ (by omega)]
  have hYleft : rd32 Y (12 + 8 * item_count t - 8 + 4) = rd32 t (12 + 8 * item_count t - 4) := by
    have e : 12 + 8 * item_count t - 8 + 4 = 12 + 8 * item_count t - 4 := by omega
    rw [e, hYdef, rd32_wr32_ne _ _ _ _ (by omega), rd32_wr16_ne _ _ _ _ (by omega),
      rd32_wr16_ne _ _ _ _ (by omega)]
    exact rd32_congr _ _ _ (hout2 _ (by omega) (by omega) (by omega))
      (hout2 _ (by omega) (by omega) (by omega)) (hout2 _ (by omega) (by omega) (by omega))
      (hout2 _ (by omega) (by omega) (by omega))
  -- `shift_items` returns the page of the loop
  have hcall' : shift_items t (item_at (item_count t)) v.1 v.2.1
      (rd32 t (item_at (item_count t) - 4)) v.2.2 = .ok (0, wr16 Y 4 (item_count t + 1)) := by
    unfold shift_items
    rw [hip]
    have e1 : ¬ (end_item t < 12 + 8 * item_count t) := by unfold end_item; rw [hip]; omega
    have e2 : (end_item t - (12 + 8 * item_count t)) / sizeof_Item = 0 := by
      unfold end_item sizeof_Item; rw [hip]; omega
    simp only [e1, if_false, e2, bind, Except.bind, pure, Except.pure, shift_loop, hcs]
    simp only [h2, set_Item_offset, set_Item_count, set_Item_right_child, sizeof_Item]
    rw [st16_ok _ _ _ (by omega)]
    simp only []
    rw [st16_ok _ _ _ (by simp; omega)]
    simp only []
    rw [st32_ok _ _ _ (by simp; omega)]
    simp only []
    rw [st32_ok _ _ _ (by simp; omega)]
    simp only [set_item_count]
    rw [← hYdef, ← hYleft, wr32_rd32_self Y _ hYp (by omega), hYic]
  rw [hcall] at hcall'
  have hb' : b' = wr16 Y 4 (item_count t + 1) := by
    injection hcall' with h
    injection h
  refine ⟨b', ?_, hl, hpr, hic, hstt, hbn, ?_, hoff', ?_⟩
  · have hs' := hs
    have hc' := hc
    have hr' := hr
    rw [hip] at hs' hc' hr' h8
    conv_lhs => unfold copy_items_loop
    unfold Item_offset Item_count Item_right_child
    rw [hip, hip, ld16_ok _ _ (by omega), ld16_ok _ _ (by omega), ld32_ok _ _ (by omega)]
    simp only [bind, Except.bind, pure, Except.pure, hs', h2, set_Item_offset, set_Item_count,
      set_Item_right_child, sizeof_Item]
    rw [st16_ok _ _ _ (by omega)]
    simp only []
    rw [st16_ok _ _ _ (by simp; omega)]
    simp only []
    rw [st32_ok _ _ _ (by simp; omega)]
    simp only [set_item_count, hc', hr']
    rw [← hYdef, hYic, ← hb', hic, hip, hip]
    have e : 12 + 8 * i + 8 = 12 + 8 * (i + 1) := by omega
    have e' : 12 + 8 * item_count t + 8 = 12 + 8 * (item_count t + 1) := by omega
    rw [e, e']
  · rw [hlc]
    split
    · rename_i h0
      rw [h0]
      have : item_at 0 - 4 = 8 := rfl
      rw [this]
      have := rd32_lt_of_proper t ht 8
      unfold left_child
      omega
    · rfl
  · rw [hpi, List.take_of_length_le (by omega), List.drop_of_length_le (by omega)]
    have hlast : set_last_right titems (rd32 t (item_at (item_count t) - 4) % 4294967296)
        = titems := by
      apply set_last_right_self
      intro j hj
      have hj' : j < item_count t := by omega
      obtain ⟨_, _, _, hr'⟩ := item_view_inv t _ _ (hviews j hj')
      rw [← hr', Nat.mod_eq_of_lt (rd32_lt_of_proper t ht _)]
      have : begin_item + 8 * j + 4 = item_at (item_count t) - 4 := by
        rw [hip]; unfold begin_item; omega
      rw [this]
    rw [hlast]
    have h1 : v.2.1 % 65536 = v.2.1 := by
      rw [← hc]; exact Nat.mod_eq_of_lt (rd16_lt_of_proper this hthis _)
    have h2 : v.2.2 % 4294967296 = v.2.2 := by
      rw [← hr]; exact Nat.mod_eq_of_lt (rd32_lt_of_proper this hthis _)
    rw [h1, h2]

/-- The loop of `copy_items` appends the items it is given to the target, in order, when the
target has room for them. -/
theorem copy_items_loop_spec (this : Block) (items : List (Word × Nat × Nat))
    (hthis : ∀ c ∈ this, c < 256) (hitems : page_items this = .ok items) :
    ∀ (k i : Nat) (t : Block) (titems : List (Word × Nat × Nat)),
    i + k ≤ item_count this →
    (∀ c ∈ t, c < 256) → t.length < 65536 → string_table t ≤ t.length →
    item_at (item_count t) + items_size ((items.drop i).take k) ≤ string_table t →
    (∀ j, j < item_count t → string_table t ≤ rd16 t (item_at j)) →
    page_items t = .ok titems →
    ∃ t', copy_items_loop this k (item_at i) (item_at (item_count t)) t = .ok t' ∧
      t'.length = t.length ∧ (∀ c ∈ t', c < 256) ∧ item_count t' = item_count t + k ∧
      block_number t' = block_number t ∧ left_child t' = left_child t ∧
      item_at (item_count t') ≤ string_table t' ∧ string_table t' ≤ t'.length ∧
      (∀ j, j < item_count t' → string_table t' ≤ rd16 t' (item_at j)) ∧
      page_items t' = .ok (titems ++ (items.drop i).take k) := by
  obtain ⟨hlen, hviews⟩ := page_items_loop_inv this _ _ _ hitems
  intro k
  induction k with
  | zero =>
    intro i t titems _ ht _ hst hfit hoff hti
    refine ⟨t, rfl, rfl, ht, rfl, rfl, rfl, ?_, hst, hoff, ?_⟩
    · simpa [items_size] using hfit
    · simpa using hti
  | succ k ih =>
    intro i t titems hik ht h16 hst hfit hoff hti
    have hi : i < items.length := by omega
    have hdrop : (items.drop i).take (k + 1) =
        items.getD i ([], 0, 0) :: (items.drop (i + 1)).take k := by
      rw [List.drop_eq_getElem_cons hi, List.take_succ_cons, List.getD_eq_getElem _ _ hi]
    rw [hdrop] at hfit ⊢
    have hsz : items_size (items.getD i ([], 0, 0) :: (items.drop (i + 1)).take k) =
        8 + ((items.getD i ([], 0, 0)).1.length + 1) + items_size ((items.drop (i + 1)).take k) := by
      simp [items_size]
    rw [hsz] at hfit
    have hip : ∀ j, item_at j = 12 + 8 * j := fun j => rfl
    obtain ⟨t1, hstep, hl1, hp1, hic1, hst1, hbn1, hlc1, hoff1, hpi1⟩ :=
      copy_items_loop_step this t k i (items.getD i ([], 0, 0)) titems (hviews i (by omega)) hthis
        ht h16 hst (by omega) hoff hti
    obtain ⟨t', hloop, hl', hp', hic', hbn', hlc', hroom', hst', hoff', hpi'⟩ :=
      ih (i + 1) t1 (titems ++ [items.getD i ([], 0, 0)]) (by omega) hp1 (by omega) (by omega)
        (by rw [hic1, hst1, hip]; rw [hip] at hfit; omega) (by rw [hic1]; exact hoff1) hpi1
    refine ⟨t', by rw [hstep, hloop], by omega, hp', by omega, by rw [hbn', hbn1],
      by rw [hlc', hlc1], hroom', hst', hoff', ?_⟩
    rw [hpi', List.append_assoc, List.singleton_append]

/-- The method `copy_items(from, to, target)` on an intact source and a target with room:
the items `[from, to)` of the source are appended to the target. -/
theorem copy_items_spec (this : Block) (items : List (Word × Nat × Nat))
    (hthis : ∀ c ∈ this, c < 256) (hitems : page_items this = .ok items)
    (i j : Nat) (t : Block) (titems : List (Word × Nat × Nat))
    (hij : i ≤ j) (hj : j ≤ item_count this)
    (ht : ∀ c ∈ t, c < 256) (h16 : t.length < 65536) (hst : string_table t ≤ t.length)
    (hfit : item_at (item_count t) + items_size ((items.drop i).take (j - i)) ≤ string_table t)
    (hoff : ∀ j, j < item_count t → string_table t ≤ rd16 t (item_at j))
    (hti : page_items t = .ok titems) :
    ∃ t', copy_items this i j t = .ok t' ∧
      t'.length = t.length ∧ (∀ c ∈ t', c < 256) ∧ item_count t' = item_count t + (j - i) ∧
      block_number t' = block_number t ∧ left_child t' = left_child t ∧
      item_at (item_count t') ≤ string_table t' ∧ string_table t' ≤ t'.length ∧
      (∀ j, j < item_count t' → string_table t' ≤ rd16 t' (item_at j)) ∧
      page_items t' = .ok (titems ++ (items.drop i).take (j - i)) := by
  unfold copy_items
  rw [if_pos hij]
  exact copy_items_loop_spec this items hthis hitems (j - i) i t titems (by omega) ht h16 hst hfit
    hoff hti

/-- An item read from a page is read the same after bytes `[lo, hi)` below its text and
outside the item have changed. -/
theorem item_view_frame (b b' : Block) (lo hi item : Nat) (v : Word × Nat × Nat)
    (hl : b'.length = b.length)
    (hsame : ∀ x, x < lo ∨ hi ≤ x → b'.getD x 0 = b.getD x 0)
    (hv : item_view b item = .ok v) (hoff : hi ≤ rd16 b item)
    (hitem : item + 8 ≤ lo ∨ hi ≤ item) : item_view b' item = .ok v := by
  obtain ⟨h8, hs, hc, hr⟩ := item_view_inv b item v hv
  have e0 : rd16 b' item = rd16 b item :=
    rd16_congr _ _ _ (hsame _ (by omega)) (hsame _ (by omega))
  have hs' : string_at b' (rd16 b' item) = .ok v.1 := by
    rw [e0, string_at_congr b b' _ hl (fun x hx => hsame x (by omega))]
    exact hs
  have hc' : rd16 b' (item + 2) = v.2.1 := by
    rw [← hc]
    exact rd16_congr _ _ _ (hsame _ (by omega)) (hsame _ (by omega))
  have hr' : rd32 b' (item + 4) = v.2.2 := by
    rw [← hr]
    exact rd32_congr _ _ _ (hsame _ (by omega)) (hsame _ (by omega)) (hsame _ (by omega))
      (hsame _ (by omega))
  exact item_view_intro b' item v.1 v.2.1 v.2.2 (by omega) hs' hc' hr'

/-- The page `Block::Block` builds. -/
theorem Block_new_page (BLOCK_SIZE n : Nat) :
    (Block_new BLOCK_SIZE n).length = BLOCK_SIZE ∧ (∀ c ∈ Block_new BLOCK_SIZE n, c < 256) := by
  unfold Block_new set_left_child set_string_table set_item_count set_block_number
  refine ⟨by simp, ?_⟩
  apply proper_wr32
  apply proper_wr16
  apply proper_wr16
  apply proper_wr32
  intro c hc
  rw [List.eq_of_mem_replicate hc]
  decide

theorem items_size_append (a b : List (Word × Nat × Nat)) :
    items_size (a ++ b) = items_size a + items_size b := by
  simp [items_size]

theorem items_size_take_drop (l : List (Word × Nat × Nat)) (s : Nat) :
    items_size (l.take s) + items_size (l.drop s) = items_size l := by
  rw [← items_size_append, List.take_append_drop]

/-- The page `insert_split` resets before it copies the kept items back. -/
theorem reset_page (BLOCK_SIZE : Nat) (this : Block) (h_size : this.length = BLOCK_SIZE)
    (h12 : 12 ≤ BLOCK_SIZE) (h16 : BLOCK_SIZE < 65536) (h_bytes : ∀ c ∈ this, c < 256) :
    (set_item_count (set_string_table this BLOCK_SIZE) 0).length = BLOCK_SIZE ∧
      (∀ c ∈ set_item_count (set_string_table this BLOCK_SIZE) 0, c < 256) ∧
      item_count (set_item_count (set_string_table this BLOCK_SIZE) 0) = 0 ∧
      string_table (set_item_count (set_string_table this BLOCK_SIZE) 0) = BLOCK_SIZE ∧
      block_number (set_item_count (set_string_table this BLOCK_SIZE) 0) = block_number this ∧
      left_child (set_item_count (set_string_table this BLOCK_SIZE) 0) = left_child this := by
  unfold set_item_count set_string_table
  refine ⟨by simpa using h_size, proper_wr16 _ _ _ (proper_wr16 _ _ _ h_bytes), ?_, ?_, ?_, ?_⟩
  · unfold item_count
    rw [rd16_wr16_same _ _ _ (by simp; omega)]
  · unfold string_table
    rw [rd16_wr16_ne _ _ _ _ (by omega), rd16_wr16_same _ _ _ (by omega)]
    omega
  · unfold block_number
    rw [rd32_wr16_ne _ _ _ _ (by omega), rd32_wr16_ne _ _ _ _ (by omega)]
  · unfold left_child
    rw [rd32_wr16_ne _ _ _ _ (by omega), rd32_wr16_ne _ _ _ _ (by omega)]

theorem deref_lt (m : BlockManager) (p : Nat) (b : Block) (h : m.deref p = .ok b) :
    p < m.blocks.length := by
  unfold BlockManager.deref at h
  by_contra hp
  rw [List.get?_eq_none.mpr (by omega)] at h
  cases h

theorem deref_assign_same (m : BlockManager) (p : Nat) (b : Block) (h : p < m.blocks.length) :
    (m.assign p b).deref p = .ok b := by
  simp [BlockManager.deref, BlockManager.assign, h]

theorem deref_assign_ne (m : BlockManager) (p q : Nat) (b : Block) (h : p ≠ q) :
    (m.assign p b).deref q = m.deref q := by
  simp [BlockManager.deref, BlockManager.assign, List.getElem?_set_ne h]

theorem word_lt_trans : ∀ (a b c : Word), word_lt a b = true → word_lt b c = true →
    word_lt a c = true
  | [], [], _, h, _ => by simp [word_lt] at h
  | _ :: _, [], _, h, _ => by simp [word_lt] at h
  | _, _ :: _, [], _, h => by simp [word_lt] at h
  | [], _ :: _, _ :: _, _, _ => by simp [word_lt]
  | x :: a, y :: b, z :: c, h1, h2 => by
    simp only [word_lt] at h1 h2 ⊢
    by_cases hxy : x < y
    · by_cases hyz : y < z
      · simp [lt_trans hxy hyz]
      · simp only [hyz, if_false] at h2
        by_cases hzy : z < y
        · simp [hzy] at h2
        · have : y = z := by omega
          subst this
          simp [hxy]
    · simp only [hxy, if_false] at h1
      by_cases hyx : y < x
      · simp [hyx] at h1
      · have : x = y := by omega
        subst this
        simp only [hyx, if_false] at h1
        by_cases hxz : x < z
        · simp [hxz]
        · simp only [hxz, if_false] at h2 ⊢
          by_cases hzx : z < x
          · simp [hzx] at h2
          · simp only [hzx, if_false] at h2 ⊢
            exact word_lt_trans a b c h1 h2

theorem word_lt_total : ∀ (a b : Word), a ≠ b → word_lt a b = false → word_lt b a = true
  | [], [], h, _ => by simp at h
  | [], _ :: _, _, h => by simp [word_lt] at h
  | _ :: _, [], _, _ => by simp [word_lt]
  | x :: a, y :: b, h, h1 => by
    simp only [word_lt] at h1 ⊢
    by_cases hxy : x < y
    · simp [hxy] at h1
    · simp only [hxy, if_false] at h1
      by_cases hyx : y < x
      · simp [hyx]
      · have : x = y := by omega
        subst this
        simp only [hyx, if_false] at h1 ⊢
        exact word_lt_total a b (fun e => h (by rw [e])) h1

/-- The linear scan of `add_word` over a page that does not hold the word: it stops at the
first key larger than the word, having passed keys smaller than the word only. -/
theorem scan_loop_absent (this : Block) (word : Word) (items : List (Word × Nat × Nat))
    (hitems : page_items this = .ok items) (habsent : ∀ x ∈ items, word ≠ x.1) :
    ∀ (k i ip : Nat), i + k = item_count this → ip < 65536 →
    ∃ p, i ≤ p ∧ p ≤ item_count this ∧
      scan_loop this word k (item_at i) ip =
        .ok { found := false, item := item_at p, insert_point := (ip + (p - i)) % 65536 } ∧
      (∀ j, i ≤ j → j < p → word_lt (items.getD j ([], 0, 0)).1 word = true) ∧
      (p < item_count this → word_lt word (items.getD p ([], 0, 0)).1 = true) := by
  obtain ⟨hlen, hviews⟩ := page_items_loop_inv this _ _ _ hitems
  intro k
  induction k with
  | zero =>
    intro i ip hik hip
    refine ⟨i, le_refl _, by omega, ?_, fun j h1 h2 => by omega, fun h => by omega⟩
    simp only [scan_loop, pure, Except.pure, Nat.sub_self, Nat.add_zero, Nat.mod_eq_of_lt hip]
  | succ k ih =>
    intro i ip hik hip
    have hi : i < item_count this := by omega
    obtain ⟨h8, hs, _, _⟩ := item_view_inv this _ _ (hviews i hi)
    have hne : word ≠ (items.getD i ([], 0, 0)).1 := by
      apply habsent
      rw [List.getD_eq_getElem _ _ (by omega)]
      exact List.getElem_mem _
    have hitem : item_at i = begin_item + 8 * i := rfl
    unfold scan_loop Item_offset
    rw [hitem, ld16_ok _ _ (by omega)]
    simp only [bind, Except.bind, pure, Except.pure, hs, hne, if_false]
    by_cases hlt : word_lt word (items.getD i ([], 0, 0)).1 = true
    · refine ⟨i, le_refl _, by omega, ?_, fun j h1 h2 => by omega, fun _ => hlt⟩
      simp only [hlt, if_true, Nat.sub_self, Nat.add_zero, Nat.mod_eq_of_lt hip]
      rfl
    · obtain ⟨p, hp1, hp2, hscan, hbelow, habove⟩ := ih (i + 1) ((ip + 1) % 65536) (by omega)
        (Nat.mod_lt _ (by decide))
      refine ⟨p, by omega, hp2, ?_, ?_, habove⟩
      · have hf : word_lt word (items.getD i ([], 0, 0)).1 = false := by simpa using hlt
        simp only [hf, Bool.false_eq_true, if_false]
        have e : begin_item + 8 * i + sizeof_Item = item_at (i + 1) := by
          unfold item_at sizeof_Item; omega
        rw [e, hscan]
        have : ((ip + 1) % 65536 + (p - (i + 1))) % 65536 = (ip + (p - i)) % 65536 := by omega
        rw [this]
      · intro j h1 h2
        by_cases hj : j = i
        · subst hj
          exact word_lt_total _ _ hne (by simpa using hlt)
        · exact hbelow j (by omega) h2

/-- C31: `Block::add_word` on an internal page whose keys ascend (`operator<` of
`std::string`) and do not include the word.  With `p` the number of keys smaller than the
word (the keys before position `p` are smaller, the keys from `p` on are larger), the call
is one call of `add_word` on the child `c` followed by the handling of its result, where `c`
is `left_child` when `p = 0` and the `right_child` of the key at `p - 1`, the largest key
smaller than the word, otherwise. -/
theorem C31_recursion_into_one_child (BLOCK_SIZE fuel : Nat) (m : BlockManager) (this_p : Nat)
    (word : Word) (promotion : Promotion) (this : Block) (items : List (Word × Nat × Nat))
    (h_this : m.deref this_p = .ok this)
    (h_len : 12 ≤ this.length)
    (h_items : page_items this = .ok items)
    (h_sorted : (items.map (fun x => x.1)).Pairwise (fun a b => word_lt a b = true))
    (h_absent : ∀ x ∈ items, word ≠ x.1)
    (h_internal : is_leaf this = false) :
    ∃ p c, p ≤ items.length ∧
      (∀ j, j < p → word_lt (items.getD j ([], 0, 0)).1 word = true) ∧
      (∀ j, p ≤ j → j < items.length → word_lt word (items.getD j ([], 0, 0)).1 = true) ∧
      c = (if p = 0 then left_child this else (items.getD (p - 1) ([], 0, 0)).2.2) ∧
      Block_add_word BLOCK_SIZE (fuel + 1) m this_p word promotion =
        (do
          let child_p ← m.get c
          let child ← m.deref child_p
          let (result, child_promotion, m1) ←
            Block_add_word BLOCK_SIZE fuel m child_p word Promotion.fresh
          if result ≤ 0 then pure (result, promotion, m1)
          else
            let this ← m1.deref this_p
            if has_space_for this child_promotion.pivot_word then
              let (r, this) ← shift_items this (item_at p) child_promotion.pivot_word
                child_promotion.count (block_number child) child_promotion.new_sibling
              pure (r, promotion, m1.assign this_p this)
            else
              insert_split BLOCK_SIZE m1 this_p (p % 65536) child_promotion.pivot_word
                child_promotion.count (block_number child) child_promotion.new_sibling
                promotion) := by
  obtain ⟨hlen, hviews⟩ := page_items_loop_inv this _ _ _ h_items
  obtain ⟨p, _, hp, hscan, hbelow, habove⟩ :=
    scan_loop_absent this word items h_items h_absent (item_count this) 0 0 (by omega)
      (by decide)
  have hchild : Item_right_child this (item_at p - sizeof_Item) =
      .ok (if p = 0 then left_child this else (items.getD (p - 1) ([], 0, 0)).2.2) := by
    unfold Item_right_child
    by_cases h0 : p = 0
    · subst h0
      rw [if_pos rfl]
      exact ld32_ok _ _ (by simp [item_at, begin_item, sizeof_Item]; omega)
    · rw [if_neg h0]
      obtain ⟨h8, _, _, hr⟩ := item_view_inv this _ _ (hviews (p - 1) (by omega))
      have e : item_at p - sizeof_Item = begin_item + 8 * (p - 1) := by
        unfold item_at sizeof_Item; omega
      rw [e, ld32_ok _ _ (by omega), hr]
  refine ⟨p, _, by omega, fun j hj => hbelow j (by omega) hj, ?_, rfl, ?_⟩
  · intro j hpj hj
    have hpn : p < item_count this := by omega
    by_cases hjp : j = p
    · subst hjp
      exact habove hpn
    · have h1 := habove hpn
      have h2 := (List.pairwise_iff_getElem.mp h_sorted) p j (by simp; omega) (by simp; omega)
        (by omega)
      simp only [List.getElem_map] at h2
      rw [List.getD_eq_getElem _ _ (by omega)] at h1 ⊢
      exact word_lt_trans _ _ _ h1 h2
  · conv_lhs => unfold Block_add_word
    have e0 : item_at 0 = begin_item := rfl
    rw [e0] at hscan
    simp only [bind, Except.bind, pure, Except.pure, h_this, hscan, h_internal, hchild,
      Bool.false_eq_true, if_false, Nat.zero_add, Nat.sub_zero]

set_option maxRecDepth 100000 in
/-- C31 with `BLOCK_SIZE = 40` on the root (block 2, key `b`, `left_child` 0, the
`right_child` of `b` is 1) of the index holding `a`, `b`, `c`, `d`: for the word `e` the
position is 1 and the child is block 1. -/
theorem C31_recursion_into_one_child_witness :
    ∃ p c, p = 1 ∧ c = 1 ∧
      (∀ j, j < p → word_lt (([([98], 1, 1)] : List (Word × Nat × Nat)).getD j ([], 0, 0)).1
        [101] = true) ∧
      ∃ this, (index_after_words 40 [[97], [98], [99], [100]]).manager.deref 2 = .ok this ∧
        c = (if p = 0 then left_child this else 1) :=
  by
  have h_this : (index_after_words 40 [[97], [98], [99], [100]]).manager.deref 2 = .ok
      [2, 0, 0, 0, 1, 0, 38, 0, 0, 0, 0, 0, 38, 0, 1, 0, 1, 0, 0, 0, 0, 0, 0, 0, 0, 0, 0, 0,
        0, 0, 0, 0, 0, 0, 0, 0, 0, 0, 98, 0] := rfl
  obtain ⟨p, c, h1, h2, h3, h4, _⟩ := C31_recursion_into_one_child 40 3 _ 2 [101]
    Promotion.fresh _ [([98], 1, 1)] h_this (by decide) rfl (by simp) (by simp) rfl
  have hp : p = 1 := by
    have h1' : p ≤ 1 := h1
    by_cases h0 : p = 0
    · subst h0
      have := h3 0 (le_refl _) (by decide)
      simp [word_lt] at this
    · omega
  subst hp
  exact ⟨1, c, rfl, h4, h2, _, h_this, h4⟩

/-! ### Pages damaged by `insert_split`: handle, item offsets, arena, and the walk -/

set_option maxRecDepth 100000 in
/-- C33: with `BLOCK_SIZE = 64`, after seven accepted words (every call returned 0) the page
stored under handle 0, the left child of the root, has the `block_number` field 50331648:
the text of the seventh word was copied over the header of the page. -/
theorem C33_page_loses_its_handle :
    ∃ wc root page,
      add_words 64 WordCounter.new
        [[2], [5], [8], [1, 5, 8, 1, 5, 2, 7, 6, 7, 2, 7],
         [1, 2, 2, 3, 6, 3, 2, 1, 7, 5, 4, 3, 5, 3, 3],
         [1, 6, 3, 6, 5, 2, 1, 8, 3, 3, 6, 5, 6, 3],
         [3, 2, 3, 8, 5, 4, 1, 6, 3, 2, 1, 5, 7, 4, 2]] = .ok (List.replicate 7 0, wc) ∧
      wc.manager.block_count = 3 ∧
      wc.manager.get wc.root_ = .ok 2 ∧ wc.manager.deref 2 = .ok root ∧ left_child root = 0 ∧
      wc.manager.get 0 = .ok 0 ∧ wc.manager.deref 0 = .ok page ∧
      block_number page = 50331648 ∧ item_count page = 771 ∧ string_table page = 1288 :=
  ⟨_, _, _, rfl, rfl, rfl, rfl, rfl, rfl, rfl, rfl, rfl, rfl⟩

set_option maxRecDepth 100000 in
/-- C34: with `BLOCK_SIZE = 64`, after seven accepted words (every call returned 0) the left
child of the root, block 0, has five items and `string_table` 37; the `offset` of its fourth
item is 572, outside the page, and no key can be read there. -/
theorem C34_item_offset_outside_the_page :
    ∃ wc root page,
      add_words 64 WordCounter.new
        [[5, 4], [5], [4], [3], [2], [1, 5, 1, 4, 5, 3, 5, 5, 4, 1, 5, 2, 5, 4],
         [2, 1, 3, 1, 2]] = .ok (List.replicate 7 0, wc) ∧
      wc.manager.get wc.root_ = .ok 2 ∧ wc.manager.deref 2 = .ok root ∧ left_child root = 0 ∧
      wc.manager.deref 0 = .ok page ∧ item_count page = 5 ∧ string_table page = 37 ∧
      Item_offset page (item_at 3) = .ok 572 ∧ page.length = 64 ∧
      string_at page 572 = .error .out_of_arena :=
  ⟨_, _, _, rfl, rfl, rfl, rfl, rfl, rfl, rfl, rfl, rfl, rfl⟩

set_option maxRecDepth 100000 in
/-- C38: with `BLOCK_SIZE = 64`, after seven accepted words (every call returned 0) the left
child of the root, block 0, has `string_table` 40, so its arena takes 24 bytes, while its
five keys with their terminators take 12 bytes. -/
theorem C38_arena_is_not_the_key_text :
    ∃ wc root page,
      add_words 64 WordCounter.new
        [[5, 4], [5], [4], [3], [2], [1, 5, 1, 4, 5, 3, 5, 5, 4, 1, 5, 2, 5, 4], [2, 1]]
        = .ok (List.replicate 7 0, wc) ∧
      wc.manager.get wc.root_ = .ok 2 ∧ wc.manager.deref 2 = .ok root ∧ left_child root = 0 ∧
      wc.manager.deref 0 = .ok page ∧ item_count page = 5 ∧ string_table page = 40 ∧
      64 - string_table page = 24 ∧
      page_pairs page = .ok [([255, 58], 1), ([2], 1), ([2, 1], 1), ([3], 1), ([4], 1)] ∧
      text_bytes page = .ok 12 :=
  ⟨_, _, _, rfl, rfl, rfl, rfl, rfl, rfl, rfl, rfl, rfl, rfl⟩

theorem bind_stuck {α β : Type} (x : Except Fault α) (f : α → Except Fault β)
    (h : ∀ v, ∃ e, f v = .error e) : ∃ e, (x >>= f) = .error e := by
  cases x with
  | error e => exact ⟨e, rfl⟩
  | ok v => exact h v

/-- The loop of `print_words` does not return when the walk below one of the items it still
has to visit does not. -/
theorem print_items_loop_stuck (walk : Nat → Except Fault (List (Word × Nat))) (this : Block)
    (r : Nat) (hr : r ≠ NULL_BLOCK) (hw : ∃ e, walk r = .error e) :
    ∀ (j k item : Nat), j < k → Item_right_child this (item + 8 * j) = .ok r →
      ∃ e, print_items_loop walk this k item = .error e := by
  obtain ⟨e0, hw⟩ := hw
  intro j
  induction j with
  | zero =>
    intro k item hk hright
    obtain ⟨k, rfl⟩ : ∃ k', k = k' + 1 := ⟨k - 1, by omega⟩
    simp only [Nat.mul_zero, Nat.add_zero] at hright
    unfold print_items_loop
    apply bind_stuck
    intro c
    apply bind_stuck
    intro o
    apply bind_stuck
    intro s
    rw [hright]
    exact ⟨e0, by simp only [bind, Except.bind, hr, ne_eq, not_false_eq_true, if_true, hw]⟩
  | succ j ih =>
    intro k item hk hright
    obtain ⟨k, rfl⟩ : ∃ k', k = k' + 1 := ⟨k - 1, by omega⟩
    obtain ⟨e1, h1⟩ := ih k (item + sizeof_Item) (by omega)
      (by rw [← hright]; unfold sizeof_Item; congr 1; omega)
    unfold print_items_loop
    apply bind_stuck
    intro c
    apply bind_stuck
    intro o
    apply bind_stuck
    intro s
    apply bind_stuck
    intro r1
    dsimp only
    split
    · apply bind_stuck
      intro below
      exact ⟨e1, by simp only [bind, Except.bind, h1]⟩
    · exact ⟨e1, by simp only [bind, Except.bind, pure, Except.pure, h1]⟩

/-- A page that is the `right_child` of one of its own items: `print_words` on it does not
return, whatever the depth allowed to the recursion. -/
theorem print_words_self_loop (m : BlockManager) (p j r : Nat) (this : Block)
    (h_this : m.deref p = .ok this) (hj : j < item_count this)
    (hright : Item_right_child this (begin_item + 8 * j) = .ok r) (hr : r ≠ NULL_BLOCK)
    (hget : m.get r = .ok p) : ∀ fuel, ∃ e, Block_print_words fuel m p = .error e := by
  intro fuel
  induction fuel with
  | zero => exact ⟨_, rfl⟩
  | succ fuel ih =>
    obtain ⟨e1, h1⟩ := print_items_loop_stuck
      (fun right => do
        let right_block ← m.get right
        Block_print_words fuel m right_block) this r hr
      (by
        obtain ⟨e, he⟩ := ih
        exact ⟨e, by simp only [bind, Except.bind, hget, he]⟩)
      j (item_count this) begin_item hj hright
    simp only [bind, Except.bind] at h1
    unfold Block_print_words
    simp only [bind, Except.bind, h_this, h1]
    split
    · cases m.get (left_child this) with
      | error e => exact ⟨e, rfl⟩
      | ok v =>
        dsimp only
        cases Block_print_words fuel m v with
        | error e => exact ⟨e, rfl⟩
        | ok l => exact ⟨e1, rfl⟩
    · exact ⟨e1, rfl⟩

/-- A page above one on which `print_words` does not return. -/
theorem print_words_above (m : BlockManager) (p q : Nat) (this : Block)
    (h_this : m.deref p = .ok this) (hleft : left_child this ≠ NULL_BLOCK)
    (hget : m.get (left_child this) = .ok q)
    (hq : ∀ fuel, ∃ e, Block_print_words fuel m q = .error e) :
    ∀ fuel, ∃ e, Block_print_words fuel m p = .error e := by
  intro fuel
  cases fuel with
  | zero => exact ⟨_, rfl⟩
  | succ fuel =>
    obtain ⟨e, he⟩ := hq fuel
    unfold Block_print_words
    simp only [bind, Except.bind, h_this, hleft, ne_eq, not_false_eq_true, if_true, hget, he]
    exact ⟨e, rfl⟩

set_option maxRecDepth 100000 in
/-- C35: with `BLOCK_SIZE = 64`, after fifteen accepted words (every call returned 0) the
root is block 8, its `left_child` is block 2, and the third item of block 2 has block 2
itself as `right_child`: the pages reachable from the root contain a cycle, and
`print_words` on the root does not return, whatever depth the recursion is allowed. -/
theorem C35_walk_of_reachable_index_never_returns :
    ∃ wc root page,
      add_words 64 WordCounter.new
        [[3], 5 :: 2 :: rep 4 10, [4], [2], [1, 2], [5, 2], [3, 5, 3], [4, 2], [1],
         2 :: 1 :: rep 5 9, 2 :: 3 :: rep 5 13, [2, 2, 1, 1], [5], 2 :: 5 :: rep 3 5,
         1 :: 2 :: rep 1 11]
        = .ok (List.replicate 15 0, wc) ∧
      wc.manager.get wc.root_ = .ok 8 ∧ wc.manager.deref 8 = .ok root ∧ left_child root = 2 ∧
      wc.manager.deref 2 = .ok page ∧ Item_right_child page (item_at 2) = .ok 2 ∧
      ∀ fuel, ∃ e, Block_print_words fuel wc.manager 8 = .error e :=
  by
  have h_words : add_words 64 WordCounter.new
      [[3], 5 :: 2 :: rep 4 10, [4], [2], [1, 2], [5, 2], [3, 5, 3], [4, 2], [1],
       2 :: 1 :: rep 5 9, 2 :: 3 :: rep 5 13, [2, 2, 1, 1], [5], 2 :: 5 :: rep 3 5,
       1 :: 2 :: rep 1 11]
      = .ok (List.replicate 15 0, index_after_words 64
      [[3], 5 :: 2 :: rep 4 10, [4], [2], [1, 2], [5, 2], [3, 5, 3], [4, 2], [1],
       2 :: 1 :: rep 5 9, 2 :: 3 :: rep 5 13, [2, 2, 1, 1], [5], 2 :: 5 :: rep 3 5,
       1 :: 2 :: rep 1 11]) := rfl
  have h_root : (index_after_words 64
      [[3], 5 :: 2 :: rep 4 10, [4], [2], [1, 2], [5, 2], [3, 5, 3], [4, 2], [1],
       2 :: 1 :: rep 5 9, 2 :: 3 :: rep 5 13, [2, 2, 1, 1], [5], 2 :: 5 :: rep 3 5,
       1 :: 2 :: rep 1 11]).manager.deref 8 = .ok
      [8, 0, 0, 0, 1, 0, 62, 0, 2, 0, 0, 0, 62, 0, 1, 0, 7, 0, 0, 0, 0, 0, 0, 0, 0, 0, 0, 0, 0,
        0, 0, 0, 0, 0, 0, 0, 0, 0, 0, 0, 0, 0, 0, 0, 0, 0, 0, 0, 0, 0, 0, 0, 0, 0, 0, 0, 0, 0,
        0, 0, 0, 0, 4, 0] := rfl
  have h_page : (index_after_words 64
      [[3], 5 :: 2 :: rep 4 10, [4], [2], [1, 2], [5, 2], [3, 5, 3], [4, 2], [1],
       2 :: 1 :: rep 5 9, 2 :: 3 :: rep 5 13, [2, 2, 1, 1], [5], 2 :: 5 :: rep 3 5,
       1 :: 2 :: rep 1 11]).manager.deref 2 = .ok
      [2, 0, 0, 0, 4, 0, 31, 0, 0, 0, 0, 0, 31, 0, 1, 0, 9, 0, 0, 0, 52, 0, 1, 0, 4, 0, 0, 0,
        34, 0, 1, 1, 2, 0, 0, 0, 50, 0, 1, 0, 3, 0, 2, 3, 5, 5, 5, 5, 5, 0, 3, 0, 2, 1, 5, 5,
        5, 5, 5, 5, 5, 5, 5, 0] := rfl
  refine ⟨_, _, _, h_words, rfl, h_root, rfl, h_page, rfl, ?_⟩
  exact print_words_above _ 8 2 _ h_root (by decide) rfl
    (print_words_self_loop _ 2 2 2 _ h_page (by decide) rfl (by decide) rfl)

/-! ### The pages a call holds -/

theorem run_append : ∀ (l1 l2 : List Event) (held : Nat → Held),
    run held (l1 ++ l2) = (run held l1).bind fun held => run held l2
  | [], _, _ => rfl
  | e :: l1, l2, held => by
    simp only [List.cons_append, run]
    cases step held e with
    | none => rfl
    | some held1 => exact run_append l1 l2 held1

/-- The events `use`, `modify`, `update`, `release` on a page that is held. -/
theorem run_modify_release (held : Nat → Held) (t : Nat) (ht : held t = .clean) :
    ∃ held', run held [.use t, .modify t, .update t, .release t] = some held' ∧
      ∀ i, held' i = if i = t then Held.released else held i := by
  refine ⟨Function.update held t .released, ?_, ?_⟩
  · simp [run, step, ht, Option.bind]
  · intro i
    by_cases h : i = t
    · subst h; simp
    · simp [h]

/-- The event `release` on a page that is held and not modified. -/
theorem run_release (held : Nat → Held) (t : Nat) (ht : held t = .clean) :
    ∃ held', run held [.release t] = some held' ∧
      ∀ i, held' i = if i = t then Held.released else held i := by
  refine ⟨Function.update held t .released, ?_, ?_⟩
  · simp [run, step, ht, Option.bind]
  · intro i
    by_cases h : i = t
    · subst h; simp
    · simp [h]

/-- The events of `insert_split` on a held page, with a sibling not obtained before. -/
theorem run_insert_split (held : Nat → Held) (t s ip sp : Nat) (ht : held t = .clean)
    (hs : held s = .fresh) :
    ∃ held', run held (.use t :: insert_split_events t s ip sp) = some held' ∧
      ∀ i, held' i = if i = t ∨ i = s then Held.released else held i := by
  have hts : t ≠ s := by
    intro e
    rw [e, hs] at ht
    cases ht
  have hst : s ≠ t := fun e => hts e.symm
  refine ⟨Function.update (Function.update held t .released) s .released, ?_, ?_⟩
  · unfold insert_split_events shift_items_events
    by_cases h1 : ip = sp
    · simp [run, step, ht, hs, hts, hst, Option.bind, h1, Function.update_comm hts]
    · by_cases h2 : ip < sp
      · simp [run, step, ht, hs, hts, hst, Option.bind, h1, h2, Function.update_comm hts]
      · simp [run, step, ht, hs, hts, hst, Option.bind, h1, h2, Function.update_comm hts]
  · intro i
    by_cases h : i = s
    · subst h; simp
    · by_cases h' : i = t
      · subst h'; simp [h]
      · simp [h, h']

/-- The events of `Block::add_word` on a held page `t`, the pages obtained before being
numbered below `n`: the page `t` and every page obtained during the call end released, and
the other pages are as before. -/
theorem Block_add_word_log_ok (BLOCK_SIZE : Nat) :
    ∀ (fuel : Nat) (m : BlockManager) (this_p t n : Nat) (word : Word) (promotion : Promotion)
      (r : Int × Promotion × BlockManager) (log : List Event) (n' : Nat),
    Block_add_word_log BLOCK_SIZE fuel m this_p t n word promotion = .ok (r, log, n') →
    t < n →
    n ≤ n' ∧ ∀ held : Nat → Held, held t = .clean → (∀ i, n ≤ i → held i = .fresh) →
      ∃ held', run held log = some held' ∧
        ∀ i, held' i = if i = t ∨ (n ≤ i ∧ i < n') then Held.released else held i := by
  intro fuel
  induction fuel with
  | zero =>
    intro m this_p t n word promotion r log n' h
    cases h
  | succ fuel ih =>
    intro m this_p t n word promotion r log n' h htn
    unfold Block_add_word_log at h
    simp only [bind, Except.bind, pure, Except.pure] at h
    split at h
    · cases h
    split at h
    · cases h
    split at h
    · -- found
      split at h
      · cases h
      split at h
      · cases h
      simp only [Except.ok.injEq, Prod.mk.injEq] at h
      obtain ⟨_, rfl, rfl⟩ := h
      refine ⟨le_refl _, fun held ht hfresh => ?_⟩
      obtain ⟨held', h1, h2⟩ := run_modify_release held t ht
      refine ⟨held', h1, fun i => ?_⟩
      rw [h2 i]
      by_cases hi : i = t
      · simp [hi]
      · have : ¬ (n ≤ i ∧ i < n) := by omega
        simp [hi, this]
    split at h
    · -- leaf
      split at h
      · -- room: shift_items
        split at h
        · cases h
        simp only [Except.ok.injEq, Prod.mk.injEq] at h
        obtain ⟨_, rfl, rfl⟩ := h
        refine ⟨le_refl _, fun held ht hfresh => ?_⟩
        obtain ⟨held', h1, h2⟩ := run_modify_release held t ht
        refine ⟨held', h1, fun i => ?_⟩
        rw [h2 i]
        by_cases hi : i = t
        · simp [hi]
        · have : ¬ (n ≤ i ∧ i < n) := by omega
          simp [hi, this]
      · -- no room: insert_split
        split at h
        · cases h
        split at h
        · cases h
        simp only [Except.ok.injEq, Prod.mk.injEq] at h
        obtain ⟨_, rfl, rfl⟩ := h
        refine ⟨by omega, fun held ht hfresh => ?_⟩
        obtain ⟨held', h1, h2⟩ := run_insert_split held t n _ _ ht (hfresh n (le_refl _))
        refine ⟨held', h1, fun i => ?_⟩
        rw [h2 i]
        by_cases hi : i = t
        · simp [hi]
        · by_cases hn : i = n
          · simp [hn]
          · have : ¬ (n ≤ i ∧ i < n + 1) := by omega
            simp [hi, hn, this]
    · -- internal page
      split at h
      · cases h
      split at h
      · cases h
      split at h
      · cases h
      split at h
      · cases h
      rename_i x res hrec
      obtain ⟨⟨result, cp, m1⟩, clog, n1⟩ := res
      obtain ⟨hn1, hchild⟩ := ih m _ n (n + 1) word Promotion.fresh _ clog n1 hrec (by omega)
      have hprefix : ∀ held : Nat → Held, held t = .clean → (∀ i, n ≤ i → held i = .fresh) →
          ∃ held2, run held ([Event.use t, Event.obtain n, Event.use n] ++ clog) = some held2 ∧
            ∀ i, held2 i = if n ≤ i ∧ i < n1 then Held.released else held i := by
        intro held ht hfresh
        have hne : n ≠ t := by omega
        obtain ⟨held2, h1, h2⟩ := hchild (Function.update held n .clean) (by simp)
          (fun i hi => by rw [Function.update_noteq (by omega)]; exact hfresh i (by omega))
        refine ⟨held2, ?_, fun i => ?_⟩
        · rw [run_append]
          simp only [run, step, ht, hfresh n (le_refl _), Option.bind, true_or, if_true,
            Function.update_same]
          exact h1
        · rw [h2 i]
          by_cases hi : i = n
          · subst hi
            have : i ≤ i ∧ i < n1 := by omega
            simp [this]
          · have e : (n + 1 ≤ i ∧ i < n1) ↔ (n ≤ i ∧ i < n1) := by omega
            simp only [hi, false_or, e, Function.update_noteq hi]
      simp only [] at h
      split at h
      · -- the child did not split: release(this)
        simp only [Except.ok.injEq, Prod.mk.injEq] at h
        obtain ⟨_, rfl, rfl⟩ := h
        refine ⟨by omega, fun held ht hfresh => ?_⟩
        obtain ⟨held2, h1, h2⟩ := hprefix held ht hfresh
        have ht2 : held2 t = .clean := by
          rw [h2 t, if_neg (by omega)]; exact ht
        obtain ⟨held3, h3, h4⟩ := run_release held2 t ht2
        refine ⟨held3, ?_, fun i => ?_⟩
        · rw [run_append, h1]
          exact h3
        · rw [h4 i, h2 i]
          by_cases hi : i = t
          · simp [hi]
          · simp [hi]
      · split at h
        · cases h
        split at h
        · -- room: shift_items
          split at h
          · cases h
          simp only [Except.ok.injEq, Prod.mk.injEq] at h
          obtain ⟨_, rfl, rfl⟩ := h
          refine ⟨by omega, fun held ht hfresh => ?_⟩
          obtain ⟨held2, h1, h2⟩ := hprefix held ht hfresh
          have ht2 : held2 t = .clean := by
            rw [h2 t, if_neg (by omega)]; exact ht
          obtain ⟨held3, h3, h4⟩ := run_modify_release held2 t ht2
          refine ⟨held3, ?_, fun i => ?_⟩
          · rw [run_append, h1]
            exact h3
          · rw [h4 i, h2 i]
            by_cases hi : i = t
            · simp [hi]
            · simp [hi]
        · -- no room: insert_split
          split at h
          · cases h
          split at h
          · cases h
          simp only [Except.ok.injEq, Prod.mk.injEq] at h
          obtain ⟨_, rfl, rfl⟩ := h
          refine ⟨by omega, fun held ht hfresh => ?_⟩
          obtain ⟨held2, h1, h2⟩ := hprefix held ht hfresh
          have ht2 : held2 t = .clean := by
            rw [h2 t, if_neg (by omega)]; exact ht
          have hs2 : held2 n1 = .fresh := by
            rw [h2 n1, if_neg (by omega)]; exact hfresh n1 (by omega)
          obtain ⟨held3, h3, h4⟩ := run_insert_split held2 t n1 _ _ ht2 hs2
          refine ⟨held3, ?_, fun i => ?_⟩
          · rw [run_append, h1]
            exact h3
          · rw [h4 i, h2 i]
            by_cases hi : i = t
            · simp [hi]
            · by_cases hn : i = n1
              · subst hn
                have : n ≤ i ∧ i < i + 1 := by omega
                simp [this]
              · have e : (n ≤ i ∧ i < n1 + 1) ↔ (n ≤ i ∧ i < n1) := by omega
                simp only [hi, hn, false_or, e, or_self, if_false]

/-- The events of the visit of one child by `print_words`: `get`, the walk, `release`. -/
theorem run_visit (l : List Event) (n n1 : Nat) (hn : n + 1 ≤ n1)
    (hl : ∀ held : Nat → Held, held n = .clean → (∀ i, n + 1 ≤ i → held i = .fresh) →
      ∃ held', run held l = some held' ∧
        ∀ i, held' i = if n + 1 ≤ i ∧ i < n1 then Held.released else held i)
    (held : Nat → Held) (hfresh : ∀ i, n ≤ i → held i = .fresh) :
    ∃ held', run held (Event.obtain n :: l ++ [Event.release n]) = some held' ∧
      ∀ i, held' i = if n ≤ i ∧ i < n1 then Held.released else held i := by
  obtain ⟨held2, h1, h2⟩ := hl (Function.update held n .clean) (by simp)
    (fun i hi => by rw [Function.update_noteq (by omega)]; exact hfresh i (by omega))
  have hn2 : held2 n = .clean := by
    rw [h2 n, if_neg (by omega)]; simp
  obtain ⟨held3, h3, h4⟩ := run_release held2 n hn2
  refine ⟨held3, ?_, fun i => ?_⟩
  · rw [List.cons_append, run]
    simp only [step, hfresh n (le_refl _), if_true, Option.bind]
    rw [run_append, h1]
    exact h3
  · rw [h4 i, h2 i]
    by_cases hi : i = n
    · subst hi
      have : i ≤ i ∧ i < n1 := by omega
      simp [this]
    · have e : (n + 1 ≤ i ∧ i < n1) ↔ (n ≤ i ∧ i < n1) := by omega
      simp only [hi, if_false, e, Function.update_noteq hi]

/-- The loop of `print_words` on a held page, every visit of a child keeping the rule. -/
theorem print_items_loop_log_ok (walk : Nat → Nat → Except Fault (List Event × Nat))
    (this : Block) (t : Nat)
    (hwalk : ∀ right n log n', walk right n = .ok (log, n') →
      n ≤ n' ∧ ∀ held : Nat → Held, (∀ i, n ≤ i → held i = .fresh) →
        ∃ held', run held log = some held' ∧
          ∀ i, held' i = if n ≤ i ∧ i < n' then Held.released else held i) :
    ∀ (k item n : Nat) (log : List Event) (n' : Nat),
    print_items_loop_log walk this t k item n = .ok (log, n') → t < n →
    n ≤ n' ∧ ∀ held : Nat → Held, held t = .clean → (∀ i, n ≤ i → held i = .fresh) →
      ∃ held', run held log = some held' ∧
        ∀ i, held' i = if n ≤ i ∧ i < n' then Held.released else held i := by
  intro k
  induction k with
  | zero =>
    intro item n log n' h htn
    simp only [print_items_loop_log, pure, Except.pure, Except.ok.injEq, Prod.mk.injEq] at h
    obtain ⟨rfl, rfl⟩ := h
    refine ⟨le_refl _, fun held _ _ => ⟨held, rfl, fun i => ?_⟩⟩
    have : ¬ (n ≤ i ∧ i < n) := by omega
    simp [this]
  | succ k ih =>
    intro item n log n' h htn
    unfold print_items_loop_log at h
    simp only [bind, Except.bind, pure, Except.pure] at h
    split at h
    · cases h
    split at h
    · cases h
    split at h
    · cases h
    split at h
    · cases h
    have combine : ∀ (blog : List Event) (n1 : Nat) (rest : List Event × Nat),
        (n ≤ n1 ∧ ∀ held : Nat → Held, (∀ i, n ≤ i → held i = .fresh) →
          ∃ held', run held blog = some held' ∧
            ∀ i, held' i = if n ≤ i ∧ i < n1 then Held.released else held i) →
        print_items_loop_log walk this t k (item + sizeof_Item) n1 = .ok rest →
        n ≤ rest.2 ∧ ∀ held : Nat → Held, held t = .clean → (∀ i, n ≤ i → held i = .fresh) →
          ∃ held', run held (Event.use t :: blog ++ rest.1) = some held' ∧
            ∀ i, held' i = if n ≤ i ∧ i < rest.2 then Held.released else held i := by
      intro blog n1 rest hb hrest
      obtain ⟨rlog, n2⟩ := rest
      obtain ⟨hn1, hb⟩ := hb
      obtain ⟨hn2, hr⟩ := ih _ n1 rlog n2 hrest (by omega)
      refine ⟨by omega, fun held ht hfresh => ?_⟩
      obtain ⟨held1, h1, h2⟩ := hb held hfresh
      obtain ⟨held2, h3, h4⟩ := hr held1 (by rw [h2 t, if_neg (by omega)]; exact ht)
        (fun i hi => by rw [h2 i, if_neg (by omega)]; exact hfresh i (by omega))
      refine ⟨held2, ?_, fun i => ?_⟩
      · simp only [List.cons_append, run, step, ht, true_or, if_true, Option.bind,
          List.append_eq]
        rw [run_append, h1]
        exact h3
      · rw [h4 i, h2 i]
        by_cases c1 : n1 ≤ i ∧ i < n2
        · have : n ≤ i ∧ i < n2 := by omega
          simp [c1, this]
        · by_cases c2 : n ≤ i ∧ i < n1
          · have : n ≤ i ∧ i < n2 := by omega
            simp [c1, c2, this]
          · have : ¬ (n ≤ i ∧ i < n2) := by omega
            simp [c1, c2, this]
    split at h
    · -- a child below the item
      split at h
      · cases h
      rename_i below hbelow
      split at h
      · cases h
      rename_i rest hrest
      simp only [Except.ok.injEq, Prod.mk.injEq] at h
      obtain ⟨rfl, rfl⟩ := h
      exact combine below.1 below.2 rest (hwalk _ _ _ _ hbelow) hrest
    · -- no child below the item
      split at h
      · cases h
      rename_i rest hrest
      simp only [Except.ok.injEq, Prod.mk.injEq] at h
      obtain ⟨rfl, rfl⟩ := h
      refine combine [] n rest ⟨le_refl _, fun held _ => ⟨held, rfl, fun i => ?_⟩⟩ hrest
      have : ¬ (n ≤ i ∧ i < n) := by omega
      simp [this]

/-- The visit of a child whose walk keeps the rule. -/
theorem visit_log_ok (walk : Nat → Nat → Nat → Except Fault (List Event × Nat))
    (m : BlockManager)
    (hwalk : ∀ (this_p t n : Nat) (log : List Event) (n' : Nat),
      walk this_p t n = .ok (log, n') → t < n →
      n ≤ n' ∧ ∀ held : Nat → Held, held t = .clean → (∀ i, n ≤ i → held i = .fresh) →
        ∃ held', run held log = some held' ∧
          ∀ i, held' i = if n ≤ i ∧ i < n' then Held.released else held i)
    (child n : Nat) (log : List Event) (n' : Nat)
    (h : visit_log walk m child n = .ok (log, n')) :
    n ≤ n' ∧ ∀ held : Nat → Held, (∀ i, n ≤ i → held i = .fresh) →
      ∃ held', run held log = some held' ∧
        ∀ i, held' i = if n ≤ i ∧ i < n' then Held.released else held i := by
  unfold visit_log at h
  simp only [bind, Except.bind, pure, Except.pure] at h
  split at h
  · cases h
  split at h
  · cases h
  rename_i res hres
  simp only [Except.ok.injEq, Prod.mk.injEq] at h
  obtain ⟨rfl, rfl⟩ := h
  obtain ⟨hn1, hl⟩ := hwalk _ n (n + 1) res.1 res.2 hres (by omega)
  exact ⟨by omega, fun held hfresh => run_visit res.1 n res.2 hn1 hl held hfresh⟩

/-- The events of `Block::print_words` on a held page `t`, the pages obtained before being
numbered below `n`: every page obtained during the call ends released, and the other pages,
`t` among them, are as before. -/
theorem Block_print_words_log_ok :
    ∀ (fuel : Nat) (m : BlockManager) (this_p t n : Nat) (log : List Event) (n' : Nat),
    Block_print_words_log fuel m this_p t n = .ok (log, n') → t < n →
    n ≤ n' ∧ ∀ held : Nat → Held, held t = .clean → (∀ i, n ≤ i → held i = .fresh) →
      ∃ held', run held log = some held' ∧
        ∀ i, held' i = if n ≤ i ∧ i < n' then Held.released else held i := by
  intro fuel
  induction fuel with
  | zero =>
    intro m this_p t n log n' h
    cases h
  | succ fuel ih =>
    intro m this_p t n log n' h htn
    have hvisit := visit_log_ok (Block_print_words_log fuel m) m (ih m)
    unfold Block_print_words_log at h
    simp only [bind, Except.bind, pure, Except.pure] at h
    split at h
    · cases h
    rename_i this hthis
    have combine : ∀ (alog : List Event) (n1 : Nat) (rest : List Event × Nat),
        (n ≤ n1 ∧ ∀ held : Nat → Held, (∀ i, n ≤ i → held i = .fresh) →
          ∃ held', run held alog = some held' ∧
            ∀ i, held' i = if n ≤ i ∧ i < n1 then Held.released else held i) →
        print_items_loop_log (visit_log (Block_print_words_log fuel m) m)
          this t (item_count this) begin_item n1 = .ok rest →
        n ≤ rest.2 ∧ ∀ held : Nat → Held, held t = .clean → (∀ i, n ≤ i → held i = .fresh) →
          ∃ held', run held (Event.use t :: alog ++ rest.1) = some held' ∧
            ∀ i, held' i = if n ≤ i ∧ i < rest.2 then Held.released else held i := by
      intro alog n1 rest ha hrest
      obtain ⟨hn1, ha⟩ := ha
      obtain ⟨hn2, hr⟩ := print_items_loop_log_ok _ this t hvisit _ _ n1 rest.1 rest.2 hrest
        (by omega)
      refine ⟨by omega, fun held ht hfresh => ?_⟩
      obtain ⟨held1, h1, h2⟩ := ha held hfresh
      obtain ⟨held2, h3, h4⟩ := hr held1 (by rw [h2 t, if_neg (by omega)]; exact ht)
        (fun i hi => by rw [h2 i, if_neg (by omega)]; exact hfresh i (by omega))
      refine ⟨held2, ?_, fun i => ?_⟩
      · simp only [List.cons_append, run, step, ht, true_or, if_true, Option.bind,
          List.append_eq]
        rw [run_append, h1]
        exact h3
      · rw [h4 i, h2 i]
        by_cases c1 : n1 ≤ i ∧ i < rest.2
        · have : n ≤ i ∧ i < rest.2 := by omega
          simp [c1, this]
        · by_cases c2 : n ≤ i ∧ i < n1
          · have : n ≤ i ∧ i < rest.2 := by omega
            simp [c1, c2, this]
          · have : ¬ (n ≤ i ∧ i < rest.2) := by omega
            simp [c1, c2, this]
    split at h
    · -- a left child
      split at h
      · cases h
      rename_i above habove
      split at h
      · cases h
      rename_i rest hrest
      simp only [Except.ok.injEq, Prod.mk.injEq] at h
      obtain ⟨rfl, rfl⟩ := h
      exact combine above.1 above.2 rest (hvisit _ n above.1 above.2 habove) hrest
    · -- no left child
      split at h
      · cases h
      rename_i rest hrest
      simp only [Except.ok.injEq, Prod.mk.injEq] at h
      obtain ⟨rfl, rfl⟩ := h
      refine combine [] n rest ⟨le_refl _, fun held _ => ⟨held, rfl, fun i => ?_⟩⟩ hrest
      have : ¬ (n ≤ i ∧ i < n) := by omega
      simp [this]

/-- The method `insert_split` stops where its `find_splitpoint` stops. -/
theorem insert_split_after_find (BLOCK_SIZE : Nat) (m : BlockManager) (this_p ip : Nat)
    (word : Word) (count left right : Nat) (promotion : Promotion) (this : Block)
    (h_this : m.deref this_p = .ok this) (e : Fault)
    (hf : find_splitpoint BLOCK_SIZE this ip word = .error e) :
    insert_split BLOCK_SIZE m this_p ip word count left right promotion = .error e := by
  unfold insert_split
  simp only [bind, Except.bind, h_this, BlockManager.allocate]
  rw [deref_append_new]
  simp only [hf]

/-- The method `Block::add_word` with its events returns what `Block_add_word` returns. -/
theorem Block_add_word_log_result (BLOCK_SIZE : Nat) :
    ∀ (fuel : Nat) (m : BlockManager) (this_p t n : Nat) (word : Word) (promotion : Promotion),
    (Block_add_word_log BLOCK_SIZE fuel m this_p t n word promotion).map Prod.fst =
      Block_add_word BLOCK_SIZE fuel m this_p word promotion := by
  intro fuel
  induction fuel with
  | zero => intro m this_p t n word promotion; rfl
  | succ fuel ih =>
    intro m this_p t n word promotion
    unfold Block_add_word_log Block_add_word
    simp only [bind, Except.bind, pure, Except.pure]
    cases h1 : m.deref this_p with
    | error e => rfl
    | ok this =>
      simp only []
      cases h2 : scan_loop this word (item_count this) begin_item 0 with
      | error e => rfl
      | ok sc =>
        simp only []
        by_cases hfound : sc.found = true
        · simp only [hfound, if_true]
          cases Item_count this sc.item with
          | error e => rfl
          | ok c =>
            simp only []
            cases set_Item_count this sc.item (c + 1) with
            | error e => rfl
            | ok b => rfl
        · simp only [hfound, if_false]
          by_cases hleaf : is_leaf this = true
          · simp only [hleaf, if_true]
            by_cases hroom : has_space_for this word = true
            · simp only [hroom, if_true]
              cases shift_items this sc.item word 1 NULL_BLOCK NULL_BLOCK with
              | error e => rfl
              | ok b => rfl
            · simp only [hroom, if_false]
              cases hf : find_splitpoint BLOCK_SIZE this sc.insert_point word with
              | error e =>
                rw [insert_split_after_find BLOCK_SIZE m this_p _ word 1 _ _ promotion this h1 e hf]
                rfl
              | ok sp =>
                simp only []
                cases insert_split BLOCK_SIZE m this_p sc.insert_point word 1 NULL_BLOCK
                    NULL_BLOCK promotion with
                | error e => rfl
                | ok r => rfl
          · simp only [hleaf, if_false]
            cases Item_right_child this (sc.item - sizeof_Item) with
            | error e => rfl
            | ok child_number =>
              simp only []
              cases m.get child_number with
              | error e => rfl
              | ok child_p =>
                simp only []
                cases m.deref child_p with
                | error e => rfl
                | ok child =>
                  simp only []
                  rw [← ih m child_p n (n + 1) word Promotion.fresh]
                  cases Block_add_word_log BLOCK_SIZE fuel m child_p n (n + 1) word
                      Promotion.fresh with
                  | error e => rfl
                  | ok res =>
                    obtain ⟨⟨result, cp, m1⟩, clog, n1⟩ := res
                    simp only [Except.map]
                    by_cases hres : result ≤ 0
                    · simp only [hres, if_true]
                      rfl
                    · simp only [hres, if_false]
                      cases h3 : m1.deref this_p with
                      | error e => rfl
                      | ok this1 =>
                        simp only []
                        by_cases hroom : has_space_for this1 cp.pivot_word = true
                        · simp only [hroom, if_true]
                          cases shift_items this1 sc.item cp.pivot_word cp.count
                              (block_number child) cp.new_sibling with
                          | error e => rfl
                          | ok b => rfl
                        · simp only [hroom, if_false]
                          cases hf : find_splitpoint BLOCK_SIZE this1 sc.insert_point
                              cp.pivot_word with
                          | error e =>
                            rw [insert_split_after_find BLOCK_SIZE m1 this_p _ cp.pivot_word
                              cp.count _ _ promotion this1 h3 e hf]
                            rfl
                          | ok sp =>
                            simp only []
                            cases insert_split BLOCK_SIZE m1 this_p sc.insert_point
                                cp.pivot_word cp.count (block_number child) cp.new_sibling
                                promotion with
                            | error e => rfl
                            | ok r => rfl

/-- The events of a page that is allocated, set up and released. -/
theorem run_new_page (held : Nat → Held) (n : Nat) (hn : held n = .fresh) :
    ∃ held', run held [.obtain n, .modify n, .update n, .use n, .update n, .release n] =
        some held' ∧
      ∀ i, held' i = if i = n then Held.released else held i := by
  refine ⟨Function.update held n .released, ?_, ?_⟩
  · simp [run, step, hn, Option.bind]
  · intro i
    by_cases h : i = n
    · subst h; simp
    · simp [h]

/-- The events of the first page of an index. -/
theorem run_first_page (held : Nat → Held) (n : Nat) (hn : held n = .fresh) :
    ∃ held', run held [.obtain n, .use n, .modify n, .update n, .update n, .release n] =
        some held' ∧
      ∀ i, held' i = if i = n then Held.released else held i := by
  refine ⟨Function.update held n .released, ?_, ?_⟩
  · simp [run, step, hn, Option.bind]
  · intro i
    by_cases h : i = n
    · subst h; simp
    · simp [h]

/-- The method `WordCounter::add_word` with its events returns what `add_word` returns. -/
theorem add_word_log_result (BLOCK_SIZE : Nat) (wc : WordCounter) (word : Word) :
    (wc.add_word_log BLOCK_SIZE word).map Prod.fst = wc.add_word BLOCK_SIZE word := by
  unfold WordCounter.add_word_log WordCounter.add_word
  by_cases hlen : word.length + 1 > MAX_WORD_LEN BLOCK_SIZE
  · simp only [hlen, if_true]; rfl
  · simp only [hlen, if_false]
    by_cases hroot : wc.root_ = NULL_BLOCK
    · simp only [hroot, if_true, bind, Except.bind, pure, Except.pure]
      cases (wc.manager.allocate BLOCK_SIZE).2.deref (wc.manager.allocate BLOCK_SIZE).1 with
      | error e => rfl
      | ok block =>
        simp only []
        cases initialize_block block word 1 NULL_BLOCK NULL_BLOCK with
        | error e => rfl
        | ok b => rfl
    · simp only [hroot, if_false, bind, Except.bind, pure, Except.pure]
      cases wc.manager.get wc.root_ with
      | error e => rfl
      | ok p =>
        simp only []
        rw [← Block_add_word_log_result BLOCK_SIZE wc.manager.block_count wc.manager p 0 1 word
          Promotion.fresh]
        cases Block_add_word_log BLOCK_SIZE wc.manager.block_count wc.manager p 0 1 word
            Promotion.fresh with
        | error e => rfl
        | ok res =>
          obtain ⟨⟨result, promotion, m⟩, log, n⟩ := res
          simp only [Except.map]
          by_cases hres : result ≤ 0
          · simp only [hres, if_true]
          · simp only [hres, if_false]
            cases (m.allocate BLOCK_SIZE).2.deref (m.allocate BLOCK_SIZE).1 with
            | error e => rfl
            | ok block =>
              simp only []
              cases initialize_block block promotion.pivot_word promotion.count wc.root_
                  promotion.new_sibling with
              | error e => rfl
              | ok b => rfl

/-- The events of a call of `WordCounter::add_word` that returns keep the rule. -/
theorem add_word_log_ok (BLOCK_SIZE : Nat) (wc : WordCounter) (word : Word)
    (r : Int × WordCounter) (log : List Event)
    (h : wc.add_word_log BLOCK_SIZE word = .ok (r, log)) : log_ok log := by
  unfold WordCounter.add_word_log at h
  split at h
  · cases h
    exact ⟨fun _ => Held.fresh, rfl, fun _ => Or.inl rfl⟩
  split at h
  · simp only [bind, Except.bind, pure, Except.pure] at h
    split at h
    · cases h
    split at h
    · cases h
    cases h
    obtain ⟨held, h1, h2⟩ := run_first_page (fun _ => Held.fresh) 0 rfl
    refine ⟨held, h1, fun b => ?_⟩
    rw [h2 b]
    by_cases hb : b = 0
    · right; simp [hb]
    · left; simp [hb]
  simp only [bind, Except.bind, pure, Except.pure] at h
  split at h
  · cases h
  rename_i p hp
  split at h
  · cases h
  rename_i res hres
  obtain ⟨⟨result, promotion, m⟩, blog, n⟩ := res
  obtain ⟨hn, hrun⟩ := Block_add_word_log_ok BLOCK_SIZE _ _ _ 0 1 _ _ _ _ _ hres (by omega)
  obtain ⟨held1, h1, h2⟩ := hrun (Function.update (fun _ => Held.fresh) 0 .clean) (by simp)
    (fun i hi => by rw [Function.update_noteq (by omega)])
  have hstart : ∀ l, run (fun _ => Held.fresh) (Event.obtain 0 :: l) =
      run (Function.update (fun _ => Held.fresh) 0 .clean) l := by
    intro l
    simp [run, step, Option.bind]
  simp only [] at h
  split at h
  · cases h
    refine ⟨held1, by rw [hstart]; exact h1, fun b => ?_⟩
    rw [h2 b]
    by_cases hb : b = 0 ∨ (1 ≤ b ∧ b < n)
    · right; simp [hb]
    · left
      rw [if_neg hb, Function.update_noteq (by omega)]
  · split at h
    · cases h
    split at h
    · cases h
    cases h
    have hfresh : held1 n = .fresh := by
      rw [h2 n, if_neg (by omega), Function.update_noteq (by omega)]
    obtain ⟨held2, h3, h4⟩ := run_new_page held1 n hfresh
    refine ⟨held2, ?_, fun b => ?_⟩
    · rw [List.cons_append, hstart, run_append, h1]
      exact h3
    · rw [h4 b]
      by_cases hbn : b = n
      · right; simp [hbn]
      · rw [if_neg hbn, h2 b]
        by_cases hb : b = 0 ∨ (1 ≤ b ∧ b < n)
        · right; simp [hb]
        · left
          rw [if_neg hb, Function.update_noteq (by omega)]

/-- The events of a call of `WordCounter::print_words` that returns keep the rule. -/
theorem print_words_log_ok (wc : WordCounter) (log : List Event)
    (h : wc.print_words_log = .ok log) : log_ok log := by
  unfold WordCounter.print_words_log at h
  split at h
  · simp only [bind, Except.bind, pure, Except.pure] at h
    split at h
    · cases h
    rename_i p hp
    split at h
    · cases h
    rename_i res hres
    obtain ⟨l, n⟩ := res
    cases h
    obtain ⟨hn, hrun⟩ := Block_print_words_log_ok _ _ _ 0 1 _ _ hres (by omega)
    obtain ⟨held, h1, h2⟩ := run_visit l 0 n hn hrun (fun _ => Held.fresh) (fun _ _ => rfl)
    refine ⟨held, h1, fun b => ?_⟩
    rw [h2 b]
    by_cases hb : 0 ≤ b ∧ b < n
    · right; rw [if_pos hb]
    · left; rw [if_neg hb]
  · cases h
    exact ⟨fun _ => Held.fresh, rfl, fun _ => Or.inl rfl⟩

/-- The loop over the items with its events returns when `print_items_loop` returns, and
faults as it faults. -/
theorem print_items_loop_log_result (walk : Nat → Except Fault (List (Word × Nat)))
    (walk_log : Nat → Nat → Except Fault (List Event × Nat))
    (hwalk : ∀ right n, (walk_log right n).map (fun _ => ()) = (walk right).map fun _ => ())
    (this : Block) (t : Nat) :
    ∀ (k item n : Nat),
      (print_items_loop_log walk_log this t k item n).map (fun _ => ()) =
        (print_items_loop walk this k item).map fun _ => ()
  | 0, _, _ => rfl
  | k + 1, item, n => by
    unfold print_items_loop_log print_items_loop
    simp only [bind, Except.bind, pure, Except.pure]
    cases Item_count this item with
    | error e => rfl
    | ok count =>
      simp only []
      cases Item_offset this item with
      | error e => rfl
      | ok offset =>
        simp only []
        cases string_at this offset with
        | error e => rfl
        | ok s =>
          simp only []
          cases Item_right_child this item with
          | error e => rfl
          | ok right =>
            simp only []
            by_cases hr : right ≠ NULL_BLOCK
            · rw [if_pos hr, if_pos hr]
              have h1 := hwalk right n
              cases hw : walk_log right n with
              | error e =>
                rw [hw] at h1
                cases hw2 : walk right with
                | error e2 => rw [hw2] at h1; cases h1; rfl
                | ok v => rw [hw2] at h1; cases h1
              | ok res =>
                rw [hw] at h1
                cases hw2 : walk right with
                | error e2 => rw [hw2] at h1; cases h1
                | ok v =>
                  simp only []
                  have h2 := print_items_loop_log_result walk walk_log hwalk this t k
                    (item + sizeof_Item) res.2
                  cases hl : print_items_loop_log walk_log this t k (item + sizeof_Item) res.2 with
                  | error e =>
                    rw [hl] at h2
                    cases hl2 : print_items_loop walk this k (item + sizeof_Item) with
                    | error e2 => rw [hl2] at h2; cases h2; rfl
                    | ok v => rw [hl2] at h2; cases h2
                  | ok res2 =>
                    rw [hl] at h2
                    cases hl2 : print_items_loop walk this k (item + sizeof_Item) with
                    | error e2 => rw [hl2] at h2; cases h2
                    | ok v => rfl
            · rw [if_neg hr, if_neg hr]
              have h2 := print_items_loop_log_result walk walk_log hwalk this t k
                (item + sizeof_Item) n
              cases hl : print_items_loop_log walk_log this t k (item + sizeof_Item) n with
              | error e =>
                rw [hl] at h2
                cases hl2 : print_items_loop walk this k (item + sizeof_Item) with
                | error e2 => rw [hl2] at h2; cases h2; rfl
                | ok v => rw [hl2] at h2; cases h2
              | ok res2 =>
                rw [hl] at h2
                cases hl2 : print_items_loop walk this k (item + sizeof_Item) with
                | error e2 => rw [hl2] at h2; cases h2
                | ok v => rfl

/-- The method `Block::print_words` with its events returns when `Block_print_words`
returns, and faults as it faults. -/
theorem Block_print_words_log_result :
    ∀ (fuel : Nat) (m : BlockManager) (this_p t n : Nat),
      (Block_print_words_log fuel m this_p t n).map (fun _ => ()) =
        (Block_print_words fuel m this_p).map fun _ => ()
  | 0, _, _, _, _ => rfl
  | fuel + 1, m, this_p, t, n => by
    have hvisit : ∀ child n, (visit_log (Block_print_words_log fuel m) m child n).map
        (fun _ => ()) =
        (do let b ← m.get child; Block_print_words fuel m b).map fun _ => () := by
      intro child n
      unfold visit_log
      simp only [bind, Except.bind, pure, Except.pure]
      cases m.get child with
      | error e => rfl
      | ok b =>
        simp only []
        have h1 := Block_print_words_log_result fuel m b n (n + 1)
        cases hw : Block_print_words_log fuel m b n (n + 1) with
        | error e =>
          rw [hw] at h1
          cases hw2 : Block_print_words fuel m b with
          | error e2 => rw [hw2] at h1; cases h1; rfl
          | ok v => rw [hw2] at h1; cases h1
        | ok res =>
          rw [hw] at h1
          cases hw2 : Block_print_words fuel m b with
          | error e2 => rw [hw2] at h1; cases h1
          | ok v => rfl
    unfold Block_print_words_log Block_print_words
    simp only [bind, Except.bind, pure, Except.pure]
    cases m.deref this_p with
    | error e => rfl
    | ok this =>
      simp only []
      have hloop := fun n => print_items_loop_log_result
        (fun right => do let b ← m.get right; Block_print_words fuel m b)
        (visit_log (Block_print_words_log fuel m) m) hvisit this t (item_count this) begin_item n
      simp only [bind, Except.bind, pure, Except.pure] at hloop hvisit
      by_cases hl : left_child this ≠ NULL_BLOCK
      · rw [if_pos hl, if_pos hl]
        have h1 := hvisit (left_child this) n
        cases hw : visit_log (Block_print_words_log fuel m) m (left_child this) n with
        | error e =>
          rw [hw] at h1
          revert h1
          cases m.get (left_child this) with
          | error e2 => intro h1; cases h1; rfl
          | ok b =>
            simp only []
            cases Block_print_words fuel m b with
            | error e2 => intro h1; cases h1; rfl
            | ok v => intro h1; cases h1
        | ok res =>
          rw [hw] at h1
          revert h1
          cases m.get (left_child this) with
          | error e2 => intro h1; cases h1
          | ok b =>
            simp only []
            cases Block_print_words fuel m b with
            | error e2 => intro h1; cases h1
            | ok v =>
              intro _
              simp only []
              have h2 := hloop res.2
              revert h2
              cases print_items_loop_log (visit_log (Block_print_words_log fuel m) m) this t
                  (item_count this) begin_item res.2 with
              | error e =>
                cases print_items_loop _ this (item_count this) begin_item with
                | error e2 => intro h2; cases h2; rfl
                | ok v => intro h2; cases h2
              | ok res2 =>
                cases print_items_loop _ this (item_count this) begin_item with
                | error e2 => intro h2; cases h2
                | ok v => intro _; rfl
      · rw [if_neg hl, if_neg hl]
        have h2 := hloop n
        revert h2
        cases print_items_loop_log (visit_log (Block_print_words_log fuel m) m) this t
            (item_count this) begin_item n with
        | error e =>
          cases print_items_loop _ this (item_count this) begin_item with
          | error e2 => intro h2; cases h2; rfl
          | ok v => intro h2; cases h2
        | ok res2 =>
          cases print_items_loop _ this (item_count this) begin_item with
          | error e2 => intro h2; cases h2
          | ok v => intro _; rfl

/-- The method `WordCounter::print_words` with its events returns when `print_words`
returns, and faults as it faults. -/
theorem print_words_log_result (wc : WordCounter) :
    (wc.print_words_log.map fun _ => ()) = (wc.print_words.map fun _ => ()) := by
  unfold WordCounter.print_words_log WordCounter.print_words
  by_cases hroot : wc.root_ ≠ NULL_BLOCK
  · rw [if_pos hroot, if_pos hroot]
    simp only [bind, Except.bind, pure, Except.pure]
    cases wc.manager.get wc.root_ with
    | error e => rfl
    | ok root =>
      simp only []
      have h := Block_print_words_log_result wc.manager.block_count wc.manager root 0 1
      revert h
      cases Block_print_words_log wc.manager.block_count wc.manager root 0 1 with
      | error e =>
        cases Block_print_words wc.manager.block_count wc.manager root with
        | error e2 => intro h; cases h; rfl
        | ok v => intro h; cases h
      | ok res =>
        cases Block_print_words wc.manager.block_count wc.manager root with
        | error e2 => intro h; cases h
        | ok v => intro _; rfl
  · rw [if_neg hroot, if_neg hroot]
    rfl

/-- C32: during a call of `WordCounter::add_word` or `WordCounter::print_words` that
returns, every page obtained from the block manager by `get` or `allocate` is released
exactly once and is not used after its release, and a page whose bytes were modified is
passed to `update` after its last modification and before its release. The calls with
their events return what the calls return, and the events keep the rule `log_ok`. -/
theorem C32_pages_are_updated_and_released_once (BLOCK_SIZE : Nat) (wc : WordCounter)
    (word : Word) :
    ((wc.add_word_log BLOCK_SIZE word).map Prod.fst = wc.add_word BLOCK_SIZE word ∧
      ∀ r log, wc.add_word_log BLOCK_SIZE word = .ok (r, log) → log_ok log) ∧
    ((wc.print_words_log.map fun _ => ()) = (wc.print_words.map fun _ => ()) ∧
      ∀ log, wc.print_words_log = .ok log → log_ok log) :=
  ⟨⟨add_word_log_result BLOCK_SIZE wc word, add_word_log_ok BLOCK_SIZE wc word⟩,
    print_words_log_result wc, print_words_log_ok wc⟩

set_option maxRecDepth 100000 in
/-- The index of the words a, b, c, d in pages of 40 bytes: the call that adds e splits a
leaf, and its events and the events of `print_words` keep the rule. -/
theorem C32_pages_are_updated_and_released_once_witness :
    (∃ r log, (index_after_words 40 [[97], [98], [99], [100]]).add_word_log 40 [101] =
        .ok (r, log) ∧ log = [.obtain 0, .use 0, .obtain 1, .use 1, .use 1, .use 1, .obtain 2, .use 2, .use 1, .use 1,
          .modify 2, .use 1, .modify 2, .modify 1, .modify 1, .modify 2, .update 2, .release 2,
          .update 1, .release 1, .use 0, .modify 0, .update 0, .release 0] ∧ log_ok log) ∧
    (∃ log, (index_after_words 40 [[97], [98], [99], [100]]).print_words_log = .ok log ∧
        log = [.obtain 0, .use 0, .obtain 1, .use 1, .use 1, .release 1, .use 0, .obtain 2, .use 2,
          .use 2, .use 2, .release 2, .release 0] ∧ log_ok log) :=
  ⟨⟨_, _, rfl, by decide,
      (C32_pages_are_updated_and_released_once 40
        (index_after_words 40 [[97], [98], [99], [100]]) [101]).1.2 _ _ rfl⟩,
    ⟨_, rfl, by decide,
      (C32_pages_are_updated_and_released_once 40
        (index_after_words 40 [[97], [98], [99], [100]]) [101]).2.2 _ rfl⟩⟩

/-! ### An index of one page -/

theorem reference_stop_le (word : Word) : ∀ (keys : List Word),
    (reference_stop word keys).2 ≤ keys.length ∧
    ((reference_stop word keys).1 = true → (reference_stop word keys).2 < keys.length)
  | [] => ⟨le_refl _, fun h => by simp [reference_stop] at h⟩
  | key :: rest => by
    unfold reference_stop
    split
    · simp
    · split
      · simp
      · have := reference_stop_le word rest
        simp only [List.length_cons]
        exact ⟨by omega, fun h => by have := this.2 h; omega⟩

/-- The linear scan of `Block::add_word` on a page whose items are `items` stops where the
search of the reference stops. -/
theorem scan_loop_reference (this : Block) (word : Word) (items : List (Word × Nat × Nat))
    (hitems : page_items this = .ok items) :
    ∀ (k i ip : Nat), i + k = item_count this → ip + k < 65536 →
      scan_loop this word k (item_at i) ip = .ok
        { found := (reference_stop word ((items.drop i).map fun x => x.1)).1,
          item := item_at (i + (reference_stop word ((items.drop i).map fun x => x.1)).2),
          insert_point := ip + (reference_stop word ((items.drop i).map fun x => x.1)).2 } := by
  obtain ⟨hlen, hviews⟩ := page_items_loop_inv this _ _ _ hitems
  intro k
  induction k with
  | zero =>
    intro i ip hik hip
    have : items.drop i = [] := List.drop_eq_nil_of_le (by omega)
    rw [this]
    simp [scan_loop, reference_stop, pure, Except.pure]
  | succ k ih =>
    intro i ip hik hip
    have hi : i < item_count this := by omega
    obtain ⟨h8, hs, _, _⟩ := item_view_inv this _ _ (hviews i hi)
    have hbi : begin_item + 8 * i = item_at i := rfl
    rw [hbi] at h8 hs
    have hdrop : items.drop i = items.getD i ([], 0, 0) :: items.drop (i + 1) := by
      rw [List.getD_eq_getElem _ _ (by omega)]
      exact List.drop_eq_getElem_cons (by omega)
    have hnext : item_at i + sizeof_Item = item_at (i + 1) := by
      simp only [item_at, sizeof_Item]; omega
    unfold scan_loop
    simp only [bind, Except.bind, pure, Except.pure, Item_offset, ld16]
    rw [if_pos (by omega)]
    simp only [hs]
    rw [hdrop]
    simp only [List.map_cons, reference_stop]
    by_cases h1 : word = (items.getD i ([], 0, 0)).1
    · rw [if_pos h1, if_pos h1]
      simp
    · rw [if_neg h1, if_neg h1]
      by_cases h2 : word_lt word (items.getD i ([], 0, 0)).1 = true
      · rw [if_pos h2, if_pos h2]
        simp
      · rw [if_neg h2, if_neg h2, hnext, ih (i + 1) ((ip + 1) % 65536) (by omega)
          (by rw [Nat.mod_eq_of_lt (by omega)]; omega)]
        rw [Nat.mod_eq_of_lt (by omega)]
        simp only [Except.ok.injEq, Scan.mk.injEq, true_and]
        constructor
        · congr 1; omega
        · omega

/-- The reference dictionary after one more word, by the place where its search stops. -/
theorem reference_add_stop (word : Word) : ∀ (d : List (Word × Nat)),
    reference_add word d =
      if (reference_stop word (d.map fun x => x.1)).1 then
        d.take (reference_stop word (d.map fun x => x.1)).2 ++
          ((d.getD (reference_stop word (d.map fun x => x.1)).2 ([], 0)).1,
            (d.getD (reference_stop word (d.map fun x => x.1)).2 ([], 0)).2 + 1) ::
          d.drop ((reference_stop word (d.map fun x => x.1)).2 + 1)
      else
        d.take (reference_stop word (d.map fun x => x.1)).2 ++
          (word, 1) :: d.drop (reference_stop word (d.map fun x => x.1)).2
  | [] => by simp [reference_add, reference_stop]
  | (key, count) :: rest => by
    simp only [reference_add, List.map_cons, reference_stop]
    by_cases h1 : word = key
    · simp [h1]
    · rw [if_neg h1, if_neg h1]
      by_cases h2 : word_lt word key = true
      · simp [h2]
      · rw [if_neg h2, if_neg h2, reference_add_stop word rest]
        simp only []
        split <;> simp

/-- The item whose count field is written, read again. -/
theorem item_view_set_count (b : Block) (item c : Nat) (v : Word × Nat × Nat)
    (hv : item_view b item = .ok v) (hoff : item + 8 ≤ rd16 b item) :
    item_view (wr16 b (item + 2) c) item = .ok (v.1, c % 65536, v.2.2) := by
  obtain ⟨h8, hs, hc, hr⟩ := item_view_inv b item v hv
  have e0 : rd16 (wr16 b (item + 2) c) item = rd16 b item := rd16_wr16_ne _ _ _ _ (by omega)
  have hs' : string_at (wr16 b (item + 2) c) (rd16 (wr16 b (item + 2) c) item) = .ok v.1 := by
    rw [e0, string_at_congr b (wr16 b (item + 2) c) _ (by simp)
      (fun x hx => getD_wr16_ne _ _ _ _ (by omega) (by omega))]
    exact hs
  have hc' : rd16 (wr16 b (item + 2) c) (item + 2) = c % 65536 :=
    rd16_wr16_same _ _ _ (by omega)
  have hr' : rd32 (wr16 b (item + 2) c) (item + 4) = v.2.2 := by
    rw [rd32_wr16_ne _ _ _ _ (by omega)]
    exact hr
  exact item_view_intro _ _ _ _ _ (by simp; omega) hs' hc' hr'

/-- The write of `++item->count` on a page whose texts lie behind the item table: the items
are as before, with the count of the one item replaced. -/
theorem page_items_set_count (b : Block) (p c : Nat) (items : List (Word × Nat × Nat))
    (hp : p < item_count b) (hitems : page_items b = .ok items)
    (hoff : ∀ j, j < item_count b → end_item b ≤ rd16 b (item_at j)) :
    page_items (wr16 b (item_at p + 2) c) = .ok
      (items.set p ((items.getD p ([], 0, 0)).1, c % 65536, (items.getD p ([], 0, 0)).2.2)) ∧
    (∀ x, x < 12 → (wr16 b (item_at p + 2) c).getD x 0 = b.getD x 0) ∧
    (∀ j, j < item_count b → rd16 (wr16 b (item_at p + 2) c) (item_at j) = rd16 b (item_at j)) := by
  obtain ⟨hl, hviews⟩ := page_items_loop_inv b _ _ _ hitems
  have hip : ∀ j, item_at j = 12 + 8 * j := fun j => rfl
  have hend : end_item b = 12 + 8 * item_count b := rfl
  have hlow : ∀ x, x < 12 → (wr16 b (item_at p + 2) c).getD x 0 = b.getD x 0 := by
    intro x hx
    rw [hip]
    exact getD_wr16_ne _ _ _ _ (by omega) (by omega)
  have hic : item_count (wr16 b (item_at p + 2) c) = item_count b := by
    unfold item_count
    exact rd16_congr _ _ _ (hlow 4 (by omega)) (hlow 5 (by omega))
  refine ⟨?_, hlow, ?_⟩
  · unfold page_items
    rw [hic]
    apply page_items_loop_intro _ _ _ _ (by rw [List.length_set]; exact hl)
    intro i hi
    have hbi : begin_item + 8 * i = item_at i := rfl
    rw [hbi]
    have h1 := hoff i hi
    rw [hend, hip] at h1
    by_cases hpi : i = p
    · subst hpi
      rw [List.getD_eq_getElem _ _ (by rw [List.length_set]; omega), List.getElem_set_self]
      apply item_view_set_count b (item_at i) c _ (hviews i hi)
      simp only [hip]
      omega
    · rw [List.getD_eq_getElem _ _ (by rw [List.length_set]; omega),
        List.getElem_set_ne (Ne.symm hpi), ← List.getD_eq_getElem _ ([], 0, 0)]
      apply item_view_frame b _ (item_at p + 2) (item_at p + 4) _ _ (by simp)
        (fun x hx => getD_wr16_ne _ _ _ _ (by omega) (by omega)) (hviews i hi)
      · simp only [hip, begin_item] at h1 ⊢; omega
      · simp only [hip, begin_item] at h1 ⊢; omega
  · intro j hj
    simp only [hip]
    exact rd16_wr16_ne _ _ _ _ (by omega)

/-- A changed count does not change the bytes of a dictionary. -/
theorem dictionary_bytes_set (d : List (Word × Nat)) (p c : Nat) (hp : p < d.length) :
    dictionary_bytes (d.set p ((d.getD p ([], 0)).1, c)) = dictionary_bytes d := by
  unfold dictionary_bytes
  congr 2
  apply List.ext_getElem (by simp)
  intro i h1 h2
  simp only [List.getElem_map, List.getElem_set]
  split
  · rename_i h
    subst h
    rw [List.getD_eq_getElem _ _ hp]
  · rfl

/-- A new key adds its item and its text to the bytes of a dictionary. -/
theorem dictionary_bytes_insert (d : List (Word × Nat)) (p : Nat) (x : Word × Nat) :
    dictionary_bytes (d.take p ++ x :: d.drop p) = dictionary_bytes d + 8 + (x.1.length + 1) := by
  unfold dictionary_bytes
  have h : d = d.take p ++ d.drop p := (List.take_append_drop p d).symm
  conv_rhs => rw [h]
  simp only [List.map_append, List.map_cons, List.sum_append, List.sum_cons]
  omega

/-- The found branch of `Block::add_word` on a leaf that holds `d`. -/
theorem leaf_page_found (BLOCK_SIZE : Nat) (page : Block) (d : List (Word × Nat)) (word : Word)
    (m : BlockManager) (promotion : Promotion)
    (h16 : BLOCK_SIZE < 65536)
    (hm : m.blocks = [page]) (hpage : leaf_page BLOCK_SIZE page d)
    (hfound : (reference_stop word (d.map fun x => x.1)).1 = true) :
    ∃ page', Block_add_word BLOCK_SIZE 1 m 0 word promotion
        = .ok (0, promotion, m.assign 0 page') ∧
      leaf_page BLOCK_SIZE page' (reference_add word d) := by
  obtain ⟨hlen, hproper, hleft, hcount, hbytes, hend, hst, hoff, hitems⟩ := hpage
  have hip : ∀ j, item_at j = 12 + 8 * j := fun j => rfl
  have hendv : end_item page = 12 + 8 * item_count page := rfl
  set p := (reference_stop word (d.map fun x => x.1)).2 with hpdef
  have hkeys : (d.map fun x => (x.1, x.2 % 65536, NULL_BLOCK)).map (fun x => x.1)
      = d.map fun x => x.1 := by
    rw [List.map_map]; rfl
  have hp : p < d.length := by
    have := (reference_stop_le word (d.map fun x => x.1)).2 hfound
    simpa using this
  have hscan := scan_loop_reference page word _ hitems (item_count page) 0 0 (by omega) (by omega)
  simp only [List.drop_zero, hkeys, hfound, Nat.zero_add, ← hpdef] at hscan
  obtain ⟨hl, hviews⟩ := page_items_loop_inv page _ _ _ hitems
  have hv := hviews p (by omega)
  obtain ⟨h8, _, hc, _⟩ := item_view_inv page _ _ hv
  have hbi : begin_item + 8 * p = item_at p := rfl
  rw [hbi] at h8 hc
  have hderef : m.deref 0 = .ok page := by simp [BlockManager.deref, hm]
  refine ⟨wr16 page (item_at p + 2) (rd16 page (item_at p + 2) + 1), ?_, ?_⟩
  · unfold Block_add_word
    have hb0 : begin_item = item_at 0 := rfl
    simp only [bind, Except.bind, pure, Except.pure, hderef]
    rw [hb0, hscan]
    simp only [if_true, Item_count, set_Item_count, ld16, st16]
    rw [if_pos (by omega)]
    simp only []
    rw [if_pos (by omega)]
  · have hset := page_items_set_count page p (rd16 page (item_at p + 2) + 1) _ (by omega) hitems
      (fun j hj => le_trans hend (hoff j hj))
    obtain ⟨hitems', hlow, hoff'⟩ := hset
    have hic : item_count (wr16 page (item_at p + 2) (rd16 page (item_at p + 2) + 1))
        = item_count page := by
      unfold item_count
      exact rd16_congr _ _ _ (hlow 4 (by omega)) (hlow 5 (by omega))
    have hstt : string_table (wr16 page (item_at p + 2) (rd16 page (item_at p + 2) + 1))
        = string_table page := by
      unfold string_table
      exact rd16_congr _ _ _ (hlow 6 (by omega)) (hlow 7 (by omega))
    have hlc : left_child (wr16 page (item_at p + 2) (rd16 page (item_at p + 2) + 1))
        = left_child page := by
      unfold left_child
      exact rd32_congr _ _ _ (hlow 8 (by omega)) (hlow 9 (by omega)) (hlow 10 (by omega))
        (hlow 11 (by omega))
    have hd' : reference_add word d = d.set p ((d.getD p ([], 0)).1, (d.getD p ([], 0)).2 + 1) := by
      rw [reference_add_stop, if_pos hfound, List.set_eq_take_append_cons_drop, if_pos hp]
    rw [hd']
    refine ⟨by simp [hlen], proper_wr16 _ _ _ hproper, by rw [hlc]; exact hleft,
      by rw [hic, List.length_set]; exact hcount, ?_, ?_, by rw [hstt]; exact hst, ?_, ?_⟩
    · rw [hic, hstt, dictionary_bytes_set d p _ hp]; exact hbytes
    · unfold end_item at hend ⊢
      rw [hic, hstt]; exact hend
    · intro i hi
      rw [hic] at hi
      rw [hstt, hoff' i hi]
      exact hoff i hi
    · rw [hitems']
      congr 1
      rw [List.map_set]
      congr 1
      rw [hc]
      rw [List.getD_eq_getElem _ _ (by simpa using hp), List.getD_eq_getElem _ _ hp]
      simp only [List.getElem_map]
      rw [Nat.add_mod, Nat.mod_mod, ← Nat.add_mod]

/-- The test `has_space_for` on a page whose item table ends at or below `string_table`. -/
theorem has_space_for_iff (b : Block) (word : Word) (hend : end_item b ≤ string_table b)
    (hst : string_table b < 65536) :
    has_space_for b word = true ↔ end_item b + 8 + (word.length + 1) ≤ string_table b := by
  unfold has_space_for free_space free_offset sizeof_Item
  rw [decide_eq_true_iff, Nat.mod_eq_of_lt (by omega : end_item b < 65536)]
  have : (string_table b + 65536 - end_item b) % 65536 = string_table b - end_item b := by
    have e : string_table b + 65536 - end_item b = (string_table b - end_item b) + 65536 := by
      omega
    rw [e, Nat.add_mod_right, Nat.mod_eq_of_lt (by omega)]
  rw [this]
  omega

/-- The branch of `Block::add_word` that inserts a new word into a leaf that holds `d` and
has space for it. -/
theorem leaf_page_insert (BLOCK_SIZE : Nat) (page : Block) (d : List (Word × Nat)) (word : Word)
    (m : BlockManager) (promotion : Promotion)
    (h16 : BLOCK_SIZE < 65536)
    (hm : m.blocks = [page]) (hpage : leaf_page BLOCK_SIZE page d)
    (hword : ∀ c ∈ word, 0 < c ∧ c < 256)
    (hnot : (reference_stop word (d.map fun x => x.1)).1 = false)
    (hfit : dictionary_bytes (reference_add word d) ≤ BLOCK_SIZE) :
    ∃ page', Block_add_word BLOCK_SIZE 1 m 0 word promotion
        = .ok (0, promotion, m.assign 0 page') ∧
      leaf_page BLOCK_SIZE page' (reference_add word d) := by
  obtain ⟨hlen, hproper, hleft, hcount, hbytes, hend, hst, hoff, hitems⟩ := hpage
  have hip : ∀ j, item_at j = 12 + 8 * j := fun j => rfl
  have hendv : end_item page = 12 + 8 * item_count page := rfl
  set p := (reference_stop word (d.map fun x => x.1)).2 with hpdef
  have hkeys : (d.map fun x => (x.1, x.2 % 65536, NULL_BLOCK)).map (fun x => x.1)
      = d.map fun x => x.1 := by
    rw [List.map_map]; rfl
  have hp : p ≤ d.length := by
    have := (reference_stop_le word (d.map fun x => x.1)).1
    simpa using this
  have hscan := scan_loop_reference page word _ hitems (item_count page) 0 0 (by omega) (by omega)
  simp only [List.drop_zero, hkeys, hnot, Nat.zero_add, ← hpdef] at hscan
  have hd' : reference_add word d = d.take p ++ (word, 1) :: d.drop p := by
    rw [reference_add_stop]
    simp only [hnot, Bool.false_eq_true, if_false, ← hpdef]
  rw [hd'] at hfit ⊢
  rw [dictionary_bytes_insert] at hfit
  simp only [] at hfit
  have hcs : c_str word = word := c_str_self word (fun c hc => by have := (hword c hc).1; omega)
  have hfit' : item_at (item_count page) + 8 + ((c_str word).length + 1) ≤ string_table page := by
    rw [hcs, hip]; omega
  have hspace : has_space_for page word = true := by
    rw [has_space_for_iff page word hend (by omega), hendv]
    rw [hip, hcs] at hfit'
    exact hfit'
  have hleaf : is_leaf page = true := by
    simp [is_leaf, hleft]
  have hderef : m.deref 0 = .ok page := by simp [BlockManager.deref, hm]
  obtain ⟨b', hcall, hl', hpr', hic', hstt', _, hlc', hoff', hitems'⟩ :=
    shift_items_items page p word 1 NULL_BLOCK NULL_BLOCK _ hproper (by omega) (by omega) hfit'
      (by omega) (fun c hc => (hword c hc).2) hoff hitems
  have hnull : NULL_BLOCK % 4294967296 = NULL_BLOCK := by decide
  refine ⟨b', ?_, ?_⟩
  · unfold Block_add_word
    have hb0 : begin_item = item_at 0 := rfl
    simp only [bind, Except.bind, pure, Except.pure, hderef]
    rw [hb0, hscan]
    simp only [Bool.false_eq_true, if_false, hleaf, hspace, if_true, hcall]
  · refine ⟨by omega, hpr', ?_, ?_, ?_, ?_, by omega, ?_, ?_⟩
    · rw [hlc', hnull]
      split
      · rfl
      · exact hleft
    · rw [hic', hcount]
      simp only [List.length_append, List.length_take, List.length_cons, List.length_drop]
      omega
    · rw [hic', hstt', hcs, dictionary_bytes_insert]
      simp only []
      rw [hip] at hfit'
      rw [hcs] at hfit'
      omega
    · unfold end_item
      rw [hic', hstt', hip, hcs]
      rw [hip, hcs] at hfit'
      omega
    · rw [hic']
      exact hoff'
    · rw [hitems', hnull, hcs]
      have hrights : ∀ i, i + 1 = ((d.map fun x => (x.1, x.2 % 65536, NULL_BLOCK)).take p).length →
          (((d.map fun x => (x.1, x.2 % 65536, NULL_BLOCK)).take p).getD i ([], 0, 0)).2.2
            = NULL_BLOCK := by
        intro i hi
        rw [List.getD_eq_getElem _ _ (by omega)]
        have hmem := List.getElem_mem (l := (d.map fun x => (x.1, x.2 % 65536, NULL_BLOCK)).take p)
          (n := i) (by omega)
        have hmem2 := List.mem_of_mem_take hmem
        obtain ⟨x, _, hx⟩ := List.mem_map.mp hmem2
        rw [← hx]
      rw [set_last_right_self _ _ hrights]
      simp [List.map_take, List.map_drop]

/-- The method `set_item` writes bytes. -/
theorem set_item_proper (b b' : Block) (n : Nat) (word : Word) (count right : Nat)
    (hb : ∀ c ∈ b, c < 256) (h : set_item b n word count right = .ok b') :
    ∀ c ∈ b', c < 256 := by
  unfold set_item at h
  simp only [bind, Except.bind, pure, Except.pure] at h
  cases h1 : allocate_string b (c_str word) with
  | error e => rw [h1] at h; cases h
  | ok b1 =>
    rw [h1] at h
    simp only [] at h
    have hp1 : ∀ c ∈ b1, c < 256 := by
      unfold allocate_string set_string_table at h1
      exact proper_strcpy _ _ _ _ (proper_wr16 _ _ _ hb) h1
    unfold set_Item_offset set_Item_count set_Item_right_child st16 st32 at h
    by_cases c1 : item_at n + 2 ≤ b1.length
    · rw [if_pos c1] at h
      simp only [length_wr16] at h
      by_cases c2 : item_at n + 2 + 2 ≤ b1.length
      · rw [if_pos c2] at h
        simp only [length_wr16] at h
        by_cases c3 : item_at n + 4 + 4 ≤ b1.length
        · rw [if_pos c3] at h
          simp only [Except.ok.injEq] at h
          rw [← h]
          unfold set_item_count
          exact proper_wr16 _ _ _ (proper_wr32 _ _ _ (proper_wr16 _ _ _ (proper_wr16 _ _ _ hp1)))
        · rw [if_neg c3] at h; cases h
      · rw [if_neg c2] at h; cases h
    · rw [if_neg c1] at h; cases h

/-- The method `initialize` writes bytes. -/
theorem initialize_block_proper (b b' : Block) (word : Word) (count left right : Nat) (r : Int)
    (hb : ∀ c ∈ b, c < 256) (h : initialize_block b word count left right = .ok (r, b')) :
    ∀ c ∈ b', c < 256 := by
  unfold initialize_block at h
  simp only [bind, Except.bind, pure, Except.pure] at h
  cases h1 : set_item (set_left_child (set_item_count b 0) left) 0 word count right with
  | error e => rw [h1] at h; cases h
  | ok b1 =>
    rw [h1] at h
    cases h
    unfold set_left_child set_item_count at h1
    exact set_item_proper _ _ _ _ _ _ (proper_wr32 _ _ _ (proper_wr16 _ _ _ hb)) h1

/-- One more word does not shrink the bytes of a dictionary. -/
theorem dictionary_bytes_add (word : Word) (d : List (Word × Nat)) :
    dictionary_bytes d ≤ dictionary_bytes (reference_add word d) := by
  rw [reference_add_stop]
  split
  · rename_i h
    have hp := (reference_stop_le word (d.map fun x => x.1)).2 h
    simp only [List.length_map] at hp
    have := dictionary_bytes_set d _ ((d.getD (reference_stop word (d.map fun x => x.1)).2 ([], 0)).2 + 1) hp
    rw [List.set_eq_take_append_cons_drop, if_pos hp] at this
    rw [this]
  · rw [dictionary_bytes_insert]
    omega

/-- More words do not shrink the bytes of a dictionary. -/
theorem dictionary_bytes_foldl : ∀ (ws : List Word) (d : List (Word × Nat)),
    dictionary_bytes d ≤ dictionary_bytes (ws.foldl (fun d w => reference_add w d) d)
  | [], _ => le_refl _
  | w :: ws, d => by
    simp only [List.foldl_cons]
    exact le_trans (dictionary_bytes_add w d) (dictionary_bytes_foldl ws _)

/-- The first word of an index: `WordCounter::add_word` makes a leaf that holds it. -/
theorem leaf_holds_first (BLOCK_SIZE : Nat) (word : Word)
    (h26 : 26 ≤ BLOCK_SIZE) (h16 : BLOCK_SIZE < 65536)
    (hacc : word.length + 1 ≤ MAX_WORD_LEN BLOCK_SIZE)
    (hword : ∀ c ∈ word, 0 < c ∧ c < 256) :
    ∃ wc, WordCounter.new.add_word BLOCK_SIZE word = .ok (0, wc) ∧
      leaf_holds BLOCK_SIZE wc [(word, 1)] := by
  have hmax : MAX_WORD_LEN BLOCK_SIZE = BLOCK_SIZE / 4 := by
    unfold MAX_WORD_LEN
    exact Nat.mod_eq_of_lt (by omega)
  rw [hmax] at hacc
  have hcs := c_str_of_no_nul word hword
  obtain ⟨hn, hc, hs, hl⟩ := Block_new_fields BLOCK_SIZE 0 (by omega)
  obtain ⟨b', hinit, hlen', hbn, hic, hst, hlc, ho, hcnt, hrc, hbytes, hnul⟩ :=
    initialize_block_spec (Block_new BLOCK_SIZE 0) word 1 NULL_BLOCK NULL_BLOCK
      (by rw [hs, length_Block_new]; exact Nat.mod_eq_of_lt h16)
      (by rw [length_Block_new]; exact h16)
      (by rw [length_Block_new, hcs]; omega)
  rw [length_Block_new] at hlen' hst ho hbytes hnul
  rw [hcs] at hst ho hbytes
  have hproper := initialize_block_proper _ _ _ _ _ _ _ (Block_new_page BLOCK_SIZE 0).2 hinit
  have hnull : NULL_BLOCK % 4294967296 = NULL_BLOCK := by decide
  have hstr : string_at b' (BLOCK_SIZE - (word.length + 1)) = .ok word := by
    apply string_at_spec word b' _ (by omega)
    · intro k hk
      rw [hbytes k hk]
      exact getD_mod_of_proper word hword k hk
    · have : BLOCK_SIZE - (word.length + 1) + word.length = BLOCK_SIZE - 1 := by omega
      rw [this]
      exact hnul
    · intro c hc
      have := (hword c hc).1
      omega
  refine ⟨{ root_ := 0, manager := { blocks := [b'] } }, ?_, rfl, b', rfl, hlen', hproper,
    by rw [hlc, hnull], by rw [hic]; rfl, ?_, ?_, by rw [hst]; omega, ?_, ?_⟩
  · have hgt : ¬ (word.length + 1 > MAX_WORD_LEN BLOCK_SIZE) := by rw [hmax]; omega
    simp only [WordCounter.add_word, WordCounter.new, hgt, if_false, if_true,
      BlockManager.allocate, bind, Except.bind, pure, Except.pure, List.length_nil,
      List.nil_append, BlockManager.deref, List.get?_cons_zero, Nat.zero_mod]
    rw [hinit]
    simp only [BlockManager.assign, hn, List.set_cons_zero, Nat.zero_mod]
  · rw [hic, hst]
    simp only [dictionary_bytes, List.map_cons, List.map_nil, List.sum_cons, List.sum_nil]
    omega
  · unfold end_item
    rw [hic, hst]
    simp only [item_at, begin_item, sizeof_Item]
    omega
  · intro i hi
    rw [hic] at hi
    have : i = 0 := by omega
    subst this
    rw [hst]
    simp only [item_at, begin_item, sizeof_Item, Nat.mul_zero, Nat.add_zero]
    rw [ho]
  · unfold page_items
    rw [hic]
    apply page_items_loop_intro b' 1 begin_item _ (by rfl)
    intro i hi
    have : i = 0 := by omega
    subst this
    simp only [begin_item, Nat.mul_zero, Nat.add_zero, List.map_cons, List.map_nil,
      List.getD_cons_zero]
    apply item_view_intro _ _ _ _ _ (by omega)
    · rw [ho]; exact hstr
    · rw [hcnt]
    · rw [hrc, hnull]

/-- One more accepted word that fits: `WordCounter::add_word` returns 0 and the leaf holds
the dictionary with the word added. -/
theorem leaf_holds_add (BLOCK_SIZE : Nat) (wc : WordCounter) (d : List (Word × Nat))
    (word : Word) (h16 : BLOCK_SIZE < 65536)
    (hwc : leaf_holds BLOCK_SIZE wc d)
    (hacc : word.length + 1 ≤ MAX_WORD_LEN BLOCK_SIZE)
    (hword : ∀ c ∈ word, 0 < c ∧ c < 256)
    (hfit : dictionary_bytes (reference_add word d) ≤ BLOCK_SIZE) :
    ∃ wc', wc.add_word BLOCK_SIZE word = .ok (0, wc') ∧
      leaf_holds BLOCK_SIZE wc' (reference_add word d) := by
  obtain ⟨hroot, page, hm, hpage⟩ := hwc
  have hstep : ∃ page', Block_add_word BLOCK_SIZE 1 wc.manager 0 word Promotion.fresh
        = .ok (0, Promotion.fresh, wc.manager.assign 0 page') ∧
      leaf_page BLOCK_SIZE page' (reference_add word d) := by
    by_cases hf : (reference_stop word (d.map fun x => x.1)).1 = true
    · exact leaf_page_found BLOCK_SIZE page d word wc.manager _ h16 hm hpage hf
    · exact leaf_page_insert BLOCK_SIZE page d word wc.manager _ h16 hm hpage hword
        (by simpa using hf) hfit
  obtain ⟨page', hrun, hpage'⟩ := hstep
  refine ⟨{ root_ := wc.root_, manager := wc.manager.assign 0 page' }, ?_, hroot, page', ?_, hpage'⟩
  · have hgt : ¬ (word.length + 1 > MAX_WORD_LEN BLOCK_SIZE) := by omega
    have hne : ¬ (wc.root_ = NULL_BLOCK) := by rw [hroot]; decide
    have hget : wc.manager.get wc.root_ = .ok 0 := by
      simp [BlockManager.get, hroot, hm]
    have hbc : wc.manager.block_count = 1 := by simp [BlockManager.block_count, hm]
    simp only [WordCounter.add_word, hgt, if_false, hne, hget, hbc, hrun, bind, Except.bind,
      pure, Except.pure, le_refl, if_true]
  · simp [BlockManager.assign, hm]

/-- More accepted words that fit: every call returns 0 and the leaf holds the dictionary of
all the words. -/
theorem leaf_holds_add_words (BLOCK_SIZE : Nat) (h16 : BLOCK_SIZE < 65536) :
    ∀ (ws : List Word) (wc : WordCounter) (d : List (Word × Nat)),
    leaf_holds BLOCK_SIZE wc d →
    (∀ w ∈ ws, w.length + 1 ≤ MAX_WORD_LEN BLOCK_SIZE) →
    (∀ w ∈ ws, ∀ c ∈ w, 0 < c ∧ c < 256) →
    dictionary_bytes (ws.foldl (fun d w => reference_add w d) d) ≤ BLOCK_SIZE →
    ∃ wc', add_words BLOCK_SIZE wc ws = .ok (List.replicate ws.length 0, wc') ∧
      leaf_holds BLOCK_SIZE wc' (ws.foldl (fun d w => reference_add w d) d)
  | [], wc, d, hwc, _, _, _ => ⟨wc, rfl, hwc⟩
  | w :: ws, wc, d, hwc, hacc, hword, hfit => by
    simp only [List.foldl_cons] at hfit ⊢
    obtain ⟨wc1, h1, hwc1⟩ := leaf_holds_add BLOCK_SIZE wc d w h16 hwc
      (hacc w (List.mem_cons_self _ _)) (hword w (List.mem_cons_self _ _))
      (le_trans (dictionary_bytes_foldl ws _) hfit)
    obtain ⟨wc2, h2, hwc2⟩ := leaf_holds_add_words BLOCK_SIZE h16 ws wc1 _ hwc1
      (fun x hx => hacc x (List.mem_cons_of_mem _ hx))
      (fun x hx => hword x (List.mem_cons_of_mem _ hx)) hfit
    refine ⟨wc2, ?_, hwc2⟩
    simp only [add_words, bind, Except.bind, pure, Except.pure, h1, h2, List.length_cons,
      List.replicate_succ]

/-- The keys and counts of a page, from its items. -/
theorem page_pairs_loop_of_items (b : Block) : ∀ (k item : Nat) (l : List (Word × Nat × Nat)),
    page_items_loop b k item = .ok l →
    page_pairs_loop b k item = .ok (l.map fun x => (x.1, x.2.1)) := by
  intro k
  induction k with
  | zero =>
    intro item l h
    cases h
    rfl
  | succ k ih =>
    intro item l h
    unfold page_items_loop at h
    unfold page_pairs_loop
    simp only [bind, Except.bind, pure, Except.pure, item_view] at h ⊢
    cases h1 : Item_offset b item with
    | error e => rw [h1] at h; cases h
    | ok o =>
      rw [h1] at h
      simp only [] at h ⊢
      cases h2 : string_at b o with
      | error e => rw [h2] at h; cases h
      | ok s =>
        rw [h2] at h
        simp only [] at h ⊢
        cases h3 : Item_count b item with
        | error e => rw [h3] at h; cases h
        | ok c =>
          rw [h3] at h
          simp only [] at h ⊢
          cases h4 : Item_right_child b item with
          | error e => rw [h4] at h; cases h
          | ok r =>
            rw [h4] at h
            simp only [] at h
            cases h5 : page_items_loop b k (item + sizeof_Item) with
            | error e => rw [h5] at h; cases h
            | ok rest =>
              rw [h5] at h
              cases h
              rw [ih _ _ h5]
              rfl

/-- The search of the reference stops at a key only if the word is a key. -/
theorem reference_stop_found (word : Word) : ∀ (keys : List Word),
    (reference_stop word keys).1 = true → word ∈ keys
  | [], h => by simp [reference_stop] at h
  | key :: rest, h => by
    unfold reference_stop at h
    by_cases h1 : word = key
    · simp [h1]
    · rw [if_neg h1] at h
      by_cases h2 : word_lt word key = true
      · rw [if_pos h2] at h; cases h
      · rw [if_neg h2] at h
        exact List.mem_cons_of_mem _ (reference_stop_found word rest h)

/-- The reference dictionary is not empty after a word. -/
theorem reference_add_ne_nil (word : Word) (d : List (Word × Nat)) : reference_add word d ≠ [] := by
  cases d with
  | nil => simp [reference_add]
  | cons x rest =>
    obtain ⟨key, count⟩ := x
    simp only [reference_add]
    split
    · simp
    · split <;> simp

/-- The reference dictionary stays non-empty. -/
theorem foldl_reference_add_ne_nil : ∀ (ws : List Word) (d : List (Word × Nat)),
    d ≠ [] → ws.foldl (fun d w => reference_add w d) d ≠ []
  | [], _, h => h
  | w :: ws, d, _ => by
    simp only [List.foldl_cons]
    exact foldl_reference_add_ne_nil ws _ (reference_add_ne_nil w d)

/-- A new word for which a leaf that holds `d` has no space: a call of
`WordCounter::add_word` that returns has split the leaf (`insert_split` allocated the
sibling, `WordCounter::add_word` the new root) and returned 0. -/
theorem leaf_holds_split (BLOCK_SIZE : Nat) (wc : WordCounter) (d : List (Word × Nat))
    (word : Word) (page : Block) (h16 : BLOCK_SIZE < 65536)
    (hroot : wc.root_ = 0) (hm : wc.manager.blocks = [page])
    (hpage : leaf_page BLOCK_SIZE page d)
    (hacc : word.length + 1 ≤ MAX_WORD_LEN BLOCK_SIZE)
    (hnew : ∀ x ∈ d, word ≠ x.1)
    (hspace : has_space_for page word = false)
    (r : Int) (wc' : WordCounter) (h : wc.add_word BLOCK_SIZE word = .ok (r, wc')) :
    r = 0 ∧ wc'.manager.block_count = 3 := by
  obtain ⟨hlen, hproper, hleft, hcount, hbytes, hend, hst, hoff, hitems⟩ := hpage
  have hkeys : (d.map fun x => (x.1, x.2 % 65536, NULL_BLOCK)).map (fun x => x.1)
      = d.map fun x => x.1 := by
    rw [List.map_map]; rfl
  have hnot : (reference_stop word (d.map fun x => x.1)).1 = false := by
    by_contra hf
    have := reference_stop_found word _ (by simpa using hf)
    obtain ⟨x, hx, e⟩ := List.mem_map.mp this
    exact hnew x hx e.symm
  have hendv : end_item page = 12 + 8 * item_count page := rfl
  have hscan := scan_loop_reference page word _ hitems (item_count page) 0 0 (by omega) (by omega)
  simp only [List.drop_zero, hkeys, hnot, Nat.zero_add] at hscan
  have hleaf : is_leaf page = true := by simp [is_leaf, hleft]
  have hderef : wc.manager.deref 0 = .ok page := by simp [BlockManager.deref, hm]
  have hne : ¬ (wc.root_ = NULL_BLOCK) := by rw [hroot]; decide
  have hget : wc.manager.get wc.root_ = .ok 0 := by simp [BlockManager.get, hroot, hm]
  have hbc : wc.manager.block_count = 1 := by simp [BlockManager.block_count, hm]
  have hb0 : begin_item = item_at 0 := rfl
  have hgt : ¬ (word.length + 1 > MAX_WORD_LEN BLOCK_SIZE) := by omega
  simp only [WordCounter.add_word, hgt, if_false, hne, hget, hbc, bind, Except.bind, pure,
    Except.pure] at h
  unfold Block_add_word at h
  simp only [bind, Except.bind, pure, Except.pure, hderef] at h
  rw [hb0, hscan] at h
  simp only [Bool.false_eq_true, if_false, hleaf, hspace, if_true] at h
  cases h1 : insert_split BLOCK_SIZE wc.manager 0 (reference_stop word (d.map fun x => x.1)).2
      word 1 NULL_BLOCK NULL_BLOCK Promotion.fresh with
  | error e => rw [h1] at h; cases h
  | ok res =>
    obtain ⟨r1, promo, m1⟩ := res
    obtain ⟨hr1, hm1⟩ := insert_split_ret _ _ _ _ _ _ _ _ _ _ _ _ h1
    rw [h1] at h
    subst hr1
    simp only [show ¬ ((1 : Int) ≤ 0) by decide, if_false, BlockManager.allocate] at h
    split at h
    · cases h
    split at h
    · cases h
    cases h
    refine ⟨rfl, ?_⟩
    simp only [BlockManager.block_count, BlockManager.assign, List.length_set,
      List.length_append, List.length_singleton, hm1, hm]

/-- C8 (amended): words that fit into one page.  For every `BLOCK_SIZE` from 26 to 65535
and every non-empty list of accepted words without NUL bytes whose dictionary takes no more
than `BLOCK_SIZE` bytes as a page (12 bytes of header, and 8 + length + 1 bytes for each
distinct word), every `add_word` returns 0 and the index is one page, the root: a leaf whose
keys are the distinct words in order with their counts, so `key_count` is the number of
distinct words, at least 1 and limited only by the space of the page.  `has_space_for`
holds for a word exactly when its 8 + length + 1 bytes still fit; a new accepted word is
then inserted into the leaf, and a new accepted word for which it does not hold splits the
leaf: a call that returns leaves three pages. -/
theorem C8_leaf_holds_the_words_that_fit (BLOCK_SIZE : Nat) (ws : List Word)
    (h26 : 26 ≤ BLOCK_SIZE) (h16 : BLOCK_SIZE < 65536)
    (hne : ws ≠ [])
    (hacc : ∀ w ∈ ws, w.length + 1 ≤ MAX_WORD_LEN BLOCK_SIZE)
    (hbytes : ∀ w ∈ ws, ∀ c ∈ w, 0 < c ∧ c < 256)
    (hfit : dictionary_bytes (reference_count BLOCK_SIZE ws) ≤ BLOCK_SIZE) :
    ∃ wc page,
      add_words BLOCK_SIZE WordCounter.new ws = .ok (List.replicate ws.length 0, wc) ∧
      wc.root_ = 0 ∧ wc.manager.block_count = 1 ∧ wc.manager.deref 0 = .ok page ∧
      is_leaf page = true ∧
      page_pairs page = .ok ((reference_count BLOCK_SIZE ws).map fun x => (x.1, x.2 % 65536)) ∧
      item_count page = (reference_count BLOCK_SIZE ws).length ∧
      1 ≤ item_count page ∧
      bytes_used BLOCK_SIZE page = dictionary_bytes (reference_count BLOCK_SIZE ws) ∧
      bytes_used BLOCK_SIZE page ≤ BLOCK_SIZE ∧
      (∀ w, has_space_for page w = true ↔
        bytes_used BLOCK_SIZE page + 8 + (w.length + 1) ≤ BLOCK_SIZE) ∧
      (∀ w, w.length + 1 ≤ MAX_WORD_LEN BLOCK_SIZE → (∀ c ∈ w, 0 < c ∧ c < 256) →
        (∀ x ∈ reference_count BLOCK_SIZE ws, w ≠ x.1) → has_space_for page w = true →
        ∃ wc' page', wc.add_word BLOCK_SIZE w = .ok (0, wc') ∧
          wc'.manager.block_count = 1 ∧ wc'.manager.deref 0 = .ok page' ∧
          is_leaf page' = true ∧ item_count page' = item_count page + 1) ∧
      (∀ w r wc', w.length + 1 ≤ MAX_WORD_LEN BLOCK_SIZE →
        (∀ x ∈ reference_count BLOCK_SIZE ws, w ≠ x.1) → has_space_for page w = false →
        wc.add_word BLOCK_SIZE w = .ok (r, wc') → r = 0 ∧ wc'.manager.block_count = 3) := by
  have hrc : reference_count BLOCK_SIZE ws = ws.foldl (fun d w => reference_add w d) [] := by
    unfold reference_count
    rw [List.filter_eq_self.mpr (fun w hw => by simpa using hacc w hw)]
  rw [hrc] at hfit ⊢
  obtain ⟨w0, rest, rfl⟩ : ∃ w0 rest, ws = w0 :: rest := by
    cases ws with
    | nil => exact absurd rfl hne
    | cons a l => exact ⟨a, l, rfl⟩
  obtain ⟨wc1, h1, hwc1⟩ := leaf_holds_first BLOCK_SIZE w0 h26 h16
    (hacc w0 (List.mem_cons_self _ _)) (hbytes w0 (List.mem_cons_self _ _))
  simp only [List.foldl_cons] at hfit ⊢
  have hd0 : reference_add w0 [] = [(w0, 1)] := rfl
  rw [hd0] at hfit ⊢
  obtain ⟨wc, h2, hwc⟩ := leaf_holds_add_words BLOCK_SIZE h16 rest wc1 _ hwc1
    (fun x hx => hacc x (List.mem_cons_of_mem _ hx))
    (fun x hx => hbytes x (List.mem_cons_of_mem _ hx)) hfit
  set d := rest.foldl (fun d w => reference_add w d) [(w0, 1)] with hd
  have hdne : d ≠ [] := foldl_reference_add_ne_nil rest _ (by simp)
  obtain ⟨hroot, page, hm, hpage⟩ := hwc
  have hpage' := hpage
  obtain ⟨hlen, hproper, hleft, hcount, hbts, hend, hst, hoff, hitems⟩ := hpage
  have hused : bytes_used BLOCK_SIZE page = dictionary_bytes d := by
    unfold bytes_used
    exact hbts
  have hendv : end_item page = 12 + 8 * item_count page := rfl
  have hspace : ∀ w, has_space_for page w = true ↔
      bytes_used BLOCK_SIZE page + 8 + (w.length + 1) ≤ BLOCK_SIZE := by
    intro w
    rw [has_space_for_iff page w hend (by omega)]
    unfold bytes_used
    omega
  refine ⟨wc, page, ?_, hroot, by simp [BlockManager.block_count, hm],
    by simp [BlockManager.deref, hm], by simp [is_leaf, hleft], ?_, hcount, ?_, hused,
    by rw [hused]; exact hfit, hspace, ?_, ?_⟩
  · simp only [add_words, bind, Except.bind, pure, Except.pure, h1, h2, List.length_cons,
      List.replicate_succ]
  · unfold page_pairs
    unfold page_items at hitems
    rw [page_pairs_loop_of_items _ _ _ _ hitems, List.map_map]
    rfl
  · rw [hcount]
    exact Nat.pos_of_ne_zero (fun h => hdne (List.length_eq_zero.mp h))
  · intro w haccw hw hnew hsp
    have hnot : (reference_stop w (d.map fun x => x.1)).1 = false := by
      by_contra hf
      have := reference_stop_found w _ (by simpa using hf)
      obtain ⟨x, hx, e⟩ := List.mem_map.mp this
      exact hnew x hx e.symm
    have hfitw : dictionary_bytes (reference_add w d) ≤ BLOCK_SIZE := by
      rw [reference_add_stop]
      simp only [hnot, Bool.false_eq_true, if_false]
      rw [dictionary_bytes_insert, ← hused]
      exact (hspace w).mp hsp
    obtain ⟨wc', hadd, hroot', page', hm', hpg'⟩ :=
      leaf_holds_add BLOCK_SIZE wc d w h16 ⟨hroot, page, hm, hpage'⟩ haccw hw hfitw
    obtain ⟨_, _, hleft', hcount', _⟩ := hpg'
    refine ⟨wc', page', hadd, by simp [BlockManager.block_count, hm'],
      by simp [BlockManager.deref, hm'], by simp [is_leaf, hleft'], ?_⟩
    rw [hcount', hcount, reference_add_stop]
    simp only [hnot, Bool.false_eq_true, if_false, List.length_append, List.length_take,
      List.length_cons, List.length_drop]
    have := (reference_stop_le w (d.map fun x => x.1)).1
    simp only [List.length_map] at this
    omega
  · intro w r wc' haccw hnew hsp hcall
    exact leaf_holds_split BLOCK_SIZE wc d w page h16 hroot hm hpage' haccw hnew hsp r wc' hcall

set_option maxRecDepth 100000 in
/-- C8 (amended) with `BLOCK_SIZE = 128`: the eleven one-letter words `a` to `k` take
12 + 11 * 10 = 122 bytes and are the eleven keys of the root leaf; the twelfth, `l`, has no
space there, and after it the index has three pages: two leaves with 5 and 6 keys and the
new root with one. -/
theorem C8_leaf_holds_the_words_that_fit_witness :
    (∃ wc page,
      add_words 128 WordCounter.new (letters 11) = .ok (List.replicate 11 0, wc) ∧
      wc.manager.block_count = 1 ∧ wc.manager.deref 0 = .ok page ∧
      is_leaf page = true ∧ item_count page = 11 ∧ bytes_used 128 page = 122 ∧
      has_space_for page [108] = false ∧
      ∀ r wc', wc.add_word 128 [108] = .ok (r, wc') → r = 0 ∧ wc'.manager.block_count = 3) ∧
    (∃ wc, add_words 128 WordCounter.new (letters 12) = .ok (List.replicate 12 0, wc) ∧
      wc.manager.block_count = 3 ∧ wc.root_ = 2 ∧
      wc.manager.blocks.map item_count = [5, 6, 1]) := by
  obtain ⟨wc, page, h1, _, h3, h4, h5, _, h7, _, h9, _, h11, _, h13⟩ :=
    C8_leaf_holds_the_words_that_fit 128 (letters 11) (by decide) (by decide) (by decide)
      (by decide) (by decide) (by decide)
  have hd : dictionary_bytes (reference_count 128 (letters 11)) = 122 := by decide
  have hl : (reference_count 128 (letters 11)).length = 11 := by decide
  have hsp : has_space_for page [108] = false := by
    rw [Bool.eq_false_iff]
    intro h
    have := (h11 [108]).mp h
    rw [h9, hd] at this
    simp at this
  refine ⟨⟨wc, page, h1, h3, h4, h5, by rw [h7, hl], by rw [h9, hd], hsp, ?_⟩,
    ⟨_, rfl, rfl, rfl, rfl⟩⟩
  intro r wc' hcall
  exact h13 [108] r wc' (by decide) (by decide) hsp hcall

/-! ### Root split and the height of the tree -/

/-- The method `find_splitpoint` returns a split point that is not 0. -/
theorem find_splitpoint_pos (BLOCK_SIZE : Nat) (b : Block) (ip : Nat) (word : Word) (sp : Nat)
    (h : find_splitpoint BLOCK_SIZE b ip word = .ok sp) : 1 ≤ sp := by
  unfold find_splitpoint at h
  simp only [bind, Except.bind, pure, Except.pure] at h
  repeat' split at h
  all_goals first
    | (cases h; omega)
    | cases h

/-- The method `shift_items` called without the test `has_space_for`, on a page whose arena
has at least room for the text above the header: the call returns, and the `left_child` of
the page is kept unless the word goes to position 0, where it becomes `left`. -/
theorem shift_items_low (b : Block) (p : Nat) (word : Word) (count left right : Nat)
    (hb : ∀ c ∈ b, c < 256) (h16 : b.length < 65536) (hp : p ≤ item_count b)
    (hend : item_at (item_count b) + 8 ≤ b.length)
    (hroom : 12 + ((c_str word).length + 1) ≤ string_table b)
    (hst : string_table b ≤ b.length) :
    ∃ b', shift_items b (item_at p) word count left right = .ok (0, b') ∧
      b'.length = b.length ∧ (∀ c ∈ b', c < 256) ∧
      left_child b' = (if p = 0 then left % 4294967296 else left_child b) := by
  have hip : item_at p = 12 + 8 * p := rfl
  have hin : item_at (item_count b) = 12 + 8 * item_count b := rfl
  rw [hin] at hend
  rw [hip]
  obtain ⟨b1, h1, hl1, hp1, hx1⟩ := shift_loop_spec (item_count b - p) (12 + 8 * item_count b) b hb
    (by omega) (by omega)
  have hst1 : string_table b1 = string_table b := by
    unfold string_table
    exact rd16_congr _ _ 6 (by rw [hx1 6, if_neg (by omega)]) (by rw [hx1 7, if_neg (by omega)])
  have hic1 : item_count b1 = item_count b := by
    unfold item_count
    exact rd16_congr _ _ 4 (by rw [hx1 4, if_neg (by omega)]) (by rw [hx1 5, if_neg (by omega)])
  obtain ⟨b2, h2, hl2, hp2, hst2, hout2, hin2, hz2⟩ := allocate_string_spec b1 (c_str word) hp1
    (by omega) (by omega) (by omega)
  rw [hst1] at hst2 hout2 hin2 hz2
  have hic2 : item_count b2 = item_count b := by
    rw [← hic1]
    unfold item_count
    exact rd16_congr _ _ 4 (hout2 4 (by omega) (by omega) (by omega))
      (hout2 5 (by omega) (by omega) (by omega))
  have hcall : shift_items b (12 + 8 * p) word count left right = .ok (0,
      wr16 (wr32 (wr32 (wr16 (wr16 b2 (12 + 8 * p) (string_table b2)) (12 + 8 * p + 2) count)
        (12 + 8 * p + 4) right) (12 + 8 * p - 8 + 4) left) 4 (item_count b + 1)) := by
    unfold shift_items
    have e1 : ¬ (end_item b < 12 + 8 * p) := by unfold end_item; rw [hin]; omega
    have e2 : (end_item b - (12 + 8 * p)) / sizeof_Item = item_count b - p := by
      unfold end_item sizeof_Item; rw [hin]; omega
    have e3 : end_item b = 12 + 8 * item_count b := rfl
    simp only [e1, if_false, e2, bind, Except.bind, pure, Except.pure]
    rw [e3, h1]
    simp only [h2, set_Item_offset, set_Item_count, set_Item_right_child, sizeof_Item]
    rw [st16_ok _ _ _ (by omega)]
    simp only []
    rw [st16_ok _ _ _ (by simp; omega)]
    simp only []
    rw [st32_ok _ _ _ (by simp; omega)]
    simp only []
    rw [st32_ok _ _ _ (by simp; omega)]
    simp only [set_item_count]
    have e4 : item_count (wr32 (wr32 (wr16 (wr16 b2 (12 + 8 * p) (string_table b2))
        (12 + 8 * p + 2) count) (12 + 8 * p + 4) right) (12 + 8 * p - 8 + 4) left)
        = item_count b := by
      rw [← hic2]
      unfold item_count
      rw [rd16_wr32_ne _ _ _ _ (by omega), rd16_wr32_ne _ _ _ _ (by omega),
        rd16_wr16_ne _ _ _ _ (by omega), rd16_wr16_ne _ _ _ _ (by omega)]
    rw [e4]
  have hW : ∀ x, x ≠ 4 → x ≠ 5 → (x < 12 + 8 * p - 4 ∨ 12 + 8 * p + 8 ≤ x) →
      (wr16 (wr32 (wr32 (wr16 (wr16 b2 (12 + 8 * p) (string_table b2)) (12 + 8 * p + 2) count)
        (12 + 8 * p + 4) right) (12 + 8 * p - 8 + 4) left) 4 (item_count b + 1)).getD x 0
        = b2.getD x 0 := by
    intro x h4 h5 hx
    rw [getD_wr16_ne _ _ _ _ h4 h5, getD_wr32_ne _ _ _ _ (by omega),
      getD_wr32_ne _ _ _ _ (by omega), getD_wr16_ne _ _ _ _ (by omega) (by omega),
      getD_wr16_ne _ _ _ _ (by omega) (by omega)]
  refine ⟨_, hcall, ?_, ?_, ?_⟩
  · simp only [length_wr16, length_wr32]
    rw [hl2, hl1]
  · exact proper_wr16 _ _ _ (proper_wr32 _ _ _ (proper_wr32 _ _ _ (proper_wr16 _ _ _
      (proper_wr16 _ _ _ hp2))))
  · by_cases h0 : p = 0
    · rw [if_pos h0]
      subst h0
      unfold left_child
      rw [rd32_wr16_ne _ _ _ _ (by omega), rd32_wr32_same _ _ _ (by simp; omega)]
    · rw [if_neg h0]
      have hlow : ∀ x, 8 ≤ x → x < 12 →
          (wr16 (wr32 (wr32 (wr16 (wr16 b2 (12 + 8 * p) (string_table b2)) (12 + 8 * p + 2) count)
            (12 + 8 * p + 4) right) (12 + 8 * p - 8 + 4) left) 4 (item_count b + 1)).getD x 0
            = b.getD x 0 := by
        intro x hx8 hx12
        rw [hW x (by omega) (by omega) (by omega), hout2 x (by omega) (by omega) (by omega), hx1 x,
          if_neg (by omega)]
      unfold left_child
      exact rd32_congr _ _ 8 (hlow 8 (by omega) (by omega)) (hlow 9 (by omega) (by omega))
        (hlow 10 (by omega) (by omega)) (hlow 11 (by omega) (by omega))

/-- The loop of `copy_items` moves `string_table` of the target down by the texts it
copies. -/
theorem copy_items_loop_table (this : Block) (items : List (Word × Nat × Nat))
    (hthis : ∀ c ∈ this, c < 256) (hitems : page_items this = .ok items) :
    ∀ (k i : Nat) (t : Block) (titems : List (Word × Nat × Nat)),
    i + k ≤ item_count this →
    (∀ c ∈ t, c < 256) → t.length < 65536 → string_table t ≤ t.length →
    item_at (item_count t) + items_size ((items.drop i).take k) ≤ string_table t →
    (∀ j, j < item_count t → string_table t ≤ rd16 t (item_at j)) →
    page_items t = .ok titems →
    ∃ t', copy_items_loop this k (item_at i) (item_at (item_count t)) t = .ok t' ∧
      string_table t' + items_size ((items.drop i).take k) = string_table t + 8 * k := by
  obtain ⟨hlen, hviews⟩ := page_items_loop_inv this _ _ _ hitems
  intro k
  induction k with
  | zero =>
    intro i t titems _ ht _ hst hfit hoff hti
    exact ⟨t, rfl, by simp [items_size]⟩
  | succ k ih =>
    intro i t titems hik ht h16 hst hfit hoff hti
    have hi : i < items.length := by omega
    have hdrop : (items.drop i).take (k + 1) =
        items.getD i ([], 0, 0) :: (items.drop (i + 1)).take k := by
      rw [List.drop_eq_getElem_cons hi, List.take_succ_cons, List.getD_eq_getElem _ _ hi]
    rw [hdrop] at hfit ⊢
    have hsz : items_size (items.getD i ([], 0, 0) :: (items.drop (i + 1)).take k) =
        8 + ((items.getD i ([], 0, 0)).1.length + 1) + items_size ((items.drop (i + 1)).take k) := by
      simp [items_size]
    rw [hsz] at hfit ⊢
    have hip : ∀ j, item_at j = 12 + 8 * j := fun j => rfl
    obtain ⟨t1, hstep, hl1, hp1, hic1, hst1, hbn1, hlc1, hoff1, hpi1⟩ :=
      copy_items_loop_step this t k i (items.getD i ([], 0, 0)) titems (hviews i (by omega)) hthis
        ht h16 hst (by omega) hoff hti
    obtain ⟨t', hloop, htab⟩ :=
      ih (i + 1) t1 (titems ++ [items.getD i ([], 0, 0)]) (by omega) hp1 (by omega) (by omega)
        (by rw [hic1, hst1, hip]; rw [hip] at hfit; omega) (by rw [hic1]; exact hoff1) hpi1
    refine ⟨t', by rw [hstep, hloop], ?_⟩
    rw [hst1] at htab
    rw [hip] at hfit
    omega

theorem copy_items_ok_le (this : Block) (i j : Nat) (t t' : Block)
    (h : copy_items this i j t = .ok t') : i ≤ j := by
  unfold copy_items at h
  split at h
  · assumption
  · cases h

theorem items_size_take_le (l : List (Word × Nat × Nat)) (k : Nat) :
    items_size (l.take k) ≤ items_size l := by
  have := items_size_take_drop l k
  omega

theorem items_size_take_bound (M : Nat) : ∀ (l : List (Word × Nat × Nat)) (k : Nat),
    (∀ x ∈ l, x.1.length + 1 ≤ M) → items_size (l.take k) ≤ k * (8 + M)
  | [], k, _ => by simp [items_size]
  | _ :: _, 0, _ => by simp [items_size]
  | x :: l, k + 1, h => by
    have ih := items_size_take_bound M l k (fun y hy => h y (List.mem_cons_of_mem _ hy))
    have hx := h x (List.mem_cons_self _ _)
    simp only [List.take_succ_cons, items_size, List.map_cons, List.sum_cons] at ih ⊢
    rw [Nat.succ_mul]
    omega

theorem items_size_drop_pos (l : List (Word × Nat × Nat)) (k : Nat) (hk : k < l.length) :
    9 ≤ items_size (l.drop k) := by
  rw [List.drop_eq_getElem_cons hk]
  simp only [items_size, List.map_cons, List.sum_cons]
  omega

theorem copy_items_table (this : Block) (items : List (Word × Nat × Nat))
    (hthis : ∀ c ∈ this, c < 256) (hitems : page_items this = .ok items)
    (j : Nat) (t t' : Block) (titems : List (Word × Nat × Nat))
    (hj : j ≤ item_count this)
    (ht : ∀ c ∈ t, c < 256) (h16 : t.length < 65536) (hst : string_table t ≤ t.length)
    (hfit : item_at (item_count t) + items_size (items.take j) ≤ string_table t)
    (hoff : ∀ j, j < item_count t → string_table t ≤ rd16 t (item_at j))
    (hti : page_items t = .ok titems)
    (h : copy_items this 0 j t = .ok t') :
    string_table t' + items_size (items.take j) = string_table t + 8 * j := by
  obtain ⟨t2, h2, htab⟩ := copy_items_loop_table this items hthis hitems j 0 t titems (by omega) ht
    h16 hst (by simpa using hfit) hoff hti
  unfold copy_items at h
  rw [if_pos (Nat.zero_le _)] at h
  simp only [Nat.sub_zero, end_item] at h
  rw [h2] at h
  cases h
  simpa using htab

/-- The manager `insert_split` leaves: one more block, the blocks other than `this` as
before. -/
theorem split_manager (m : BlockManager) (nb x y : Block) (this_p : Nat)
    (hp : this_p < m.blocks.length) :
    (((BlockManager.mk (m.blocks ++ [nb])).assign m.blocks.length x).assign this_p y).blocks.length
        = m.blocks.length + 1 ∧
    (∀ q, q < m.blocks.length → q ≠ this_p →
      (((BlockManager.mk (m.blocks ++ [nb])).assign m.blocks.length x).assign this_p y).deref q
        = m.deref q) ∧
    (((BlockManager.mk (m.blocks ++ [nb])).assign m.blocks.length x).assign this_p y).deref this_p
        = .ok y := by
  refine ⟨by simp [BlockManager.assign], ?_, ?_⟩
  · intro q hq hne
    simp only [BlockManager.deref, BlockManager.assign, List.get?_eq_getElem?]
    rw [List.getElem?_set_ne (Ne.symm hne), List.getElem?_set_ne (by omega),
      List.getElem?_append_left hq]
  · simp only [BlockManager.deref, BlockManager.assign, List.get?_eq_getElem?]
    rw [List.getElem?_set_self (by simp; omega)]

/-- The page `insert_split` keeps: `this` reset and filled with its first `sp` items. -/
theorem split_kept_page (BLOCK_SIZE : Nat) (this : Block) (items : List (Word × Nat × Nat))
    (sp : Nat) (hlen : this.length = BLOCK_SIZE) (h12 : 12 ≤ BLOCK_SIZE)
    (h16 : BLOCK_SIZE < 65536) (hproper : ∀ c ∈ this, c < 256)
    (hitems : page_items this = .ok items) (hsp : sp ≤ item_count this)
    (hsize : 12 + items_size items ≤ BLOCK_SIZE) :
    ∃ k1, copy_items this 0 sp (set_item_count (set_string_table this BLOCK_SIZE) 0) = .ok k1 ∧
      k1.length = BLOCK_SIZE ∧ (∀ c ∈ k1, c < 256) ∧ item_count k1 = sp ∧
      left_child k1 = left_child this ∧ string_table k1 ≤ BLOCK_SIZE ∧
      12 + 8 * sp ≤ string_table k1 ∧
      string_table k1 + items_size (items.take sp) = BLOCK_SIZE + 8 * sp := by
  have hip : ∀ j, item_at j = 12 + 8 * j := fun j => rfl
  obtain ⟨hr1, hr2, hr3, hr4, hr5, hr6⟩ := reset_page BLOCK_SIZE this hlen h12 h16 hproper
  have hreset_items : page_items (set_item_count (set_string_table this BLOCK_SIZE) 0)
      = .ok [] := by
    unfold page_items
    rw [hr3]
    rfl
  have hfit0 : item_at (item_count (set_item_count (set_string_table this BLOCK_SIZE) 0)) +
      items_size ((items.drop 0).take (sp - 0)) ≤
      string_table (set_item_count (set_string_table this BLOCK_SIZE) 0) := by
    rw [hr3, hr4, hip]
    have := items_size_take_le items sp
    simp only [List.drop_zero, Nat.sub_zero]
    omega
  obtain ⟨k1, hk1, hkl, hkp, hkic, hkbn, hklc, hkroom, hkst, hkoff, hkitems⟩ :=
    copy_items_spec this items hproper hitems 0 sp
      (set_item_count (set_string_table this BLOCK_SIZE) 0) [] (by omega) hsp hr2
      (by omega) (by rw [hr4, hr1]) hfit0 (fun j hj => by rw [hr3] at hj; omega)
      hreset_items
  have htab := copy_items_table this items hproper hitems sp
    (set_item_count (set_string_table this BLOCK_SIZE) 0) k1 [] hsp hr2 (by omega)
    (by rw [hr4, hr1]) (by simpa using hfit0) (fun j hj => by rw [hr3] at hj; omega)
    hreset_items hk1
  rw [hr4] at htab
  rw [hr3] at hkic
  rw [hr1] at hkl
  rw [hr6] at hklc
  rw [hip] at hkroom
  refine ⟨k1, hk1, hkl, hkp, by omega, hklc, by omega, by omega, htab⟩

/-- The room the kept page has above its header, for a block size from 48 to 135. -/
theorem split_kept_room (BLOCK_SIZE : Nat) (items : List (Word × Nat × Nat)) (sp st wl : Nat)
    (h48 : 48 ≤ BLOCK_SIZE) (h135 : BLOCK_SIZE ≤ 135)
    (hkeys : ∀ x ∈ items, x.1.length + 1 ≤ BLOCK_SIZE / 4)
    (hsize : 12 + items_size items ≤ BLOCK_SIZE)
    (hsp1 : 1 ≤ sp) (hsp : sp < items.length) (hwl : wl ≤ BLOCK_SIZE / 4)
    (htab : st + items_size (items.take sp) = BLOCK_SIZE + 8 * sp) :
    12 + wl ≤ st := by
  have hb1 := items_size_take_bound (BLOCK_SIZE / 4) items sp hkeys
  have hb2 := items_size_take_drop items sp
  have hb3 := items_size_drop_pos items sp hsp
  by_cases h2 : sp ≤ 2
  · have : sp = 1 ∨ sp = 2 := by omega
    rcases this with e | e <;> (rw [e] at hb1 htab; omega)
  · omega

/-- The pivot `insert_split` promotes from an intact page. -/
theorem split_pivot (BLOCK_SIZE : Nat) (this : Block) (items : List (Word × Nat × Nat))
    (sp : Nat) (hproper : ∀ c ∈ this, c < 256) (hitems : page_items this = .ok items)
    (hkeys : ∀ x ∈ items, x.1.length + 1 ≤ MAX_WORD_LEN BLOCK_SIZE)
    (hsp : sp < item_count this) :
    ∃ o w c, Item_offset this (item_at sp) = .ok o ∧ string_at this o = .ok w ∧
      Item_count this (item_at sp) = .ok c ∧ c < 65536 ∧
      (∀ x ∈ w, x < 256) ∧ (∀ x ∈ w, x ≠ 0) ∧
      (c_str w).length + 1 ≤ MAX_WORD_LEN BLOCK_SIZE := by
  obtain ⟨hilen, hviews⟩ := page_items_loop_inv this _ _ _ hitems
  obtain ⟨h8, hs, hcn, _⟩ := item_view_inv this _ _ (hviews sp (by omega))
  have hbi : begin_item + 8 * sp = item_at sp := rfl
  rw [hbi] at h8 hs hcn
  have hpm : items.getD sp ([], 0, 0) ∈ items := by
    rw [List.getD_eq_getElem _ _ (by omega)]
    exact List.getElem_mem _
  obtain ⟨hnz, hmem⟩ := string_at_word this _ _ hs
  refine ⟨rd16 this (item_at sp), _, rd16 this (item_at sp + 2), ?_, hs, ?_,
    rd16_lt_of_proper this hproper _, fun c hc => hproper c (hmem c hc), hnz, ?_⟩
  · unfold Item_offset
    exact ld16_ok _ _ (by omega)
  · unfold Item_count
    exact ld16_ok _ _ (by omega)
  · rw [c_str_self _ hnz]
    exact hkeys _ hpm

/-- The method `insert_split` on an intact page, for a block size from 48 to 135: a call
that returns has returned 1, has allocated one block and changed no other block than
`this`, has kept the `left_child` of `this`, and promotes a 16-bit count, a 32-bit handle
and a pivot of the length of an accepted word. -/
theorem insert_split_keeps (BLOCK_SIZE : Nat) (m : BlockManager) (this_p ip : Nat) (word : Word)
    (count left right : Nat) (promotion promo' : Promotion) (r : Int) (m' : BlockManager)
    (this : Block)
    (h48 : 48 ≤ BLOCK_SIZE) (h135 : BLOCK_SIZE ≤ 135)
    (hthis : m.deref this_p = .ok this) (hint : intact_page BLOCK_SIZE this_p this)
    (hword : ∀ c ∈ word, c < 256) (hwlen : (c_str word).length + 1 ≤ MAX_WORD_LEN BLOCK_SIZE)
    (hleft : ip = 0 → left % 4294967296 = left_child this)
    (h : insert_split BLOCK_SIZE m this_p ip word count left right promotion
      = .ok (r, promo', m')) :
    r = 1 ∧ m'.blocks.length = m.blocks.length + 1 ∧
    (∀ q, q < m.blocks.length → q ≠ this_p → m'.deref q = m.deref q) ∧
    (∃ this', m'.deref this_p = .ok this' ∧ left_child this' = left_child this) ∧
    promo'.count < 65536 ∧ promo'.new_sibling < 4294967296 ∧
    (∀ c ∈ promo'.pivot_word, c < 256) ∧
    (c_str promo'.pivot_word).length + 1 ≤ MAX_WORD_LEN BLOCK_SIZE ∧
    ((∀ c ∈ word, c ≠ 0) → ∀ c ∈ promo'.pivot_word, c ≠ 0) := by
  obtain ⟨hlen, hproper, hbn, hend, hst, hoff, items, hitems, hsize, hkeys⟩ := hint
  have hmax : MAX_WORD_LEN BLOCK_SIZE = BLOCK_SIZE / 4 := by
    unfold MAX_WORD_LEN
    exact Nat.mod_eq_of_lt (by omega)
  have hpl := deref_lt m this_p this hthis
  obtain ⟨hilen, _⟩ := page_items_loop_inv this _ _ _ hitems
  have hip : ∀ j, item_at j = 12 + 8 * j := fun j => rfl
  have hendv : end_item this = 12 + 8 * item_count this := rfl
  obtain ⟨hn, _, _, _⟩ := Block_new_fields BLOCK_SIZE (m.blocks.length % 4294967296) (by omega)
  have hsib : block_number (Block_new BLOCK_SIZE (m.blocks.length % 4294967296)) < 4294967296 := by
    rw [hn]
    exact Nat.mod_lt _ (by decide)
  unfold insert_split at h
  simp only [bind, Except.bind, pure, Except.pure, hthis, BlockManager.allocate] at h
  rw [deref_append_new] at h
  simp only [] at h
  cases hf : find_splitpoint BLOCK_SIZE this ip word with
  | error e => rw [hf] at h; cases h
  | ok sp =>
    rw [hf] at h
    simp only [] at h
    have hsp1 := find_splitpoint_pos _ _ _ _ _ hf
    cases hr : Item_right_child this (item_at sp) with
    | error e => rw [hr] at h; cases h
    | ok pr =>
      rw [hr] at h
      simp only [] at h
      cases hc1 : copy_items this (sp + if ip ≠ sp then 1 else 0) (item_count this)
          (set_left_child (Block_new BLOCK_SIZE (m.blocks.length % 4294967296)) pr) with
      | error e => rw [hc1] at h; cases h
      | ok t1 =>
        rw [hc1] at h
        simp only [] at h
        have hle := copy_items_ok_le _ _ _ _ _ hc1
        have hsp : sp ≤ item_count this := by
          split at hle <;> omega
        obtain ⟨k1, hk1, hkl, hkp, hkic, hklc, hkst, hkroom, htab⟩ := split_kept_page BLOCK_SIZE this items
          sp hlen (by omega) (by omega) hproper hitems hsp hsize
        rw [hk1] at h
        simp only [] at h
        by_cases hips : ip = sp
        · rw [if_pos hips] at h
          simp only [set_Item_right_child] at h
          rw [st32_ok _ _ _ (by rw [hkl, hip]; omega)] at h
          simp only [Except.ok.injEq, Prod.mk.injEq] at h
          obtain ⟨h1, h2, h3⟩ := h
          obtain ⟨s1, s2, s3⟩ := split_manager m (Block_new BLOCK_SIZE (m.blocks.length % 4294967296))
            (set_left_child t1 right) (wr32 k1 (item_at (sp - 1) + 4) left) this_p hpl
          rw [← h3, ← h2]
          refine ⟨h1.symm, s1, s2, ⟨_, s3, ?_⟩, Nat.mod_lt _ (by decide), hsib, hword, hwlen,
            fun h0 => h0⟩
          unfold left_child
          rw [rd32_wr32_ne _ _ _ _ (by rw [hip]; omega)]
          exact hklc
        · rw [if_neg hips] at h
          have hlt1 : sp + 1 ≤ item_count this := by
            rw [if_pos hips] at hle
            exact hle
          obtain ⟨o, w, c, ho, hs, hcn, hc16, hwp, hwnz, hwshort⟩ := split_pivot BLOCK_SIZE this
            items sp hproper hitems hkeys (by omega)
          rw [ho] at h
          simp only [] at h
          rw [hs] at h
          simp only [] at h
          rw [hcn] at h
          simp only [] at h
          by_cases hlt : ip < sp
          · rw [if_pos hlt] at h
            have hroom := split_kept_room BLOCK_SIZE items sp (string_table k1)
              ((c_str word).length + 1) h48 h135 (fun x hx => by rw [← hmax]; exact hkeys x hx)
              hsize hsp1 (by omega) (by rw [← hmax]; exact hwlen) htab
            obtain ⟨b', hcall, hbl, hbp, hblc⟩ := shift_items_low k1 ip word count left right hkp
              (by omega) (by omega) (by rw [hkic, hkl, hip]; omega) hroom (by omega)
            rw [hcall] at h
            simp only [Except.ok.injEq, Prod.mk.injEq] at h
            obtain ⟨h1, h2, h3⟩ := h
            obtain ⟨s1, s2, s3⟩ := split_manager m
              (Block_new BLOCK_SIZE (m.blocks.length % 4294967296)) t1 b' this_p hpl
            rw [← h3, ← h2]
            refine ⟨h1.symm, s1, s2, ⟨_, s3, ?_⟩, hc16, hsib, hwp, hwshort, fun _ => hwnz⟩
            rw [hblc, hklc]
            split
            · rename_i h0
              exact hleft h0
            · rfl
          · rw [if_neg hlt] at h
            cases hs2 : shift_items t1 (item_at (ip - (sp + 1))) word count left right with
            | error e => rw [hs2] at h; cases h
            | ok res =>
              rw [hs2] at h
              simp only [Except.ok.injEq, Prod.mk.injEq] at h
              obtain ⟨h1, h2, h3⟩ := h
              obtain ⟨s1, s2, s3⟩ := split_manager m
                (Block_new BLOCK_SIZE (m.blocks.length % 4294967296)) res.2 k1 this_p hpl
              rw [← h3, ← h2]
              exact ⟨h1.symm, s1, s2, ⟨_, s3, hklc⟩, hc16, hsib, hwp, hwshort, fun _ => hwnz⟩

theorem descent_self (fuel : Nat) (m : BlockManager) (this_p : Nat) (word : Word) :
    this_p ∈ descent (fuel + 1) m this_p word := by
  unfold descent
  repeat' split
  all_goals simp

theorem descent_step (fuel : Nat) (m : BlockManager) (this_p : Nat) (word : Word) (this : Block)
    (sc : Scan) (child_number child_p : Nat)
    (hd : m.deref this_p = .ok this)
    (hsc : scan_loop this word (item_count this) begin_item 0 = .ok sc)
    (hfound : ¬ sc.found = true) (hleaf : ¬ is_leaf this = true)
    (hrc : Item_right_child this (sc.item - sizeof_Item) = .ok child_number)
    (hg : m.get child_number = .ok child_p) :
    descent (fuel + 1) m this_p word = this_p :: descent fuel m child_p word := by
  rw [descent]
  simp only [hd, hsc, hrc, hg]
  rw [if_neg hfound, if_neg hleaf]

/-- Assignment of a page with the same `left_child` through the pointer `this_p`. -/
theorem assign_keeps (m : BlockManager) (this_p : Nat) (this b' : Block)
    (hd : m.deref this_p = .ok this) (hlc : left_child b' = left_child this) :
    (m.assign this_p b').blocks.length = m.blocks.length ∧
    (∀ q, q ≠ this_p → (m.assign this_p b').deref q = m.deref q) ∧
    (∀ q b, m.deref q = .ok b →
      ∃ b2, (m.assign this_p b').deref q = .ok b2 ∧ left_child b2 = left_child b) := by
  have hpl := deref_lt m this_p this hd
  refine ⟨length_assign _ _ _, fun q hq => deref_assign_ne _ _ _ _ (Ne.symm hq), ?_⟩
  intro q b hq
  by_cases e : q = this_p
  · subst e
    rw [hd] at hq
    cases hq
    exact ⟨b', deref_assign_same _ _ _ hpl, hlc⟩
  · exact ⟨b, by rw [deref_assign_ne _ _ _ _ (Ne.symm e)]; exact hq, rfl⟩

theorem get_ok (m : BlockManager) (n p : Nat) (h : m.get n = .ok p) :
    p = n ∧ n < m.blocks.length := by
  unfold BlockManager.get at h
  split at h
  · cases h
    exact ⟨rfl, by assumption⟩
  · cases h

theorem null_mod : NULL_BLOCK % 4294967296 = NULL_BLOCK := by
  unfold NULL_BLOCK
  norm_num

theorem is_leaf_eq (b : Block) (h : is_leaf b = true) : left_child b = NULL_BLOCK := by
  unfold is_leaf at h
  exact beq_iff_eq.mp h

/-- The step of `Block::add_word` that puts a word into the page: `shift_items` when the page
has space for it, `insert_split` when not.  On an intact page, for a block size from 48 to
135, a step that returns has allocated at most one block, has changed no other block than
`this`, and has kept the `left_child` of `this`; when it returns 1 it promotes a 16-bit
count, a 32-bit handle and a pivot without NUL of the length of an accepted word. -/
theorem place_keeps (BLOCK_SIZE : Nat) (m : BlockManager) (this_p : Nat) (this : Block)
    (word : Word) (sc : Scan) (w : Word) (count left right : Nat)
    (promotion promo' : Promotion) (r : Int) (m' : BlockManager)
    (h48 : 48 ≤ BLOCK_SIZE) (h135 : BLOCK_SIZE ≤ 135)
    (hd : m.deref this_p = .ok this) (hint : intact_page BLOCK_SIZE this_p this)
    (hsc : scan_loop this word (item_count this) begin_item 0 = .ok sc)
    (hw : ∀ c ∈ w, c < 256) (hwnz : ∀ c ∈ w, c ≠ 0)
    (hwlen : w.length + 1 ≤ MAX_WORD_LEN BLOCK_SIZE)
    (hleft : sc.item = begin_item → left % 4294967296 = left_child this)
    (h : (if has_space_for this w = true then
        (do
          let (r, this) ← shift_items this sc.item w count left right
          pure (r, promotion, m.assign this_p this) :
            Except Fault (Int × Promotion × BlockManager))
        else insert_split BLOCK_SIZE m this_p sc.insert_point w count left right promotion)
      = .ok (r, promo', m')) :
    m'.blocks.length ≤ m.blocks.length + 1 ∧
    (∀ q, q < m.blocks.length → q ≠ this_p → m'.deref q = m.deref q) ∧
    (∃ this', m'.deref this_p = .ok this' ∧ left_child this' = left_child this) ∧
    (0 < r → promo'.count < 65536 ∧ promo'.new_sibling < 4294967296 ∧
      (∀ c ∈ promo'.pivot_word, c < 256) ∧ (∀ c ∈ promo'.pivot_word, c ≠ 0) ∧
      promo'.pivot_word.length + 1 ≤ MAX_WORD_LEN BLOCK_SIZE) := by
  have hint0 := hint
  obtain ⟨hlen, hproper, hbn, hend, hst, hoff, items, hitems, hsize, hkeys⟩ := hint
  have hpl := deref_lt m this_p this hd
  have hendv : end_item this = 12 + 8 * item_count this := rfl
  obtain ⟨j, hj, hitem, hipt⟩ := scan_loop_spec this word _ _ _ sc hsc
  have hip : sc.insert_point = j := by
    have := hipt (by omega)
    omega
  have hitem2 : sc.item = item_at j := by rw [hitem]; rfl
  have hcs : c_str w = w := c_str_self w hwnz
  have hleft2 : j = 0 → left % 4294967296 = left_child this := by
    intro h0
    apply hleft
    rw [hitem, h0]
    rfl
  by_cases hsp : has_space_for this w = true
  · rw [if_pos hsp] at h
    have hfit := (has_space_for_iff this w hend (by omega)).mp hsp
    obtain ⟨b', hcall, hbl, hbp, hblc⟩ := shift_items_low this j w count left right hproper
      (by omega) hj (by rw [← hendv] at *; change end_item this + 8 ≤ this.length; omega)
      (by rw [hcs]; omega) (by omega)
    rw [hitem2] at h
    simp only [bind, Except.bind, hcall, pure, Except.pure, Except.ok.injEq, Prod.mk.injEq] at h
    obtain ⟨h1, h2, h3⟩ := h
    have hlc : left_child b' = left_child this := by
      rw [hblc]
      split
      · rename_i h0
        exact hleft2 h0
      · rfl
    obtain ⟨a1, a2, a3⟩ := assign_keeps m this_p this b' hd hlc
    rw [← h3]
    refine ⟨by omega, fun q _ hq => a2 q hq, a3 this_p this hd, ?_⟩
    intro hr
    omega
  · rw [if_neg hsp] at h
    obtain ⟨k1, k2, k3, k4, k5, k6, k7, k8, k9⟩ := insert_split_keeps BLOCK_SIZE m this_p
      sc.insert_point w count left right promotion promo' r m' this h48 h135 hd hint0 hw
      (by rw [hcs]; exact hwlen) (by rw [hip]; exact hleft2) h
    refine ⟨by omega, k3, k4, fun _ => ⟨k5, k6, k7, k9 hwnz, ?_⟩⟩
    rw [c_str_self _ (k9 hwnz)] at k8
    exact k8

/-- The method `Block::add_word` on a path of intact pages that visits no page twice, for a
block size from 48 to 135 and an accepted word without NUL: a call that returns has
allocated at most one block per level, has changed no block off the path, and has kept the
`left_child` of every block; when it returns a positive value the promotion holds a 16-bit
count, a 32-bit handle and a pivot without NUL of the length of an accepted word. -/
theorem Block_add_word_keeps (BLOCK_SIZE : Nat) (h48 : 48 ≤ BLOCK_SIZE) (h135 : BLOCK_SIZE ≤ 135) :
    ∀ (fuel : Nat) (m : BlockManager) (this_p : Nat) (word : Word) (promotion promo' : Promotion)
      (r : Int) (m' : BlockManager),
    (∀ c ∈ word, c < 256) → (∀ c ∈ word, c ≠ 0) → word.length + 1 ≤ MAX_WORD_LEN BLOCK_SIZE →
    (∀ q ∈ descent fuel m this_p word,
      ∃ page, m.deref q = .ok page ∧ intact_page BLOCK_SIZE q page) →
    (descent fuel m this_p word).Nodup →
    Block_add_word BLOCK_SIZE fuel m this_p word promotion = .ok (r, promo', m') →
    m'.blocks.length ≤ m.blocks.length + fuel ∧
    (∀ q, q < m.blocks.length → q ∉ descent fuel m this_p word → m'.deref q = m.deref q) ∧
    (∀ q b, m.deref q = .ok b → ∃ b', m'.deref q = .ok b' ∧ left_child b' = left_child b) ∧
    (0 < r → promo'.count < 65536 ∧ promo'.new_sibling < 4294967296 ∧
      (∀ c ∈ promo'.pivot_word, c < 256) ∧ (∀ c ∈ promo'.pivot_word, c ≠ 0) ∧
      promo'.pivot_word.length + 1 ≤ MAX_WORD_LEN BLOCK_SIZE) := by
  intro fuel
  induction fuel with
  | zero =>
    intro m this_p word promotion promo' r m' _ _ _ _ _ h
    simp [Block_add_word, throw, throwThe, MonadExceptOf.throw] at h
  | succ fuel ih =>
    intro m this_p word promotion promo' r m' hword hnz hacc hint hnd h
    have hself := descent_self fuel m this_p word
    obtain ⟨this, hd, hintact⟩ := hint this_p hself
    have hpl := deref_lt m this_p this hd
    have hproper : ∀ c ∈ this, c < 256 := hintact.2.1
    have hlen : this.length = BLOCK_SIZE := hintact.1
    unfold Block_add_word at h
    simp only [bind, Except.bind, pure, Except.pure, hd] at h
    cases hsc : scan_loop this word (item_count this) begin_item 0 with
    | error e => rw [hsc] at h; cases h
    | ok sc =>
      rw [hsc] at h
      simp only [] at h
      obtain ⟨j, hj, hitem, hipt⟩ := scan_loop_spec this word _ _ _ sc hsc
      by_cases hfound : sc.found = true
      · rw [if_pos hfound] at h
        cases hc : Item_count this sc.item with
        | error e => rw [hc] at h; cases h
        | ok c =>
          rw [hc] at h
          simp only [] at h
          cases hs : set_Item_count this sc.item (c + 1) with
          | error e => rw [hs] at h; cases h
          | ok b' =>
            rw [hs] at h
            simp only [Except.ok.injEq, Prod.mk.injEq] at h
            obtain ⟨h1, h2, h3⟩ := h
            have hlc : left_child b' = left_child this := by
              unfold set_Item_count st16 at hs
              split at hs
              · cases hs
                unfold left_child
                rw [rd32_wr16_ne _ _ _ _ (by rw [hitem]; unfold begin_item; omega)]
              · cases hs
            obtain ⟨a1, a2, a3⟩ := assign_keeps m this_p this _ hd hlc
            rw [← h3]
            refine ⟨by omega, ?_, a3, ?_⟩
            · intro q _ hq
              exact a2 q (fun e => hq (e ▸ hself))
            · intro hr
              omega
      · rw [if_neg hfound] at h
        by_cases hleaf : is_leaf this = true
        · rw [if_pos hleaf] at h
          obtain ⟨p1, p2, p3, p4⟩ := place_keeps BLOCK_SIZE m this_p this word sc word 1 NULL_BLOCK
            NULL_BLOCK promotion promo' r m' h48 h135 hd hintact hsc hword hnz hacc
            (fun _ => by rw [null_mod, is_leaf_eq this hleaf]) h
          refine ⟨by omega, ?_, ?_, p4⟩
          · intro q hq hnot
            exact p2 q hq (fun e => hnot (e ▸ hself))
          · intro q b hb
            by_cases e : q = this_p
            · subst e
              rw [hd] at hb
              cases hb
              exact p3
            · exact ⟨b, by rw [p2 q (deref_lt m q b hb) e]; exact hb, rfl⟩
        · rw [if_neg hleaf] at h
          cases hrc : Item_right_child this (sc.item - sizeof_Item) with
          | error e => rw [hrc] at h; cases h
          | ok child_number =>
            rw [hrc] at h
            simp only [] at h
            cases hg : m.get child_number with
            | error e => rw [hg] at h; cases h
            | ok child_p =>
              rw [hg] at h
              simp only [] at h
              cases hcd : m.deref child_p with
              | error e => rw [hcd] at h; cases h
              | ok child =>
                rw [hcd] at h
                simp only [] at h
                cases hrec : Block_add_word BLOCK_SIZE fuel m child_p word Promotion.fresh with
                | error e => rw [hrec] at h; cases h
                | ok res =>
                  obtain ⟨result, cp, m1⟩ := res
                  rw [hrec] at h
                  simp only [] at h
                  have hdesc := descent_step fuel m this_p word this sc child_number child_p hd hsc
                    hfound hleaf hrc hg
                  rw [hdesc] at hint hnd
                  obtain ⟨hnotin, hnd1⟩ := List.nodup_cons.mp hnd
                  obtain ⟨i1, i2, i3, i4⟩ := ih m child_p word Promotion.fresh cp result m1 hword hnz
                    hacc (fun q hq => hint q (List.mem_cons_of_mem _ hq)) hnd1 hrec
                  obtain ⟨hr01, hmono⟩ := Block_add_word_ret _ _ _ _ _ _ _ _ _ hrec
                  rw [hdesc]
                  by_cases hres : result ≤ 0
                  · rw [if_pos hres] at h
                    simp only [Except.ok.injEq, Prod.mk.injEq] at h
                    obtain ⟨h1, h2, h3⟩ := h
                    rw [← h3]
                    refine ⟨by omega, ?_, i3, ?_⟩
                    · intro q hq hnot
                      exact i2 q hq (fun hin => hnot (List.mem_cons_of_mem _ hin))
                    · intro hr
                      omega
                  · rw [if_neg hres] at h
                    have hthis1 : m1.deref this_p = .ok this := by
                      rw [i2 this_p hpl hnotin]
                      exact hd
                    rw [hthis1] at h
                    simp only [] at h
                    obtain ⟨pc, psib, ppr, pnz, plen⟩ := i4 (by omega)
                    -- the child is on the path, so it stores its own handle
                    have hfuel : ∃ f, fuel = f + 1 := by
                      cases fuel with
                      | zero => simp [Block_add_word, throw, throwThe, MonadExceptOf.throw] at hrec
                      | succ f => exact ⟨f, rfl⟩
                    obtain ⟨f, hf⟩ := hfuel
                    obtain ⟨child2, hcd2, hcint⟩ := hint child_p
                      (List.mem_cons_of_mem _ (by rw [hf]; exact descent_self f m child_p word))
                    rw [hcd] at hcd2
                    cases hcd2
                    have hcbn : block_number child = child_p := hcint.2.2.1
                    obtain ⟨hcp, hcn⟩ := get_ok m child_number child_p hg
                    have hleft : sc.item = begin_item → block_number child % 4294967296
                        = left_child this := by
                      intro h0
                      rw [h0] at hrc
                      unfold Item_right_child ld32 at hrc
                      split at hrc
                      · cases hrc
                        rw [hcbn, hcp]
                        exact Nat.mod_eq_of_lt (rd32_lt_of_proper this hproper _)
                      · cases hrc
                    obtain ⟨p1, p2, p3, p4⟩ := place_keeps BLOCK_SIZE m1 this_p this word sc
                      cp.pivot_word cp.count (block_number child) cp.new_sibling promotion promo' r
                      m' h48 h135 hthis1 hintact hsc ppr pnz plen hleft h
                    refine ⟨by omega, ?_, ?_, p4⟩
                    · intro q hq hnot
                      rw [p2 q (by omega) (fun e => hnot (e ▸ List.mem_cons_self _ _))]
                      exact i2 q hq (fun hin => hnot (List.mem_cons_of_mem _ hin))
                    · intro q b hb
                      by_cases e : q = this_p
                      · subst e
                        rw [hd] at hb
                        cases hb
                        exact p3
                      · obtain ⟨b1, hb1, hl1⟩ := i3 q b hb
                        exact ⟨b1, by rw [p2 q (deref_lt m1 q b1 hb1) e]; exact hb1, hl1⟩

/-- The height of a subtree reads only the `left_child` of the blocks. -/
theorem tree_height_keeps : ∀ (fuel : Nat) (m m2 : BlockManager) (blocknum d : Nat),
    m.blocks.length ≤ m2.blocks.length →
    (∀ q b, m.deref q = .ok b → ∃ b', m2.deref q = .ok b' ∧ left_child b' = left_child b) →
    tree_height fuel m blocknum = .ok d → tree_height fuel m2 blocknum = .ok d := by
  intro fuel
  induction fuel with
  | zero =>
    intro m m2 blocknum d _ _ h
    simp [tree_height, throw, throwThe, MonadExceptOf.throw] at h
  | succ fuel ih =>
    intro m m2 blocknum d hle hkeep h
    unfold tree_height at h ⊢
    simp only [bind, Except.bind, pure, Except.pure] at h ⊢
    cases hg : m.get blocknum with
    | error e => rw [hg] at h; cases h
    | ok p =>
      rw [hg] at h
      simp only [] at h
      obtain ⟨hp, hlt⟩ := get_ok m blocknum p hg
      have hg2 : m2.get blocknum = .ok p := by
        unfold BlockManager.get
        rw [if_pos (by omega), hp]
      rw [hg2]
      simp only []
      cases hd : m.deref p with
      | error e => rw [hd] at h; cases h
      | ok this =>
        rw [hd] at h
        simp only [] at h
        obtain ⟨this2, hd2, hlc⟩ := hkeep p this hd
        rw [hd2]
        simp only []
        have hleaf : is_leaf this2 = is_leaf this := by
          unfold is_leaf
          rw [hlc]
        rw [hleaf, hlc]
        by_cases hl : is_leaf this = true
        · rw [if_pos hl] at h ⊢
          exact h
        · rw [if_neg hl] at h ⊢
          cases hb : tree_height fuel m (left_child this) with
          | error e => rw [hb] at h; cases h
          | ok below =>
            rw [hb] at h
            rw [ih m m2 _ below hle hkeep hb]
            exact h

/-- More fuel gives the same height. -/
theorem tree_height_fuel : ∀ (fuel : Nat) (m : BlockManager) (blocknum d k : Nat),
    tree_height fuel m blocknum = .ok d → tree_height (fuel + k) m blocknum = .ok d := by
  intro fuel
  induction fuel with
  | zero =>
    intro m blocknum d k h
    simp [tree_height, throw, throwThe, MonadExceptOf.throw] at h
  | succ fuel ih =>
    intro m blocknum d k h
    have e : fuel + 1 + k = (fuel + k) + 1 := by omega
    rw [e]
    unfold tree_height at h ⊢
    simp only [bind, Except.bind, pure, Except.pure] at h ⊢
    cases hg : m.get blocknum with
    | error e => rw [hg] at h; cases h
    | ok p =>
      rw [hg] at h
      simp only [] at h ⊢
      cases hd : m.deref p with
      | error e => rw [hd] at h; cases h
      | ok this =>
        rw [hd] at h
        simp only [] at h ⊢
        by_cases hl : is_leaf this = true
        · rw [if_pos hl] at h ⊢
          exact h
        · rw [if_neg hl] at h ⊢
          cases hb : tree_height fuel m (left_child this) with
          | error e => rw [hb] at h; cases h
          | ok below =>
            rw [hb] at h
            rw [ih m _ below k hb]
            exact h

/-- A tree with a height has its root among the blocks. -/
theorem height_get (wc : WordCounter) (d : Nat) (h : wc.height = .ok d) :
    wc.manager.get wc.root_ = .ok wc.root_ := by
  unfold WordCounter.height at h
  cases hn : wc.manager.block_count with
  | zero =>
    rw [hn] at h
    simp [tree_height, throw, throwThe, MonadExceptOf.throw] at h
  | succ n =>
    rw [hn] at h
    unfold tree_height at h
    simp only [bind, Except.bind] at h
    cases hg : wc.manager.get wc.root_ with
    | error e => rw [hg] at h; cases h
    | ok p =>
      obtain ⟨hp, _⟩ := get_ok _ _ _ hg
      rw [hp]

/-- C13: the method `WordCounter::add_word` on a non-empty index of height `d`, for a block
size from 48 to 135 and an accepted word of bytes 1 to 255, when the pages the call visits
are intact and no page is visited twice, and the root page's `add_word` returns `result`
with the promotion `promotion` and the manager `m'`.  If `result` is not positive, `result`
is returned, the root handle stays and the height stays `d`.  Otherwise `result` is 1, 0 is
returned, and the root handle changes to a block allocated by this call, which holds one
item, the promoted pivot with the promoted count, has the old root as `left_child` and the
promoted sibling as the item's `right_child`; the height of the tree is `d + 1`. -/
theorem C13_root_changes_exactly_on_split (BLOCK_SIZE : Nat) (wc : WordCounter) (word : Word)
    (result : Int) (promotion : Promotion) (m' : BlockManager) (d : Nat)
    (h48 : 48 ≤ BLOCK_SIZE) (h135 : BLOCK_SIZE ≤ 135)
    (hroot : wc.root_ ≠ NULL_BLOCK)
    (hblocks : 2 * wc.manager.block_count < 4294967296)
    (hbytes : ∀ c ∈ word, 0 < c ∧ c < 256)
    (hacc : word.length + 1 ≤ MAX_WORD_LEN BLOCK_SIZE)
    (hpath : ∀ q ∈ descent wc.manager.block_count wc.manager wc.root_ word,
      ∃ page, wc.manager.deref q = .ok page ∧ intact_page BLOCK_SIZE q page)
    (hnodup : (descent wc.manager.block_count wc.manager wc.root_ word).Nodup)
    (hheight : wc.height = .ok d)
    (hrun : Block_add_word BLOCK_SIZE wc.manager.block_count wc.manager wc.root_ word
      Promotion.fresh = .ok (result, promotion, m')) :
    (result ≤ 0 →
      ∃ wc', wc.add_word BLOCK_SIZE word = .ok (result, wc') ∧
        wc'.root_ = wc.root_ ∧ wc'.manager = m' ∧ wc'.height = .ok d) ∧
    (0 < result →
      result = 1 ∧
      ∃ wc' new_root,
        wc.add_word BLOCK_SIZE word = .ok (0, wc') ∧
        wc'.root_ ≠ wc.root_ ∧ wc'.root_ = m'.block_count ∧
        wc.manager.block_count ≤ wc'.root_ ∧
        wc'.manager.block_count = m'.block_count + 1 ∧
        (∀ i, i < m'.block_count → wc'.manager.deref i = m'.deref i) ∧
        wc'.manager.deref wc'.root_ = .ok new_root ∧
        item_count new_root = 1 ∧
        left_child new_root = wc.root_ ∧
        Item_right_child new_root (item_at 0) = .ok promotion.new_sibling ∧
        Item_count new_root (item_at 0) = .ok promotion.count ∧
        Item_offset new_root (item_at 0) = .ok (string_table new_root) ∧
        string_at new_root (string_table new_root) = .ok promotion.pivot_word ∧
        wc'.height = .ok (d + 1)) := by
  have hget := height_get wc d hheight
  have hw : ∀ c ∈ word, c < 256 := fun c hc => (hbytes c hc).2
  have hnz : ∀ c ∈ word, c ≠ 0 := fun c hc => Nat.pos_iff_ne_zero.mp (hbytes c hc).1
  obtain ⟨f1, f2, f3, f4⟩ := Block_add_word_keeps BLOCK_SIZE h48 h135 wc.manager.block_count
    wc.manager wc.root_ word Promotion.fresh promotion result m' hw hnz hacc hpath hnodup hrun
  obtain ⟨_, hmono⟩ := Block_add_word_ret _ _ _ _ _ _ _ _ _ hrun
  have hlen : m'.block_count = m'.blocks.length := rfl
  have hlen0 : wc.manager.block_count = wc.manager.blocks.length := rfl
  have hold : tree_height m'.block_count m' wc.root_ = .ok d := by
    have h1 := tree_height_keeps _ wc.manager m' wc.root_ d hmono f3 hheight
    have h2 := tree_height_fuel _ m' wc.root_ d (m'.block_count - wc.manager.block_count) h1
    have e : wc.manager.block_count + (m'.block_count - wc.manager.block_count)
        = m'.block_count := by omega
    rw [e] at h2
    exact h2
  by_cases hres : 0 < result
  · obtain ⟨g1, g2, g3, g4, g5⟩ := f4 hres
    have hcs : c_str promotion.pivot_word = promotion.pivot_word := c_str_self _ g4
    obtain ⟨_, hsplit⟩ := new_root_on_split BLOCK_SIZE wc word wc.root_ result promotion m'
      (by omega) (by omega) hroot hacc hget hrun (by omega) g1 g2 (by rw [hcs]; exact g5) g3
    obtain ⟨s0, wc', new_root, s1, s2, s3, s4, s5, s6, s7, s8, s9, s10, s11, s12, s13, s14⟩ :=
      hsplit hres
    rw [hcs] at s13
    refine ⟨fun hle => absurd hres (by omega), fun _ => ⟨s0, wc', new_root, s1, s2, s3, s4, s5,
      s6, s7, s8, s9, s10, s11, s12, s13, s14 d hold⟩⟩
  · have hle : result ≤ 0 := by omega
    refine ⟨fun _ => ?_, fun h => absurd h hres⟩
    have hgt : ¬ (word.length + 1 > MAX_WORD_LEN BLOCK_SIZE) := by omega
    refine ⟨{ root_ := wc.root_, manager := m' }, ?_, rfl, rfl, hold⟩
    unfold WordCounter.add_word
    simp only [hgt, hroot, if_false, bind, Except.bind, pure, Except.pure, hget, hrun, hle,
      if_true]

set_option maxRecDepth 100000 in
theorem two_level_index_reached : index_after 48 (letters 9) = two_level_index := by
  decide

set_option maxRecDepth 100000 in
theorem two_level_index_path :
    ∀ q ∈ descent two_level_index.manager.block_count two_level_index.manager
      two_level_index.root_ [106],
      ∃ page, two_level_index.manager.deref q = .ok page ∧ intact_page 48 q page := by
  have hdesc : descent two_level_index.manager.block_count two_level_index.manager
      two_level_index.root_ [106] = [2, 4] := by decide
  intro q hq
  rw [hdesc] at hq
  simp only [List.mem_cons, List.mem_singleton, List.not_mem_nil, or_false] at hq
  rcases hq with rfl | rfl
  · exact ⟨_, rfl, by decide, by decide, by decide, by decide, by decide, by decide,
      [([98], 1, 1), ([100], 1, 3), ([102], 1, 4)], rfl, by decide, by decide⟩
  · exact ⟨_, rfl, by decide, by decide, by decide, by decide, by decide, by decide,
      [([103], 1, 4294967295), ([104], 1, 4294967295), ([105], 1, 4294967295)], rfl,
      by decide, by decide⟩

set_option maxRecDepth 100000 in
theorem C13_root_changes_exactly_on_split_witness :
    two_level_index = index_after 48 (letters 9) ∧ two_level_index.height = .ok 1 ∧
    ∃ wc' new_root,
      two_level_index.add_word 48 [106] = .ok (0, wc') ∧
      wc'.root_ ≠ two_level_index.root_ ∧ wc'.root_ = 7 ∧
      wc'.manager.deref wc'.root_ = .ok new_root ∧
      item_count new_root = 1 ∧ left_child new_root = 2 ∧
      Item_right_child new_root (item_at 0) = .ok 6 ∧
      Item_count new_root (item_at 0) = .ok 1 ∧
      string_at new_root (string_table new_root) = .ok [100] ∧
      wc'.height = .ok 2 := by
  have h := (C13_root_changes_exactly_on_split 48 two_level_index [106] 1
    { pivot_word := [100], count := 1, new_sibling := 6 } two_level_grown 1
    (by decide) (by decide) (by decide) (by decide) (by decide) (by decide)
    two_level_index_path (by decide) rfl rfl).2 (by decide)
  obtain ⟨_, wc', new_root, s1, s2, s3, _, _, _, s7, s8, s9, s10, s11, _, s13, s14⟩ := h
  exact ⟨two_level_index_reached.symm, rfl, wc', new_root, s1, s2, s3, s7, s8, s9, s10,
    s11, s13, s14⟩

end WordCount

/-! ## Theorems on the priority queue -/

namespace FlightSchedule

open PriorityQueue

theorem parent_eq (n : Nat) (h0 : 0 < n) (h : n + 1 < UINT_RANGE) : parent n = (n - 1) / 2 := by
  unfold parent UINT_RANGE at *
  omega

theorem left_eq (n : Nat) (h : n + 1 < 2147483648) : left n = 2 * n + 1 := by
  unfold left UINT_RANGE
  omega

theorem right_eq (n : Nat) (h : n + 1 < 2147483648) : right n = 2 * n + 2 := by
  unfold right
  rw [left_eq n h]
  unfold UINT_RANGE
  omega

theorem at_index_ok {α : Type} (q : PriorityQueue α) (n : Nat) (h : n < q.data_.length) :
    q.at_index n = .ok (q.data_.getD n 0) := by
  unfold at_index
  rw [List.get?_eq_get h, List.getD_eq_getElem _ _ h]
  rfl

theorem key_of_set_priority_of {α : Type} (q : PriorityQueue α) (p n : Nat) :
    (q.set_priority_of p n).key_of = q.key_of := by
  funext x
  simp only [key_of, set_priority_of, Function.update, Thing.set_priority]
  split_ifs with h
  · subst h; rfl
  · rfl

theorem swap_ok {α : Type} (q : PriorityQueue α) (i j : Nat) (hi : i < q.data_.length)
    (hj : j < q.data_.length) :
    ∃ q', q.swap i j = .ok q' ∧
      q'.data_ = (q.data_.set i (q.data_.getD j 0)).set j (q.data_.getD i 0) ∧
      q'.key_of = q.key_of := by
  unfold swap
  simp only [at_index_ok q i hi, at_index_ok q j hj, bind, Except.bind]
  rw [at_index_ok _ i (by simpa using hi)]
  simp only []
  rw [at_index_ok _ j (by simpa [set_priority_of] using hj)]
  refine ⟨_, rfl, ?_, ?_⟩
  · simp [set_priority_of]
  · rw [key_of_set_priority_of, key_of_set_priority_of]
    rfl

theorem less_ok {α : Type} [LinearOrder α] (q : PriorityQueue α) (i j : Nat)
    (hi : i < q.data_.length) (hj : j < q.data_.length) :
    q.less i j = .ok (decide (key_at q.key_of q.data_ i < key_at q.key_of q.data_ j)) := by
  unfold less
  simp only [at_index_ok q i hi, at_index_ok q j hj, bind, Except.bind]
  rfl

theorem cons_set_perm {β : Type} : ∀ (t : List β) (j : Nat) (h : j < t.length) (x : β),
    (t.get ⟨j, h⟩ :: t.set j x).Perm (x :: t) := by
  intro t
  induction t with
  | nil => intro j h; simp at h
  | cons b t ih =>
    intro j h x
    cases j with
    | zero => exact List.Perm.swap _ _ _
    | succ j =>
      have h' : j < t.length := by simpa using h
      have := ih j h' x
      show (t.get ⟨j, h'⟩ :: b :: t.set j x).Perm (x :: b :: t)
      exact (List.Perm.swap _ _ _).trans ((List.Perm.cons b this).trans (List.Perm.swap _ _ _))

theorem swap_perm_lt {β : Type} : ∀ (l : List β) (i j : Nat) (hij : i < j) (hj : j < l.length),
    ((l.set i (l.get ⟨j, hj⟩)).set j (l.get ⟨i, lt_trans hij hj⟩)).Perm l := by
  intro l
  induction l with
  | nil => intro i j _ hj; simp at hj
  | cons a t ih =>
    intro i j hij hj
    cases j with
    | zero => omega
    | succ j =>
      have hj' : j < t.length := by simpa using hj
      cases i with
      | zero =>
        show (t.get ⟨j, hj'⟩ :: t.set j a).Perm (a :: t)
        exact cons_set_perm t j hj' a
      | succ i =>
        have hij' : i < j := by omega
        show (a :: (t.set i (t.get ⟨j, hj'⟩)).set j (t.get ⟨i, lt_trans hij' hj'⟩)).Perm (a :: t)
        exact List.Perm.cons a (ih i j hij' hj')

theorem swap_perm {β : Type} (l : List β) (i j : Nat) (hi : i < l.length) (hj : j < l.length) :
    ((l.set i (l.get ⟨j, hj⟩)).set j (l.get ⟨i, hi⟩)).Perm l := by
  rcases Nat.lt_trichotomy i j with h | h | h
  · exact swap_perm_lt l i j h hj
  · subst h
    have e : (l.set i (l.get ⟨i, hj⟩)).set i (l.get ⟨i, hi⟩) = l := by
      apply List.ext_getElem?
      intro x
      simp only [List.getElem?_set, List.length_set, List.get_eq_getElem]
      split_ifs with h1
      · subst h1; simp
      · rfl
    rw [e]
  · rw [List.set_comm _ _ _ (Nat.ne_of_gt h)]
    exact swap_perm_lt l j i h hi

theorem swap_perm_getD (l : List Nat) (i j : Nat) (hi : i < l.length) (hj : j < l.length) :
    ((l.set i (l.getD j 0)).set j (l.getD i 0)).Perm l := by
  rw [List.getD_eq_getElem _ _ hi, List.getD_eq_getElem _ _ hj]
  exact swap_perm l i j hi hj


theorem getD_swap (l : List Nat) (i j x : Nat) (hi : i < l.length) (hj : j < l.length) :
    ((l.set i (l.getD j 0)).set j (l.getD i 0)).getD x 0 =
      if x = j then l.getD i 0 else if x = i then l.getD j 0 else l.getD x 0 := by
  simp only [List.getD_eq_getElem?_getD, List.getElem?_set, List.length_set]
  by_cases h1 : x = j
  · subst h1; simp [hj]
  · by_cases h2 : x = i
    · subst h2
      simp [h1, hi, Ne.symm h1]
    · simp [h1, h2, Ne.symm h1, Ne.symm h2]

theorem key_at_swap {α : Type} (k : Nat → α) (l : List Nat) (i j x : Nat) (hi : i < l.length)
    (hj : j < l.length) :
    key_at k ((l.set i (l.getD j 0)).set j (l.getD i 0)) x =
      if x = j then key_at k l i else if x = i then key_at k l j else key_at k l x := by
  unfold key_at
  rw [getD_swap l i j x hi hj]
  split_ifs <;> rfl

theorem sift_up_step {α : Type} [LinearOrder α] (k : Nat → α) (d : List Nat) (n : Nat)
    (hn : n < d.length) (h0 : 0 < n) (hlt : key_at k d n < key_at k d ((n - 1) / 2))
    (hinv : sift_up_inv k d n) :
    sift_up_inv k ((d.set ((n - 1) / 2) (d.getD n 0)).set n (d.getD ((n - 1) / 2) 0))
      ((n - 1) / 2) := by
  have hP : (n - 1) / 2 < d.length := by omega
  obtain ⟨h1, h2⟩ := hinv
  constructor
  · intro j hj0 hjl hjP
    simp only [List.length_set] at hjl
    rw [key_at_swap k d _ _ _ hP hn, key_at_swap k d _ _ _ hP hn]
    by_cases e1 : j = n
    · subst e1
      have : ¬ ((j - 1) / 2 = j) := by omega
      simp only [this, if_false, if_true]
      exact le_of_lt hlt
    · simp only [e1, hjP, if_false]
      by_cases e2 : (j - 1) / 2 = n
      · simp only [e2, if_true]
        exact h2 j hj0 hjl e2 h0
      · simp only [e2, if_false]
        by_cases e3 : (j - 1) / 2 = (n - 1) / 2
        · simp only [e3, if_true]
          have := h1 j hj0 hjl e1
          rw [e3] at this
          exact le_trans (le_of_lt hlt) this
        · simp only [e3, if_false]
          exact h1 j hj0 hjl e1
  · intro j hj0 hjl hjP hP0
    simp only [List.length_set] at hjl
    rw [key_at_swap k d _ _ _ hP hn, key_at_swap k d _ _ _ hP hn]
    have a1 : ¬ (((n - 1) / 2 - 1) / 2 = n) := by omega
    have a2 : ¬ (((n - 1) / 2 - 1) / 2 = (n - 1) / 2) := by omega
    have a3 : ¬ (j = (n - 1) / 2) := by omega
    have hPP := h1 ((n - 1) / 2) hP0 hP (by omega)
    simp only [a1, a2, a3, if_false]
    by_cases e1 : j = n
    · simp only [e1, if_true]
      exact hPP
    · simp only [e1, if_false]
      have := h1 j hj0 hjl e1
      rw [hjP] at this
      exact le_trans hPP this

theorem sift_up_stop {α : Type} [LinearOrder α] (k : Nat → α) (d : List Nat) (n : Nat)
    (hstop : n = 0 ∨ ¬ key_at k d n < key_at k d ((n - 1) / 2))
    (hinv : sift_up_inv k d n) : is_heap k d := by
  intro j hj0 hjl
  by_cases e : j = n
  · subst e
    rcases hstop with h | h
    · omega
    · exact not_lt.mp h
  · exact hinv.1 j hj0 hjl e

theorem sift_up_spec {α : Type} [LinearOrder α] : ∀ (fuel : Nat) (q : PriorityQueue α) (n : Nat),
    n < fuel → n < q.data_.length → q.data_.length < 2147483648 →
    sift_up_inv q.key_of q.data_ n →
    ∃ q', sift_up fuel q n = .ok q' ∧ is_heap q'.key_of q'.data_ ∧
      q'.data_.Perm q.data_ ∧ q'.key_of = q.key_of := by
  intro fuel
  induction fuel with
  | zero => intro q n h; omega
  | succ fuel ih =>
    intro q n hfuel hn hlen hinv
    unfold sift_up
    by_cases h0 : n = 0
    · subst h0
      refine ⟨q, ?_, sift_up_stop _ _ 0 (Or.inl rfl) hinv, List.Perm.refl _, rfl⟩
      simp [is_root, root, bind, Except.bind, pure, Except.pure]
    · have hpos : 0 < n := Nat.pos_of_ne_zero h0
      have hpar : parent n = (n - 1) / 2 := parent_eq n hpos (by unfold UINT_RANGE; omega)
      have hP : (n - 1) / 2 < q.data_.length := by omega
      have hroot : is_root n = false := by simp [is_root, root, h0]
      simp only [hroot, hpar, Bool.not_false, if_true, less_ok q n _ hn hP, bind, Except.bind]
      by_cases hlt : key_at q.key_of q.data_ n < key_at q.key_of q.data_ ((n - 1) / 2)
      · obtain ⟨q1, hs, hd, hk⟩ := swap_ok q ((n - 1) / 2) n hP hn
        have hinv1 := sift_up_step q.key_of q.data_ n hn hpos hlt hinv
        rw [← hd, ← hk] at hinv1
        have hlen1 : q1.data_.length = q.data_.length := by rw [hd]; simp
        obtain ⟨q', hq', hheap, hperm, hkey⟩ :=
          ih q1 ((n - 1) / 2) (by omega) (by omega) (by omega) hinv1
        refine ⟨q', ?_, hheap, ?_, hkey.trans hk⟩
        · simp only [hlt, decide_True, if_true, hs]
          exact hq'
        · refine hperm.trans ?_
          rw [hd]
          exact swap_perm_getD _ _ _ hP hn
      · refine ⟨q, ?_, sift_up_stop _ _ n (Or.inr hlt) hinv, List.Perm.refl _, rfl⟩
        simp [hlt, pure, Except.pure]

theorem sift_down_step {α : Type} [LinearOrder α] (k : Nat → α) (d : List Nat) (n c : Nat)
    (hc : c < d.length) (hc0 : 0 < c) (hcn : (c - 1) / 2 = n)
    (hlt : key_at k d c < key_at k d n)
    (hmin : ∀ j, 0 < j → j < d.length → (j - 1) / 2 = n → key_at k d c ≤ key_at k d j)
    (hinv : sift_down_inv k d n) :
    sift_down_inv k ((d.set n (d.getD c 0)).set c (d.getD n 0)) c := by
  have hn : n < d.length := by omega
  obtain ⟨h1, h2⟩ := hinv
  constructor
  · intro j hj0 hjl hjc
    simp only [List.length_set] at hjl
    rw [key_at_swap k d _ _ _ hn hc, key_at_swap k d _ _ _ hn hc]
    simp only [hjc, if_false]
    by_cases e1 : j = c
    · subst e1
      simp only [hcn, if_true]
      exact le_of_lt hlt
    · simp only [e1, if_false]
      by_cases e2 : j = n
      · subst e2
        have a1 : ¬ ((j - 1) / 2 = j) := by omega
        simp only [a1, if_false, if_true]
        exact h2 c hc0 hc hcn hj0
      · simp only [e2, if_false]
        by_cases e3 : (j - 1) / 2 = n
        · simp only [e3, if_true]
          exact hmin j hj0 hjl e3
        · simp only [e3, if_false]
          exact h1 j hj0 hjl e3
  · intro j hj0 hjl hjc _
    simp only [List.length_set] at hjl
    rw [key_at_swap k d _ _ _ hn hc, key_at_swap k d _ _ _ hn hc]
    have a1 : ¬ ((c - 1) / 2 = c) := by omega
    have a2 : ¬ (j = c) := by omega
    have a3 : ¬ (j = n) := by omega
    have a4 : ¬ (n = c) := by omega
    simp only [a1, a2, a3, a4, hcn, if_false, if_true]
    have := h1 j hj0 hjl (by omega)
    rw [hjc] at this
    exact this

theorem sift_down_stop {α : Type} [LinearOrder α] (k : Nat → α) (d : List Nat) (n : Nat)
    (hstop : ∀ j, 0 < j → j < d.length → (j - 1) / 2 = n → key_at k d n ≤ key_at k d j)
    (hinv : sift_down_inv k d n) : is_heap k d := by
  intro j hj0 hjl
  by_cases e : (j - 1) / 2 = n
  · rw [e]
    exact hstop j hj0 hjl e
  · exact hinv.1 j hj0 hjl e

theorem sift_down_spec {α : Type} [LinearOrder α] :
    ∀ (fuel : Nat) (q : PriorityQueue α) (n : Nat),
    q.data_.length < n + fuel → n < q.data_.length ∨ n = 0 → q.data_.length < 2147483648 →
    sift_down_inv q.key_of q.data_ n →
    ∃ q', sift_down fuel q n = .ok q' ∧ is_heap q'.key_of q'.data_ ∧
      q'.data_.Perm q.data_ ∧ q'.key_of = q.key_of := by
  intro fuel
  induction fuel with
  | zero => intro q n h hn; omega
  | succ fuel ih =>
    intro q n hfuel hn hlen hinv
    have hl : left n = 2 * n + 1 := left_eq n (by omega)
    have hr : right n = 2 * n + 2 := right_eq n (by omega)
    unfold sift_down
    simp only [hl, hr, size]
    by_cases hR : 2 * n + 2 < q.data_.length
    · -- both children exist
      have hL : 2 * n + 1 < q.data_.length := by omega
      have hN : n < q.data_.length := by omega
      simp only [hR, hL, if_true, less_ok q _ _ hR hN, less_ok q _ _ hR hL, less_ok q _ _ hL hN,
        bind, Except.bind, pure, Except.pure]
      by_cases c1 : key_at q.key_of q.data_ (2 * n + 2) < key_at q.key_of q.data_ n
      · by_cases c2 : key_at q.key_of q.data_ (2 * n + 2) < key_at q.key_of q.data_ (2 * n + 1)
        · -- go right
          obtain ⟨q1, hs, hd, hk⟩ := swap_ok q n (2 * n + 2) hN hR
          have hinv1 := sift_down_step q.key_of q.data_ n (2 * n + 2) hR (by omega) (by omega) c1
            (by
              intro j hj0 hjl hjn
              have : j = 2 * n + 1 ∨ j = 2 * n + 2 := by omega
              rcases this with e | e
              · rw [e]; exact le_of_lt c2
              · rw [e]) hinv
          rw [← hd, ← hk] at hinv1
          have hlen1 : q1.data_.length = q.data_.length := by rw [hd]; simp
          obtain ⟨q', hq', hheap, hperm, hkey⟩ :=
            ih q1 (2 * n + 2) (by omega) (by omega) (by omega) hinv1
          refine ⟨q', ?_, hheap, ?_, hkey.trans hk⟩
          · simp only [c1, c2, decide_True, if_true, hs]
            exact hq'
          · refine hperm.trans ?_
            rw [hd]
            exact swap_perm_getD _ _ _ hN hR
        · -- right is smaller than n but not than left: go left
          have c3 : key_at q.key_of q.data_ (2 * n + 1) < key_at q.key_of q.data_ n :=
            lt_of_le_of_lt (not_lt.mp c2) c1
          obtain ⟨q1, hs, hd, hk⟩ := swap_ok q n (2 * n + 1) hN hL
          have hinv1 := sift_down_step q.key_of q.data_ n (2 * n + 1) hL (by omega) (by omega) c3
            (by
              intro j hj0 hjl hjn
              have : j = 2 * n + 1 ∨ j = 2 * n + 2 := by omega
              rcases this with e | e
              · rw [e]
              · rw [e]; exact not_lt.mp c2) hinv
          rw [← hd, ← hk] at hinv1
          have hlen1 : q1.data_.length = q.data_.length := by rw [hd]; simp
          obtain ⟨q', hq', hheap, hperm, hkey⟩ :=
            ih q1 (2 * n + 1) (by omega) (by omega) (by omega) hinv1
          refine ⟨q', ?_, hheap, ?_, hkey.trans hk⟩
          · simp only [c1, c2, c3, decide_True, decide_False, if_true, hs]
            exact hq'
          · refine hperm.trans ?_
            rw [hd]
            exact swap_perm_getD _ _ _ hN hL
      · by_cases c3 : key_at q.key_of q.data_ (2 * n + 1) < key_at q.key_of q.data_ n
        · obtain ⟨q1, hs, hd, hk⟩ := swap_ok q n (2 * n + 1) hN hL
          have hinv1 := sift_down_step q.key_of q.data_ n (2 * n + 1) hL (by omega) (by omega) c3
            (by
              intro j hj0 hjl hjn
              have : j = 2 * n + 1 ∨ j = 2 * n + 2 := by omega
              rcases this with e | e
              · rw [e]
              · rw [e]; exact le_trans (le_of_lt c3) (not_lt.mp c1)) hinv
          rw [← hd, ← hk] at hinv1
          have hlen1 : q1.data_.length = q.data_.length := by rw [hd]; simp
          obtain ⟨q', hq', hheap, hperm, hkey⟩ :=
            ih q1 (2 * n + 1) (by omega) (by omega) (by omega) hinv1
          refine ⟨q', ?_, hheap, ?_, hkey.trans hk⟩
          · simp only [c1, c3, decide_True, decide_False, if_true, hs]
            exact hq'
          · refine hperm.trans ?_
            rw [hd]
            exact swap_perm_getD _ _ _ hN hL
        · refine ⟨q, ?_, sift_down_stop _ _ n ?_ hinv, List.Perm.refl _, rfl⟩
          · simp [c1, c3]
          · intro j hj0 hjl hjn
            have : j = 2 * n + 1 ∨ j = 2 * n + 2 := by omega
            rcases this with e | e
            · rw [e]; exact not_lt.mp c3
            · rw [e]; exact not_lt.mp c1
    · by_cases hL : 2 * n + 1 < q.data_.length
      · have hN : n < q.data_.length := by omega
        simp only [hR, hL, if_true, if_false, less_ok q _ _ hL hN,
          bind, Except.bind, pure, Except.pure]
        by_cases c3 : key_at q.key_of q.data_ (2 * n + 1) < key_at q.key_of q.data_ n
        · obtain ⟨q1, hs, hd, hk⟩ := swap_ok q n (2 * n + 1) hN hL
          have hinv1 := sift_down_step q.key_of q.data_ n (2 * n + 1) hL (by omega) (by omega) c3
            (by
              intro j hj0 hjl hjn
              have : j = 2 * n + 1 := by omega
              rw [this]) hinv
          rw [← hd, ← hk] at hinv1
          have hlen1 : q1.data_.length = q.data_.length := by rw [hd]; simp
          obtain ⟨q', hq', hheap, hperm, hkey⟩ :=
            ih q1 (2 * n + 1) (by omega) (by omega) (by omega) hinv1
          refine ⟨q', ?_, hheap, ?_, hkey.trans hk⟩
          · simp only [c3, decide_True, if_true, hs]
            exact hq'
          · refine hperm.trans ?_
            rw [hd]
            exact swap_perm_getD _ _ _ hN hL
        · refine ⟨q, ?_, sift_down_stop _ _ n ?_ hinv, List.Perm.refl _, rfl⟩
          · simp [c3]
          · intro j hj0 hjl hjn
            have : j = 2 * n + 1 := by omega
            rw [this]; exact not_lt.mp c3
      · refine ⟨q, ?_, sift_down_stop _ _ n ?_ hinv, List.Perm.refl _, rfl⟩
        · simp [hR, hL, bind, Except.bind, pure, Except.pure]
        · intro j hj0 hjl hjn
          omega

theorem key_at_append_left {α : Type} (k : Nat → α) (d : List Nat) (x j : Nat)
    (h : j < d.length) : key_at k (d ++ [x]) j = key_at k d j := by
  unfold key_at
  rw [List.getD_append _ _ _ _ h]

theorem heap_root_min {α : Type} [LinearOrder α] (k : Nat → α) (d : List Nat)
    (hheap : is_heap k d) : ∀ j, j < d.length → key_at k d 0 ≤ key_at k d j := by
  intro j
  induction j using Nat.strong_induction_on with
  | _ j ih =>
    intro hj
    by_cases h0 : j = 0
    · subst h0; exact le_refl _
    · have h1 := hheap j (Nat.pos_of_ne_zero h0) hj
      have h2 := ih ((j - 1) / 2) (by omega) (by omega)
      exact le_trans h2 h1

theorem push_back_spec {α : Type} [LinearOrder α] (q : PriorityQueue α) (thing : Nat)
    (hlen : q.data_.length + 1 < 2147483648) (hheap : is_heap q.key_of q.data_) :
    ∃ q', q.push_back thing = .ok q' ∧ is_heap q'.key_of q'.data_ ∧
      q'.data_.Perm (thing :: q.data_) ∧ q'.key_of = q.key_of := by
  unfold push_back
  have hmod : q.size % UINT_RANGE = q.data_.length := by
    unfold size UINT_RANGE; omega
  simp only [hmod]
  have hinv : sift_up_inv
      ({ (q.set_priority_of thing q.data_.length) with
          data_ := (q.set_priority_of thing q.data_.length).data_ ++ [thing] } :
        PriorityQueue α).key_of
      ({ (q.set_priority_of thing q.data_.length) with
          data_ := (q.set_priority_of thing q.data_.length).data_ ++ [thing] } :
        PriorityQueue α).data_ q.data_.length := by
    show sift_up_inv (q.set_priority_of thing q.data_.length).key_of (q.data_ ++ [thing])
      q.data_.length
    rw [key_of_set_priority_of]
    constructor
    · intro j hj0 hjl hjn
      have hj : j < q.data_.length := by
        simp only [List.length_append, List.length_singleton] at hjl; omega
      rw [key_at_append_left _ _ _ _ hj, key_at_append_left _ _ _ _ (by omega)]
      exact hheap j hj0 hj
    · intro j hj0 hjl hjn hn0
      simp only [List.length_append, List.length_singleton] at hjl
      omega
  obtain ⟨q', hq', hh, hperm, hkey⟩ := sift_up_spec
    (({ (q.set_priority_of thing q.data_.length) with
          data_ := (q.set_priority_of thing q.data_.length).data_ ++ [thing] } :
        PriorityQueue α).size + 1) _ q.data_.length
    (by simp [size, set_priority_of]; omega) (by simp [set_priority_of])
    (by simp [set_priority_of]; omega) hinv
  refine ⟨q', hq', hh, ?_, ?_⟩
  · refine hperm.trans ?_
    show (q.data_ ++ [thing]).Perm (thing :: q.data_)
    exact List.perm_append_singleton _ _
  · rw [hkey]
    show (q.set_priority_of thing q.data_.length).key_of = q.key_of
    exact key_of_set_priority_of _ _ _

theorem pop_empty {α : Type} [LinearOrder α] (q : PriorityQueue α) (h : q.data_ = []) :
    q.pop = .ok (none, q) := by
  unfold pop
  simp [size, h, pure, Except.pure]

theorem pop_perm (d : List Nat) (h : d ≠ []) :
    (d.getD 0 0 :: (d.set 0 (d.getD (d.length - 1) 0)).dropLast).Perm d := by
  cases d with
  | nil => exact absurd rfl h
  | cons a t =>
    rcases List.eq_nil_or_concat t with ht | ⟨t', z, ht⟩
    · subst ht
      simp
    · rw [List.concat_eq_append] at ht
      subst ht
      have e1 : (a :: (t' ++ [z])).getD ((a :: (t' ++ [z])).length - 1) 0 = z := by
        simp [List.getD_eq_getElem?_getD]
      rw [e1]
      show (a :: (z :: (t' ++ [z])).dropLast).Perm (a :: (t' ++ [z]))
      have e2 : (z :: (t' ++ [z])).dropLast = z :: t' := by
        rw [← List.cons_append, List.dropLast_concat]
      rw [e2]
      exact List.Perm.cons a (List.perm_append_singleton z t').symm

theorem key_at_pop {α : Type} (k : Nat → α) (d : List Nat) (x : Nat) (h0 : 0 < x)
    (hx : x + 1 < d.length) :
    key_at k (d.set 0 (d.getD (d.length - 1) 0)).dropLast x = key_at k d x := by
  unfold key_at
  congr 1
  rw [List.dropLast_eq_take, List.getD_eq_getElem?_getD, List.getD_eq_getElem?_getD,
    List.getElem?_take, List.length_set, if_pos (by omega), List.getElem?_set]
  rw [if_neg (by omega), List.getD_eq_getElem?_getD]

theorem pop_eq {α : Type} [LinearOrder α] (q : PriorityQueue α) (hpos : 0 < q.data_.length) :
    ∃ o : Nat → Thing α, (∀ p, (o p).key = (q.objects p).key) ∧
      q.pop =
        (sift_down ((q.data_.set 0 (q.data_.getD (q.data_.length - 1) 0)).dropLast.length + 1)
          { data_ := (q.data_.set 0 (q.data_.getD (q.data_.length - 1) 0)).dropLast,
            objects := o } 0).bind
          fun q' => .ok (some (q.data_.getD 0 0), q') := by
  have hs : ¬ (q.data_.length = 0) := by omega
  refine ⟨Function.update q.objects ((q.data_.set 0 (q.data_.getD (q.data_.length - 1) 0)).getD 0 0)
    ((q.objects ((q.data_.set 0 (q.data_.getD (q.data_.length - 1) 0)).getD 0 0)).set_priority 0),
    ?_, ?_⟩
  · intro p
    simp only [Function.update, Thing.set_priority]
    split_ifs with h
    · subst h; rfl
    · rfl
  · unfold pop
    simp only [size, hs, if_false, root, at_index_ok q 0 hpos,
      at_index_ok q (q.data_.length - 1) (by omega), bind, Except.bind]
    rw [at_index_ok _ 0 (by simpa using hpos)]
    rfl

theorem pop_spec {α : Type} [LinearOrder α] (q : PriorityQueue α) (hne : q.data_ ≠ [])
    (hlen : q.data_.length < 2147483648) (hheap : is_heap q.key_of q.data_) :
    ∃ q', q.pop = .ok (some (q.data_.getD 0 0), q') ∧ is_heap q'.key_of q'.data_ ∧
      (q.data_.getD 0 0 :: q'.data_).Perm q.data_ ∧ q'.key_of = q.key_of ∧
      ∀ p ∈ q.data_, q.key_of (q.data_.getD 0 0) ≤ q.key_of p := by
  have hpos : 0 < q.data_.length := List.length_pos.mpr hne
  obtain ⟨o, ho, hpop⟩ := pop_eq q hpos
  have hko : (PriorityQueue.mk (q.data_.set 0 (q.data_.getD (q.data_.length - 1) 0)).dropLast
      o).key_of = q.key_of := by
    funext p
    exact ho p
  have hinv : sift_down_inv q.key_of (q.data_.set 0 (q.data_.getD (q.data_.length - 1) 0)).dropLast
      0 := by
    constructor
    · intro j hj0 hjl hjn
      simp only [List.length_dropLast, List.length_set] at hjl
      rw [key_at_pop _ _ _ (by omega) (by omega), key_at_pop _ _ _ hj0 (by omega)]
      exact hheap j hj0 (by omega)
    · intro j _ _ _ h; omega
  obtain ⟨q', hq', hh, hperm, hkey⟩ := sift_down_spec
    ((q.data_.set 0 (q.data_.getD (q.data_.length - 1) 0)).dropLast.length + 1)
    ({ data_ := (q.data_.set 0 (q.data_.getD (q.data_.length - 1) 0)).dropLast,
       objects := o } : PriorityQueue α) 0
    (by simp) (Or.inr rfl) (by simp; omega) (by rw [hko]; exact hinv)
  refine ⟨q', ?_, hh, ?_, hkey.trans hko, ?_⟩
  · rw [hpop, hq']
    rfl
  · exact (List.Perm.cons _ hperm).trans (pop_perm q.data_ hne)
  · intro p hp
    obtain ⟨i, hi, rfl⟩ := List.getElem_of_mem hp
    have := heap_root_min q.key_of q.data_ hheap i hi
    unfold key_at at this
    rw [List.getD_eq_getElem _ _ hi] at this
    exact this

theorem push_all_spec {α : Type} [LinearOrder α] : ∀ (things : List Nat) (q : PriorityQueue α),
    q.data_.length + things.length < 2147483648 → is_heap q.key_of q.data_ →
    ∃ q', push_all q things = .ok q' ∧ is_heap q'.key_of q'.data_ ∧
      q'.data_.Perm (things ++ q.data_) ∧ q'.key_of = q.key_of := by
  intro things
  induction things with
  | nil => intro q _ hh; exact ⟨q, rfl, hh, List.Perm.refl _, rfl⟩
  | cons t ts ih =>
    intro q hlen hh
    simp only [List.length_cons] at hlen
    obtain ⟨q1, h1, hh1, hp1, hk1⟩ := push_back_spec q t (by omega) hh
    have hl1 : q1.data_.length = q.data_.length + 1 := by
      rw [hp1.length_eq]; rfl
    obtain ⟨q2, h2, hh2, hp2, hk2⟩ := ih q1 (by omega) hh1
    refine ⟨q2, ?_, hh2, ?_, hk2.trans hk1⟩
    · simp only [push_all, h1, bind, Except.bind]
      exact h2
    · refine hp2.trans ?_
      refine (List.Perm.append_left ts hp1).trans ?_
      simp only [List.cons_append]
      exact List.perm_middle

theorem pop_all_spec {α : Type} [LinearOrder α] : ∀ (fuel : Nat) (q : PriorityQueue α),
    q.data_.length ≤ fuel → q.data_.length < 2147483648 → is_heap q.key_of q.data_ →
    ∃ out q', pop_all fuel q = .ok (out, q') ∧ q'.data_ = [] ∧ out.Perm q.data_ ∧
      (out.map q.key_of).Sorted (· ≤ ·) ∧ q'.key_of = q.key_of := by
  intro fuel
  induction fuel with
  | zero =>
    intro q hf _ _
    have hnil : q.data_ = [] := List.length_eq_zero.mp (Nat.le_zero.mp hf)
    refine ⟨[], q, ?_, hnil, by rw [hnil], by simp, rfl⟩
    simp [pop_all, PriorityQueue.empty, hnil, pure, Except.pure]
  | succ fuel ih =>
    intro q hf hlen hh
    by_cases hnil : q.data_ = []
    · refine ⟨[], q, ?_, hnil, by rw [hnil], by simp, rfl⟩
      simp [pop_all, PriorityQueue.empty, hnil, pure, Except.pure]
    · obtain ⟨q1, h1, hh1, hp1, hk1, hmin⟩ := pop_spec q hnil hlen hh
      have hl1 : q1.data_.length + 1 = q.data_.length := by
        rw [← hp1.length_eq]; rfl
      obtain ⟨out, q2, h2, hd2, hp2, hs2, hk2⟩ := ih q1 (by omega) (by omega) hh1
      refine ⟨q.data_.getD 0 0 :: out, q2, ?_, hd2, ?_, ?_, hk2.trans hk1⟩
      · have he : q.empty = false := by
          simp [PriorityQueue.empty, hnil]
        simp only [pop_all, he, h1, h2, bind, Except.bind, pure, Except.pure]
        rfl
      · exact (List.Perm.cons _ hp2).trans hp1
      · rw [List.map_cons, List.sorted_cons]
        refine ⟨?_, hk1 ▸ hs2⟩
        intro b hb
        obtain ⟨p, hp, rfl⟩ := List.mem_map.mp hb
        have hp' : p ∈ q1.data_ := hp2.subset hp
        exact hmin p (hp1.subset (List.mem_cons_of_mem _ hp'))

theorem is_heap_nil {α : Type} [LinearOrder α] (k : Nat → α) : is_heap k [] := by
  intro j _ hj
  simp at hj

/-- An instance: things 0, 1, 2 with the keys 5, 3, 8 are pushed in this order; the heap
then holds the pointers 1, 0, 2 and the pops return 1, 0, 2. -/
theorem pop_all_example :
    ((push_all (PriorityQueue.new fun p => { key := [5, 3, 8].getD p 0, priority_ := 0 })
        [0, 1, 2]).bind fun q => (pop_all 3 q).map fun r => (q.data_, r.1))
      = .ok ([1, 0, 2], [1, 0, 2]) := by
  rfl

/-- C23: for every sequence of fewer than 2^31 `push_back` calls on a new queue, every call
returns, and so does the loop that pops until the queue is empty; the pointers popped are
the pointers pushed, each as often as it was pushed, and their keys are in non-decreasing
order; the first pop returns a thing whose key is not greater than that of any thing in
the queue; and `pop` on the queue left, which is empty, returns `NULL` and leaves it as it
is. -/
theorem C23_pops_return_the_pushes_in_order {α : Type} [LinearOrder α]
    (objects : Nat → Thing α) (things : List Nat) (hlen : things.length < 2147483648) :
    ∃ q out q', push_all (PriorityQueue.new objects) things = .ok q ∧
      pop_all things.length q = .ok (out, q') ∧
      out.Perm things ∧
      (out.map fun p => (objects p).key).Sorted (· ≤ ·) ∧
      (∀ p q1, q.pop = .ok (some p, q1) → ∀ x ∈ things, (objects p).key ≤ (objects x).key) ∧
      q'.data_ = [] ∧ q'.pop = .ok (none, q') := by
  obtain ⟨q, h1, hh, hp, hk⟩ := push_all_spec things (PriorityQueue.new objects)
    (by simpa [PriorityQueue.new] using hlen) (is_heap_nil _)
  have hp' : q.data_.Perm things := by
    simpa [PriorityQueue.new] using hp
  have hk' : q.key_of = fun p => (objects p).key := by
    rw [hk]; rfl
  obtain ⟨out, q', h2, hd, hp2, hs, _⟩ := pop_all_spec things.length q
    (by rw [hp'.length_eq]) (by rw [hp'.length_eq]; exact hlen) hh
  refine ⟨q, out, q', h1, h2, hp2.trans hp', hk' ▸ hs, ?_, hd, pop_empty q' hd⟩
  intro p q1 hpop x hx
  have hx' : x ∈ q.data_ := hp'.symm.subset hx
  have hne : q.data_ ≠ [] := List.ne_nil_of_mem hx'
  obtain ⟨q2, hpop2, _, _, _, hmin⟩ := pop_spec q hne (by rw [hp'.length_eq]; exact hlen) hh
  rw [hpop2] at hpop
  cases hpop
  have := hmin x hx'
  rw [hk'] at this
  exact this

/-- C23 on three things with the keys 5, 3 and 8. -/
theorem C23_pops_return_the_pushes_in_order_witness :
    ∃ q out q',
      push_all (PriorityQueue.new fun p => { key := [5, 3, 8].getD p 0, priority_ := 0 })
        [0, 1, 2] = .ok q ∧
      pop_all [0, 1, 2].length q = .ok (out, q') ∧
      out.Perm [0, 1, 2] ∧
      (out.map fun p => ([5, 3, 8].getD p 0)).Sorted (· ≤ ·) ∧
      (∀ p q1, q.pop = .ok (some p, q1) →
        ∀ x ∈ [0, 1, 2], [5, 3, 8].getD p 0 ≤ [5, 3, 8].getD x 0) ∧
      q'.data_ = [] ∧ q'.pop = .ok (none, q') :=
  C23_pops_return_the_pushes_in_order
    (fun p => { key := [5, 3, 8].getD p 0, priority_ := 0 }) [0, 1, 2] (by decide)

end FlightSchedule

/-! ## Theorems on the priority queue: stored indices and `reduce` -/

namespace FlightSchedule

open PriorityQueue

/-- The indices stored after `swap`: the thing that was at `i` stores `j`, the thing that
was at `j` stores `i`. -/
theorem swap_priority {α : Type} (q q' : PriorityQueue α) (i j : Nat) (hi : i < q.data_.length)
    (hj : j < q.data_.length) (h : q.swap i j = .ok q') :
    ∀ p, (q'.objects p).priority_ =
      if p = q.data_.getD i 0 then j % UINT_RANGE
      else if p = q.data_.getD j 0 then i % UINT_RANGE else (q.objects p).priority_ := by
  unfold swap at h
  simp only [at_index_ok q i hi, at_index_ok q j hj, bind, Except.bind] at h
  rw [at_index_ok _ i (by simpa using hi)] at h
  simp only [] at h
  rw [at_index_ok _ j (by simpa [set_priority_of] using hj)] at h
  simp only [pure, Except.pure, Except.ok.injEq] at h
  subst h
  intro p
  simp only [set_priority_of, getD_swap _ _ _ _ hi hj, Thing.set_priority]
  by_cases hij : i = j
  · subst hij
    generalize q.data_.getD i 0 = a
    simp only [Function.update, eq_rec_constant, dite_eq_ite]
    by_cases hp : p = a <;> simp_all
  · generalize q.data_.getD i 0 = a
    generalize q.data_.getD j 0 = b
    simp only [Function.update, eq_rec_constant, dite_eq_ite]
    by_cases hp : p = a <;> by_cases hp2 : p = b <;> by_cases hab : b = a <;> simp_all

/-- A property kept by every `swap` of two different positions is kept by `sift_up`. -/
theorem sift_up_preserves {α : Type} [LinearOrder α] (P : PriorityQueue α → Prop)
    (hswap : ∀ (q q' : PriorityQueue α) (i j : Nat), i < q.data_.length → j < q.data_.length →
      i ≠ j → P q → q.swap i j = .ok q' → P q') :
    ∀ (fuel : Nat) (q q' : PriorityQueue α) (n : Nat), q.data_.length < 2147483648 →
      n < q.data_.length → sift_up fuel q n = .ok q' → P q → P q' := by
  intro fuel
  induction fuel with
  | zero =>
    intro q q' n _ _ h
    cases h
  | succ fuel ih =>
    intro q q' n hlen hn h hP
    unfold sift_up at h
    by_cases h0 : n = 0
    · subst h0
      simp [is_root, root, bind, Except.bind, pure, Except.pure] at h
      rw [← h]
      exact hP
    · have hpos : 0 < n := Nat.pos_of_ne_zero h0
      have hpar : parent n = (n - 1) / 2 := parent_eq n hpos (by unfold UINT_RANGE; omega)
      have hPn : (n - 1) / 2 < q.data_.length := by omega
      have hroot : is_root n = false := by simp [is_root, root, h0]
      simp only [hroot, hpar, Bool.not_false, if_true, less_ok q n _ hn hPn, bind,
        Except.bind] at h
      by_cases hlt : key_at q.key_of q.data_ n < key_at q.key_of q.data_ ((n - 1) / 2)
      · obtain ⟨q1, hs, hd, _⟩ := swap_ok q ((n - 1) / 2) n hPn hn
        have hlen1 : q1.data_.length = q.data_.length := by rw [hd]; simp
        simp only [hlt, decide_True, if_true, hs] at h
        exact ih q1 q' ((n - 1) / 2) (by omega) (by omega) h
          (hswap q q1 _ _ hPn hn (by omega) hP hs)
      · simp [hlt, pure, Except.pure] at h
        rw [← h]
        exact hP

/-- A property kept by every `swap` of two different positions is kept by `sift_down`. -/
theorem sift_down_preserves {α : Type} [LinearOrder α] (P : PriorityQueue α → Prop)
    (hswap : ∀ (q q' : PriorityQueue α) (i j : Nat), i < q.data_.length → j < q.data_.length →
      i ≠ j → P q → q.swap i j = .ok q' → P q') :
    ∀ (fuel : Nat) (q q' : PriorityQueue α) (n : Nat), q.data_.length < 2147483648 →
      n < q.data_.length ∨ n = 0 → sift_down fuel q n = .ok q' → P q → P q' := by
  intro fuel
  induction fuel with
  | zero =>
    intro q q' n _ _ h
    cases h
  | succ fuel ih =>
    intro q q' n hlen hn h hP
    have hl : left n = 2 * n + 1 := left_eq n (by omega)
    have hr : right n = 2 * n + 2 := right_eq n (by omega)
    unfold sift_down at h
    simp only [hl, hr, size] at h
    have go : ∀ c, c < q.data_.length → n < q.data_.length → n ≠ c →
        (∀ q1, q.swap n c = .ok q1 → sift_down fuel q1 c = .ok q') → P q' := by
      intro c hc hN hne hrest
      obtain ⟨q1, hs, hd, _⟩ := swap_ok q n c hN hc
      have hlen1 : q1.data_.length = q.data_.length := by rw [hd]; simp
      exact ih q1 q' c (by omega) (Or.inl (by omega)) (hrest q1 hs)
        (hswap q q1 _ _ hN hc hne hP hs)
    by_cases hR : 2 * n + 2 < q.data_.length
    · have hL : 2 * n + 1 < q.data_.length := by omega
      have hN : n < q.data_.length := by omega
      simp only [hR, hL, if_true, less_ok q _ _ hR hN, less_ok q _ _ hR hL, less_ok q _ _ hL hN,
        bind, Except.bind, pure, Except.pure] at h
      by_cases c1 : key_at q.key_of q.data_ (2 * n + 2) < key_at q.key_of q.data_ n
      · by_cases c2 : key_at q.key_of q.data_ (2 * n + 2) < key_at q.key_of q.data_ (2 * n + 1)
        · apply go (2 * n + 2) hR hN (by omega)
          intro q1 hs
          simpa only [c1, c2, decide_True, if_true, hs] using h
        · have c3 : key_at q.key_of q.data_ (2 * n + 1) < key_at q.key_of q.data_ n :=
            lt_of_le_of_lt (not_lt.mp c2) c1
          apply go (2 * n + 1) hL hN (by omega)
          intro q1 hs
          simpa only [c1, c2, c3, decide_True, decide_False, if_true, hs] using h
      · by_cases c3 : key_at q.key_of q.data_ (2 * n + 1) < key_at q.key_of q.data_ n
        · apply go (2 * n + 1) hL hN (by omega)
          intro q1 hs
          simpa only [c1, c3, decide_True, decide_False, if_true, hs] using h
        · simp [c1, c3] at h
          rw [← h]
          exact hP
    · by_cases hL : 2 * n + 1 < q.data_.length
      · have hN : n < q.data_.length := by omega
        simp only [hR, hL, if_true, if_false, less_ok q _ _ hL hN,
          bind, Except.bind, pure, Except.pure] at h
        by_cases c3 : key_at q.key_of q.data_ (2 * n + 1) < key_at q.key_of q.data_ n
        · apply go (2 * n + 1) hL hN (by omega)
          intro q1 hs
          simpa only [c3, decide_True, if_true, hs] using h
        · simp [c3] at h
          rw [← h]
          exact hP
      · simp [hR, hL, bind, Except.bind, pure, Except.pure] at h
        rw [← h]
        exact hP

theorem getD_inj_of_nodup (d : List Nat) (hnd : d.Nodup) (i j : Nat) (hi : i < d.length)
    (hj : j < d.length) (h : d.getD i 0 = d.getD j 0) : i = j := by
  rw [List.getD_eq_getElem _ _ hi, List.getD_eq_getElem _ _ hj] at h
  exact (List.Nodup.getElem_inj_iff hnd).mp h

/-- The property `swap` keeps: stored indices are positions, of distinct things. -/
theorem swap_keeps_index {α : Type} (q q' : PriorityQueue α) (i j : Nat)
    (hi : i < q.data_.length) (hj : j < q.data_.length) (hij : i ≠ j)
    (hP : index_ok q ∧ q.data_.Nodup ∧ q.data_.length < 2147483648)
    (h : q.swap i j = .ok q') :
    index_ok q' ∧ q'.data_.Nodup ∧ q'.data_.length < 2147483648 := by
  obtain ⟨hok, hnd, hlen⟩ := hP
  obtain ⟨q1, hs, hd, _⟩ := swap_ok q i j hi hj
  rw [hs] at h
  cases h
  have hpr := swap_priority q q' i j hi hj hs
  have hl : q'.data_.length = q.data_.length := by rw [hd]; simp
  refine ⟨?_, ?_, by omega⟩
  · intro x hx
    rw [hl] at hx
    rw [hpr, hd, getD_swap _ _ _ _ hi hj]
    by_cases h1 : x = j
    · subst h1
      simp only [if_true]
      unfold UINT_RANGE
      omega
    · by_cases h2 : x = i
      · subst h2
        have hne : ¬ (q.data_.getD j 0 = q.data_.getD x 0) := fun e =>
          hij (getD_inj_of_nodup _ hnd _ _ hi hj e.symm)
        simp only [h1, if_false, if_true, hne]
        unfold UINT_RANGE
        omega
      · have hne1 : ¬ (q.data_.getD x 0 = q.data_.getD i 0) := fun e =>
          h2 (getD_inj_of_nodup _ hnd _ _ hx hi e)
        have hne2 : ¬ (q.data_.getD x 0 = q.data_.getD j 0) := fun e =>
          h1 (getD_inj_of_nodup _ hnd _ _ hx hj e)
        simp only [h1, h2, if_false, hne1, hne2]
        exact hok x hx
  · rw [hd]
    exact (swap_perm_getD _ _ _ hi hj).nodup_iff.mpr hnd

/-- The method `push_back` of a thing that is not in the queue keeps the stored indices. -/
theorem push_back_index {α : Type} [LinearOrder α] (q q' : PriorityQueue α) (thing : Nat)
    (hlen : q.data_.length + 1 < 2147483648) (hok : index_ok q) (hnd : q.data_.Nodup)
    (hnew : thing ∉ q.data_) (h : q.push_back thing = .ok q') :
    index_ok q' ∧ q'.data_.Nodup := by
  unfold push_back at h
  have hmod : q.size % UINT_RANGE = q.data_.length := by
    unfold size UINT_RANGE; omega
  simp only [hmod] at h
  have hP := sift_up_preserves
    (fun q => index_ok q ∧ q.data_.Nodup ∧ q.data_.length < 2147483648)
    (fun q q' i j hi hj hij hP hs => swap_keeps_index q q' i j hi hj hij hP hs) _ _ q'
    q.data_.length (by simp [set_priority_of]; omega) (by simp [set_priority_of]) h
    (by
      refine ⟨?_, ?_, by simp [set_priority_of]; omega⟩
      · intro i hi
        show ((q.set_priority_of thing q.data_.length).objects
          ((q.data_ ++ [thing]).getD i 0)).priority_ = i
        have hi' : i < q.data_.length + 1 := by simpa [set_priority_of] using hi
        by_cases hil : i = q.data_.length
        · subst hil
          have e : (q.data_ ++ [thing]).getD q.data_.length 0 = thing := by
            simp [List.getD_eq_getElem?_getD]
          rw [e]
          simp only [set_priority_of, Function.update_same, Thing.set_priority]
          unfold UINT_RANGE
          omega
        · have hi2 : i < q.data_.length := by omega
          have e : (q.data_ ++ [thing]).getD i 0 = q.data_.getD i 0 := by
            simp [List.getD_eq_getElem?_getD, List.getElem?_append_left hi2]
          rw [e]
          have hne : q.data_.getD i 0 ≠ thing := by
            intro e2
            apply hnew
            rw [← e2, List.getD_eq_getElem _ _ hi2]
            exact List.getElem_mem _
          simp only [set_priority_of, Function.update_noteq hne]
          exact hok i hi2
      · show (q.data_ ++ [thing]).Nodup
        exact List.Nodup.append hnd (List.nodup_singleton _) (by simpa using hnew))
  exact ⟨hP.1, hP.2.1⟩

theorem pop_unfold {α : Type} [LinearOrder α] (q : PriorityQueue α) (hpos : 0 < q.data_.length) :
    q.pop =
      (sift_down ((q.data_.set 0 (q.data_.getD (q.data_.length - 1) 0)).dropLast.length + 1)
        (PriorityQueue.mk (q.data_.set 0 (q.data_.getD (q.data_.length - 1) 0)).dropLast
          (Function.update q.objects (q.data_.getD (q.data_.length - 1) 0)
            ((q.objects (q.data_.getD (q.data_.length - 1) 0)).set_priority 0))) 0).bind
        fun q' => .ok (some (q.data_.getD 0 0), q') := by
  have hs : ¬ (q.data_.length = 0) := by omega
  have e : (q.data_.set 0 (q.data_.getD (q.data_.length - 1) 0)).getD 0 0
      = q.data_.getD (q.data_.length - 1) 0 := by
    simp [List.getD_eq_getElem?_getD, hpos]
  unfold pop
  simp only [size, hs, if_false, root, at_index_ok q 0 hpos,
    at_index_ok q (q.data_.length - 1) (by omega), bind, Except.bind]
  rw [at_index_ok _ 0 (by simpa using hpos)]
  simp only [e]
  rfl

theorem getD_pop (d : List Nat) (x : Nat) (hx : x + 1 < d.length) :
    (d.set 0 (d.getD (d.length - 1) 0)).dropLast.getD x 0 =
      if x = 0 then d.getD (d.length - 1) 0 else d.getD x 0 := by
  rw [List.dropLast_eq_take, List.getD_eq_getElem?_getD, List.getElem?_take, List.length_set,
    if_pos (by omega), List.getElem?_set]
  by_cases h0 : x = 0
  · subst h0
    simp [show 0 < d.length from by omega]
  · rw [if_neg (fun e => h0 e.symm), if_neg h0, List.getD_eq_getElem?_getD]

/-- The method `pop` keeps the stored indices of the things left in the queue. -/
theorem pop_index {α : Type} [LinearOrder α] (q q' : PriorityQueue α) (r : Option Nat)
    (hlen : q.data_.length < 2147483648) (hok : index_ok q) (hnd : q.data_.Nodup)
    (h : q.pop = .ok (r, q')) : index_ok q' ∧ q'.data_.Nodup := by
  by_cases hpos : 0 < q.data_.length
  · rw [pop_unfold q hpos] at h
    cases hsd : sift_down ((q.data_.set 0 (q.data_.getD (q.data_.length - 1) 0)).dropLast.length + 1)
        (PriorityQueue.mk (q.data_.set 0 (q.data_.getD (q.data_.length - 1) 0)).dropLast
          (Function.update q.objects (q.data_.getD (q.data_.length - 1) 0)
            ((q.objects (q.data_.getD (q.data_.length - 1) 0)).set_priority 0))) 0 with
    | error e => rw [hsd] at h; cases h
    | ok q2 =>
      rw [hsd] at h
      simp only [Except.bind, Except.ok.injEq, Prod.mk.injEq] at h
      obtain ⟨_, rfl⟩ := h
      have hl2 : (q.data_.set 0 (q.data_.getD (q.data_.length - 1) 0)).dropLast.length
          = q.data_.length - 1 := by simp
      have hP := sift_down_preserves
        (fun q => index_ok q ∧ q.data_.Nodup ∧ q.data_.length < 2147483648)
        (fun q q' i j hi hj hij hP hs => swap_keeps_index q q' i j hi hj hij hP hs) _ _ q2 0
        (by show (q.data_.set 0 (q.data_.getD (q.data_.length - 1) 0)).dropLast.length < _
            rw [hl2]; omega)
        (Or.inr rfl) hsd
        (by
          refine ⟨?_, ?_, ?_⟩
          · intro i hi
            have hi' : i < q.data_.length - 1 := by
              have : i < (q.data_.set 0 (q.data_.getD (q.data_.length - 1) 0)).dropLast.length := hi
              rw [hl2] at this
              exact this
            show ((Function.update q.objects (q.data_.getD (q.data_.length - 1) 0)
              ((q.objects (q.data_.getD (q.data_.length - 1) 0)).set_priority 0))
              ((q.data_.set 0 (q.data_.getD (q.data_.length - 1) 0)).dropLast.getD i 0)).priority_ = i
            rw [getD_pop _ _ (by omega)]
            by_cases h0 : i = 0
            · subst h0
              simp [Function.update_same, Thing.set_priority, UINT_RANGE]
            · have hne : q.data_.getD i 0 ≠ q.data_.getD (q.data_.length - 1) 0 := by
                intro e
                have := getD_inj_of_nodup _ hnd _ _ (by omega) (by omega) e
                omega
              rw [if_neg h0, Function.update_noteq hne]
              exact hok i (by omega)
          · show ((q.data_.set 0 (q.data_.getD (q.data_.length - 1) 0)).dropLast).Nodup
            have hperm := pop_perm q.data_ (List.length_pos.mp hpos)
            exact (List.nodup_cons.mp (hperm.nodup_iff.mpr hnd)).2
          · show (q.data_.set 0 (q.data_.getD (q.data_.length - 1) 0)).dropLast.length < _
            rw [hl2]; omega)
      exact ⟨hP.1, hP.2.1⟩
  · have hnil : q.data_ = [] := List.length_eq_zero.mp (by omega)
    rw [pop_empty q hnil] at h
    simp only [Except.ok.injEq, Prod.mk.injEq] at h
    obtain ⟨_, rfl⟩ := h
    exact ⟨hok, hnd⟩

theorem key_at_set_key {α : Type} (q : PriorityQueue α) (thing : Nat) (k : α) (i j : Nat)
    (hnd : q.data_.Nodup) (hi : i < q.data_.length) (hj : j < q.data_.length)
    (hthing : q.data_.getD i 0 = thing) :
    key_at (set_key q thing k).key_of q.data_ j =
      if j = i then k else key_at q.key_of q.data_ j := by
  unfold key_at PriorityQueue.key_of set_key
  by_cases hji : j = i
  · subst hji
    rw [if_pos rfl, hthing]
    simp
  · rw [if_neg hji]
    have hne : q.data_.getD j 0 ≠ thing := by
      rw [← hthing]
      intro e
      exact hji (getD_inj_of_nodup _ hnd _ _ hj hi e)
    simp [Function.update_noteq hne]

/-- The method `reduce` on a thing of the queue whose key the caller has lowered. -/
theorem reduce_spec {α : Type} [LinearOrder α] (q : PriorityQueue α) (thing : Nat) (k : α)
    (hq : queue_ok q) (hlen : q.data_.length < 2147483648) (hin : thing ∈ q.data_)
    (hk : k ≤ q.key_of thing) :
    ∃ q', (set_key q thing k).reduce thing = .ok q' ∧ queue_ok q' ∧ q'.data_.Perm q.data_ ∧
      q'.key_of = (set_key q thing k).key_of := by
  obtain ⟨hheap, hok, hnd⟩ := hq
  obtain ⟨i, hi, hthing⟩ : ∃ i, i < q.data_.length ∧ q.data_.getD i 0 = thing := by
    obtain ⟨i, hi, e⟩ := List.mem_iff_getElem.mp hin
    exact ⟨i, hi, by rw [List.getD_eq_getElem _ _ hi]; exact e⟩
  have hprio : ((set_key q thing k).objects thing).priority_ = i := by
    have := hok i hi
    rw [hthing] at this
    simp [set_key, this]
  have hkthing : q.key_of thing = key_at q.key_of q.data_ i := by
    unfold key_at; rw [hthing]
  have hinv : sift_up_inv (set_key q thing k).key_of (set_key q thing k).data_ i := by
    show sift_up_inv (set_key q thing k).key_of q.data_ i
    constructor
    · intro j hj0 hjl hji
      rw [key_at_set_key q thing k i j hnd hi hjl hthing,
        key_at_set_key q thing k i ((j - 1) / 2) hnd hi (by omega) hthing, if_neg hji]
      split
      · rename_i hp
        have := hheap j hj0 hjl
        rw [hp, ← hkthing] at this
        exact le_trans hk this
      · exact hheap j hj0 hjl
    · intro j hj0 hjl hji hi0
      rw [key_at_set_key q thing k i j hnd hi hjl hthing,
        key_at_set_key q thing k i ((i - 1) / 2) hnd hi (by omega) hthing,
        if_neg (by omega), if_neg (by omega)]
      have h1 := hheap j hj0 hjl
      have h2 := hheap i hi0 hi
      rw [hji] at h1
      exact le_trans h2 h1
  obtain ⟨q', hq', hheap', hperm, hkey⟩ := sift_up_spec ((set_key q thing k).size + 1)
    (set_key q thing k) i (by show i < q.data_.length + 1; omega) hi hlen hinv
  have hP := sift_up_preserves
    (fun q => index_ok q ∧ q.data_.Nodup ∧ q.data_.length < 2147483648)
    (fun q q' i j hi hj hij hP hs => swap_keeps_index q q' i j hi hj hij hP hs) _
    (set_key q thing k) q' i hlen hi hq'
    (by
      refine ⟨?_, hnd, hlen⟩
      intro x hx
      have hx' : x < q.data_.length := hx
      have := hok x hx'
      show ((Function.update q.objects thing { q.objects thing with key := k })
        (q.data_.getD x 0)).priority_ = x
      by_cases hp : q.data_.getD x 0 = thing
      · rw [hp] at this ⊢
        rw [Function.update_same]
        exact this
      · rw [Function.update_noteq hp]
        exact this)
  refine ⟨q', ?_, ⟨hheap', hP.1, hP.2.1⟩, hperm, hkey⟩
  unfold PriorityQueue.reduce
  rw [hprio]
  have e : (set_key q thing k).data_.getD i 0 = thing := hthing
  simp only [at_index_ok (set_key q thing k) i hi, bind, Except.bind, e, ne_eq,
    not_true_eq_false, if_false, pure, Except.pure]
  exact hq'

/-- C36 (as stated, refuted): `push_back` of the same thing twice leaves the array `[7, 7]`;
the thing at position 0 stores the index 1. -/
theorem C36_thing_pushed_twice_stores_one_index :
    ∃ q1 q2 : PriorityQueue Nat,
      (PriorityQueue.new (fun _ => { key := 0, priority_ := 4294967295 })).push_back 7
        = .ok q1 ∧
      q1.push_back 7 = .ok q2 ∧ q2.data_ = [7, 7] ∧
      q2.at_index 0 = .ok 7 ∧ (q2.objects 7).priority_ = 1 :=
  ⟨_, _, rfl, rfl, rfl, rfl, rfl⟩

/-- C36 (amended): a queue of fewer than 2^31 - 1 distinct things that is a binary min-heap
under `operator<` in which every thing stores its position.  The assertion of `reduce`
holds for every thing of the queue; `push_back` of a thing that is not in the queue, `pop`,
and `reduce` of a thing of the queue whose key the caller has lowered return and leave such
a queue again, holding the things expected. -/
theorem C36_heap_and_indices_are_kept {α : Type} [LinearOrder α] (q : PriorityQueue α)
    (hq : queue_ok q) (hlen : q.data_.length + 1 < 2147483648) :
    (∀ thing ∈ q.data_, q.at_index (q.objects thing).priority_ = .ok thing) ∧
    (∀ thing, thing ∉ q.data_ →
      ∃ q', q.push_back thing = .ok q' ∧ queue_ok q' ∧ q'.data_.Perm (thing :: q.data_)) ∧
    (∃ r q', q.pop = .ok (r, q') ∧ queue_ok q' ∧
      (q.data_ = [] → r = none ∧ q'.data_ = []) ∧
      (q.data_ ≠ [] → r = some (q.data_.getD 0 0) ∧
        (q.data_.getD 0 0 :: q'.data_).Perm q.data_)) ∧
    (∀ thing k, thing ∈ q.data_ → k ≤ q.key_of thing →
      ∃ q', (set_key q thing k).reduce thing = .ok q' ∧ queue_ok q' ∧
        q'.data_.Perm q.data_) := by
  obtain ⟨hheap, hok, hnd⟩ := hq
  refine ⟨?_, ?_, ?_, ?_⟩
  · intro thing hin
    obtain ⟨i, hi, e⟩ := List.mem_iff_getElem.mp hin
    have hthing : q.data_.getD i 0 = thing := by rw [List.getD_eq_getElem _ _ hi]; exact e
    have := hok i hi
    rw [hthing] at this
    rw [this, at_index_ok q i hi, hthing]
  · intro thing hnew
    obtain ⟨q', hq', hheap', hperm, _⟩ := push_back_spec q thing hlen hheap
    obtain ⟨h1, h2⟩ := push_back_index q q' thing hlen hok hnd hnew hq'
    exact ⟨q', hq', ⟨hheap', h1, h2⟩, hperm⟩
  · by_cases hne : q.data_ = []
    · refine ⟨none, q, pop_empty q hne, ⟨hheap, hok, hnd⟩, fun _ => ⟨rfl, hne⟩,
        fun h => absurd hne h⟩
    · obtain ⟨q', hq', hheap', hperm, _, _⟩ := pop_spec q hne (by omega) hheap
      obtain ⟨h1, h2⟩ := pop_index q q' _ (by omega) hok hnd hq'
      exact ⟨_, q', hq', ⟨hheap', h1, h2⟩, fun h => absurd h hne, fun _ => ⟨rfl, hperm⟩⟩
  · intro thing k hin hk
    obtain ⟨q', hq', hok', hperm, _⟩ := reduce_spec q thing k ⟨hheap, hok, hnd⟩ (by omega) hin hk
    exact ⟨q', hq', hok', hperm⟩

/-- The queue `queue_of_three` is a heap of distinct things that store their positions. -/
theorem queue_of_three_ok : queue_ok queue_of_three := by
  refine ⟨?_, ?_, by decide⟩
  · intro j h0 hj
    have hj3 : j < 3 := hj
    interval_cases j <;> decide
  · intro i hi
    have hi3 : i < 3 := hi
    interval_cases i <;> rfl

/-- C36 (amended) on the queue of the things 1, 2, 3 with the keys 10, 20, 30. -/
theorem C36_heap_and_indices_are_kept_witness :
    queue_ok queue_of_three ∧
    queue_of_three.at_index (queue_of_three.objects 3).priority_ = .ok 3 ∧
    (∃ q', queue_of_three.push_back 4 = .ok q' ∧ queue_ok q' ∧ q'.data_ = [4, 1, 3, 2]) ∧
    (∃ q', queue_of_three.pop = .ok (some 1, q') ∧ queue_ok q' ∧ q'.data_ = [2, 3]) ∧
    (∃ q', (set_key queue_of_three 3 5).reduce 3 = .ok q' ∧ queue_ok q' ∧
      q'.data_ = [3, 2, 1]) := by
  have h := C36_heap_and_indices_are_kept queue_of_three queue_of_three_ok (by decide)
  refine ⟨queue_of_three_ok, h.1 3 (by decide), ?_, ?_, ?_⟩
  · obtain ⟨q', h1, h2, _⟩ := h.2.1 4 (by decide)
    refine ⟨q', h1, h2, ?_⟩
    have e : (queue_of_three.push_back 4).map (fun q => q.data_) = .ok [4, 1, 3, 2] := rfl
    rw [h1] at e
    exact Except.ok.inj e
  · obtain ⟨r, q', h1, h2, _, h3⟩ := h.2.2.1
    have e : (queue_of_three.pop).map (fun x => (x.1, x.2.data_)) = .ok (some 1, [2, 3]) := rfl
    rw [h1] at e
    have e2 := Except.ok.inj e
    simp only [Prod.mk.injEq] at e2
    obtain ⟨e3, e4⟩ := e2
    subst e3
    exact ⟨q', h1, h2, e4⟩
  · obtain ⟨q', h1, h2, _⟩ := h.2.2.2 3 5 (by decide) (by decide)
    refine ⟨q', h1, h2, ?_⟩
    have e : ((set_key queue_of_three 3 5).reduce 3).map (fun q => q.data_) = .ok [3, 2, 1] := rfl
    rw [h1] at e
    exact Except.ok.inj e

end FlightSchedule

/-! ## Theorems on the Huffman coder -/

namespace Huffman

set_option maxRecDepth 100000 in
/-- The text `abracadabra` is coded in three bytes and decoded again. -/
theorem round_trip_example :
    huff_bits [97, 98, 114, 97, 99, 97, 100, 97, 98, 114, 97] = .ok [145, 117, 34] ∧
    round_trip [97, 98, 114, 97, 99, 97, 100, 97, 98, 114, 97] 10 0
      = .ok [97, 98, 114, 97, 99, 97, 100, 97, 98, 114, 97] :=
  ⟨rfl, rfl⟩

set_option maxRecDepth 100000 in
/-- C37: for the one-byte text `a` the tree `HuffmanTree` builds is a single leaf and the
code of `a` has no bits, so `huff` writes no coded byte; the first `tree.decode` of `puff`
then fails `assert(left_ && right_)` in `HuffmanNode::decode`, whatever bit `InputBits::get`
returns at the end of the stream. -/
theorem C37_text_of_one_symbol_is_not_decoded :
    (∃ ft n, FrequencyTable.init.count [97] 0 = .ok (ft, n) ∧
      HuffmanTree.new ft = .ok { root_ := .leaf 97 1 } ∧
      (HuffmanTree.encode { root_ := .leaf 97 1 }).get 97 = { num_bits_ := 0, encoding_ := 0 }) ∧
    huff_bits [97] = .ok [] ∧
    (∀ bit, HuffmanTree.decode { root_ := .leaf 97 1 } bit none = .error .assertion_failed) ∧
    ∀ fuel junk, round_trip [97] (fuel + 1) junk = .error .assertion_failed :=
  ⟨⟨_, _, rfl, rfl, rfl⟩, rfl, fun _ => rfl, fun _ _ => rfl⟩

end Huffman
